import Mathlib

set_option linter.unusedVariables false

/- Verification of the dancing-links exact-cover engine of J164/puzzle-utils.

The repository contains two variants of the engine:
* the main crate: src/structures/dancing_links/{mod.rs,node.rs};
* the solver crate: solver/src/structures/dancing_links/mod.rs (its node module
  is not part of the sources; per the specification (§2, §4.1) it provides the
  same node arena, so the node primitives below, translated from the main
  crate's node.rs, are shared by both embeddings).

Raw pointers are modelled as indices into a heap (a list of allocated slots);
a freed slot holds `none`.  `usize` arithmetic that can wrap (the live-count
updates in cover/uncover, compiled in release mode) is modelled modulo 2 ^ 64. -/

/-- 2 ^ 64, the modulus of `usize` arithmetic on the target platform. -/
def usizeMod : Nat := 2 ^ 64

/-- A matrix cell (`struct Node` in node.rs).  `header` is `none` for header
nodes (a null header pointer marks headers in the source); the four link
fields are never null in the source and are plain heap indices here.  For
header nodes `row` holds the live count of the column. -/
structure Node where
  header : Option Nat
  left : Nat
  right : Nat
  up : Nat
  down : Nat
  row : Nat
deriving DecidableEq, Repr

/-- The value read from an unallocated or freed slot; dereferencing such a
pointer is undefined behaviour in the source, so theorems only rely on reads
of live slots. -/
def Node.junk : Node := ⟨none, 0, 0, 0, 0, 0⟩

/-- The node heap: slot `i` holds the node allocated `i`-th, or `none` once
freed (`dealloc`). -/
structure Heap where
  nodes : List (Option Node)
deriving DecidableEq, Repr

def Heap.size (s : Heap) : Nat := s.nodes.length

def Heap.get (s : Heap) (n : Nat) : Node := (s.nodes.getD n none).getD Node.junk

/-- Rewrite the node at slot `n` (a write to a freed or out-of-range slot is
undefined behaviour in the source and a no-op here). -/
def Heap.modify (s : Heap) (n : Nat) (f : Node → Node) : Heap :=
  ⟨s.nodes.set n ((s.nodes.getD n none).map f)⟩

def Heap.alloc (s : Heap) (nd : Node) : Heap := ⟨s.nodes ++ [some nd]⟩

def Heap.free (s : Heap) (n : Nat) : Heap := ⟨s.nodes.set n none⟩

def Heap.empty : Heap := ⟨[]⟩

/-- `Node::cover_horizontal` (node.rs lines 172-179): unlink `node` from its
row ring by rewriting its two horizontal neighbours. -/
def Heap.cover_horizontal (s : Heap) (node : Nat) : Heap :=
  let nd := s.get node
  (s.modify nd.left fun m => {m with right := nd.right}).modify nd.right
    fun m => {m with left := nd.left}

/-- `Node::cover_vertical` (node.rs lines 184-191). -/
def Heap.cover_vertical (s : Heap) (node : Nat) : Heap :=
  let nd := s.get node
  (s.modify nd.up fun m => {m with down := nd.down}).modify nd.down
    fun m => {m with up := nd.up}

/-- `Node::uncover_horizontal` (node.rs lines 196-203): relink `node` using its
own still-intact stored pointers. -/
def Heap.uncover_horizontal (s : Heap) (node : Nat) : Heap :=
  let nd := s.get node
  (s.modify nd.left fun m => {m with right := node}).modify nd.right
    fun m => {m with left := node}

/-- `Node::uncover_vertical` (node.rs lines 208-215). -/
def Heap.uncover_vertical (s : Heap) (node : Nat) : Heap :=
  let nd := s.get node
  (s.modify nd.up fun m => {m with down := node}).modify nd.down
    fun m => {m with up := node}

/-- `Node::new header row_previous col_previous row` (node.rs lines 23-62):
allocate a data node, splice it into the row ring after `row_previous` (if
non-null) and into the column ring after `col_previous` (if non-null); return
the new index.  Reads and writes follow the source order exactly. -/
def Heap.node_new (s : Heap) (header : Nat) (row_previous col_previous : Option Nat)
    (row : Nat) : Heap × Nat :=
  let ptr := s.size
  let s := s.alloc ⟨some header, ptr, ptr, ptr, ptr, row⟩
  let (s, lft, rgt) :=
    match row_previous with
    | none => (s, ptr, ptr)
    | some rp =>
      let r0 := (s.get rp).right
      let s := s.modify r0 fun m => {m with left := ptr}
      let s := s.modify rp fun m => {m with right := ptr}
      (s, rp, r0)
  let (s, u, d) :=
    match col_previous with
    | none => (s, ptr, ptr)
    | some cp =>
      let d0 := (s.get cp).down
      let s := s.modify d0 fun m => {m with up := ptr}
      let s := s.modify cp fun m => {m with down := ptr}
      (s, cp, d0)
  (⟨s.nodes.set ptr (some ⟨some header, lft, rgt, u, d, row⟩)⟩, ptr)

/-- `Node::new_header previous num_rows` (node.rs lines 67-91). -/
def Heap.new_header (s : Heap) (previous : Option Nat) (num_rows : Nat) : Heap × Nat :=
  let ptr := s.size
  let s := s.alloc ⟨none, ptr, ptr, ptr, ptr, num_rows⟩
  match previous with
  | none => (s, ptr)
  | some p =>
    let r0 := (s.get p).right
    let s := s.modify r0 fun m => {m with left := ptr}
    let s := s.modify p fun m => {m with right := ptr}
    (⟨s.nodes.set ptr (some ⟨none, p, r0, ptr, ptr, num_rows⟩)⟩, ptr)

/-- One directional ring iterator (`LeftNodeIterator` and friends, node.rs
lines 258-360) over an unchanging state: starting at `orig`, repeatedly yield
the current node, reading its successor at yield time and stopping once the
successor is `orig` again.  `fuel` bounds the walk (the source iterator would
loop forever on a broken ring). -/
def ringList (step : Nat → Nat) (orig : Nat) : Nat → Nat → List Nat
  | 0, _ => []
  | fuel + 1, cur =>
    cur :: (if step cur = orig then [] else ringList step orig fuel (step cur))

/-- `Node::iter_right` as a pure traversal list. -/
def Heap.iter_right (s : Heap) (n : Nat) : List Nat :=
  ringList (fun k => (s.get k).right) n s.size n

/-- `Node::iter_left` as a pure traversal list. -/
def Heap.iter_left (s : Heap) (n : Nat) : List Nat :=
  ringList (fun k => (s.get k).left) n s.size n

/-- `Node::iter_up` as a pure traversal list. -/
def Heap.iter_up (s : Heap) (n : Nat) : List Nat :=
  ringList (fun k => (s.get k).up) n s.size n

/-- `Node::iter_down` as a pure traversal list. -/
def Heap.iter_down (s : Heap) (n : Nat) : List Nat :=
  ringList (fun k => (s.get k).down) n s.size n

/-- A `for x in iter_DIR(orig) { body }` loop whose body mutates the state:
the successor of the node being visited is read (from the current state) when
the node is yielded, before the body runs, exactly as the lazy source
iterators interleave with the loop body. -/
def ringLoop {σ : Type} (step : σ → Nat → Nat) (body : σ → Nat → σ) (orig : Nat) :
    Nat → σ → Nat → σ
  | 0, st, _ => st
  | fuel + 1, st, cur =>
    let nxt := step st cur
    let st := body st cur
    if nxt = orig then st else ringLoop step body orig fuel st nxt

/-- `for x in iter_DIR(orig) { body }`: the loop visits `orig` first. -/
def ringLoopAll {σ : Type} (step : σ → Nat → Nat) (body : σ → Nat → σ)
    (fuel : Nat) (st : σ) (orig : Nat) : σ :=
  ringLoop step body orig fuel st orig

/-- `for x in iter_DIR(orig).skip(1) { body }`: the successor of `orig` is
read before anything runs; on a singleton ring the body never runs. -/
def ringLoopTail {σ : Type} (step : σ → Nat → Nat) (body : σ → Nat → σ)
    (fuel : Nat) (st : σ) (orig : Nat) : σ :=
  let first := step st orig
  if first = orig then st else ringLoop step body orig fuel st first

/-- The per-cell mutation inside `cover_column`'s nested loops (node.rs lines
126-127): vertically unlink the cell, then decrement the live count of its
column header.  (The count update wraps like release-mode `usize`
arithmetic; a data cell always has a non-null header in the source, so the
`none` branch models the undefined null dereference as a no-op.) -/
def Heap.coverCellStep (t : Heap) (c : Nat) : Heap :=
  let t := t.cover_vertical c
  match (t.get c).header with
  | some hh => t.modify hh fun m => {m with row := (m.row + (usizeMod - 1)) % usizeMod}
  | none => t

/-- The per-cell mutation inside `uncover_column`'s nested loops (node.rs
lines 142-143): increment the live count of the cell's column header, then
vertically relink the cell. -/
def Heap.uncoverCellStep (t : Heap) (c : Nat) : Heap :=
  let t := match (t.get c).header with
    | some hh => t.modify hh fun m => {m with row := (m.row + 1) % usizeMod}
    | none => t
  t.uncover_vertical c

/-- `Node::cover_column` (node.rs lines 117-130): resolve to the header,
unlink it horizontally, then for every row of the column (skipping the
header) and every other cell of that row, apply `coverCellStep`. -/
def Heap.cover_column (s : Heap) (node : Nat) : Heap :=
  let n := match (s.get node).header with
    | some h => h
    | none => node
  let s := s.cover_horizontal n
  ringLoopTail (fun t c => (Heap.get t c).down)
    (fun t r =>
      ringLoopTail (fun t c => (Heap.get t c).right)
        (fun t c => Heap.coverCellStep t c)
        (Heap.size t) t r)
    s.size s n

/-- `Node::uncover_column` (node.rs lines 135-148): the exact reverse walk of
`cover_column`, applying `uncoverCellStep` cell by cell, then relinking the
header horizontally. -/
def Heap.uncover_column (s : Heap) (node : Nat) : Heap :=
  let n := match (s.get node).header with
    | some h => h
    | none => node
  let s :=
    ringLoopTail (fun t c => (Heap.get t c).up)
      (fun t r =>
        ringLoopTail (fun t c => (Heap.get t c).left)
          (fun t c => Heap.uncoverCellStep t c)
          (Heap.size t) t r)
      s.size s n
  s.uncover_horizontal n

/-- `Node::free_chain` (node.rs lines 153-167): resolve to the header,
deallocate every cell of the column, every other cell of each of its rows,
then the header itself. -/
def Heap.free_chain (s : Heap) (node : Nat) : Heap :=
  let n := match (s.get node).header with
    | some h => h
    | none => node
  let s :=
    ringLoopTail (fun t c => (Heap.get t c).down)
      (fun t r =>
        let t := ringLoopTail (fun t c => (Heap.get t c).right)
          (fun t c => Heap.free t c) (Heap.size t) t r
        Heap.free t r)
      s.size s n
  s.free n

/-- `DancingLinksError` (solver crate, mod.rs lines 8-16). -/
inductive DancingLinksError where
  | indexError
  | invalidRow
  | noSolution
deriving DecidableEq, Repr

/-- `DancingLinksError` of the main crate (mod.rs lines 8-12): only
`IndexError` exists there. -/
inductive MainDancingLinksError where
  | indexError
deriving DecidableEq, Repr

/-- `DancingMatrix` of the solver crate: heap, root header, row-lookup table
(`rows`; `none` is the null sentinel) and the partial solution
(`partial_solution` in the source). -/
structure SolverMatrix where
  heap : Heap
  root : Nat
  rows : List (Option Nat)
  psol : List Nat
deriving DecidableEq, Repr

/-- `DancingMatrix` of the main crate (same representation). -/
structure MainMatrix where
  heap : Heap
  root : Nat
  rows : List (Option Nat)
  psol : List Nat
deriving DecidableEq, Repr

/-- `DancingMatrix::new` (solver crate, mod.rs lines 25-55): build the header
ring and, within each column, the cells, chaining each new cell after the
node previously recorded for its row; `rows` grows on demand (`resize`). -/
def SolverMatrix.new (constraints : List (List Nat)) : SolverMatrix :=
  let (heap, root) := Heap.new_header Heap.empty none 0
  let (heap, rows, _) :=
    constraints.foldl
      (fun (acc : Heap × List (Option Nat) × Nat) constraint =>
        let (heap, rows, curr) := acc
        let (heap, hdr) := heap.new_header (some curr) constraint.length
        let (heap, rows, _) :=
          constraint.foldl
            (fun (acc2 : Heap × List (Option Nat) × Nat) index =>
              let (heap, rows, col_curr) := acc2
              let rows := if rows.length ≤ index then
                  rows ++ List.replicate (index + 1 - rows.length) none
                else rows
              let (heap, nw) := heap.node_new hdr (rows.getD index none) (some col_curr) index
              (heap, rows.set index (some nw), nw))
            (heap, rows, hdr)
        (heap, rows, hdr))
      (heap, ([] : List (Option Nat)), root)
  ⟨heap, root, rows, []⟩

/-- `DancingMatrix::new` (main crate, mod.rs lines 21-51): `rows` is pre-sized
to the maximum row index plus one (`num_rows`). -/
def MainMatrix.new (constraints : List (List Nat)) : MainMatrix :=
  let num_rows := (constraints.flatten.map (· + 1)).foldl max 0
  let (heap, root) := Heap.new_header Heap.empty none 0
  let (heap, rows, _) :=
    constraints.foldl
      (fun (acc : Heap × List (Option Nat) × Nat) constraint =>
        let (heap, rows, curr) := acc
        let (heap, hdr) := heap.new_header (some curr) constraint.length
        let (heap, rows, _) :=
          constraint.foldl
            (fun (acc2 : Heap × List (Option Nat) × Nat) index =>
              let (heap, rows, col_curr) := acc2
              let (heap, nw) := heap.node_new hdr (rows.getD index none) (some col_curr) index
              (heap, rows.set index (some nw), nw))
            (heap, rows, hdr)
        (heap, rows, hdr))
      (heap, List.replicate num_rows (none : Option Nat), root)
  ⟨heap, root, rows, []⟩

/-- `DancingMatrix::add_solution` (solver crate, mod.rs lines 57-83).  The
mutated matrix is returned alongside the result (on `InvalidRow` the row has
already been pushed). -/
def SolverMatrix.add_solution (m : SolverMatrix) (row : Nat) :
    Except DancingLinksError Unit × SolverMatrix :=
  if m.rows.length ≤ row then (.error .indexError, m)
  else
    let m := {m with psol := m.psol ++ [row]}
    match m.rows.getD row none with
    | none => (.error .invalidRow, m)
    | some rowPtr =>
      let rows := match (m.heap.get rowPtr).header with
        | none => m.rows
        | some hdr =>
          ringLoopTail (fun _ c => (m.heap.get c).down)
            (fun rs c => rs.set ((m.heap.get c).row) none)
            m.heap.size m.rows hdr
      let heap := ringLoopAll (fun t c => (Heap.get t c).right)
        (fun t c => Heap.cover_column t c) m.heap.size m.heap rowPtr
      let heap := ringLoopTail (fun t c => (Heap.get t c).right)
        (fun t c => Heap.free_chain t c) heap.size heap rowPtr
      let heap := heap.free_chain rowPtr
      (.ok (), {m with heap := heap, rows := rows})

/-- `DancingMatrix::add_solution` (main crate, mod.rs lines 53-75): no
`InvalidRow` variant; a nulled lookup entry returns `Ok` after pushing the
row, covering and freeing nothing. -/
def MainMatrix.add_solution (m : MainMatrix) (row : Nat) :
    Except MainDancingLinksError Unit × MainMatrix :=
  if m.rows.length ≤ row then (.error .indexError, m)
  else
    let m := {m with psol := m.psol ++ [row]}
    match m.rows.getD row none with
    | none => (.ok (), m)
    | some rowPtr =>
      let heap := ringLoopAll (fun t c => (Heap.get t c).right)
        (fun t c => Heap.cover_column t c) m.heap.size m.heap rowPtr
      let heap := ringLoopTail (fun t c => (Heap.get t c).right)
        (fun t c => Heap.free_chain t c) heap.size heap rowPtr
      let heap := heap.free_chain rowPtr
      (.ok (), {m with heap := heap})

/-- `Iterator::min_by` over node indices comparing the `row` field: ties keep
the first minimal element, as in the Rust standard library. -/
def minByRow (s : Heap) : List Nat → Option Nat
  | [] => none
  | x :: xs => some (xs.foldl (fun acc y => if (s.get y).row < (s.get acc).row then y else acc) x)

/-- `Iterator::max_by` over node indices comparing the `row` field: ties keep
the last maximal element, as in the Rust standard library. -/
def maxByRow (s : Heap) : List Nat → Option Nat
  | [] => none
  | x :: xs => some (xs.foldl (fun acc y => if (s.get acc).row > (s.get y).row then acc else y) x)

/-- The row-trying loop of `solve_helper` (solver crate, mod.rs lines
104-125); `recurse` is the recursive call at the next depth. -/
def solveLoopS (recurse : SolverMatrix → Bool × SolverMatrix) (constraint : Nat) :
    Nat → SolverMatrix → Nat → Bool × SolverMatrix
  | 0, m, _ => (false, m)
  | fuel + 1, m, cur =>
    let nxt := (m.heap.get cur).down
    let m := {m with psol := m.psol ++ [(m.heap.get cur).row]}
    let heap := ringLoopTail (fun t c => (Heap.get t c).right)
      (fun t c => Heap.cover_column t c) m.heap.size m.heap cur
    let m := {m with heap := heap}
    match recurse m with
    | (true, m) =>
      let heap := ringLoopTail (fun t c => (Heap.get t c).right)
        (fun t c => Heap.free_chain t c) m.heap.size m.heap cur
      let heap := heap.free_chain constraint
      (true, {m with heap := heap})
    | (false, m) =>
      let heap := ringLoopTail (fun t c => (Heap.get t c).left)
        (fun t c => Heap.uncover_column t c) m.heap.size m.heap cur
      let m := {m with heap := heap}
      let m := {m with psol := m.psol.dropLast}
      if nxt = constraint then (false, m) else solveLoopS recurse constraint fuel m nxt

/-- `DancingMatrix::solve_helper` (solver crate, mod.rs lines 93-129), with
explicit recursion fuel (each level covers at least one column, so `solve`
passes a sufficient amount; running out of fuel reports failure). -/
def SolverMatrix.solve_helper : Nat → SolverMatrix → Bool × SolverMatrix
  | 0, m => (false, m)
  | fuel + 1, m =>
    if (m.heap.get m.root).right = m.root then (true, m)
    else
      match minByRow m.heap ((m.heap.iter_right m.root).drop 1) with
      | none => (false, m)
      | some constraint =>
        let m := {m with heap := m.heap.cover_column constraint}
        let first := (m.heap.get constraint).down
        if first = constraint then
          (false, {m with heap := m.heap.uncover_column constraint})
        else
          match solveLoopS (fun mm => SolverMatrix.solve_helper fuel mm) constraint
              m.heap.size m first with
          | (true, m) => (true, m)
          | (false, m) => (false, {m with heap := m.heap.uncover_column constraint})

/-- `DancingMatrix::solve` (solver crate, mod.rs lines 85-91) at a given fuel. -/
def SolverMatrix.solveFuel (fuel : Nat) (m : SolverMatrix) :
    Except DancingLinksError (List Nat) :=
  match SolverMatrix.solve_helper fuel m with
  | (true, m) => .ok m.psol
  | (false, _) => .error .noSolution

/-- `DancingMatrix::solve` (solver crate): the heap size bounds the number of
column headers, so `size + 1` recursion levels always suffice. -/
def SolverMatrix.solve (m : SolverMatrix) : Except DancingLinksError (List Nat) :=
  m.solveFuel (m.heap.size + 1)

/-- The row-trying loop of `solve_helper` (main crate, mod.rs lines 93-114):
the partial solution is passed functionally (`solution.clone()` per row) and
nothing is popped on failure. -/
def solveLoopM (recurse : Heap → List Nat → Option (List Nat) × Heap) (constraint : Nat)
    (solution : List Nat) : Nat → Heap → Nat → Option (List Nat) × Heap
  | 0, t, _ => (none, t)
  | fuel + 1, t, cur =>
    let nxt := (t.get cur).down
    let sol := solution ++ [(t.get cur).row]
    let t := ringLoopTail (fun u c => (Heap.get u c).right)
      (fun u c => Heap.cover_column u c) t.size t cur
    match recurse t sol with
    | (some sol, t) =>
      let t := ringLoopTail (fun u c => (Heap.get u c).right)
        (fun u c => Heap.free_chain u c) t.size t cur
      let t := t.free_chain constraint
      (some sol, t)
    | (none, t) =>
      let t := ringLoopTail (fun u c => (Heap.get u c).left)
        (fun u c => Heap.uncover_column u c) t.size t cur
      if nxt = constraint then (none, t) else solveLoopM recurse constraint solution fuel t nxt

/-- `DancingMatrix::solve_helper` (main crate, mod.rs lines 82-118), with
explicit fuel; note the branch column is chosen by `max_by`. -/
def MainMatrix.solve_helper (root : Nat) : Nat → Heap → List Nat → Option (List Nat) × Heap
  | 0, t, _ => (none, t)
  | fuel + 1, t, solution =>
    if (t.get root).right = root then (some solution, t)
    else
      match maxByRow t ((t.iter_right root).drop 1) with
      | none => (none, t)
      | some constraint =>
        let t := t.cover_column constraint
        let first := (t.get constraint).down
        if first = constraint then (none, t.uncover_column constraint)
        else
          match solveLoopM (fun u sl => MainMatrix.solve_helper root fuel u sl) constraint
              solution t.size t first with
          | (some sol, t) => (some sol, t)
          | (none, t) => (none, t.uncover_column constraint)

/-- `DancingMatrix::solve` (main crate, mod.rs lines 77-80) at a given fuel. -/
def MainMatrix.solveFuel (fuel : Nat) (m : MainMatrix) : Option (List Nat) :=
  (MainMatrix.solve_helper m.root fuel m.heap m.psol).1

/-- `DancingMatrix::solve` (main crate). -/
def MainMatrix.solve (m : MainMatrix) : Option (List Nat) :=
  m.solveFuel (m.heap.size + 1)

/-- Insertion into a sorted list (ascending). -/
def insertSorted (x : Nat) : List Nat → List Nat
  | [] => [x]
  | y :: ys => if x ≤ y then x :: y :: ys else y :: insertSorted x ys

/-- Ascending insertion sort, modelling the `sort`/`sort_unstable` calls of
the source tests. -/
def sortNat (l : List Nat) : List Nat := l.foldr insertSorted []

deriving instance DecidableEq for Except

/-- The constraint list of the source tests `miri_basic`, `miri_add_solution`
and `miri_remove_empty_row` (both crates). -/
def miriBasic : List (List Nat) := [[0, 1], [4, 5], [3, 4], [0, 1, 2], [2, 3], [3, 4], [0, 2, 4, 5]]

/-- C8: on the seven-constraint test input both engines succeed and the
returned rows, sorted ascending, are `[1, 3, 5]`; on the empty constraint
list both succeed immediately with the empty row set. -/
theorem c8_concrete_solutions :
    (SolverMatrix.new miriBasic).solve.map sortNat = .ok [1, 3, 5] ∧
    (MainMatrix.new miriBasic).solve.map sortNat = some [1, 3, 5] ∧
    (SolverMatrix.new []).solve = .ok [] ∧
    (MainMatrix.new []).solve = some [] := by
  decide

/-- C5 (failing input): on constraints `[[0, 1], [1, 2]]` row 0 shares column
0 with row 1, so by the claim `add_solution 1` must null row 0's lookup
entry.  The call succeeds, nulls only the entries of the rows of the column
in which row 1's recorded cell lies (rows 1 and 2 of column 1), and leaves
`rows[0]` = slot 2 while freeing slot 2: a dangling entry instead of the
required null sentinel. -/
theorem c5_lookup_entry_left_dangling :
    ((SolverMatrix.new [[0, 1], [1, 2]]).add_solution 1).1 = .ok () ∧
    (SolverMatrix.new [[0, 1], [1, 2]]).rows = [some 2, some 5, some 6] ∧
    ((SolverMatrix.new [[0, 1], [1, 2]]).add_solution 1).2.rows = [some 2, none, none] ∧
    ((SolverMatrix.new [[0, 1], [1, 2]]).add_solution 1).2.heap.nodes.getD 2 none = none := by
  decide

/-- C3 (counterexample): on constraints `[[0], [0, 1]]` the main-crate search
branches (the header ring after the root is `[1, 3]`) and its selection
expression (`max_by` over the repurposed live-count field, embedded as
`maxByRow`) picks header 3 whose comparator value is 2, although header 1
with comparator value 1 is also reachable from the root — the branch column
is not the minimal one. -/
theorem c3_counterexample :
    ((MainMatrix.new [[0], [0, 1]]).heap.iter_right (MainMatrix.new [[0], [0, 1]]).root).drop 1
      = [1, 3] ∧
    maxByRow (MainMatrix.new [[0], [0, 1]]).heap [1, 3] = some 3 ∧
    ((MainMatrix.new [[0], [0, 1]]).heap.get 3).row = 2 ∧
    ((MainMatrix.new [[0], [0, 1]]).heap.get 1).row = 1 := by
  decide

/-- The accumulator form of `minByRow`. -/
def minFold (s : Heap) (acc : Nat) (tl : List Nat) : Nat :=
  tl.foldl (fun a y => if (s.get y).row < (s.get a).row then y else a) acc

/-- The accumulator form of `maxByRow`. -/
def maxFold (s : Heap) (acc : Nat) (tl : List Nat) : Nat :=
  tl.foldl (fun a y => if (s.get a).row > (s.get y).row then a else y) acc

lemma minByRow_eq (s : Heap) (x : Nat) (xs : List Nat) :
    minByRow s (x :: xs) = some (minFold s x xs) := rfl

lemma maxByRow_eq (s : Heap) (x : Nat) (xs : List Nat) :
    maxByRow s (x :: xs) = some (maxFold s x xs) := rfl

lemma minFold_spec (s : Heap) :
    ∀ (tl : List Nat) (acc : Nat),
      (minFold s acc tl = acc ∨ minFold s acc tl ∈ tl) ∧
      (s.get (minFold s acc tl)).row ≤ (s.get acc).row ∧
      ∀ x ∈ tl, (s.get (minFold s acc tl)).row ≤ (s.get x).row := by
  intro tl
  induction tl with
  | nil => intro acc; simp [minFold]
  | cons y ys ih =>
    intro acc
    by_cases h : (s.get y).row < (s.get acc).row
    · have hstep : minFold s acc (y :: ys) = minFold s y ys := by
        simp [minFold, List.foldl_cons, h]
      obtain ⟨hmem, hacc, hall⟩ := ih y
      refine ⟨?_, ?_, ?_⟩
      · rw [hstep]; rcases hmem with h' | h'
        · exact Or.inr (by simp [h'])
        · exact Or.inr (by simp [h'])
      · rw [hstep]; exact le_trans hacc (le_of_lt h)
      · intro x hx
        rw [hstep]
        rcases List.mem_cons.1 hx with rfl | hx'
        · exact hacc
        · exact hall x hx'
    · have hstep : minFold s acc (y :: ys) = minFold s acc ys := by
        simp [minFold, List.foldl_cons, h]
      obtain ⟨hmem, hacc, hall⟩ := ih acc
      refine ⟨?_, ?_, ?_⟩
      · rw [hstep]; rcases hmem with h' | h'
        · exact Or.inl h'
        · exact Or.inr (by simp [h'])
      · rw [hstep]; exact hacc
      · intro x hx
        rw [hstep]
        rcases List.mem_cons.1 hx with rfl | hx'
        · exact le_trans hacc (Nat.le_of_not_lt h)
        · exact hall x hx'

lemma maxFold_spec (s : Heap) :
    ∀ (tl : List Nat) (acc : Nat),
      (maxFold s acc tl = acc ∨ maxFold s acc tl ∈ tl) ∧
      (s.get acc).row ≤ (s.get (maxFold s acc tl)).row ∧
      ∀ x ∈ tl, (s.get x).row ≤ (s.get (maxFold s acc tl)).row := by
  intro tl
  induction tl with
  | nil => intro acc; simp [maxFold]
  | cons y ys ih =>
    intro acc
    by_cases h : (s.get acc).row > (s.get y).row
    · have hstep : maxFold s acc (y :: ys) = maxFold s acc ys := by
        simp [maxFold, List.foldl_cons, h]
      obtain ⟨hmem, hacc, hall⟩ := ih acc
      refine ⟨?_, ?_, ?_⟩
      · rw [hstep]; rcases hmem with h' | h'
        · exact Or.inl h'
        · exact Or.inr (by simp [h'])
      · rw [hstep]; exact hacc
      · intro x hx
        rw [hstep]
        rcases List.mem_cons.1 hx with rfl | hx'
        · exact le_trans (Nat.le_of_lt h) hacc
        · exact hall x hx'
    · have hstep : maxFold s acc (y :: ys) = maxFold s y ys := by
        simp [maxFold, List.foldl_cons, h]
      obtain ⟨hmem, hacc, hall⟩ := ih y
      refine ⟨?_, ?_, ?_⟩
      · rw [hstep]; rcases hmem with h' | h'
        · exact Or.inr (by simp [h'])
        · exact Or.inr (by simp [h'])
      · rw [hstep]; exact le_trans (Nat.le_of_not_lt h) hacc
      · intro x hx
        rw [hstep]
        rcases List.mem_cons.1 hx with rfl | hx'
        · exact hacc
        · exact hall x hx'

/-- C3 (amended): when the header ring after the root is non-empty, the
solver-crate selection (`minByRow`, the embedding of its `min_by`) returns a
reachable header whose comparator value (the repurposed live-count field) is
minimal among all reachable headers, while the main-crate selection
(`maxByRow`, the embedding of its `max_by`) returns one whose comparator
value is maximal. -/
theorem c3_amended_selection (s : Heap) (root hd : Nat) (tl : List Nat)
    (h : (s.iter_right root).drop 1 = hd :: tl) :
    (∃ mn, minByRow s ((s.iter_right root).drop 1) = some mn ∧ mn ∈ hd :: tl ∧
      ∀ x ∈ hd :: tl, (s.get mn).row ≤ (s.get x).row) ∧
    (∃ mx, maxByRow s ((s.iter_right root).drop 1) = some mx ∧ mx ∈ hd :: tl ∧
      ∀ x ∈ hd :: tl, (s.get x).row ≤ (s.get mx).row) := by
  rw [h]
  constructor
  · obtain ⟨hmem, hacc, hall⟩ := minFold_spec s tl hd
    refine ⟨minFold s hd tl, minByRow_eq s hd tl, ?_, ?_⟩
    · rcases hmem with h' | h'
      · simp [h']
      · simp [h']
    · intro x hx
      rcases List.mem_cons.1 hx with rfl | hx'
      · exact hacc
      · exact hall x hx'
  · obtain ⟨hmem, hacc, hall⟩ := maxFold_spec s tl hd
    refine ⟨maxFold s hd tl, maxByRow_eq s hd tl, ?_, ?_⟩
    · rcases hmem with h' | h'
      · simp [h']
      · simp [h']
    · intro x hx
      rcases List.mem_cons.1 hx with rfl | hx'
      · exact hacc
      · exact hall x hx'

/-- Witness for `c3_amended_selection` at the counterexample input. -/
theorem c3_amended_selection_witness :
    (∃ mn, minByRow (MainMatrix.new [[0], [0, 1]]).heap
        (((MainMatrix.new [[0], [0, 1]]).heap.iter_right (MainMatrix.new [[0], [0, 1]]).root).drop 1)
        = some mn ∧ mn ∈ 1 :: [3] ∧
      ∀ x ∈ 1 :: [3],
        ((MainMatrix.new [[0], [0, 1]]).heap.get mn).row ≤ ((MainMatrix.new [[0], [0, 1]]).heap.get x).row) ∧
    (∃ mx, maxByRow (MainMatrix.new [[0], [0, 1]]).heap
        (((MainMatrix.new [[0], [0, 1]]).heap.iter_right (MainMatrix.new [[0], [0, 1]]).root).drop 1)
        = some mx ∧ mx ∈ 1 :: [3] ∧
      ∀ x ∈ 1 :: [3],
        ((MainMatrix.new [[0], [0, 1]]).heap.get x).row ≤ ((MainMatrix.new [[0], [0, 1]]).heap.get mx).row) :=
  c3_amended_selection (MainMatrix.new [[0], [0, 1]]).heap (MainMatrix.new [[0], [0, 1]]).root
    1 [3] (by decide)

/-- C4: `add_solution` (solver crate) fails with `IndexError` exactly by the
out-of-range test on the declared row range, and returns `InvalidRow` when
the row-lookup entry holds the null sentinel (the state of a row removed by
an earlier `add_solution`); both are returned values of a total function
(never a panic), with the matrix untouched for `IndexError` and only the
partial solution extended for `InvalidRow`. -/
theorem c4_add_solution_errors (m : SolverMatrix) (r : Nat) :
    (m.rows.length ≤ r → m.add_solution r = (.error .indexError, m)) ∧
    (r < m.rows.length → m.rows.getD r none = none →
      m.add_solution r = (.error .invalidRow, {m with psol := m.psol ++ [r]})) := by
  constructor
  · intro h
    simp [SolverMatrix.add_solution, h]
  · intro h1 h2
    rw [List.getD_eq_getElem?_getD] at h2
    simp [SolverMatrix.add_solution, Nat.not_le.mpr h1, h2]

/-- Witness for `c4_add_solution_errors`: row 2 is out of range for
constraints `[[1]]`, and after `add_solution 1` on the test constraints the
overlapping row 0 has been nulled, so selecting it reports `InvalidRow` (the
`miri_remove_empty_row` scenario). -/
theorem c4_add_solution_errors_witness :
    (SolverMatrix.new [[1]]).add_solution 2 = (.error .indexError, SolverMatrix.new [[1]]) ∧
    ((SolverMatrix.new miriBasic).add_solution 1).2.add_solution 0
      = (.error .invalidRow,
          {((SolverMatrix.new miriBasic).add_solution 1).2 with
            psol := ((SolverMatrix.new miriBasic).add_solution 1).2.psol ++ [0]}) :=
  ⟨(c4_add_solution_errors (SolverMatrix.new [[1]]) 2).1 (by decide),
   (c4_add_solution_errors ((SolverMatrix.new miriBasic).add_solution 1).2 0).2
     (by decide) (by decide)⟩

lemma solveLoopS_psol_prefix (recurse : SolverMatrix → Bool × SolverMatrix)
    (hrec : ∀ mm, mm.psol <+: (recurse mm).2.psol) (constraint : Nat) :
    ∀ (fuel : Nat) (m : SolverMatrix) (cur : Nat),
      m.psol <+: (solveLoopS recurse constraint fuel m cur).2.psol := by
  intro fuel
  induction fuel with
  | zero => intro m cur; exact List.prefix_refl _
  | succ fuel ih =>
    intro m cur
    simp only [solveLoopS]
    rcases h : recurse {m with
        psol := m.psol ++ [(m.heap.get cur).row],
        heap := ringLoopTail (fun t c => (Heap.get t c).right)
          (fun t c => Heap.cover_column t c)
          (Heap.size (m.heap)) m.heap cur} with ⟨b, m3⟩
    have hpre : (m.psol ++ [(m.heap.get cur).row]) <+: m3.psol := by
      have := hrec {m with
        psol := m.psol ++ [(m.heap.get cur).row],
        heap := ringLoopTail (fun t c => (Heap.get t c).right)
          (fun t c => Heap.cover_column t c)
          (Heap.size (m.heap)) m.heap cur}
      rw [h] at this
      exact this
    cases b with
    | true =>
      simp only [h]
      exact (List.prefix_append m.psol [(m.heap.get cur).row]).trans hpre
    | false =>
      simp only [h]
      obtain ⟨t, ht⟩ := hpre
      have hdrop : m3.psol.dropLast = m.psol ++ ([(m.heap.get cur).row] ++ t).dropLast := by
        rw [← ht, List.append_assoc, List.dropLast_append]
        simp
      split
      · exact ⟨([(m.heap.get cur).row] ++ t).dropLast, by simp [hdrop]⟩
      · exact List.IsPrefix.trans ⟨([(m.heap.get cur).row] ++ t).dropLast, by simp [hdrop]⟩ (ih _ _)

lemma solveLoopS_psol_prefix_of_eq (recurse : SolverMatrix → Bool × SolverMatrix)
    (hrec : ∀ x, x.psol <+: (recurse x).2.psol) (constraint fl : Nat) (mm : SolverMatrix)
    (cur : Nat) (b : Bool) (m3 : SolverMatrix)
    (h : solveLoopS recurse constraint fl mm cur = (b, m3)) : mm.psol <+: m3.psol := by
  have := solveLoopS_psol_prefix recurse hrec constraint fl mm cur
  rw [h] at this
  exact this

lemma solve_helper_psol_prefix :
    ∀ (fuel : Nat) (m : SolverMatrix),
      m.psol <+: (SolverMatrix.solve_helper fuel m).2.psol := by
  intro fuel
  induction fuel with
  | zero => intro m; exact List.prefix_refl _
  | succ fuel ih =>
    intro m
    simp only [SolverMatrix.solve_helper]
    split
    · exact List.prefix_refl _
    · split
      · exact List.prefix_refl _
      · split
        · exact List.prefix_refl _
        · split
          · rename_i m3 heq
            have hpre := solveLoopS_psol_prefix_of_eq _ (fun x => ih x) _ _ _ _ _ _ heq
            simpa using hpre
          · rename_i m3 heq
            have hpre := solveLoopS_psol_prefix_of_eq _ (fun x => ih x) _ _ _ _ _ _ heq
            simpa using hpre

/-- C9: in the solver crate, `add_solution` pushes the row before testing the
null sentinel, so on `InvalidRow` the row is already in the partial solution
and the matrix is otherwise untouched; any later successful `solve` therefore
returns a row set containing it (the partial solution is a prefix of the
returned set).  On `IndexError` nothing at all is changed. -/
theorem c9_invalid_row_not_rolled_back (m : SolverMatrix) (r : Nat) :
    (∀ m₂, m.add_solution r = (.error .invalidRow, m₂) →
      m₂.psol = m.psol ++ [r] ∧ m₂.heap = m.heap ∧ m₂.rows = m.rows ∧
      ∀ fuel l, m₂.solveFuel fuel = .ok l → r ∈ l) ∧
    (∀ m₂, m.add_solution r = (.error .indexError, m₂) → m₂ = m) := by
  constructor
  · intro m₂ hm₂
    by_cases hlen : m.rows.length ≤ r
    · rw [(c4_add_solution_errors m r).1 hlen] at hm₂
      have := (Prod.ext_iff.mp hm₂).1
      simp at this
    · push_neg at hlen
      cases hget : m.rows.getD r none with
      | none =>
        rw [(c4_add_solution_errors m r).2 hlen hget] at hm₂
        have hrec : ({m with psol := m.psol ++ [r]} : SolverMatrix) = m₂ :=
          (Prod.ext_iff.mp hm₂).2
        subst hrec
        refine ⟨rfl, rfl, rfl, ?_⟩
        intro fuel l hsol
        unfold SolverMatrix.solveFuel at hsol
        rcases hrun : SolverMatrix.solve_helper fuel {m with psol := m.psol ++ [r]}
          with ⟨b, m'⟩
        rw [hrun] at hsol
        cases b with
        | false => simp at hsol
        | true =>
          simp at hsol
          have hpre := solve_helper_psol_prefix fuel {m with psol := m.psol ++ [r]}
          rw [hrun] at hpre
          have hmem : r ∈ ({m with psol := m.psol ++ [r]} : SolverMatrix).psol := by simp
          rw [← hsol]
          exact hpre.subset hmem
      | some p =>
        rw [List.getD_eq_getElem?_getD] at hget
        have hok : (m.add_solution r).1 = .ok () := by
          simp [SolverMatrix.add_solution, Nat.not_le.mpr hlen, hget]
        rw [hm₂] at hok
        simp at hok
  · intro m₂ hm₂
    by_cases hlen : m.rows.length ≤ r
    · rw [(c4_add_solution_errors m r).1 hlen] at hm₂
      exact (Prod.ext_iff.mp hm₂).2.symm
    · push_neg at hlen
      cases hget : m.rows.getD r none with
      | none =>
        rw [(c4_add_solution_errors m r).2 hlen hget] at hm₂
        have := (Prod.ext_iff.mp hm₂).1
        simp at this
      | some p =>
        rw [List.getD_eq_getElem?_getD] at hget
        have hok : (m.add_solution r).1 = .ok () := by
          simp [SolverMatrix.add_solution, Nat.not_le.mpr hlen, hget]
        rw [hm₂] at hok
        simp at hok

/-- Witness for `c9_invalid_row_not_rolled_back`: on `[[1]]` the lookup entry
of row 0 is null, `add_solution 0` reports `InvalidRow` with 0 pushed, and
the subsequent solve returns `[0, 1]`, which contains 0. -/
theorem c9_invalid_row_not_rolled_back_witness :
    ((SolverMatrix.new [[1]]).add_solution 0).2.psol = (SolverMatrix.new [[1]]).psol ++ [0] ∧
    ((SolverMatrix.new [[1]]).add_solution 0).2.heap = (SolverMatrix.new [[1]]).heap ∧
    ((SolverMatrix.new [[1]]).add_solution 0).2.rows = (SolverMatrix.new [[1]]).rows ∧
    0 ∈ [0, 1] := by
  have h := (c9_invalid_row_not_rolled_back (SolverMatrix.new [[1]]) 0).1
    ((SolverMatrix.new [[1]]).add_solution 0).2 (by decide)
  exact ⟨h.1, h.2.1, h.2.2.1, h.2.2.2 4 [0, 1] (by decide)⟩

/-- `l` lists a circular `step`-ring beginning at its head `n`: consecutive
elements are `step`-linked, the last steps back to `n`, and no node repeats. -/
def IsRingFrom (step : Nat → Nat) (n : Nat) (l : List Nat) : Prop :=
  l.head? = some n ∧ l.Nodup ∧ List.Chain' (fun a b => step a = b) l ∧ step (l.getLastD 0) = n

/-- Executable check that consecutive elements are `step`-linked. -/
def chainb (step : Nat → Nat) : List Nat → Bool
  | [] => true
  | [_] => true
  | a :: b :: l => step a = b && chainb step (b :: l)

lemma chainb_iff (step : Nat → Nat) :
    ∀ l : List Nat, chainb step l = true ↔ List.Chain' (fun a b => step a = b) l
  | [] => by simp [chainb]
  | [a] => by simp [chainb]
  | a :: b :: l => by
    simp [chainb, List.chain'_cons, chainb_iff step (b :: l)]

instance (step : Nat → Nat) (n : Nat) (l : List Nat) : Decidable (IsRingFrom step n l) :=
  decidable_of_iff (l.head? = some n ∧ l.dedup = l ∧
      chainb step l = true ∧ step (l.getLastD 0) = n)
    (by simp only [IsRingFrom, List.dedup_eq_self, chainb_iff])

lemma ringList_eq_of_chain (step : Nat → Nat) (orig : Nat) :
    ∀ (l : List Nat) (fuel cur : Nat),
      l.head? = some cur →
      List.Chain' (fun a b => step a = b) l →
      step (l.getLastD 0) = orig →
      (∀ x ∈ l.tail, x ≠ orig) →
      l.length ≤ fuel →
      ringList step orig fuel cur = l := by
  intro l
  induction l with
  | nil => intro fuel cur h _ _ _ _; simp at h
  | cons a rest ih =>
    intro fuel cur hhead hchain hlast htail hlen
    have hcur : a = cur := by simpa using hhead
    subst hcur
    obtain ⟨fuel, rfl⟩ : ∃ f, fuel = f + 1 := ⟨fuel - 1, by simp at hlen; omega⟩
    cases rest with
    | nil =>
      have hstep : step a = orig := by simpa using hlast
      simp [ringList, hstep]
    | cons b rest' =>
      have hstep : step a = b := (List.chain'_cons.mp hchain).1
      have hbne : b ≠ orig := htail b (by simp)
      have hrl : ringList step orig (fuel + 1) a =
          a :: ringList step orig fuel b := by
        simp [ringList, hstep, hbne]
      rw [hrl]
      congr 1
      refine ih fuel b rfl (List.chain'_cons.mp hchain).2 ?_ ?_ ?_
      · simpa [List.getLastD_cons] using hlast
      · intro x hx
        exact htail x (List.mem_cons_of_mem b hx)
      · simp at hlen ⊢
        omega

lemma length_le_of_nodup_lt (l : List Nat) (n : Nat) (hn : l.Nodup)
    (hb : ∀ x ∈ l, x < n) : l.length ≤ n := by
  classical
  calc l.length = l.toFinset.card := (List.toFinset_card_of_nodup hn).symm
  _ ≤ (Finset.range n).card := by
      refine Finset.card_le_card fun x hx => ?_
      simp only [List.mem_toFinset] at hx
      simpa [Finset.mem_range] using hb x hx
  _ = n := Finset.card_range n

lemma iter_of_ring (step : Nat → Nat) (s : Heap) (n : Nat) (l : List Nat)
    (hr : IsRingFrom step n l) (hb : ∀ x ∈ l, x < s.size) :
    ringList step n s.size n = l := by
  obtain ⟨hhead, hnodup, hchain, hlast⟩ := hr
  obtain ⟨t, rfl⟩ : ∃ t, l = n :: t := by
    cases l with
    | nil => simp at hhead
    | cons a t => exact ⟨t, by simpa using congrArg (fun o => (Option.getD o 0) :: t) hhead⟩
  refine ringList_eq_of_chain step n (n :: t) s.size n rfl hchain hlast ?_ ?_
  · intro x hx
    intro hxeq
    subst hxeq
    exact (List.nodup_cons.mp hnodup).1 hx
  · exact length_le_of_nodup_lt _ _ hnodup hb

/-- C7: whenever `n` lies on a circular ring in each of the four directions,
the corresponding iterator yields exactly that ring: a finite list starting
with (and containing) `n`, visiting every ring node exactly once, and ending
just before the walk returns to `n`; in particular a singleton ring yields
exactly `[n]`. -/
theorem c7_iterators_traverse_ring (s : Heap) (n : Nat) (lr ll lu ld : List Nat)
    (hr : IsRingFrom (fun k => (s.get k).right) n lr) (hrb : ∀ x ∈ lr, x < s.size)
    (hl : IsRingFrom (fun k => (s.get k).left) n ll) (hlb : ∀ x ∈ ll, x < s.size)
    (hu : IsRingFrom (fun k => (s.get k).up) n lu) (hub : ∀ x ∈ lu, x < s.size)
    (hd : IsRingFrom (fun k => (s.get k).down) n ld) (hdb : ∀ x ∈ ld, x < s.size) :
    s.iter_right n = lr ∧ s.iter_left n = ll ∧ s.iter_up n = lu ∧ s.iter_down n = ld :=
  ⟨iter_of_ring _ s n lr hr hrb, iter_of_ring _ s n ll hl hlb,
   iter_of_ring _ s n lu hu hub, iter_of_ring _ s n ld hd hdb⟩

/-- Witness for `c7_iterators_traverse_ring` on the matrix built from
`[[0, 1]]`, at the data node 2 (row 0): its row ring is the singleton `[2]`
and its column ring is `2, 3, 1` downwards and `2, 1, 3` upwards. -/
theorem c7_iterators_traverse_ring_witness :
    (SolverMatrix.new [[0, 1]]).heap.iter_right 2 = [2] ∧
    (SolverMatrix.new [[0, 1]]).heap.iter_left 2 = [2] ∧
    (SolverMatrix.new [[0, 1]]).heap.iter_up 2 = [2, 1, 3] ∧
    (SolverMatrix.new [[0, 1]]).heap.iter_down 2 = [2, 3, 1] :=
  c7_iterators_traverse_ring (SolverMatrix.new [[0, 1]]).heap 2 [2] [2] [2, 1, 3] [2, 3, 1]
    (by decide) (by decide) (by decide) (by decide)
    (by decide) (by decide) (by decide) (by decide)

/- ### Heap algebra for the cover/uncover round-trip -/

/-- The raw contents of slot `n` (`none` = freed or never allocated). -/
def Heap.slot (s : Heap) (n : Nat) : Option Node := s.nodes.getD n none

lemma Heap.get_eq_slot (s : Heap) (n : Nat) : s.get n = (s.slot n).getD Node.junk := rfl

lemma Heap.heap_ext {s t : Heap} (hsize : s.size = t.size)
    (h : ∀ n, s.slot n = t.slot n) : s = t := by
  cases s with
  | mk l1 =>
    cases t with
    | mk l2 =>
      congr 1
      apply List.ext_getElem?
      intro n
      have hn := h n
      simp only [Heap.slot, List.getD_eq_getElem?_getD] at hn
      simp only [Heap.size] at hsize
      by_cases hlt : n < l1.length
      · rw [List.getElem?_eq_getElem hlt, List.getElem?_eq_getElem (hsize ▸ hlt)]
        rw [List.getElem?_eq_getElem hlt, List.getElem?_eq_getElem (hsize ▸ hlt)] at hn
        simpa using hn
      · rw [List.getElem?_eq_none (Nat.le_of_not_lt hlt),
          List.getElem?_eq_none (hsize ▸ Nat.le_of_not_lt hlt)]

lemma Heap.slot_modify (s : Heap) (n m : Nat) (f : Node → Node) :
    (s.modify n f).slot m = if m = n then (s.slot n).map f else s.slot m := by
  unfold Heap.slot Heap.modify
  simp only [List.getD_eq_getElem?_getD]
  by_cases h : m = n
  · subst h
    by_cases hlt : m < s.nodes.length
    · rw [if_pos rfl, List.getElem?_set_self]
      · simp
      · simpa using hlt
    · rw [if_pos rfl, List.set_eq_of_length_le (Nat.le_of_not_lt hlt),
        List.getElem?_eq_none (Nat.le_of_not_lt hlt)]
      simp
  · rw [if_neg h, List.getElem?_set_ne (fun hh => h hh.symm)]

lemma Heap.size_modify (s : Heap) (n : Nat) (f : Node → Node) :
    (s.modify n f).size = s.size := by
  simp [Heap.modify, Heap.size]

lemma Heap.get_modify_ne (s : Heap) (n m : Nat) (f : Node → Node) (h : m ≠ n) :
    (s.modify n f).get m = s.get m := by
  simp [Heap.get_eq_slot, Heap.slot_modify, h]

/-- Reading after a write: either the slot is untouched (different slot, dead
slot, or out of range) or the read returns `f` of the old node. -/
lemma Heap.get_modify_or (s : Heap) (n : Nat) (f : Node → Node) (m : Nat) :
    (s.modify n f).get m = s.get m ∨
      (m = n ∧ (s.modify n f).get m = f (s.get m)) := by
  by_cases h : m = n
  · subst h
    rcases hs : s.slot m with _ | x
    · left
      simp [Heap.get_eq_slot, Heap.slot_modify, hs]
    · right
      refine ⟨rfl, ?_⟩
      simp [Heap.get_eq_slot, Heap.slot_modify, hs]
  · left
    exact Heap.get_modify_ne s n m f h

lemma Heap.modify_modify_same (s : Heap) (n : Nat) (f g : Node → Node) :
    (s.modify n f).modify n g = s.modify n (fun x => g (f x)) := by
  refine Heap.heap_ext (by simp [Heap.size_modify]) fun m => ?_
  simp only [Heap.slot_modify]
  by_cases h : m = n
  · subst h
    simp [Option.map_map, Function.comp_def]
  · simp [h]

lemma Heap.modify_comm (s : Heap) (n m : Nat) (f g : Node → Node) (h : n ≠ m) :
    (s.modify n f).modify m g = (s.modify m g).modify n f := by
  refine Heap.heap_ext (by simp [Heap.size_modify]) fun k => ?_
  simp only [Heap.slot_modify]
  by_cases h1 : k = m
  · by_cases h2 : k = n
    · exact absurd (h2 ▸ h1) h
    · subst h1
      simp [h2, Ne.symm h]
  · by_cases h2 : k = n
    · subst h2
      simp [h1, h]
    · simp [h1, h2]

lemma Heap.modify_noop (s : Heap) (n : Nat) (f : Node → Node)
    (h : ∀ x, s.slot n = some x → f x = x) : s.modify n f = s := by
  refine Heap.heap_ext (by simp [Heap.size_modify]) fun m => ?_
  rw [Heap.slot_modify]
  by_cases hm : m = n
  · subst hm
    rcases hs : s.slot m with _ | x
    · simp
    · simp [h x hs]
  · rw [if_neg hm]

/-- A write whose function preserves a projection leaves that projection of
every read unchanged. -/
lemma Heap.proj_modify {β : Type} (p : Node → β) (s : Heap) (n : Nat) (f : Node → Node)
    (hf : ∀ x, p (f x) = p x) (m : Nat) : p ((s.modify n f).get m) = p (s.get m) := by
  rcases Heap.get_modify_or s n f m with h | ⟨rfl, h⟩
  · rw [h]
  · rw [h, hf]

lemma Heap.slot_some_get {s : Heap} {n : Nat} {x : Node} (h : s.slot n = some x) :
    s.get n = x := by
  simp [Heap.get_eq_slot, h]

lemma Heap.lt_size_of_slot_some {s : Heap} {n : Nat} {x : Node} (h : s.slot n = some x) :
    n < s.size := by
  by_contra hlt
  rw [Heap.slot, List.getD_eq_getElem?_getD,
    List.getElem?_eq_none (Nat.le_of_not_lt hlt)] at h
  simp at h

/-- The column identifier of a node: its header for data nodes, itself for
header nodes (whose header pointer is null). -/
def cid (s : Heap) (n : Nat) : Nat := ((s.get n).header).getD n

lemma usizeMod_eq : usizeMod = 18446744073709551616 := by
  unfold usizeMod
  norm_num

lemma dec_inc_cancel (r : Nat) (h : r < usizeMod) :
    ((r + (usizeMod - 1)) % usizeMod + 1) % usizeMod = r := by
  rw [usizeMod_eq] at *
  omega

lemma dec_lt (r : Nat) : (r + (usizeMod - 1)) % usizeMod < usizeMod := by
  rw [usizeMod_eq]
  omega

lemma inc_lt (r : Nat) : (r + 1) % usizeMod < usizeMod := by
  rw [usizeMod_eq]
  omega

/-- `cover_vertical` and `uncover_vertical` touch only `up`/`down` fields. -/
lemma Heap.cover_vertical_stable (t : Heap) (c n : Nat) :
    ((t.cover_vertical c).get n).header = (t.get n).header ∧
    ((t.cover_vertical c).get n).left = (t.get n).left ∧
    ((t.cover_vertical c).get n).right = (t.get n).right ∧
    ((t.cover_vertical c).get n).row = (t.get n).row := by
  simp only [Heap.cover_vertical]
  refine ⟨?_, ?_, ?_, ?_⟩
  · rw [Heap.proj_modify Node.header, Heap.proj_modify Node.header] <;> exact fun x => rfl
  · rw [Heap.proj_modify Node.left, Heap.proj_modify Node.left] <;> exact fun x => rfl
  · rw [Heap.proj_modify Node.right, Heap.proj_modify Node.right] <;> exact fun x => rfl
  · rw [Heap.proj_modify Node.row, Heap.proj_modify Node.row] <;> exact fun x => rfl

lemma Heap.uncover_vertical_stable (t : Heap) (c n : Nat) :
    ((t.uncover_vertical c).get n).header = (t.get n).header ∧
    ((t.uncover_vertical c).get n).left = (t.get n).left ∧
    ((t.uncover_vertical c).get n).right = (t.get n).right ∧
    ((t.uncover_vertical c).get n).row = (t.get n).row := by
  simp only [Heap.uncover_vertical]
  refine ⟨?_, ?_, ?_, ?_⟩
  · rw [Heap.proj_modify Node.header, Heap.proj_modify Node.header] <;> exact fun x => rfl
  · rw [Heap.proj_modify Node.left, Heap.proj_modify Node.left] <;> exact fun x => rfl
  · rw [Heap.proj_modify Node.right, Heap.proj_modify Node.right] <;> exact fun x => rfl
  · rw [Heap.proj_modify Node.row, Heap.proj_modify Node.row] <;> exact fun x => rfl

/-- `cover_horizontal` and `uncover_horizontal` touch only `left`/`right`. -/
lemma Heap.cover_horizontal_stable (t : Heap) (c n : Nat) :
    ((t.cover_horizontal c).get n).header = (t.get n).header ∧
    ((t.cover_horizontal c).get n).up = (t.get n).up ∧
    ((t.cover_horizontal c).get n).down = (t.get n).down ∧
    ((t.cover_horizontal c).get n).row = (t.get n).row := by
  simp only [Heap.cover_horizontal]
  refine ⟨?_, ?_, ?_, ?_⟩
  · rw [Heap.proj_modify Node.header, Heap.proj_modify Node.header] <;> exact fun x => rfl
  · rw [Heap.proj_modify Node.up, Heap.proj_modify Node.up] <;> exact fun x => rfl
  · rw [Heap.proj_modify Node.down, Heap.proj_modify Node.down] <;> exact fun x => rfl
  · rw [Heap.proj_modify Node.row, Heap.proj_modify Node.row] <;> exact fun x => rfl

lemma Heap.uncover_horizontal_stable (t : Heap) (c n : Nat) :
    ((t.uncover_horizontal c).get n).header = (t.get n).header ∧
    ((t.uncover_horizontal c).get n).up = (t.get n).up ∧
    ((t.uncover_horizontal c).get n).down = (t.get n).down ∧
    ((t.uncover_horizontal c).get n).row = (t.get n).row := by
  simp only [Heap.uncover_horizontal]
  refine ⟨?_, ?_, ?_, ?_⟩
  · rw [Heap.proj_modify Node.header, Heap.proj_modify Node.header] <;> exact fun x => rfl
  · rw [Heap.proj_modify Node.up, Heap.proj_modify Node.up] <;> exact fun x => rfl
  · rw [Heap.proj_modify Node.down, Heap.proj_modify Node.down] <;> exact fun x => rfl
  · rw [Heap.proj_modify Node.row, Heap.proj_modify Node.row] <;> exact fun x => rfl

/-- Unlinking a cell whose stored vertical pointers are consistent does not
change the cell itself (its neighbours are rewritten, not it). -/
lemma Heap.cover_vertical_get_self (t : Heap) (c : Nat)
    (h1 : (t.get ((t.get c).up)).down = c)
    (h2 : (t.get ((t.get c).down)).up = c) :
    (t.cover_vertical c).get c = t.get c := by
  by_cases hb : (t.get c).down = c
  · have ha : (t.get c).up = c := by
      have h2' := h2
      rw [hb] at h2'
      exact h2'
    simp only [Heap.cover_vertical]
    rw [ha, hb, Heap.modify_modify_same]
    rcases Heap.get_modify_or t c _ c with h | ⟨-, h⟩
    · exact h
    · rw [h]
      rcases hx : t.get c with ⟨hd, l, r, u, d, rr⟩
      rw [hx] at ha hb
      simp at ha hb
      simp [ha, hb]
  · have ha : (t.get c).up ≠ c := by
      intro hA
      apply hb
      have h1' := h1
      rw [hA] at h1'
      exact h1'
    simp only [Heap.cover_vertical]
    rw [Heap.get_modify_ne _ _ _ _ (fun hh => hb hh.symm),
      Heap.get_modify_ne _ _ _ _ (fun hh => ha hh.symm)]

/-- `uncover_vertical` exactly undoes `cover_vertical` when the cell's stored
vertical pointers are consistent with its neighbours. -/
lemma Heap.uncover_cover_vertical (t : Heap) (c : Nat)
    (h1 : (t.get ((t.get c).up)).down = c)
    (h2 : (t.get ((t.get c).down)).up = c) :
    (t.cover_vertical c).uncover_vertical c = t := by
  have hCVc := Heap.cover_vertical_get_self t c h1 h2
  simp only [Heap.uncover_vertical]
  rw [hCVc]
  simp only [Heap.cover_vertical]
  by_cases hab : (t.get c).up = (t.get c).down
  · rw [hab, Heap.modify_modify_same, Heap.modify_modify_same, Heap.modify_modify_same]
    apply Heap.modify_noop
    intro x hx
    have hgx := Heap.slot_some_get hx
    have h1' := h1
    rw [hab, hgx] at h1'
    have h2' := h2
    rw [hgx] at h2'
    rcases x with ⟨hd, l, r, u, d, rr⟩
    simp at h1' h2'
    simp [h1', h2']
  · rw [Heap.modify_comm _ _ _ _ _ (fun hh => hab hh.symm), Heap.modify_modify_same,
      Heap.modify_modify_same]
    have e1 : t.modify (t.get c).up
        (fun x => {{x with down := (t.get c).down} with down := c}) = t := by
      apply Heap.modify_noop
      intro x hx
      have hgx := Heap.slot_some_get hx
      have h1' := h1
      rw [hgx] at h1'
      rcases x with ⟨hd, l, r, u, d, rr⟩
      simp at h1'
      simp [h1']
    rw [e1]
    apply Heap.modify_noop
    intro x hx
    have hgx := Heap.slot_some_get hx
    have h2' := h2
    rw [hgx] at h2'
    rcases x with ⟨hd, l, r, u, d, rr⟩
    simp at h2'
    simp [h2']

lemma Heap.size_cover_vertical (t : Heap) (c : Nat) :
    (t.cover_vertical c).size = t.size := by
  simp [Heap.cover_vertical, Heap.size_modify]

lemma Heap.size_uncover_vertical (t : Heap) (c : Nat) :
    (t.uncover_vertical c).size = t.size := by
  simp [Heap.uncover_vertical, Heap.size_modify]

lemma Heap.size_cover_horizontal (t : Heap) (c : Nat) :
    (t.cover_horizontal c).size = t.size := by
  simp [Heap.cover_horizontal, Heap.size_modify]

lemma Heap.size_uncover_horizontal (t : Heap) (c : Nat) :
    (t.uncover_horizontal c).size = t.size := by
  simp [Heap.uncover_horizontal, Heap.size_modify]

/-- `uncoverCellStep` exactly undoes `coverCellStep` on a cell whose stored
vertical pointers are consistent (the live-count decrement is undone by the
increment thanks to wrapping `usize` arithmetic). -/
lemma Heap.uncover_cover_cell (t : Heap) (c : Nat)
    (h1 : (t.get ((t.get c).up)).down = c)
    (h2 : (t.get ((t.get c).down)).up = c)
    (hrow : ∀ n, n < t.size → (t.get n).row < usizeMod) :
    (t.coverCellStep c).uncoverCellStep c = t := by
  have hCVc := Heap.cover_vertical_get_self t c h1 h2
  rcases hhdr : (t.get c).header with _ | hh
  · have hc : t.coverCellStep c = t.cover_vertical c := by
      simp only [Heap.coverCellStep]
      rw [hCVc, hhdr]
    rw [hc]
    have hu : (t.cover_vertical c).uncoverCellStep c
        = (t.cover_vertical c).uncover_vertical c := by
      simp only [Heap.uncoverCellStep]
      rw [(Heap.cover_vertical_stable t c c).1, hhdr]
    rw [hu]
    exact Heap.uncover_cover_vertical t c h1 h2
  · have hc : t.coverCellStep c = (t.cover_vertical c).modify hh
        (fun m => {m with row := (m.row + (usizeMod - 1)) % usizeMod}) := by
      simp only [Heap.coverCellStep]
      rw [hCVc, hhdr]
    have hXhdr : ((t.coverCellStep c).get c).header = some hh := by
      rw [hc, Heap.proj_modify Node.header, (Heap.cover_vertical_stable t c c).1, hhdr]
      exact fun x => rfl
    have hcollapse : (t.coverCellStep c).modify hh
        (fun m => {m with row := (m.row + 1) % usizeMod}) = t.cover_vertical c := by
      rw [hc, Heap.modify_modify_same]
      apply Heap.modify_noop
      intro x hx
      have hgx := Heap.slot_some_get hx
      have hlt : hh < t.size := by
        have hl := Heap.lt_size_of_slot_some hx
        rwa [Heap.size_cover_vertical] at hl
      have hstab := (Heap.cover_vertical_stable t c hh).2.2.2
      rw [hgx] at hstab
      have hrlt : x.row < usizeMod := by
        rw [hstab]
        exact hrow hh hlt
      rcases x with ⟨hd, l, r, u, d, rr⟩
      simp only []
      simp at hrlt
      simp [dec_inc_cancel rr hrlt]
    have hu : (t.coverCellStep c).uncoverCellStep c
        = ((t.coverCellStep c).modify hh
            (fun m => {m with row := (m.row + 1) % usizeMod})).uncover_vertical c := by
      simp only [Heap.uncoverCellStep]
      rw [hXhdr]
    rw [hu, hcollapse]
    exact Heap.uncover_cover_vertical t c h1 h2

lemma Heap.slot_isSome_modify (s : Heap) (n m : Nat) (f : Node → Node) :
    ((s.modify n f).slot m).isSome = (s.slot m).isSome := by
  rw [Heap.slot_modify]
  by_cases h : m = n
  · subst h
    rw [if_pos rfl]
    cases s.slot m <;> rfl
  · rw [if_neg h]

lemma Heap.get_modify_live (s : Heap) (n : Nat) (f : Node → Node)
    (h : (s.slot n).isSome) : (s.modify n f).get n = f (s.get n) := by
  rcases Option.isSome_iff_exists.mp h with ⟨x, hx⟩
  rw [Heap.get_eq_slot, Heap.slot_modify, if_pos rfl, hx, Heap.slot_some_get hx]
  rfl

lemma Heap.cover_vertical_get_down (t : Heap) (c : Nat)
    (ha : (t.slot ((t.get c).up)).isSome) (n : Nat) :
    ((t.cover_vertical c).get n).down =
      if n = (t.get c).up then (t.get c).down else (t.get n).down := by
  simp only [Heap.cover_vertical]
  rw [Heap.proj_modify Node.down]
  · by_cases h : n = (t.get c).up
    · rw [if_pos h, h, Heap.get_modify_live _ _ _ ha]
    · rw [if_neg h, Heap.get_modify_ne _ _ _ _ h]
  · exact fun x => rfl

lemma Heap.cover_vertical_get_up (t : Heap) (c : Nat)
    (hb : (t.slot ((t.get c).down)).isSome) (n : Nat) :
    ((t.cover_vertical c).get n).up =
      if n = (t.get c).down then (t.get c).up else (t.get n).up := by
  simp only [Heap.cover_vertical]
  by_cases h : n = (t.get c).down
  · rw [if_pos h, h, Heap.get_modify_live _ _ _ (by rwa [Heap.slot_isSome_modify])]
  · rw [if_neg h, Heap.get_modify_ne _ _ _ _ h, Heap.proj_modify Node.up]
    exact fun x => rfl

lemma Heap.uncover_vertical_get_down (t : Heap) (c : Nat)
    (ha : (t.slot ((t.get c).up)).isSome) (n : Nat) :
    ((t.uncover_vertical c).get n).down =
      if n = (t.get c).up then c else (t.get n).down := by
  simp only [Heap.uncover_vertical]
  rw [Heap.proj_modify Node.down]
  · by_cases h : n = (t.get c).up
    · rw [if_pos h, h, Heap.get_modify_live _ _ _ ha]
    · rw [if_neg h, Heap.get_modify_ne _ _ _ _ h]
  · exact fun x => rfl

lemma Heap.uncover_vertical_get_up (t : Heap) (c : Nat)
    (hb : (t.slot ((t.get c).down)).isSome) (n : Nat) :
    ((t.uncover_vertical c).get n).up =
      if n = (t.get c).down then c else (t.get n).up := by
  simp only [Heap.uncover_vertical]
  by_cases h : n = (t.get c).down
  · rw [if_pos h, h, Heap.get_modify_live _ _ _ (by rwa [Heap.slot_isSome_modify])]
  · rw [if_neg h, Heap.get_modify_ne _ _ _ _ h, Heap.proj_modify Node.up]
    exact fun x => rfl

/-- The live-count update inside `coverCellStep` does not move pointers:
up/down fields agree with plain `cover_vertical`. -/
lemma Heap.coverCellStep_updown (t : Heap) (c n : Nat) :
    ((t.coverCellStep c).get n).up = ((t.cover_vertical c).get n).up ∧
    ((t.coverCellStep c).get n).down = ((t.cover_vertical c).get n).down := by
  simp only [Heap.coverCellStep]
  rcases hhdr : ((t.cover_vertical c).get c).header with _ | hh
  · exact ⟨rfl, rfl⟩
  · constructor
    · rw [Heap.proj_modify Node.up]
      exact fun x => rfl
    · rw [Heap.proj_modify Node.down]
      exact fun x => rfl

/-- The live-count update inside `uncoverCellStep` happens before the relink
and does not move pointers: the result's up/down fields follow
`uncover_vertical` of the input (whose pointer fields the count update does
not change). -/
lemma Heap.uncoverCellStep_get_up (t : Heap) (c : Nat)
    (hb : (t.slot ((t.get c).down)).isSome) (n : Nat) :
    ((t.uncoverCellStep c).get n).up =
      if n = (t.get c).down then c else (t.get n).up := by
  simp only [Heap.uncoverCellStep]
  rcases hhdr : (t.get c).header with _ | hh
  · exact Heap.uncover_vertical_get_up t c hb n
  · have hup : ((t.modify hh fun m => {m with row := (m.row + 1) % usizeMod}).get c).up
        = (t.get c).up := by
      rw [Heap.proj_modify Node.up]
      exact fun x => rfl
    have hdn : ((t.modify hh fun m => {m with row := (m.row + 1) % usizeMod}).get c).down
        = (t.get c).down := by
      rw [Heap.proj_modify Node.down]
      exact fun x => rfl
    rw [Heap.uncover_vertical_get_up _ c (by rw [hdn, Heap.slot_isSome_modify]; exact hb) n,
      hdn]
    by_cases h : n = (t.get c).down
    · rw [if_pos h, if_pos h]
    · rw [if_neg h, if_neg h, Heap.proj_modify Node.up]
      exact fun x => rfl

lemma Heap.uncoverCellStep_get_down (t : Heap) (c : Nat)
    (ha : (t.slot ((t.get c).up)).isSome) (n : Nat) :
    ((t.uncoverCellStep c).get n).down =
      if n = (t.get c).up then c else (t.get n).down := by
  simp only [Heap.uncoverCellStep]
  rcases hhdr : (t.get c).header with _ | hh
  · exact Heap.uncover_vertical_get_down t c ha n
  · have hup : ((t.modify hh fun m => {m with row := (m.row + 1) % usizeMod}).get c).up
        = (t.get c).up := by
      rw [Heap.proj_modify Node.up]
      exact fun x => rfl
    rw [Heap.uncover_vertical_get_down _ c (by rw [hup, Heap.slot_isSome_modify]; exact ha) n,
      hup]
    by_cases h : n = (t.get c).up
    · rw [if_pos h, if_pos h]
    · rw [if_neg h, if_neg h, Heap.proj_modify Node.down]
      exact fun x => rfl

lemma Heap.coverCellStep_get_down (t : Heap) (c : Nat)
    (ha : (t.slot ((t.get c).up)).isSome) (n : Nat) :
    ((t.coverCellStep c).get n).down =
      if n = (t.get c).up then (t.get c).down else (t.get n).down := by
  rw [(Heap.coverCellStep_updown t c n).2]
  exact Heap.cover_vertical_get_down t c ha n

lemma Heap.coverCellStep_get_up (t : Heap) (c : Nat)
    (hb : (t.slot ((t.get c).down)).isSome) (n : Nat) :
    ((t.coverCellStep c).get n).up =
      if n = (t.get c).down then (t.get c).up else (t.get n).up := by
  rw [(Heap.coverCellStep_updown t c n).1]
  exact Heap.cover_vertical_get_up t c hb n

lemma Heap.size_coverCellStep (t : Heap) (c : Nat) :
    (t.coverCellStep c).size = t.size := by
  simp only [Heap.coverCellStep]
  rcases hhdr : ((t.cover_vertical c).get c).header with _ | hh
  · exact Heap.size_cover_vertical t c
  · rw [Heap.size_modify, Heap.size_cover_vertical]

lemma Heap.size_uncoverCellStep (t : Heap) (c : Nat) :
    (t.uncoverCellStep c).size = t.size := by
  simp only [Heap.uncoverCellStep]
  rcases hhdr : (t.get c).header with _ | hh
  · exact Heap.size_uncover_vertical t c
  · rw [Heap.size_uncover_vertical, Heap.size_modify]

lemma Heap.slot_isSome_coverCellStep (t : Heap) (c m : Nat) :
    ((t.coverCellStep c).slot m).isSome = (t.slot m).isSome := by
  simp only [Heap.coverCellStep]
  rcases hhdr : ((t.cover_vertical c).get c).header with _ | hh
  · simp only [Heap.cover_vertical, Heap.slot_isSome_modify]
  · rw [Heap.slot_isSome_modify]
    simp only [Heap.cover_vertical, Heap.slot_isSome_modify]

lemma Heap.rows_lt_coverCellStep (t : Heap) (c : Nat)
    (hrow : ∀ n, n < t.size → (t.get n).row < usizeMod) :
    ∀ n, n < (t.coverCellStep c).size → ((t.coverCellStep c).get n).row < usizeMod := by
  intro n hn
  rw [Heap.size_coverCellStep] at hn
  simp only [Heap.coverCellStep]
  rcases hhdr : ((t.cover_vertical c).get c).header with _ | hh
  · rw [(Heap.cover_vertical_stable t c n).2.2.2]
    exact hrow n hn
  · rcases Heap.get_modify_or (t.cover_vertical c) hh _ n with h | ⟨rfl, h⟩
    · rw [h, (Heap.cover_vertical_stable t c n).2.2.2]
      exact hrow n hn
    · rw [h]
      exact dec_lt _

/-- The stored vertical pointers of `c` are consistent with its (live)
neighbours — the state of a cell linked into a column ring. -/
def ZipCond (t : Heap) (c : Nat) : Prop :=
  (t.slot ((t.get c).up)).isSome = true ∧ (t.slot ((t.get c).down)).isSome = true ∧
  (t.get ((t.get c).up)).down = c ∧ (t.get ((t.get c).down)).up = c

lemma ZipCond.preserved {t : Heap} {c x : Nat} (hc : ZipCond t c) (hx : ZipCond t x)
    (hne : x ≠ c) : ZipCond (t.coverCellStep c) x := by
  obtain ⟨hca, hcb, hc1, hc2⟩ := hc
  obtain ⟨hxa, hxb, hx1, hx2⟩ := hx
  have hdn := Heap.coverCellStep_get_down t c hca
  have hup := Heap.coverCellStep_get_up t c hcb
  refine ⟨?_, ?_, ?_, ?_⟩
  · rw [hup x]
    by_cases h : x = (t.get c).down
    · rw [if_pos h, Heap.slot_isSome_coverCellStep]
      exact hca
    · rw [if_neg h, Heap.slot_isSome_coverCellStep]
      exact hxa
  · rw [hdn x]
    by_cases h : x = (t.get c).up
    · rw [if_pos h, Heap.slot_isSome_coverCellStep]
      exact hcb
    · rw [if_neg h, Heap.slot_isSome_coverCellStep]
      exact hxb
  · rw [hup x]
    by_cases h : x = (t.get c).down
    · rw [if_pos h, hdn, if_pos rfl]
      exact h.symm
    · rw [if_neg h, hdn]
      by_cases h2 : (t.get x).up = (t.get c).up
      · exfalso
        apply hne
        rw [h2] at hx1
        exact hx1.symm.trans hc1
      · rw [if_neg h2]
        exact hx1
  · rw [hdn x]
    by_cases h : x = (t.get c).up
    · rw [if_pos h, hup, if_pos rfl]
      exact h.symm
    · rw [if_neg h, hup]
      by_cases h2 : (t.get x).down = (t.get c).down
      · exfalso
        apply hne
        rw [h2] at hx2
        exact hx2.symm.trans hc2
      · rw [if_neg h2]
        exact hx2

/-- The zipper: uncovering in exactly reverse order undoes covering a list of
pairwise-distinct consistent cells. -/
lemma fold_cover_uncover (cells : List Nat) :
    ∀ (t : Heap),
      (∀ c ∈ cells, ZipCond t c) →
      cells.Nodup →
      (∀ n, n < t.size → (t.get n).row < usizeMod) →
      (cells.reverse).foldl (fun u c => u.uncoverCellStep c)
          (cells.foldl (fun u c => u.coverCellStep c) t) = t := by
  induction cells with
  | nil => intro t _ _ _; rfl
  | cons c rest ih =>
    intro t hzip hnodup hrow
    obtain ⟨_, _, h1, h2⟩ := hzip c (by simp)
    have hrest : rest.reverse.foldl (fun u c => u.uncoverCellStep c)
        (rest.foldl (fun u c => u.coverCellStep c) (t.coverCellStep c))
        = t.coverCellStep c := by
      apply ih
      · intro x hxm
        refine ZipCond.preserved (hzip c (by simp)) (hzip x (by simp [hxm])) ?_
        intro hxc
        exact (List.nodup_cons.mp hnodup).1 (hxc ▸ hxm)
      · exact (List.nodup_cons.mp hnodup).2
      · exact Heap.rows_lt_coverCellStep t c hrow
    rw [List.reverse_cons, List.foldl_append]
    simp only [List.foldl_cons, List.foldl_nil]
    rw [hrest]
    exact Heap.uncover_cover_cell t c h1 h2 hrow

lemma Heap.coverCellStep_lr (t : Heap) (c n : Nat) :
    ((t.coverCellStep c).get n).left = (t.get n).left ∧
    ((t.coverCellStep c).get n).right = (t.get n).right ∧
    ((t.coverCellStep c).get n).header = (t.get n).header := by
  simp only [Heap.coverCellStep]
  rcases hhdr : ((t.cover_vertical c).get c).header with _ | hh
  · exact ⟨(Heap.cover_vertical_stable t c n).2.1, (Heap.cover_vertical_stable t c n).2.2.1,
      (Heap.cover_vertical_stable t c n).1⟩
  · refine ⟨?_, ?_, ?_⟩
    · rw [Heap.proj_modify Node.left, (Heap.cover_vertical_stable t c n).2.1]
      exact fun x => rfl
    · rw [Heap.proj_modify Node.right, (Heap.cover_vertical_stable t c n).2.2.1]
      exact fun x => rfl
    · rw [Heap.proj_modify Node.header, (Heap.cover_vertical_stable t c n).1]
      exact fun x => rfl

lemma Heap.uncoverCellStep_lr (t : Heap) (c n : Nat) :
    ((t.uncoverCellStep c).get n).left = (t.get n).left ∧
    ((t.uncoverCellStep c).get n).right = (t.get n).right ∧
    ((t.uncoverCellStep c).get n).header = (t.get n).header := by
  simp only [Heap.uncoverCellStep]
  rcases hhdr : (t.get c).header with _ | hh
  · exact ⟨(Heap.uncover_vertical_stable t c n).2.1, (Heap.uncover_vertical_stable t c n).2.2.1,
      (Heap.uncover_vertical_stable t c n).1⟩
  · refine ⟨?_, ?_, ?_⟩
    · rw [(Heap.uncover_vertical_stable _ c n).2.1, Heap.proj_modify Node.left]
      exact fun x => rfl
    · rw [(Heap.uncover_vertical_stable _ c n).2.2.1, Heap.proj_modify Node.right]
      exact fun x => rfl
    · rw [(Heap.uncover_vertical_stable _ c n).1, Heap.proj_modify Node.header]
      exact fun x => rfl

lemma Heap.coverCellStep_down_or2 (t : Heap) (c n : Nat) :
    ((t.coverCellStep c).get n).down = (t.get n).down ∨
      (n = (t.get c).up ∧ ((t.coverCellStep c).get n).down = (t.get c).down) := by
  rw [(Heap.coverCellStep_updown t c n).2]
  simp only [Heap.cover_vertical]
  rw [Heap.proj_modify Node.down]
  · rcases Heap.get_modify_or t (t.get c).up _ n with h | ⟨he, h⟩
    · left
      rw [h]
    · right
      refine ⟨he, ?_⟩
      rw [h]
  · exact fun x => rfl

lemma Heap.coverCellStep_up_or2 (t : Heap) (c n : Nat) :
    ((t.coverCellStep c).get n).up = (t.get n).up ∨
      (n = (t.get c).down ∧ ((t.coverCellStep c).get n).up = (t.get c).up) := by
  rw [(Heap.coverCellStep_updown t c n).1]
  simp only [Heap.cover_vertical]
  rcases Heap.get_modify_or (t.modify (t.get c).up _) (t.get c).down _ n with h | ⟨he, h⟩
  · left
    rw [h, Heap.proj_modify Node.up]
    exact fun x => rfl
  · right
    exact ⟨he, by rw [h]⟩

lemma Heap.uncoverCellStep_pointer_pre (t : Heap) (c n : Nat) :
    (((match (t.get c).header with
        | some hh => t.modify hh fun m => {m with row := (m.row + 1) % usizeMod}
        | none => t) : Heap).get n).up = (t.get n).up ∧
    (((match (t.get c).header with
        | some hh => t.modify hh fun m => {m with row := (m.row + 1) % usizeMod}
        | none => t) : Heap).get n).down = (t.get n).down := by
  rcases hhdr : (t.get c).header with _ | hh
  · exact ⟨rfl, rfl⟩
  · constructor
    · rw [Heap.proj_modify Node.up]
      exact fun x => rfl
    · rw [Heap.proj_modify Node.down]
      exact fun x => rfl

lemma Heap.uncoverCellStep_down_or2 (t : Heap) (c n : Nat) :
    ((t.uncoverCellStep c).get n).down = (t.get n).down ∨
      (n = (t.get c).up ∧ ((t.uncoverCellStep c).get n).down = c) := by
  simp only [Heap.uncoverCellStep, Heap.uncover_vertical]
  rw [(Heap.uncoverCellStep_pointer_pre t c c).1, (Heap.uncoverCellStep_pointer_pre t c c).2]
  rw [Heap.proj_modify Node.down]
  · rcases Heap.get_modify_or _ (t.get c).up _ n with h | ⟨he, h⟩
    · left
      rw [h, (Heap.uncoverCellStep_pointer_pre t c n).2]
    · right
      exact ⟨he, by rw [h]⟩
  · exact fun x => rfl

lemma Heap.uncoverCellStep_up_or2 (t : Heap) (c n : Nat) :
    ((t.uncoverCellStep c).get n).up = (t.get n).up ∨
      (n = (t.get c).down ∧ ((t.uncoverCellStep c).get n).up = c) := by
  simp only [Heap.uncoverCellStep, Heap.uncover_vertical]
  rw [(Heap.uncoverCellStep_pointer_pre t c c).1, (Heap.uncoverCellStep_pointer_pre t c c).2]
  rcases Heap.get_modify_or _ (t.get c).down _ n with h | ⟨he, h⟩
  · left
    rw [h, Heap.proj_modify Node.up, (Heap.uncoverCellStep_pointer_pre t c n).1]
    exact fun x => rfl
  · right
    exact ⟨he, by rw [h]⟩

lemma Heap.uncoverCellStep_row_lt (t : Heap) (c : Nat)
    (hrow : ∀ n, n < t.size → (t.get n).row < usizeMod) :
    ∀ n, n < (t.uncoverCellStep c).size → ((t.uncoverCellStep c).get n).row < usizeMod := by
  intro n hn
  rw [Heap.size_uncoverCellStep] at hn
  simp only [Heap.uncoverCellStep]
  rw [(Heap.uncover_vertical_stable _ c n).2.2.2]
  rcases hhdr : (t.get c).header with _ | hh
  · exact hrow n hn
  · rcases Heap.get_modify_or t hh _ n with h | ⟨rfl, h⟩
    · rw [h]
      exact hrow n hn
    · rw [h]
      exact inc_lt _

lemma Heap.slot_isSome_uncoverCellStep (t : Heap) (c m : Nat) :
    ((t.uncoverCellStep c).slot m).isSome = (t.slot m).isSome := by
  simp only [Heap.uncoverCellStep, Heap.uncover_vertical]
  rcases hhdr : (t.get c).header with _ | hh
  · simp only [Heap.slot_isSome_modify]
  · simp only [Heap.slot_isSome_modify]

/-- Invariant tying an intermediate state `t` of cover/uncover to the
original heap `s` and the column header `h` being covered: sizes, headers and
liveness are untouched; vertical pointers stay within their column (measured
by `cid` in `s`); the fields the loops read (down/up of column-`h` nodes,
left/right of all nodes except the two horizontal neighbours of `h`) are
unchanged; row fields stay below the `usize` modulus. -/
structure MInv (s : Heap) (h : Nat) (t : Heap) : Prop where
  size_eq : t.size = s.size
  hdr : ∀ n, (t.get n).header = (s.get n).header
  live : ∀ n, (t.slot n).isSome = (s.slot n).isSome
  vw_up : ∀ n, n < s.size → cid s ((t.get n).up) = cid s n ∧ (t.get n).up < s.size
  vw_down : ∀ n, n < s.size → cid s ((t.get n).down) = cid s n ∧ (t.get n).down < s.size
  downs : ∀ n, cid s n = cid s h → (t.get n).down = (s.get n).down
  ups : ∀ n, cid s n = cid s h → (t.get n).up = (s.get n).up
  rights : ∀ n, n ≠ (s.get h).left → (t.get n).right = (s.get n).right
  lefts : ∀ n, n ≠ (s.get h).right → (t.get n).left = (s.get n).left
  rows_lt : ∀ n, n < s.size → (t.get n).row < usizeMod

lemma cid_congr {s : Heap} {t : Heap} (hhdr : ∀ n, (t.get n).header = (s.get n).header)
    (n : Nat) : cid t n = cid s n := by
  unfold cid
  rw [hhdr]

lemma MInv.coverCellStep {s : Heap} {h : Nat} {t : Heap} (hm : MInv s h t) {c : Nat}
    (hlt : c < s.size) (hcid : cid s c ≠ cid s h) : MInv s h (t.coverCellStep c) := by
  obtain ⟨hsz, hhdr, hlive, hvu, hvd, hdn, hup, hrt, hlf, hrow⟩ := hm
  have hcu := hvu c hlt
  have hcd := hvd c hlt
  refine ⟨?_, ?_, ?_, ?_, ?_, ?_, ?_, ?_, ?_, ?_⟩
  · rw [Heap.size_coverCellStep, hsz]
  · intro n
    rw [(Heap.coverCellStep_lr t c n).2.2, hhdr]
  · intro n
    rw [Heap.slot_isSome_coverCellStep, hlive]
  · intro n hn
    rcases Heap.coverCellStep_up_or2 t c n with h1 | ⟨he, h1⟩
    · rw [h1]
      exact hvu n hn
    · rw [h1, he]
      exact ⟨hcu.1.trans (hcd.1.symm), hcu.2⟩
  · intro n hn
    rcases Heap.coverCellStep_down_or2 t c n with h1 | ⟨he, h1⟩
    · rw [h1]
      exact hvd n hn
    · rw [h1, he]
      exact ⟨hcd.1.trans (hcu.1.symm), hcd.2⟩
  · intro n hn
    rcases Heap.coverCellStep_down_or2 t c n with h1 | ⟨he, h1⟩
    · rw [h1]
      exact hdn n hn
    · exfalso
      apply hcid
      rw [← hn, he]
      exact hcu.1.symm
  · intro n hn
    rcases Heap.coverCellStep_up_or2 t c n with h1 | ⟨he, h1⟩
    · rw [h1]
      exact hup n hn
    · exfalso
      apply hcid
      rw [← hn, he]
      exact hcd.1.symm
  · intro n hn
    rw [(Heap.coverCellStep_lr t c n).2.1]
    exact hrt n hn
  · intro n hn
    rw [(Heap.coverCellStep_lr t c n).1]
    exact hlf n hn
  · intro n hn
    have := Heap.rows_lt_coverCellStep t c (fun k hk => hrow k (by rwa [hsz] at hk)) n
    rw [Heap.size_coverCellStep, hsz] at this
    exact this hn

lemma MInv.uncoverCellStep {s : Heap} {h : Nat} {t : Heap} (hm : MInv s h t) {c : Nat}
    (hlt : c < s.size) (hcid : cid s c ≠ cid s h) : MInv s h (t.uncoverCellStep c) := by
  obtain ⟨hsz, hhdr, hlive, hvu, hvd, hdn, hup, hrt, hlf, hrow⟩ := hm
  have hcu := hvu c hlt
  have hcd := hvd c hlt
  refine ⟨?_, ?_, ?_, ?_, ?_, ?_, ?_, ?_, ?_, ?_⟩
  · rw [Heap.size_uncoverCellStep, hsz]
  · intro n
    rw [(Heap.uncoverCellStep_lr t c n).2.2, hhdr]
  · intro n
    rw [Heap.slot_isSome_uncoverCellStep, hlive]
  · intro n hn
    rcases Heap.uncoverCellStep_up_or2 t c n with h1 | ⟨he, h1⟩
    · rw [h1]
      exact hvu n hn
    · rw [h1, he]
      exact ⟨hcd.1.symm ▸ rfl, hlt⟩
  · intro n hn
    rcases Heap.uncoverCellStep_down_or2 t c n with h1 | ⟨he, h1⟩
    · rw [h1]
      exact hvd n hn
    · rw [h1, he]
      exact ⟨hcu.1.symm ▸ rfl, hlt⟩
  · intro n hn
    rcases Heap.uncoverCellStep_down_or2 t c n with h1 | ⟨he, h1⟩
    · rw [h1]
      exact hdn n hn
    · exfalso
      apply hcid
      rw [← hn, he]
      exact hcu.1.symm
  · intro n hn
    rcases Heap.uncoverCellStep_up_or2 t c n with h1 | ⟨he, h1⟩
    · rw [h1]
      exact hup n hn
    · exfalso
      apply hcid
      rw [← hn, he]
      exact hcd.1.symm
  · intro n hn
    rw [(Heap.uncoverCellStep_lr t c n).2.1]
    exact hrt n hn
  · intro n hn
    rw [(Heap.uncoverCellStep_lr t c n).1]
    exact hlf n hn
  · intro n hn
    have := Heap.uncoverCellStep_row_lt t c (fun k hk => hrow k (by rwa [hsz] at hk)) n
    rw [Heap.size_uncoverCellStep, hsz] at this
    exact this hn

lemma MInv_cover_horizontal (s : Heap) (h : Nat)
    (hvw : ∀ n, n < s.size →
      cid s ((s.get n).up) = cid s n ∧ (s.get n).up < s.size ∧
      cid s ((s.get n).down) = cid s n ∧ (s.get n).down < s.size)
    (hrl : ∀ n, n < s.size → (s.get n).row < usizeMod) :
    MInv s h (s.cover_horizontal h) := by
  refine ⟨?_, ?_, ?_, ?_, ?_, ?_, ?_, ?_, ?_, ?_⟩
  · exact Heap.size_cover_horizontal s h
  · intro n
    exact (Heap.cover_horizontal_stable s h n).1
  · intro n
    simp only [Heap.cover_horizontal, Heap.slot_isSome_modify]
  · intro n hn
    rw [(Heap.cover_horizontal_stable s h n).2.1]
    exact ⟨(hvw n hn).1, (hvw n hn).2.1⟩
  · intro n hn
    rw [(Heap.cover_horizontal_stable s h n).2.2.1]
    exact ⟨(hvw n hn).2.2.1, (hvw n hn).2.2.2⟩
  · intro n _
    exact (Heap.cover_horizontal_stable s h n).2.2.1
  · intro n _
    exact (Heap.cover_horizontal_stable s h n).2.1
  · intro n hne
    simp only [Heap.cover_horizontal]
    rw [Heap.proj_modify Node.right, Heap.get_modify_ne _ _ _ _ hne]
    exact fun x => rfl
  · intro n hne
    simp only [Heap.cover_horizontal]
    rw [Heap.get_modify_ne _ _ _ _ hne, Heap.proj_modify Node.left]
    exact fun x => rfl
  · intro n hn
    rw [(Heap.cover_horizontal_stable s h n).2.2.2]
    exact hrl n hn

/-- A mutating ring loop whose step reads are stable along a static chain
computes a left fold of its body over that chain. -/
lemma ringLoop_eq_foldl {σ : Type} (step : σ → Nat → Nat) (body : σ → Nat → σ)
    (orig : Nat) (staticStep : Nat → Nat) (P : σ → Prop) :
    ∀ (l : List Nat) (fuel : Nat) (st : σ) (cur : Nat),
      l.head? = some cur →
      List.Chain' (fun a b => staticStep a = b) l →
      staticStep (l.getLastD 0) = orig →
      (∀ x ∈ l, x ≠ orig) →
      l.length ≤ fuel →
      P st →
      (∀ t c, P t → c ∈ l → step t c = staticStep c) →
      (∀ t c, P t → c ∈ l → P (body t c)) →
      ringLoop step body orig fuel st cur = l.foldl body st ∧ P (l.foldl body st) := by
  intro l
  induction l with
  | nil => intro fuel st cur h _ _ _ _ _ _ _; simp at h
  | cons a rest ih =>
    intro fuel st cur hhead hchain hlast hne hlen hP hstab hpres
    have hac : a = cur := by simpa using hhead
    subst hac
    obtain ⟨fuel, rfl⟩ : ∃ f, fuel = f + 1 := ⟨fuel - 1, by simp at hlen; omega⟩
    have hstep : step st a = staticStep a := hstab st a hP (by simp)
    cases rest with
    | nil =>
      have hso : staticStep a = orig := by simpa using hlast
      simp only [ringLoop]
      rw [hstep, if_pos hso]
      exact ⟨rfl, hpres st a hP (by simp)⟩
    | cons b rest2 =>
      have hab : staticStep a = b := (List.chain'_cons.mp hchain).1
      have hbne : b ≠ orig := hne b (by simp)
      simp only [ringLoop]
      rw [hstep, hab, if_neg hbne]
      have hrec := ih fuel (body st a) b rfl (List.chain'_cons.mp hchain).2
        (by simpa [List.getLastD_cons] using hlast)
        (fun x hx => hne x (List.mem_cons_of_mem a hx))
        (by simp at hlen ⊢; omega)
        (hpres st a hP (by simp))
        (fun t c hPt hc => hstab t c hPt (List.mem_cons_of_mem a hc))
        (fun t c hPt hc => hpres t c hPt (List.mem_cons_of_mem a hc))
      simpa using hrec

/-- The `skip(1)` form: the loop body runs over the successor chain of
`orig`, empty exactly when `orig` is self-linked. -/
lemma ringLoopTail_eq_foldl {σ : Type} (step : σ → Nat → Nat) (body : σ → Nat → σ)
    (orig : Nat) (staticStep : Nat → Nat) (P : σ → Prop)
    (l : List Nat) (fuel : Nat) (st : σ)
    (hst : ∀ t, P t → step t orig = staticStep orig)
    (hhead : l.head? = if staticStep orig = orig then none else some (staticStep orig))
    (hchain : List.Chain' (fun a b => staticStep a = b) l)
    (hlast : l ≠ [] → staticStep (l.getLastD 0) = orig)
    (hne : ∀ x ∈ l, x ≠ orig)
    (hlen : l.length ≤ fuel)
    (hP : P st)
    (hstab : ∀ t c, P t → c ∈ l → step t c = staticStep c)
    (hpres : ∀ t c, P t → c ∈ l → P (body t c)) :
    ringLoopTail step body fuel st orig = l.foldl body st ∧ P (l.foldl body st) := by
  unfold ringLoopTail
  rw [hst st hP]
  by_cases hself : staticStep orig = orig
  · rw [if_pos hself] at hhead
    have hl : l = [] := by
      cases l with
      | nil => rfl
      | cons x xs => simp at hhead
    subst hl
    simp only [List.foldl_nil]
    rw [if_pos hself]
    exact ⟨rfl, hP⟩
  · rw [if_neg hself] at hhead
    rw [if_neg hself]
    exact ringLoop_eq_foldl step body orig staticStep P l fuel st (staticStep orig)
      hhead hchain (hlast (by rintro rfl; simp at hhead)) hne hlen hP hstab hpres

/-- The row ring of `r` in `s`: `rs` lists the cells strictly right of `r`
in order (empty for a singleton ring), with the matching left-chain, no
duplicates, and every cell inside the heap, outside column `h`, and distinct
from `h`'s two horizontal neighbours (which `cover_horizontal h` rewrites). -/
def RowOk (s : Heap) (h r : Nat) (rs : List Nat) : Prop :=
  (s.get r).right = rs.headD r ∧
  chainb (fun n => (s.get n).right) rs = true ∧
  (rs ≠ [] → (s.get (rs.getLastD 0)).right = r) ∧
  (s.get r).left = (rs.reverse).headD r ∧
  chainb (fun n => (s.get n).left) rs.reverse = true ∧
  (rs ≠ [] → (s.get ((rs.reverse).getLastD 0)).left = r) ∧
  r ∉ rs ∧ rs.dedup = rs ∧
  (∀ x ∈ rs, x < s.size ∧ cid s x ≠ cid s h ∧
    x ≠ (s.get h).left ∧ x ≠ (s.get h).right)

/-- The column ring of header `h` in `s`: `cs` lists the cells strictly
below `h` in order, with the matching up-chain, no duplicates, and every
cell inside the heap, in column `h`, and distinct from `h`'s two horizontal
neighbours. -/
def ColOk (s : Heap) (h : Nat) (cs : List Nat) : Prop :=
  (s.get h).down = cs.headD h ∧
  chainb (fun n => (s.get n).down) cs = true ∧
  (cs ≠ [] → (s.get (cs.getLastD 0)).down = h) ∧
  (s.get h).up = (cs.reverse).headD h ∧
  chainb (fun n => (s.get n).up) cs.reverse = true ∧
  (cs ≠ [] → (s.get ((cs.reverse).getLastD 0)).up = h) ∧
  h ∉ cs ∧ cs.dedup = cs ∧
  (∀ c ∈ cs, c < s.size ∧ cid s c = cid s h ∧
    c ≠ (s.get h).left ∧ c ≠ (s.get h).right)

lemma head_encode {r : Nat} {rs : List Nat} (step : Nat → Nat)
    (hh1 : step r = rs.headD r) (hnotin : r ∉ rs) :
    rs.head? = if step r = r then none else some (step r) := by
  cases rs with
  | nil =>
    simp only [List.headD_nil] at hh1
    rw [if_pos hh1]
    rfl
  | cons x xs =>
    have hxr : x ≠ r := fun hxr => hnotin (hxr ▸ List.mem_cons_self x xs)
    simp only [List.headD_cons] at hh1
    rw [hh1, if_neg hxr]
    rfl

/-- Straightening of the inner cover loop of one row: under `MInv` the lazy
reads equal the original chain, so the loop is a fold of `coverCellStep`. -/
lemma inner_cover_eq (s : Heap) (h : Nat) (r : Nat) (rs : List Nat) (t : Heap)
    (hM : MInv s h t) (hrow : RowOk s h r rs) (hrhl : r ≠ (s.get h).left) :
    ringLoopTail (fun t c => (Heap.get t c).right) (fun t c => Heap.coverCellStep t c)
        (Heap.size t) t r
      = rs.foldl (fun t c => Heap.coverCellStep t c) t ∧
      MInv s h (rs.foldl (fun t c => Heap.coverCellStep t c) t) := by
  obtain ⟨hh1, hh2, hh3, _, _, _, hnotin, hded, hbound⟩ := hrow
  apply ringLoopTail_eq_foldl (fun t c => (Heap.get t c).right)
    (fun t c => Heap.coverCellStep t c) r (fun n => (s.get n).right) (MInv s h) rs
    (Heap.size t) t
  · intro u hu
    exact hu.rights r hrhl
  · exact head_encode (fun n => (s.get n).right) hh1 hnotin
  · exact (chainb_iff _ rs).mp hh2
  · exact hh3
  · intro x hx hxr
    exact hnotin (hxr ▸ hx)
  · rw [hM.size_eq]
    exact length_le_of_nodup_lt rs s.size (List.dedup_eq_self.mp hded)
      (fun x hx => (hbound x hx).1)
  · exact hM
  · intro u c hu hc
    exact hu.rights c (hbound c hc).2.2.1
  · intro u c hu hc
    exact MInv.coverCellStep hu (hbound c hc).1 (hbound c hc).2.1

lemma inner_uncover_eq (s : Heap) (h : Nat) (r : Nat) (rs : List Nat) (t : Heap)
    (hM : MInv s h t) (hrow : RowOk s h r rs) (hrhr : r ≠ (s.get h).right) :
    ringLoopTail (fun t c => (Heap.get t c).left) (fun t c => Heap.uncoverCellStep t c)
        (Heap.size t) t r
      = (rs.reverse).foldl (fun t c => Heap.uncoverCellStep t c) t ∧
      MInv s h ((rs.reverse).foldl (fun t c => Heap.uncoverCellStep t c) t) := by
  obtain ⟨_, _, _, hl1, hl2, hl3, hnotin, hded, hbound⟩ := hrow
  apply ringLoopTail_eq_foldl (fun t c => (Heap.get t c).left)
    (fun t c => Heap.uncoverCellStep t c) r (fun n => (s.get n).left) (MInv s h)
    rs.reverse (Heap.size t) t
  · intro u hu
    exact hu.lefts r hrhr
  · exact head_encode (fun n => (s.get n).left) hl1 (by simpa using hnotin)
  · exact (chainb_iff _ rs.reverse).mp hl2
  · intro hne
    exact hl3 (by simpa using hne)
  · intro x hx hxr
    exact hnotin (hxr ▸ List.mem_reverse.mp hx)
  · rw [hM.size_eq, List.length_reverse]
    exact length_le_of_nodup_lt rs s.size (List.dedup_eq_self.mp hded)
      (fun x hx => (hbound x hx).1)
  · exact hM
  · intro u c hu hc
    exact hu.lefts c (hbound c (List.mem_reverse.mp hc)).2.2.2
  · intro u c hu hc
    exact MInv.uncoverCellStep hu (hbound c (List.mem_reverse.mp hc)).1
      (hbound c (List.mem_reverse.mp hc)).2.1

lemma rows_fold_cover (s : Heap) (h : Nat) (ROWS : Nat → List Nat) :
    ∀ (cs : List Nat) (t : Heap), MInv s h t →
      (∀ r ∈ cs, RowOk s h r (ROWS r) ∧ r ≠ (s.get h).left) →
      cs.foldl (fun u r => ringLoopTail (fun t c => (Heap.get t c).right)
          (fun t c => Heap.coverCellStep t c) (Heap.size u) u r) t
        = ((cs.map ROWS).flatten).foldl (fun t c => Heap.coverCellStep t c) t ∧
      MInv s h (((cs.map ROWS).flatten).foldl (fun t c => Heap.coverCellStep t c) t) := by
  intro cs
  induction cs with
  | nil => intro t hM _; exact ⟨rfl, hM⟩
  | cons r cs ih =>
    intro t hM hall
    obtain ⟨hrow, hrhl⟩ := hall r (by simp)
    obtain ⟨he, hMi⟩ := inner_cover_eq s h r (ROWS r) t hM hrow hrhl
    simp only [List.foldl_cons, List.map_cons, List.flatten_cons, List.foldl_append]
    rw [he]
    exact ih _ hMi (fun x hx => hall x (by simp [hx]))

lemma rows_fold_uncover (s : Heap) (h : Nat) (ROWS : Nat → List Nat) :
    ∀ (cs : List Nat) (t : Heap), MInv s h t →
      (∀ r ∈ cs, RowOk s h r (ROWS r) ∧ r ≠ (s.get h).right) →
      cs.foldl (fun u r => ringLoopTail (fun t c => (Heap.get t c).left)
          (fun t c => Heap.uncoverCellStep t c) (Heap.size u) u r) t
        = ((cs.map (fun r => (ROWS r).reverse)).flatten).foldl
            (fun t c => Heap.uncoverCellStep t c) t ∧
      MInv s h (((cs.map (fun r => (ROWS r).reverse)).flatten).foldl
            (fun t c => Heap.uncoverCellStep t c) t) := by
  intro cs
  induction cs with
  | nil => intro t hM _; exact ⟨rfl, hM⟩
  | cons r cs ih =>
    intro t hM hall
    obtain ⟨hrow, hrhr⟩ := hall r (by simp)
    obtain ⟨he, hMi⟩ := inner_uncover_eq s h r (ROWS r) t hM hrow hrhr
    simp only [List.foldl_cons, List.map_cons, List.flatten_cons, List.foldl_append]
    rw [he]
    exact ih _ hMi (fun x hx => hall x (by simp [hx]))

/-- `cover_column h` is the horizontal unlink of `h` followed by a fold of
`coverCellStep` over the cells of the rows of column `h`, in traversal
order; the fold state satisfies `MInv`. -/
lemma cover_column_eq_fold (s : Heap) (h : Nat) (cs : List Nat) (ROWS : Nat → List Nat)
    (hhdr : (s.get h).header = none)
    (hcol : ColOk s h cs)
    (hrows : ∀ r ∈ cs, RowOk s h r (ROWS r))
    (hvw : ∀ n, n < s.size → cid s ((s.get n).up) = cid s n ∧ (s.get n).up < s.size ∧
      cid s ((s.get n).down) = cid s n ∧ (s.get n).down < s.size)
    (hrl : ∀ n, n < s.size → (s.get n).row < usizeMod) :
    s.cover_column h
      = ((cs.map ROWS).flatten).foldl (fun t c => Heap.coverCellStep t c)
          (s.cover_horizontal h) ∧
      MInv s h (((cs.map ROWS).flatten).foldl (fun t c => Heap.coverCellStep t c)
          (s.cover_horizontal h)) := by
  obtain ⟨hd1, hd2, hd3, hu1, hu2, hu3, hnotin, hded, hbound⟩ := hcol
  have hbase := MInv_cover_horizontal s h hvw hrl
  have hres : s.cover_column h = ringLoopTail (fun t c => (Heap.get t c).down)
      (fun t r => ringLoopTail (fun t c => (Heap.get t c).right)
        (fun t c => Heap.coverCellStep t c) (Heap.size t) t r)
      (s.cover_horizontal h).size (s.cover_horizontal h) h := by
    simp only [Heap.cover_column]
    rw [hhdr]
  rw [hres]
  have houter := ringLoopTail_eq_foldl (fun t c => (Heap.get t c).down)
    (fun t r => ringLoopTail (fun t c => (Heap.get t c).right)
      (fun t c => Heap.coverCellStep t c) (Heap.size t) t r)
    h (fun n => (s.get n).down) (MInv s h) cs (s.cover_horizontal h).size
    (s.cover_horizontal h)
    (fun u hu => hu.downs h rfl)
    (head_encode (fun n => (s.get n).down) hd1 hnotin)
    ((chainb_iff _ cs).mp hd2)
    hd3
    (fun x hx hxh => hnotin (hxh ▸ hx))
    (by
      rw [Heap.size_cover_horizontal]
      exact length_le_of_nodup_lt cs s.size (List.dedup_eq_self.mp hded)
        (fun x hx => (hbound x hx).1))
    hbase
    (fun u c hu hc => hu.downs c (hbound c hc).2.1)
    (fun u r hu hr => by
      have hi := inner_cover_eq s h r (ROWS r) u hu (hrows r hr) (hbound r hr).2.2.1
      show MInv s h (ringLoopTail (fun t c => (Heap.get t c).right)
        (fun t c => Heap.coverCellStep t c) (Heap.size u) u r)
      rw [hi.1]
      exact hi.2)
  obtain ⟨he, hMf⟩ := houter
  rw [he]
  exact rows_fold_cover s h ROWS cs (s.cover_horizontal h) hbase
    (fun r hr => ⟨hrows r hr, (hbound r hr).2.2.1⟩)

/-- `uncover_column h` on any `MInv` state is the reverse fold of
`uncoverCellStep`, followed by the horizontal relink of `h`. -/
lemma uncover_column_eq_fold (s : Heap) (h : Nat) (cs : List Nat) (ROWS : Nat → List Nat)
    (hhdr : (s.get h).header = none)
    (hcol : ColOk s h cs)
    (hrows : ∀ r ∈ cs, RowOk s h r (ROWS r))
    (t : Heap) (hM : MInv s h t) :
    t.uncover_column h
      = Heap.uncover_horizontal
          (((cs.reverse.map (fun r => (ROWS r).reverse)).flatten).foldl
            (fun u c => Heap.uncoverCellStep u c) t) h := by
  obtain ⟨hd1, hd2, hd3, hu1, hu2, hu3, hnotin, hded, hbound⟩ := hcol
  have hres : t.uncover_column h = Heap.uncover_horizontal
      (ringLoopTail (fun t c => (Heap.get t c).up)
        (fun t r => ringLoopTail (fun t c => (Heap.get t c).left)
          (fun t c => Heap.uncoverCellStep t c) (Heap.size t) t r)
        t.size t h) h := by
    simp only [Heap.uncover_column]
    rw [hM.hdr h, hhdr]
  rw [hres]
  have houter := ringLoopTail_eq_foldl (fun t c => (Heap.get t c).up)
    (fun t r => ringLoopTail (fun t c => (Heap.get t c).left)
      (fun t c => Heap.uncoverCellStep t c) (Heap.size t) t r)
    h (fun n => (s.get n).up) (MInv s h) cs.reverse t.size t
    (fun u hu => hu.ups h rfl)
    (head_encode (fun n => (s.get n).up) hu1 (by simpa using hnotin))
    ((chainb_iff _ cs.reverse).mp hu2)
    (fun hne => hu3 (by simpa using hne))
    (fun x hx hxh => hnotin (hxh ▸ List.mem_reverse.mp hx))
    (by
      rw [hM.size_eq, List.length_reverse]
      exact length_le_of_nodup_lt cs s.size (List.dedup_eq_self.mp hded)
        (fun x hx => (hbound x hx).1))
    hM
    (fun u c hu hc => hu.ups c (hbound c (List.mem_reverse.mp hc)).2.1)
    (fun u r hu hr => by
      have hi := inner_uncover_eq s h r (ROWS r) u hu (hrows r (List.mem_reverse.mp hr))
        (hbound r (List.mem_reverse.mp hr)).2.2.2
      show MInv s h (ringLoopTail (fun t c => (Heap.get t c).left)
        (fun t c => Heap.uncoverCellStep t c) (Heap.size u) u r)
      rw [hi.1]
      exact hi.2)
  obtain ⟨he, hMf⟩ := houter
  rw [he]
  have hrf := rows_fold_uncover s h ROWS cs.reverse t hM
    (fun r hr => ⟨hrows r (List.mem_reverse.mp hr),
      (hbound r (List.mem_reverse.mp hr)).2.2.2⟩)
  rw [hrf.1]

lemma Heap.cover_horizontal_get_self (t : Heap) (c : Nat)
    (h1 : (t.get ((t.get c).left)).right = c)
    (h2 : (t.get ((t.get c).right)).left = c) :
    (t.cover_horizontal c).get c = t.get c := by
  by_cases hb : (t.get c).right = c
  · have ha : (t.get c).left = c := by
      have h2' := h2
      rw [hb] at h2'
      exact h2'
    simp only [Heap.cover_horizontal]
    rw [ha, hb, Heap.modify_modify_same]
    rcases Heap.get_modify_or t c _ c with h | ⟨-, h⟩
    · exact h
    · rw [h]
      rcases hx : t.get c with ⟨hd, l, r, u, d, rr⟩
      rw [hx] at ha hb
      simp at ha hb
      simp [ha, hb]
  · have ha : (t.get c).left ≠ c := by
      intro hA
      apply hb
      have h1' := h1
      rw [hA] at h1'
      exact h1'
    simp only [Heap.cover_horizontal]
    rw [Heap.get_modify_ne _ _ _ _ (fun hh => hb hh.symm),
      Heap.get_modify_ne _ _ _ _ (fun hh => ha hh.symm)]

/-- `uncover_horizontal` exactly undoes `cover_horizontal` when the node's
stored horizontal pointers are consistent with its neighbours. -/
lemma Heap.uncover_cover_horizontal (t : Heap) (c : Nat)
    (h1 : (t.get ((t.get c).left)).right = c)
    (h2 : (t.get ((t.get c).right)).left = c) :
    (t.cover_horizontal c).uncover_horizontal c = t := by
  have hCHc := Heap.cover_horizontal_get_self t c h1 h2
  simp only [Heap.uncover_horizontal]
  rw [hCHc]
  simp only [Heap.cover_horizontal]
  by_cases hab : (t.get c).left = (t.get c).right
  · rw [hab, Heap.modify_modify_same, Heap.modify_modify_same, Heap.modify_modify_same]
    apply Heap.modify_noop
    intro x hx
    have hgx := Heap.slot_some_get hx
    have h1' := h1
    rw [hab, hgx] at h1'
    have h2' := h2
    rw [hgx] at h2'
    rcases x with ⟨hd, l, r, u, d, rr⟩
    simp at h1' h2'
    simp [h1', h2']
  · rw [Heap.modify_comm _ _ _ _ _ (fun hh => hab hh.symm), Heap.modify_modify_same,
      Heap.modify_modify_same]
    have e1 : t.modify (t.get c).left
        (fun x => {{x with right := (t.get c).right} with right := c}) = t := by
      apply Heap.modify_noop
      intro x hx
      have hgx := Heap.slot_some_get hx
      have h1' := h1
      rw [hgx] at h1'
      rcases x with ⟨hd, l, r, u, d, rr⟩
      simp at h1'
      simp [h1']
    rw [e1]
    apply Heap.modify_noop
    intro x hx
    have hgx := Heap.slot_some_get hx
    have h2' := h2
    rw [hgx] at h2'
    rcases x with ⟨hd, l, r, u, d, rr⟩
    simp at h2'
    simp [h2']

lemma flatten_map_reverse (ROWS : Nat → List Nat) :
    ∀ (cs : List Nat),
      ((cs.map ROWS).flatten).reverse
        = (cs.reverse.map (fun r => (ROWS r).reverse)).flatten := by
  intro cs
  induction cs with
  | nil => rfl
  | cons c cs ih =>
    simp only [List.map_cons, List.flatten_cons, List.reverse_append, ih, List.reverse_cons,
      List.map_append, List.flatten_append]
    simp

lemma ZipCond_CH (s : Heap) (h c : Nat) (hz : ZipCond s c) :
    ZipCond (s.cover_horizontal h) c := by
  obtain ⟨za, zb, z1, z2⟩ := hz
  have hst := Heap.cover_horizontal_stable s h
  refine ⟨?_, ?_, ?_, ?_⟩
  · rw [(hst c).2.1]
    simp only [Heap.cover_horizontal, Heap.slot_isSome_modify]
    exact za
  · rw [(hst c).2.2.1]
    simp only [Heap.cover_horizontal, Heap.slot_isSome_modify]
    exact zb
  · rw [(hst c).2.1, (hst ((s.get c).up)).2.2.1]
    exact z1
  · rw [(hst c).2.2.1, (hst ((s.get c).down)).2.1]
    exact z2

/-- C2: on a well-formed matrix state (`h` a header with consistent
horizontal neighbours, its column listed by `cs`, each row of the column
listed by `ROWS`, vertical pointers staying inside their columns, stored
pointers consistent with neighbours, counts below the `usize` modulus),
`cover_column h` immediately followed by `uncover_column h` restores the heap
— every neighbour pointer and every live count — exactly. -/
theorem c2_cover_uncover_roundtrip (s : Heap) (h : Nat) (cs : List Nat)
    (ROWS : Nat → List Nat)
    (hhdr : (s.get h).header = none)
    (hH1 : (s.get ((s.get h).left)).right = h)
    (hH2 : (s.get ((s.get h).right)).left = h)
    (hcol : ColOk s h cs)
    (hrows : ∀ r ∈ cs, RowOk s h r (ROWS r))
    (hvw : ∀ n, n < s.size → cid s ((s.get n).up) = cid s n ∧ (s.get n).up < s.size ∧
      cid s ((s.get n).down) = cid s n ∧ (s.get n).down < s.size)
    (hrl : ∀ n, n < s.size → (s.get n).row < usizeMod)
    (hzip : ∀ c ∈ (cs.map ROWS).flatten, ZipCond s c)
    (hnodup : ((cs.map ROWS).flatten).dedup = (cs.map ROWS).flatten) :
    (s.cover_column h).uncover_column h = s := by
  obtain ⟨hcov, hM⟩ := cover_column_eq_fold s h cs ROWS hhdr hcol hrows hvw hrl
  rw [hcov, uncover_column_eq_fold s h cs ROWS hhdr hcol hrows _ hM,
    ← flatten_map_reverse ROWS cs,
    fold_cover_uncover ((cs.map ROWS).flatten) (s.cover_horizontal h)
      (fun c hc => ZipCond_CH s h c (hzip c hc))
      (List.dedup_eq_self.mp hnodup)
      (fun n hn => by
        rw [(Heap.cover_horizontal_stable s h n).2.2.2]
        exact hrl n (by rwa [Heap.size_cover_horizontal] at hn))]
  exact Heap.uncover_cover_horizontal s h hH1 hH2

instance (t : Heap) (c : Nat) : Decidable (ZipCond t c) :=
  inferInstanceAs (Decidable (_ ∧ _ ∧ _ ∧ _))

instance (s : Heap) (h r : Nat) (rs : List Nat) : Decidable (RowOk s h r rs) :=
  inferInstanceAs (Decidable (_ ∧ _ ∧ _ ∧ _ ∧ _ ∧ _ ∧ _ ∧ _ ∧ _))

instance (s : Heap) (h : Nat) (cs : List Nat) : Decidable (ColOk s h cs) :=
  inferInstanceAs (Decidable (_ ∧ _ ∧ _ ∧ _ ∧ _ ∧ _ ∧ _ ∧ _ ∧ _))

/-- Witness for `c2_cover_uncover_roundtrip` on the matrix of
`[[0, 1], [1, 2]]`, covering and uncovering the first column header (index
1, column `[2, 3]`, row 1's other cell being 5). -/
theorem c2_cover_uncover_roundtrip_witness :
    ((SolverMatrix.new [[0, 1], [1, 2]]).heap.cover_column 1).uncover_column 1
      = (SolverMatrix.new [[0, 1], [1, 2]]).heap :=
  c2_cover_uncover_roundtrip (SolverMatrix.new [[0, 1], [1, 2]]).heap 1 [2, 3]
    (fun r => if r = 3 then [5] else [])
    (by decide) (by decide) (by decide) (by decide) (by decide) (by decide)
    (by decide) (by decide) (by decide)


/- ### Cyclic ring chains via consecutive pairs ### -/

/-- Consecutive pairs of a list. -/
def chainPairs (l : List Nat) : List (Nat × Nat) := l.zip l.tail

/-- A function `step` follows the cyclic ring `o :: l` (and wraps back to
`o`) when it maps every consecutive pair of `o :: l ++ [o]` forward. -/
def CycChain (step : Nat → Nat) (o : Nat) (l : List Nat) : Prop :=
  ∀ p ∈ chainPairs (o :: l ++ [o]), step p.1 = p.2

lemma chainPairs_cons₂ (a b : Nat) (l : List Nat) :
    chainPairs (a :: b :: l) = (a, b) :: chainPairs (b :: l) := rfl

lemma getLastD_cons_cons (a b : Nat) (l : List Nat) (d : Nat) :
    (a :: b :: l).getLastD d = (b :: l).getLastD d := by
  rw [List.getLastD_eq_getLast?, List.getLastD_eq_getLast?, List.getLast?_cons_cons]

lemma chainPairs_append (u v : List Nat) (hu : u ≠ []) (hv : v ≠ []) :
    chainPairs (u ++ v) = chainPairs u ++ (u.getLastD 0, v.headD 0) :: chainPairs v := by
  induction u with
  | nil => exact absurd rfl hu
  | cons a u ih =>
    cases u with
    | nil =>
      cases v with
      | nil => exact absurd rfl hv
      | cons b v2 => rfl
    | cons b u2 =>
      have h2 := ih (by simp)
      have e1 : chainPairs ((a :: b :: u2) ++ v) = (a, b) :: chainPairs ((b :: u2) ++ v) := rfl
      have e2 : chainPairs (a :: b :: u2) = (a, b) :: chainPairs (b :: u2) := rfl
      rw [e1, h2, e2, getLastD_cons_cons]
      rfl

lemma chainPairs_fst_mem {a b : Nat} {l : List Nat}
    (h : (a, b) ∈ chainPairs l) : a ∈ l.dropLast := by
  induction l with
  | nil => simp [chainPairs] at h
  | cons x l ih =>
    cases l with
    | nil => simp [chainPairs] at h
    | cons y l2 =>
      rw [chainPairs_cons₂] at h
      rcases List.mem_cons.mp h with h | h
      · simp only [Prod.mk.injEq] at h
        simp [h.1]
      · have := ih h
        simp only [List.dropLast_cons₂]
        exact List.mem_cons_of_mem _ this

lemma chainPairs_snd_mem {a b : Nat} {l : List Nat}
    (h : (a, b) ∈ chainPairs l) : b ∈ l.tail :=
  (List.of_mem_zip h).2

lemma exists_chainPair_fst {l : List Nat} {x : Nat} (hx : x ∈ l.dropLast) :
    ∃ y, (x, y) ∈ chainPairs l := by
  induction l with
  | nil => simp at hx
  | cons a l ih =>
    cases l with
    | nil => simp at hx
    | cons b l2 =>
      simp only [List.dropLast_cons₂, List.mem_cons] at hx
      rcases hx with rfl | hx
      · exact ⟨b, by simp [chainPairs_cons₂]⟩
      · obtain ⟨y, hy⟩ := ih hx
        exact ⟨y, by rw [chainPairs_cons₂]; exact List.mem_cons_of_mem _ hy⟩

lemma exists_chainPair_snd {l : List Nat} {x : Nat} (hx : x ∈ l.tail) :
    ∃ y, (y, x) ∈ chainPairs l := by
  induction l with
  | nil => simp at hx
  | cons a l ih =>
    cases l with
    | nil => simp at hx
    | cons b l2 =>
      simp only [List.tail_cons] at hx
      rcases List.mem_cons.mp hx with rfl | hx
      · exact ⟨a, by simp [chainPairs_cons₂]⟩
      · obtain ⟨y, hy⟩ := ih (by simpa using hx)
        exact ⟨y, by rw [chainPairs_cons₂]; exact List.mem_cons_of_mem _ hy⟩

lemma chainPairs_reverse (l : List Nat) :
    chainPairs l.reverse = (chainPairs l).reverse.map (fun p => (p.2, p.1)) := by
  induction l with
  | nil => rfl
  | cons a l ih =>
    cases l with
    | nil => rfl
    | cons b l2 =>
      have hrev : (b :: l2).reverse ≠ [] := by simp
      rw [show (a :: b :: l2).reverse = (b :: l2).reverse ++ [a] by simp,
        chainPairs_append _ [a] hrev (by simp), ih, chainPairs_cons₂]
      simp only [List.reverse_cons, List.map_append, List.map_cons, List.map_nil]
      congr 2
      rw [List.getLastD_eq_getLast?, List.getLast?_concat]
      rfl

/-- The cyclic list of the reversed ring. -/
lemma cyc_list_reverse (o : Nat) (l : List Nat) :
    ((o :: l ++ [o]).reverse) = o :: l.reverse ++ [o] := by
  simp

lemma CycChain.pair_rev {bwd : Nat → Nat} {o : Nat} {l : List Nat}
    (hb : CycChain bwd o l.reverse) {a b : Nat}
    (hp : (a, b) ∈ chainPairs (o :: l ++ [o])) : bwd b = a := by
  have hm : (b, a) ∈ chainPairs (o :: l.reverse ++ [o]) := by
    rw [← cyc_list_reverse, chainPairs_reverse]
    simp only [List.mem_map, List.mem_reverse]
    exact ⟨(a, b), hp, rfl⟩
  exact hb (b, a) hm

lemma cyc_dropLast (o : Nat) (l : List Nat) : (o :: l ++ [o]).dropLast = o :: l := by
  rw [show (o :: l ++ [o]) = (o :: l) ++ [o] by simp, List.dropLast_concat]

lemma cyc_tail (o : Nat) (l : List Nat) : (o :: l ++ [o]).tail = l ++ [o] := rfl

lemma CycChain.mem_step {fwd : Nat → Nat} {o : Nat} {l : List Nat}
    (hf : CycChain fwd o l) {x : Nat} (hx : x ∈ o :: l) : fwd x ∈ o :: l := by
  obtain ⟨y, hy⟩ := exists_chainPair_fst (l := o :: l ++ [o]) (by rw [cyc_dropLast]; exact hx)
  have hst := hf _ hy
  have hmem := chainPairs_snd_mem hy
  rw [cyc_tail] at hmem
  rw [hst]
  rcases List.mem_append.mp hmem with h | h
  · exact List.mem_cons_of_mem _ h
  · simp only [List.mem_singleton] at h
    rw [h]; exact List.mem_cons_self o l

/-- In a doubly linked ring, each stored pair of neighbours is mutually
inverse: for every adjacent pair `(a, b)` we get `fwd a = b` and `bwd b = a`. -/
lemma cyc_pair_inverse {fwd bwd : Nat → Nat} {o : Nat} {l : List Nat}
    (hf : CycChain fwd o l) (hb : CycChain bwd o l.reverse) {a b : Nat}
    (hp : (a, b) ∈ chainPairs (o :: l ++ [o])) : fwd a = b ∧ bwd b = a :=
  ⟨hf _ hp, CycChain.pair_rev hb hp⟩

/-- `bwd (fwd x) = x` and `fwd (bwd x) = x` on ring members. -/
lemma cyc_inverse_on {fwd bwd : Nat → Nat} {o : Nat} {l : List Nat}
    (hf : CycChain fwd o l) (hb : CycChain bwd o l.reverse) {x : Nat}
    (hx : x ∈ o :: l) : bwd (fwd x) = x ∧ fwd (bwd x) = x := by
  constructor
  · obtain ⟨y, hy⟩ := exists_chainPair_fst (l := o :: l ++ [o]) (by rw [cyc_dropLast]; exact hx)
    obtain ⟨h1, h2⟩ := cyc_pair_inverse hf hb hy
    rw [h1, h2]
  · have hmem : x ∈ (o :: l ++ [o]).tail := by
      rw [cyc_tail]
      rcases List.mem_cons.mp hx with h | h
      · rw [h]; exact List.mem_append_right _ (by simp)
      · exact List.mem_append_left _ h
    obtain ⟨y, hy⟩ := exists_chainPair_snd hmem
    obtain ⟨h1, h2⟩ := cyc_pair_inverse hf hb hy
    rw [h2, h1]

lemma chainPairs_getD (l : List Nat) (i : Nat) (hi : i + 1 < l.length) :
    (l.getD i 0, l.getD (i + 1) 0) ∈ chainPairs l := by
  induction l generalizing i with
  | nil => simp at hi
  | cons a l ih =>
    cases l with
    | nil => simp at hi
    | cons b l2 =>
      cases i with
      | zero => simp [chainPairs_cons₂]
      | succ j =>
        rw [chainPairs_cons₂]
        refine List.mem_cons_of_mem _ ?_
        have := ih j (by simpa using hi)
        simpa using this

/-- Every ring member is an iterate of `fwd` from the origin. -/
lemma cyc_iterate {fwd : Nat → Nat} {o : Nat} {l : List Nat}
    (hf : CycChain fwd o l) :
    ∀ i, i < (o :: l ++ [o]).length → fwd^[i] o = (o :: l ++ [o]).getD i 0 := by
  intro i
  induction i with
  | zero => intro _; simp
  | succ j ih =>
    intro hj
    have hj2 : j < (o :: l ++ [o]).length := Nat.lt_of_succ_lt hj
    have hpair := chainPairs_getD (o :: l ++ [o]) j hj
    have hst := hf _ hpair
    rw [Function.iterate_succ_apply', ih hj2, hst]

lemma cyc_mem_exists_iterate {fwd : Nat → Nat} {o : Nat} {l : List Nat}
    (hf : CycChain fwd o l) {y : Nat} (hy : y ∈ o :: l) :
    ∃ k, fwd^[k] o = y := by
  obtain ⟨i, hi, hg⟩ := List.mem_iff_getElem.mp hy
  refine ⟨i, ?_⟩
  have hlen : i < (o :: l ++ [o]).length := by
    simp only [List.length_cons] at hi
    simp only [List.cons_append, List.length_cons, List.length_append, List.length_cons]
    omega
  rw [cyc_iterate hf i hlen]
  have hcast : (o :: l ++ [o]).getD i 0 = (o :: l).getD i 0 := by
    rw [show (o :: l ++ [o]) = (o :: l) ++ [o] by simp, List.getD_eq_getElem?_getD,
      List.getD_eq_getElem?_getD, List.getElem?_append_left hi]
  rw [hcast, List.getD_eq_getElem?_getD, List.getElem?_eq_getElem hi]
  simpa using hg

/-- The origin returns to itself after one full lap. -/
lemma cyc_lap {fwd : Nat → Nat} {o : Nat} {l : List Nat}
    (hf : CycChain fwd o l) : fwd^[l.length + 1] o = o := by
  have hlen : l.length + 1 < (o :: l ++ [o]).length := by simp
  rw [cyc_iterate hf _ hlen]
  rw [show (o :: l ++ [o]) = (o :: l) ++ [o] by simp, List.getD_eq_getElem?_getD,
    List.getElem?_append_right (by simp)]
  simp

lemma cyc_closed_iterate {fwd : Nat → Nat} {o : Nat} {l : List Nat}
    (hf : CycChain fwd o l) {x : Nat} (hx : x ∈ o :: l) :
    ∀ k, fwd^[k] x ∈ o :: l := by
  intro k
  induction k with
  | zero => simpa using hx
  | succ j ih =>
    rw [Function.iterate_succ_apply']
    exact CycChain.mem_step hf ih

/-- Two cyclic rings through the same step function sharing a member have the
same member set. -/
lemma cyc_orbit_eq {fwd : Nat → Nat} {a b : Nat} {la lb : List Nat}
    (hfa : CycChain fwd a la) (hfb : CycChain fwd b lb)
    (hb : b ∈ a :: la) {y : Nat} (hy : y ∈ a :: la) : y ∈ b :: lb := by
  obtain ⟨j, hj⟩ := cyc_mem_exists_iterate hfa hb
  obtain ⟨k, hk⟩ := cyc_mem_exists_iterate hfa hy
  have hlap := cyc_lap hfa
  set n := la.length + 1 with hn
  have hone : 1 ≤ n := by omega
  have hjn : j ≤ n * (j + 1) := by
    calc j ≤ 1 * (j + 1) := by omega
    _ ≤ n * (j + 1) := Nat.mul_le_mul_right _ hone
  have hlaps : ∀ m, fwd^[n * m] a = a := by
    intro m
    induction m with
    | zero => simp
    | succ i ih => rw [Nat.mul_succ, Function.iterate_add_apply, hlap, ih]
  have hreach : fwd^[n * (j + 1) - j] b = a := by
    rw [← hj, ← Function.iterate_add_apply, Nat.sub_add_cancel hjn]
    exact hlaps (j + 1)
  have hy2 : fwd^[k + (n * (j + 1) - j)] b = y := by
    rw [Function.iterate_add_apply, hreach, hk]
  rw [← hy2]
  exact cyc_closed_iterate hfb (List.mem_cons_self b lb) _

lemma getLastD_mem (o : Nat) (l : List Nat) : (o :: l).getLastD 0 ∈ o :: l := by
  induction l generalizing o with
  | nil => simp
  | cons a u ih =>
    rw [getLastD_cons_cons]
    exact List.mem_cons_of_mem _ (ih a)

lemma chainPairs_fst_ne_lastD {L : List Nat} (hnd : L.Nodup) {p : Nat × Nat}
    (hp : p ∈ chainPairs L) : p.1 ≠ L.getLastD 0 := by
  intro he
  have hfst : p.1 ∈ L.dropLast := chainPairs_fst_mem (a := p.1) (b := p.2) hp
  cases L with
  | nil => simp [chainPairs] at hp
  | cons a L2 =>
    cases L2 with
    | nil => simp [chainPairs] at hp
    | cons b L3 =>
      have hne : (a :: b :: L3) ≠ [] := by simp
      have hgl : (a :: b :: L3).getLastD 0 = (a :: b :: L3).getLast hne := by
        rw [List.getLastD_eq_getLast?, List.getLast?_eq_getLast _ hne]
        rfl
      have hsplit : a :: b :: L3 = (a :: b :: L3).dropLast ++ [(a :: b :: L3).getLast hne] :=
        (List.dropLast_append_getLast _).symm
      have hnodup2 := hnd
      rw [hsplit] at hnodup2
      have hdisj := List.disjoint_of_nodup_append hnodup2
      refine hdisj (he ▸ hfst) ?_
      rw [hgl]
      simp

lemma lastD_rev_head (o : Nat) (l : List Nat) :
    (o :: l.reverse).getLastD 0 = (l ++ [o]).headD 0 := by
  cases l with
  | nil => rfl
  | cons a u =>
    have e1 : (o :: (a :: u).reverse) = (o :: u.reverse) ++ [a] := by simp
    rw [e1, List.getLastD_eq_getLast?, List.getLast?_concat]
    rfl

/-- One-sided surgery: deleting the member `x` from a cyclic chain, where
only the pointer of its predecessor is rewritten (to its successor). -/
lemma cyc_delete_fwd {fwd F : Nat → Nat} {o x : Nat} {l1 l2 : List Nat}
    (hnd : (o :: (l1 ++ x :: l2)).Nodup)
    (hf : CycChain fwd o (l1 ++ x :: l2))
    (hF : ∀ n, n ∈ o :: (l1 ++ l2) →
      F n = if n = (o :: l1).getLastD 0 then (l2 ++ [o]).headD 0 else fwd n) :
    CycChain F o (l1 ++ l2) := by
  have hold : chainPairs (o :: (l1 ++ x :: l2) ++ [o])
      = chainPairs (o :: l1) ++ ((o :: l1).getLastD 0, x)
        :: ((x, (l2 ++ [o]).headD 0) :: chainPairs (l2 ++ [o])) := by
    have e1 : (o :: (l1 ++ x :: l2) ++ [o]) = (o :: l1) ++ ([x] ++ (l2 ++ [o])) := by simp
    rw [e1, chainPairs_append (o :: l1) _ (by simp) (by simp),
      chainPairs_append [x] (l2 ++ [o]) (by simp) (by simp)]
    rfl
  have hnew : chainPairs (o :: (l1 ++ l2) ++ [o])
      = chainPairs (o :: l1) ++ ((o :: l1).getLastD 0, (l2 ++ [o]).headD 0)
        :: chainPairs (l2 ++ [o]) := by
    have e2 : (o :: (l1 ++ l2) ++ [o]) = (o :: l1) ++ (l2 ++ [o]) := by simp
    rw [e2, chainPairs_append _ _ (by simp) (by simp)]
  have hnd1 : (o :: l1).Nodup :=
    hnd.sublist (List.cons_sublist_cons.mpr (List.sublist_append_left l1 (x :: l2)))
  have hprev_mem : (o :: l1).getLastD 0 ∈ o :: l1 := getLastD_mem o l1
  intro p hp
  rw [hnew] at hp
  rcases List.mem_append.mp hp with hp | hp
  · have hfst0 := chainPairs_fst_mem (a := p.1) (b := p.2) hp
    have hfst : p.1 ∈ o :: l1 := (List.dropLast_sublist _).subset hfst0
    have hfwd := hf p (by rw [hold]; exact List.mem_append_left _ hp)
    have hne : p.1 ≠ (o :: l1).getLastD 0 := chainPairs_fst_ne_lastD hnd1 hp
    have hmem : p.1 ∈ o :: (l1 ++ l2) := by
      rcases List.mem_cons.mp hfst with h | h
      · rw [h]; exact List.mem_cons_self _ _
      · exact List.mem_cons_of_mem _ (List.mem_append_left _ h)
    rw [hF _ hmem, if_neg hne]
    exact hfwd
  · rcases List.mem_cons.mp hp with hp | hp
    · rw [hp]
      have hmem : (o :: l1).getLastD 0 ∈ o :: (l1 ++ l2) := by
        rcases List.mem_cons.mp hprev_mem with h | h
        · rw [h]; exact List.mem_cons_self _ _
        · exact List.mem_cons_of_mem _ (List.mem_append_left _ h)
      rw [hF _ hmem, if_pos rfl]
    · have hfst := chainPairs_fst_mem (a := p.1) (b := p.2) hp
      rw [List.dropLast_concat] at hfst
      have hfwd := hf p (by
        rw [hold]
        exact List.mem_append_right _ (List.mem_cons_of_mem _ (List.mem_cons_of_mem _ hp)))
      have hne : p.1 ≠ (o :: l1).getLastD 0 := by
        intro he
        rcases List.mem_cons.mp hprev_mem with h | h
        · rw [he, h] at hfst
          exact (List.nodup_cons.mp hnd).1
            (List.mem_append_right _ (List.mem_cons_of_mem _ hfst))
        · have hnd2 : (l1 ++ (x :: l2)).Nodup := (List.nodup_cons.mp hnd).2
          have hdisj := List.disjoint_of_nodup_append hnd2
          exact hdisj (he ▸ h) (List.mem_cons_of_mem _ hfst)
      have hmem : p.1 ∈ o :: (l1 ++ l2) :=
        List.mem_cons_of_mem _ (List.mem_append_right _ hfst)
      rw [hF _ hmem, if_neg hne]
      exact hfwd

/-- Two-sided surgery: deleting a member from a doubly linked ring. -/
lemma cyc_delete {fwd bwd F G : Nat → Nat} {o x : Nat} {l1 l2 : List Nat}
    (hnd : (o :: (l1 ++ x :: l2)).Nodup)
    (hf : CycChain fwd o (l1 ++ x :: l2)) (hb : CycChain bwd o (l1 ++ x :: l2).reverse)
    (hF : ∀ n, n ∈ o :: (l1 ++ l2) →
      F n = if n = (o :: l1).getLastD 0 then (l2 ++ [o]).headD 0 else fwd n)
    (hG : ∀ n, n ∈ o :: (l1 ++ l2) →
      G n = if n = (l2 ++ [o]).headD 0 then (o :: l1).getLastD 0 else bwd n) :
    CycChain F o (l1 ++ l2) ∧ CycChain G o (l1 ++ l2).reverse := by
  refine ⟨cyc_delete_fwd hnd hf hF, ?_⟩
  have hrev : (l1 ++ x :: l2).reverse = l2.reverse ++ x :: l1.reverse := by simp
  have hnd2 : (o :: (l2.reverse ++ x :: l1.reverse)).Nodup := by
    have hperm : (o :: (l2.reverse ++ x :: l1.reverse)).Perm (o :: (l1 ++ x :: l2)) :=
      List.Perm.cons o (hrev ▸ (List.reverse_perm (l1 ++ x :: l2)))
    exact hperm.nodup_iff.mpr hnd
  have hb2 : CycChain bwd o (l2.reverse ++ x :: l1.reverse) := by
    rw [← hrev]; exact hb
  have hres := cyc_delete_fwd hnd2 hb2 (F := G) ?_
  · have e : (l1 ++ l2).reverse = l2.reverse ++ l1.reverse := by simp
    rw [e]
    exact hres
  · intro n hn
    have hmem : n ∈ o :: (l1 ++ l2) := by
      rcases List.mem_cons.mp hn with h | h
      · rw [h]; exact List.mem_cons_self _ _
      · refine List.mem_cons_of_mem _ ?_
        rcases List.mem_append.mp h with h | h
        · exact List.mem_append_right _ (List.mem_reverse.mp h)
        · exact List.mem_append_left _ (List.mem_reverse.mp h)
    rw [hG _ hmem]
    have e1 : (o :: l2.reverse).getLastD 0 = (l2 ++ [o]).headD 0 := lastD_rev_head o l2
    have e2 : (l1.reverse ++ [o]).headD 0 = (o :: l1).getLastD 0 := by
      have := lastD_rev_head o l1.reverse
      rw [List.reverse_reverse] at this
      exact this.symm
    rw [e1, e2]

/-- Appending a new member `z` at the end of a cyclic chain (forward side):
the old last now points at `z`, and `z` wraps to the origin. -/
lemma cyc_insert_fwd_last {fwd F : Nat → Nat} {o z : Nat} {l : List Nat}
    (hnd : (o :: l).Nodup)
    (hf : CycChain fwd o l)
    (hstable : ∀ n, n ∈ o :: l → n ≠ (o :: l).getLastD 0 → F n = fwd n)
    (hlast : F ((o :: l).getLastD 0) = z)
    (hz : F z = o) :
    CycChain F o (l ++ [z]) := by
  have hnew : chainPairs (o :: (l ++ [z]) ++ [o])
      = chainPairs (o :: l) ++ ((o :: l).getLastD 0, z) :: ((z, o) :: []) := by
    have e1 : (o :: (l ++ [z]) ++ [o]) = (o :: l) ++ ([z] ++ [o]) := by simp
    rw [e1, chainPairs_append (o :: l) _ (by simp) (by simp)]
    rfl
  have hold : chainPairs (o :: l ++ [o])
      = chainPairs (o :: l) ++ ((o :: l).getLastD 0, o) :: [] := by
    have e1 : (o :: l ++ [o]) = (o :: l) ++ [o] := by simp
    rw [e1, chainPairs_append (o :: l) [o] (by simp) (by simp)]
    rfl
  intro p hp
  rw [hnew] at hp
  rcases List.mem_append.mp hp with hp | hp
  · have hfst : p.1 ∈ o :: l := (List.dropLast_sublist _).subset
      (chainPairs_fst_mem (a := p.1) (b := p.2) hp)
    have hne : p.1 ≠ (o :: l).getLastD 0 := chainPairs_fst_ne_lastD hnd hp
    rw [hstable _ hfst hne]
    exact hf p (by rw [hold]; exact List.mem_append_left _ hp)
  · rcases List.mem_cons.mp hp with hp | hp
    · rw [hp]
      exact hlast
    · simp only [List.mem_singleton] at hp
      rw [hp]
      exact hz

/-- Appending a new member `z` at the end of a doubly linked ring (backward
side): `z` points back at the old last, and the origin points back at `z`. -/
lemma cyc_insert_bwd_last {bwd G : Nat → Nat} {o z : Nat} {l : List Nat}
    (hb : CycChain bwd o l.reverse)
    (hstable : ∀ n, n ∈ l → G n = bwd n)
    (ho : G o = z)
    (hz : G z = (o :: l).getLastD 0) :
    CycChain G o (l ++ [z]).reverse := by
  have e0 : (l ++ [z]).reverse = z :: l.reverse := by simp
  rw [e0]
  have hznew : G z = (l.reverse ++ [o]).headD 0 := by
    rw [hz]
    have := lastD_rev_head o l.reverse
    rw [List.reverse_reverse] at this
    exact this
  intro p hp
  have hsplit : chainPairs (o :: (z :: l.reverse) ++ [o])
      = (o, z) :: chainPairs (z :: (l.reverse ++ [o])) := rfl
  rw [hsplit] at hp
  rcases List.mem_cons.mp hp with hp | hp
  · rw [hp]
    exact ho
  · cases hM : l.reverse ++ [o] with
    | nil => simp at hM
    | cons m M2 =>
      rw [hM] at hp
      rw [chainPairs_cons₂] at hp
      rcases List.mem_cons.mp hp with hp | hp
      · rw [hp]
        simp only
        rw [hznew, hM]
        rfl
      · have hold2 : chainPairs (o :: l.reverse ++ [o]) = (o, m) :: chainPairs (m :: M2) := by
          show chainPairs (o :: (l.reverse ++ [o])) = _
          rw [hM]
          rfl
        have hbp := hb p (by rw [hold2]; exact List.mem_cons_of_mem _ hp)
        have hfst : p.1 ∈ l := by
          have h1 := chainPairs_fst_mem (a := p.1) (b := p.2) hp
          have h2 : p.1 ∈ (l.reverse ++ [o]).dropLast := by rw [hM]; exact h1
          rw [List.dropLast_concat] at h2
          exact List.mem_reverse.mp h2
        rw [hstable _ hfst]
        exact hbp

/- ### Bridging lemmas between ring chains and heap steps ### -/

lemma headD_append_single (l : List Nat) (o : Nat) : (l ++ [o]).headD 0 = l.headD o := by
  cases l <;> rfl

lemma headD_append_mem (l : List Nat) (o : Nat) : (l ++ [o]).headD 0 ∈ o :: l := by
  cases l with
  | nil => simp
  | cons a u => simp

lemma getLastD_of_ne_nil {l : List Nat} (hl : l ≠ []) (d e : Nat) :
    l.getLastD d = l.getLastD e := by
  cases l with
  | nil => exact absurd rfl hl
  | cons a u =>
    rw [List.getLastD_eq_getLast?, List.getLastD_eq_getLast?]
    obtain ⟨y, hy⟩ := Option.isSome_iff_exists.mp
      (List.getLast?_isSome.mpr (by simp : (a :: u) ≠ []))
    rw [hy]
    rfl

lemma chainPairs_cyc_split (o x : Nat) (l1 l2 : List Nat) :
    chainPairs (o :: (l1 ++ x :: l2) ++ [o])
      = chainPairs (o :: l1) ++ ((o :: l1).getLastD 0, x)
        :: ((x, (l2 ++ [o]).headD 0) :: chainPairs (l2 ++ [o])) := by
  have e1 : (o :: (l1 ++ x :: l2) ++ [o]) = (o :: l1) ++ ([x] ++ (l2 ++ [o])) := by simp
  rw [e1, chainPairs_append (o :: l1) _ (by simp) (by simp),
    chainPairs_append [x] (l2 ++ [o]) (by simp) (by simp)]
  rfl

lemma cyc_first {fwd : Nat → Nat} {o : Nat} {l : List Nat} (hf : CycChain fwd o l) :
    fwd o = (l ++ [o]).headD 0 := by
  cases l with
  | nil => exact hf (o, o) (by simp [chainPairs])
  | cons a u =>
    exact hf (o, a) (by
      rw [show (o :: (a :: u) ++ [o]) = o :: a :: (u ++ [o]) from rfl, chainPairs_cons₂]
      simp)

lemma cyc_last_pair {fwd : Nat → Nat} {o : Nat} {l : List Nat} (hf : CycChain fwd o l)
    (hl : l ≠ []) : fwd (l.getLastD 0) = o := by
  have hmem : ((o :: l).getLastD 0, o) ∈ chainPairs (o :: l ++ [o]) := by
    rw [show (o :: l ++ [o]) = (o :: l) ++ [o] by simp,
      chainPairs_append (o :: l) [o] (by simp) (by simp)]
    simp
  have := hf _ hmem
  have he : (o :: l).getLastD 0 = l.getLastD 0 := by
    cases l with
    | nil => exact absurd rfl hl
    | cons a u =>
      rw [show ((o :: a :: u).getLastD 0) = (a :: u).getLastD o from getLastD_cons_cons o a u 0]
      exact getLastD_of_ne_nil (by simp) o 0
  rw [← he]
  exact this

lemma chain'_iff_chainPairs (step : Nat → Nat) (l : List Nat) :
    List.Chain' (fun a b => step a = b) l ↔ ∀ p ∈ chainPairs l, step p.1 = p.2 := by
  induction l with
  | nil => simp [chainPairs]
  | cons a l ih =>
    cases l with
    | nil => simp [chainPairs]
    | cons b l2 =>
      rw [List.chain'_cons, chainPairs_cons₂, ih]
      constructor
      · rintro ⟨h1, h2⟩ p hp
        rcases List.mem_cons.mp hp with hp | hp
        · rw [hp]; exact h1
        · exact h2 p hp
      · intro hall
        exact ⟨hall (a, b) (by simp), fun p hp => hall p (List.mem_cons_of_mem _ hp)⟩

lemma cyc_sub_pairs {o : Nat} {l : List Nat} :
    ∀ p ∈ chainPairs l, p ∈ chainPairs (o :: l ++ [o]) := by
  intro p hp
  cases l with
  | nil => simp [chainPairs] at hp
  | cons a u =>
    have e1 : (o :: (a :: u) ++ [o]) = o :: ((a :: u) ++ [o]) := rfl
    rw [e1, show chainPairs (o :: ((a :: u) ++ [o]))
        = (o, a) :: chainPairs ((a :: u) ++ [o]) from rfl,
      chainPairs_append (a :: u) [o] (by simp) (by simp)]
    exact List.mem_cons_of_mem _ (List.mem_append_left _ hp)

lemma cyc_chain' {fwd : Nat → Nat} {o : Nat} {l : List Nat} (hf : CycChain fwd o l) :
    List.Chain' (fun a b => fwd a = b) l := by
  rw [chain'_iff_chainPairs]
  intro p hp
  exact hf p (cyc_sub_pairs p hp)

lemma CycChain.congr {fwd F : Nat → Nat} {o : Nat} {l : List Nat}
    (hf : CycChain fwd o l) (he : ∀ n ∈ o :: l, F n = fwd n) : CycChain F o l := by
  intro p hp
  have hfst : p.1 ∈ o :: l := by
    have := chainPairs_fst_mem (a := p.1) (b := p.2) hp
    rw [cyc_dropLast] at this
    exact this
  rw [he _ hfst]
  exact hf p hp

lemma pair_eq_of_keys_nodup {cols : List (Nat × List Nat)}
    (hnd : (cols.map Prod.fst).Nodup) {p q : Nat × List Nat}
    (hp : p ∈ cols) (hq : q ∈ cols) (hk : p.1 = q.1) : p = q := by
  induction cols with
  | nil => simp at hp
  | cons r rest ih =>
    rw [List.map_cons, List.nodup_cons] at hnd
    rcases List.mem_cons.mp hp with hp1 | hp1 <;> rcases List.mem_cons.mp hq with hq1 | hq1
    · rw [hp1, hq1]
    · exfalso
      apply hnd.1
      rw [← hp1, hk]
      exact List.mem_map_of_mem Prod.fst hq1
    · exfalso
      apply hnd.1
      rw [← hq1, ← hk]
      exact List.mem_map_of_mem Prod.fst hp1
    · exact ih hnd.2 hp1 hq1

lemma filter_out_single {x : Nat} {l1 l2 : List Nat} (h1 : x ∉ l1) (h2 : x ∉ l2) :
    (l1 ++ x :: l2).filter (fun c => !([x].contains c)) = l1 ++ l2 := by
  rw [List.filter_append, List.filter_cons]
  have hx : ([x].contains x) = true := by simp
  rw [hx]
  simp only [Bool.not_true, if_neg (by simp : ¬((false : Bool) = true))]
  rw [List.filter_eq_self.mpr, List.filter_eq_self.mpr]
  · intro a ha
    simp only [List.contains_cons, List.contains_nil, Bool.or_false, Bool.not_eq_true',
      beq_eq_false_iff_ne, ne_eq]
    intro he
    exact h2 (he ▸ ha)
  · intro a ha
    simp only [List.contains_cons, List.contains_nil, Bool.or_false, Bool.not_eq_true',
      beq_eq_false_iff_ne, ne_eq]
    intro he
    exact h1 (he ▸ ha)

lemma filter_not_mem_eq_self {x : Nat} {l : List Nat} (h : x ∉ l) :
    l.filter (fun c => !([x].contains c)) = l := by
  rw [List.filter_eq_self.mpr]
  intro a ha
  simp only [List.contains_cons, List.contains_nil, Bool.or_false, Bool.not_eq_true',
    beq_eq_false_iff_ne, ne_eq]
  intro he
  exact h (he ▸ ha)

lemma Heap.coverCellStep_row_of_hdr (t : Heap) {c hh : Nat}
    (hhdr : (t.get c).header = some hh) (hlive : (t.slot hh).isSome = true) (n : Nat) :
    ((t.coverCellStep c).get n).row =
      if n = hh then ((t.get hh).row + (usizeMod - 1)) % usizeMod else (t.get n).row := by
  have hred : t.coverCellStep c
      = (t.cover_vertical c).modify hh
          (fun m => {m with row := (m.row + (usizeMod - 1)) % usizeMod}) := by
    simp only [Heap.coverCellStep]
    rw [(Heap.cover_vertical_stable t c c).1, hhdr]
  rw [hred]
  by_cases hn : n = hh
  · rw [if_pos hn, hn, Heap.get_modify_live _ _ _
      (by simp only [Heap.cover_vertical, Heap.slot_isSome_modify]; exact hlive)]
    simp only
    rw [(Heap.cover_vertical_stable t c hh).2.2.2]
  · rw [if_neg hn, Heap.get_modify_ne _ _ _ _ hn, (Heap.cover_vertical_stable t c n).2.2.2]

lemma Heap.cover_horizontal_right (t : Heap) (h : Nat)
    (hla : (t.slot ((t.get h).left)).isSome = true) (n : Nat) :
    ((t.cover_horizontal h).get n).right =
      if n = (t.get h).left then (t.get h).right else (t.get n).right := by
  simp only [Heap.cover_horizontal]
  rw [Heap.proj_modify Node.right]
  · by_cases hn : n = (t.get h).left
    · rw [if_pos hn, hn, Heap.get_modify_live _ _ _ hla]
    · rw [if_neg hn, Heap.get_modify_ne _ _ _ _ hn]
  · exact fun x => rfl

lemma Heap.cover_horizontal_left (t : Heap) (h : Nat)
    (hrb : (t.slot ((t.get h).right)).isSome = true) (n : Nat) :
    ((t.cover_horizontal h).get n).left =
      if n = (t.get h).right then (t.get h).left else (t.get n).left := by
  simp only [Heap.cover_horizontal]
  by_cases hn : n = (t.get h).right
  · rw [if_pos hn, hn, Heap.get_modify_live _ _ _ (by rwa [Heap.slot_isSome_modify])]
  · rw [if_neg hn, Heap.get_modify_ne _ _ _ _ hn, Heap.proj_modify Node.left]
    exact fun x => rfl

lemma fold_coverCellStep_stable (cells : List Nat) : ∀ (u : Heap) (n : Nat),
    ((cells.foldl (fun t c => t.coverCellStep c) u).get n).left = (u.get n).left ∧
    ((cells.foldl (fun t c => t.coverCellStep c) u).get n).right = (u.get n).right ∧
    ((cells.foldl (fun t c => t.coverCellStep c) u).get n).header = (u.get n).header ∧
    ((cells.foldl (fun t c => t.coverCellStep c) u).slot n).isSome = (u.slot n).isSome ∧
    (cells.foldl (fun t c => t.coverCellStep c) u).size = u.size := by
  induction cells with
  | nil => intro u n; exact ⟨rfl, rfl, rfl, rfl, rfl⟩
  | cons c rest ih =>
    intro u n
    simp only [List.foldl_cons]
    obtain ⟨h1, h2, h3, h4, h5⟩ := ih (u.coverCellStep c) n
    refine ⟨?_, ?_, ?_, ?_, ?_⟩
    · rw [h1, (Heap.coverCellStep_lr u c n).1]
    · rw [h2, (Heap.coverCellStep_lr u c n).2.1]
    · rw [h3, (Heap.coverCellStep_lr u c n).2.2]
    · rw [h4, Heap.slot_isSome_coverCellStep]
    · rw [h5, Heap.size_coverCellStep]

/- ### Abstract column families and the effect of the cover fold ### -/

lemma contains_iff_mem (l : List Nat) (c : Nat) : l.contains c = true ↔ c ∈ l := by
  induction l with
  | nil => simp
  | cons a u ih =>
    simp only [List.contains_cons, Bool.or_eq_true, beq_iff_eq, ih, List.mem_cons]

lemma mem_filter_rem {l rem : List Nat} {c : Nat} :
    c ∈ l.filter (fun c => !(rem.contains c)) ↔ c ∈ l ∧ c ∉ rem := by
  rw [List.mem_filter]
  constructor
  · rintro ⟨h1, h2⟩
    refine ⟨h1, fun hc => ?_⟩
    rw [(contains_iff_mem rem c).mpr hc] at h2
    simp at h2
  · rintro ⟨h1, h2⟩
    refine ⟨h1, ?_⟩
    cases hc : rem.contains c
    · rfl
    · exact absurd ((contains_iff_mem rem c).mp hc) h2

/-- Remove the listed cells from every column's cell list. -/
def removeCells (rem : List Nat) (cols : List (Nat × List Nat)) : List (Nat × List Nat) :=
  cols.map (fun p => (p.1, p.2.filter (fun c => !(rem.contains c))))

lemma removeCells_keys (rem : List Nat) (cols : List (Nat × List Nat)) :
    (removeCells rem cols).map Prod.fst = cols.map Prod.fst := by
  simp [removeCells, List.map_map, Function.comp_def]

lemma removeCells_nil (cols : List (Nat × List Nat)) : removeCells [] cols = cols := by
  simp [removeCells]

lemma removeCells_cons (x : Nat) (cells : List Nat) (cols : List (Nat × List Nat)) :
    removeCells cells (removeCells [x] cols) = removeCells (x :: cells) cols := by
  simp only [removeCells, List.map_map]
  refine List.map_congr_left ?_
  intro p _
  simp only [Function.comp_def, List.filter_filter]
  refine congrArg (fun l => (p.1, l)) ?_
  refine List.filter_congr ?_
  intro c _
  simp only [List.contains_cons, List.contains_nil, Bool.or_false]
  cases h1 : (c == x) <;> cases h2 : cells.contains c <;> rfl

/-- A family of pairwise-disjoint well-formed column rings with live counts. -/
structure ColsInv (P : List (Nat × List Nat)) (u : Heap) : Prop where
  keys_nodup : (P.map Prod.fst).Nodup
  hdr_none : ∀ p ∈ P, (u.get p.1).header = none
  hdr_live : ∀ p ∈ P, (u.slot p.1).isSome = true
  cell_hdr : ∀ p ∈ P, ∀ c ∈ p.2, (u.get c).header = some p.1
  cell_live : ∀ p ∈ P, ∀ c ∈ p.2, (u.slot c).isSome = true
  ring_d : ∀ p ∈ P, CycChain (fun n => (u.get n).down) p.1 p.2
  ring_u : ∀ p ∈ P, CycChain (fun n => (u.get n).up) p.1 p.2.reverse
  nodup : ∀ p ∈ P, (p.1 :: p.2).Nodup
  count : ∀ p ∈ P, (u.get p.1).row = p.2.length
  len_lt : ∀ p ∈ P, p.2.length < usizeMod

lemma ColsInv.mem_ring_ne {P : List (Nat × List Nat)} {u : Heap} (hI : ColsInv P u)
    {q r : Nat × List Nat} (hq : q ∈ P) (hr : r ∈ P) (hk : q.1 ≠ r.1) {n : Nat}
    (hn : n ∈ q.1 :: q.2) : n ∉ r.1 :: r.2 := by
  intro hm
  rcases List.mem_cons.mp hn with h1 | h1 <;> rcases List.mem_cons.mp hm with h2 | h2
  · exact hk (h1.symm.trans h2)
  · have hc := hI.cell_hdr r hr n h2
    rw [h1, hI.hdr_none q hq] at hc
    cases hc
  · have hc := hI.cell_hdr q hq n h1
    rw [h2, hI.hdr_none r hr] at hc
    cases hc
  · have e1 := hI.cell_hdr q hq n h1
    have e2 := hI.cell_hdr r hr n h2
    rw [e1] at e2
    exact hk (Option.some.inj e2)

lemma ColsInv.coverCellStep_inv {P : List (Nat × List Nat)} {u : Heap} (hI : ColsInv P u)
    {q : Nat × List Nat} (hq : q ∈ P) {x : Nat} (hx : x ∈ q.2) :
    ColsInv (removeCells [x] P) (u.coverCellStep x) ∧
    (∀ n, n ≠ q.1 → ((u.coverCellStep x).get n).row = (u.get n).row) := by
  obtain ⟨l1, l2, hsplit⟩ := List.append_of_mem hx
  have hringd := hI.ring_d q hq
  have hringu := hI.ring_u q hq
  have hnodupq := hI.nodup q hq
  rw [hsplit] at hringd hringu hnodupq
  have hsplit_pairs := chainPairs_cyc_split q.1 x l1 l2
  have hmem1 : ((q.1 :: l1).getLastD 0, x) ∈ chainPairs (q.1 :: (l1 ++ x :: l2) ++ [q.1]) := by
    rw [hsplit_pairs]
    exact List.mem_append_right _ (List.mem_cons_self _ _)
  have hmem2 : (x, (l2 ++ [q.1]).headD 0) ∈ chainPairs (q.1 :: (l1 ++ x :: l2) ++ [q.1]) := by
    rw [hsplit_pairs]
    exact List.mem_append_right _ (List.mem_cons_of_mem _ (List.mem_cons_self _ _))
  have hinv1 := cyc_pair_inverse hringd hringu hmem1
  have hinv2 := cyc_pair_inverse hringd hringu hmem2
  have hlive_of_ring : ∀ n, n ∈ q.1 :: q.2 → (u.slot n).isSome = true := by
    intro n hn
    rcases List.mem_cons.mp hn with h | h
    · rw [h]; exact hI.hdr_live q hq
    · exact hI.cell_live q hq n h
  have hprev_ring : (q.1 :: l1).getLastD 0 ∈ q.1 :: q.2 := by
    rcases List.mem_cons.mp (getLastD_mem q.1 l1) with h | h
    · rw [h]; exact List.mem_cons_self _ _
    · rw [hsplit]
      exact List.mem_cons_of_mem _ (List.mem_append_left _ h)
  have hnxt_ring : (l2 ++ [q.1]).headD 0 ∈ q.1 :: q.2 := by
    rcases List.mem_cons.mp (headD_append_mem l2 q.1) with h | h
    · rw [h]; exact List.mem_cons_self _ _
    · rw [hsplit]
      exact List.mem_cons_of_mem _ (List.mem_append_right _ (List.mem_cons_of_mem _ h))
  have hupx : (u.get x).up = (q.1 :: l1).getLastD 0 := hinv1.2
  have hdnx : (u.get x).down = (l2 ++ [q.1]).headD 0 := hinv2.1
  have hdn1 : ∀ n, ((u.coverCellStep x).get n).down
      = if n = (q.1 :: l1).getLastD 0 then (l2 ++ [q.1]).headD 0 else (u.get n).down := by
    intro n
    rw [Heap.coverCellStep_get_down u x
      (by rw [hupx]; exact hlive_of_ring _ hprev_ring) n, hupx, hdnx]
  have hup1 : ∀ n, ((u.coverCellStep x).get n).up
      = if n = (l2 ++ [q.1]).headD 0 then (q.1 :: l1).getLastD 0 else (u.get n).up := by
    intro n
    rw [Heap.coverCellStep_get_up u x
      (by rw [hdnx]; exact hlive_of_ring _ hnxt_ring) n, hdnx, hupx]
  have hhdrx : (u.get x).header = some q.1 := hI.cell_hdr q hq x hx
  have hrow1 : ∀ n, ((u.coverCellStep x).get n).row
      = if n = q.1 then ((u.get q.1).row + (usizeMod - 1)) % usizeMod else (u.get n).row :=
    Heap.coverCellStep_row_of_hdr u hhdrx (hI.hdr_live q hq)
  have htail : (l1 ++ x :: l2).Nodup := (List.nodup_cons.mp hnodupq).2
  have hx_l1 : x ∉ l1 := fun hm =>
    (List.disjoint_of_nodup_append htail) hm (List.mem_cons_self _ _)
  have hx_l2 : x ∉ l2 := (List.nodup_cons.mp (List.nodup_append.mp htail).2.1).1
  have hfilter_q : q.2.filter (fun c => !([x].contains c)) = l1 ++ l2 := by
    rw [hsplit]
    exact filter_out_single hx_l1 hx_l2
  -- the two-sided ring surgery for the column of x
  have hdel := cyc_delete (F := fun n => ((u.coverCellStep x).get n).down)
    (G := fun n => ((u.coverCellStep x).get n).up) hnodupq hringd hringu
    (fun n _ => hdn1 n) (fun n _ => hup1 n)
  -- generic extraction of the original column of a member of the new family
  refine ⟨⟨?_, ?_, ?_, ?_, ?_, ?_, ?_, ?_, ?_, ?_⟩, ?_⟩
  · rw [removeCells_keys]
    exact hI.keys_nodup
  · intro p hp
    obtain ⟨r, hr, he⟩ := List.mem_map.mp hp
    rw [← he]
    simp only
    rw [(Heap.coverCellStep_lr u x r.1).2.2]
    exact hI.hdr_none r hr
  · intro p hp
    obtain ⟨r, hr, he⟩ := List.mem_map.mp hp
    rw [← he]
    simp only
    rw [Heap.slot_isSome_coverCellStep]
    exact hI.hdr_live r hr
  · intro p hp c hc
    obtain ⟨r, hr, he⟩ := List.mem_map.mp hp
    rw [← he] at hc ⊢
    simp only at hc ⊢
    rw [(Heap.coverCellStep_lr u x c).2.2]
    exact hI.cell_hdr r hr c (List.mem_of_mem_filter hc)
  · intro p hp c hc
    obtain ⟨r, hr, he⟩ := List.mem_map.mp hp
    rw [← he] at hc
    simp only at hc
    rw [Heap.slot_isSome_coverCellStep]
    exact hI.cell_live r hr c (List.mem_of_mem_filter hc)
  · intro p hp
    obtain ⟨r, hr, he⟩ := List.mem_map.mp hp
    rw [← he]
    simp only
    by_cases hk : r.1 = q.1
    · have hrq : r = q := pair_eq_of_keys_nodup hI.keys_nodup hr hq hk
      subst hrq
      rw [hfilter_q]
      exact hdel.1
    · have hfr : r.2.filter (fun c => !([x].contains c)) = r.2 :=
        filter_not_mem_eq_self (fun hm => hk (Option.some.inj
          ((hI.cell_hdr r hr x hm).symm.trans hhdrx)))
      rw [hfr]
      refine CycChain.congr (hI.ring_d r hr) ?_
      intro n hn
      rw [hdn1 n, if_neg ?_]
      exact fun he2 => (hI.mem_ring_ne hq hr (fun h2 => hk h2.symm) hprev_ring) (he2 ▸ hn)
  · intro p hp
    obtain ⟨r, hr, he⟩ := List.mem_map.mp hp
    rw [← he]
    simp only
    by_cases hk : r.1 = q.1
    · have hrq : r = q := pair_eq_of_keys_nodup hI.keys_nodup hr hq hk
      subst hrq
      rw [hfilter_q]
      exact hdel.2
    · have hfr : r.2.filter (fun c => !([x].contains c)) = r.2 :=
        filter_not_mem_eq_self (fun hm => hk (Option.some.inj
          ((hI.cell_hdr r hr x hm).symm.trans hhdrx)))
      rw [hfr]
      refine CycChain.congr (hI.ring_u r hr) ?_
      intro n hn
      have hn2 : n ∈ r.1 :: r.2 := by
        rcases List.mem_cons.mp hn with h | h
        · rw [h]; exact List.mem_cons_self _ _
        · exact List.mem_cons_of_mem _ (List.mem_reverse.mp h)
      rw [hup1 n, if_neg ?_]
      exact fun he2 => (hI.mem_ring_ne hq hr (fun h2 => hk h2.symm) hnxt_ring) (he2 ▸ hn2)
  · intro p hp
    obtain ⟨r, hr, he⟩ := List.mem_map.mp hp
    rw [← he]
    simp only
    exact (hI.nodup r hr).sublist
      (List.cons_sublist_cons.mpr (List.filter_sublist _))
  · intro p hp
    obtain ⟨r, hr, he⟩ := List.mem_map.mp hp
    rw [← he]
    simp only
    by_cases hk : r.1 = q.1
    · have hrq : r = q := pair_eq_of_keys_nodup hI.keys_nodup hr hq hk
      subst hrq
      rw [hfilter_q, hrow1 r.1, if_pos rfl, hI.count r hq, hsplit]
      have hlt := hI.len_lt r hq
      rw [hsplit] at hlt
      rw [usizeMod_eq] at hlt ⊢
      simp only [List.length_append, List.length_cons] at hlt ⊢
      omega
    · have hfr : r.2.filter (fun c => !([x].contains c)) = r.2 :=
        filter_not_mem_eq_self (fun hm => hk (Option.some.inj
          ((hI.cell_hdr r hr x hm).symm.trans hhdrx)))
      rw [hfr, hrow1 r.1, if_neg hk]
      exact hI.count r hr
  · intro p hp
    obtain ⟨r, hr, he⟩ := List.mem_map.mp hp
    rw [← he]
    simp only
    exact Nat.lt_of_le_of_lt (List.length_filter_le _ _) (hI.len_lt r hr)
  · intro n hn
    rw [hrow1 n, if_neg hn]

/-- Folding `coverCellStep` over a duplicate-free list of cells, each lying
in one of the disjoint columns of `P`, deletes exactly those cells from the
column rings and updates the counts to the shrunken lengths; the rows of
nodes other than the column keys are untouched. -/
lemma fold_delete :
    ∀ (cells : List Nat) (P : List (Nat × List Nat)) (u : Heap),
      cells.Nodup →
      (∀ x ∈ cells, ∃ q, q ∈ P ∧ x ∈ q.2) →
      ColsInv P u →
      ColsInv (removeCells cells P) (cells.foldl (fun t c => t.coverCellStep c) u) ∧
      (∀ n, (∀ p ∈ P, n ≠ p.1) →
        ((cells.foldl (fun t c => t.coverCellStep c) u).get n).row = (u.get n).row) := by
  intro cells
  induction cells with
  | nil =>
    intro P u _ _ hI
    rw [removeCells_nil]
    exact ⟨hI, fun n _ => rfl⟩
  | cons x rest ih =>
    intro P u hnd hmem hI
    obtain ⟨q, hq, hx⟩ := hmem x (List.mem_cons_self _ _)
    obtain ⟨hI1, hrow1⟩ := hI.coverCellStep_inv hq hx
    have hmem1 : ∀ y ∈ rest, ∃ r, r ∈ removeCells [x] P ∧ y ∈ r.2 := by
      intro y hy
      obtain ⟨r, hr, hyr⟩ := hmem y (List.mem_cons_of_mem _ hy)
      refine ⟨(r.1, r.2.filter (fun c => !([x].contains c))), ?_, ?_⟩
      · exact List.mem_map.mpr ⟨r, hr, rfl⟩
      · simp only
        rw [mem_filter_rem]
        refine ⟨hyr, ?_⟩
        simp only [List.mem_singleton]
        intro he
        exact (List.nodup_cons.mp hnd).1 (he ▸ hy)
    obtain ⟨hIfin, hrowfin⟩ := ih (removeCells [x] P) (u.coverCellStep x)
      (List.nodup_cons.mp hnd).2 hmem1 hI1
    rw [removeCells_cons] at hIfin
    simp only [List.foldl_cons]
    refine ⟨hIfin, ?_⟩
    intro n hn
    rw [hrowfin n ?_, hrow1 n ?_]
    · exact hn q hq
    · intro p hp
      obtain ⟨r, hr, he⟩ := List.mem_map.mp hp
      rw [← he]
      exact hn r hr

/- ### The global well-formedness description of a search state ### -/

/-- A full description of a dancing-links heap state as the search
manipulates it: `root` heads the header ring whose members (with their
column cell lists, in ring order) are listed by `cols`; `RR` gives the
static right-rotation of every data cell's row ring and `R` its static row
index (the locations the search never rewrites). -/
structure Desc (t : Heap) (root : Nat) (RR : Nat → List Nat) (R : Nat → Nat)
    (cols : List (Nat × List Nat)) : Prop where
  root_lt : root < t.size
  root_live : (t.slot root).isSome = true
  root_hdr : (t.get root).header = none
  hring_r : CycChain (fun n => (t.get n).right) root (cols.map Prod.fst)
  hring_l : CycChain (fun n => (t.get n).left) root (cols.map Prod.fst).reverse
  ring_nodup : (root :: cols.map Prod.fst).Nodup
  hdr_lt : ∀ p ∈ cols, p.1 < t.size
  hdr_live : ∀ p ∈ cols, (t.slot p.1).isSome = true
  hdr_none : ∀ p ∈ cols, (t.get p.1).header = none
  count_ok : ∀ p ∈ cols, (t.get p.1).row = p.2.length
  col_ring_d : ∀ p ∈ cols, CycChain (fun n => (t.get n).down) p.1 p.2
  col_ring_u : ∀ p ∈ cols, CycChain (fun n => (t.get n).up) p.1 p.2.reverse
  col_nodup : ∀ p ∈ cols, (p.1 :: p.2).Nodup
  cell_lt : ∀ p ∈ cols, ∀ c ∈ p.2, c < t.size
  cell_live : ∀ p ∈ cols, ∀ c ∈ p.2, (t.slot c).isSome = true
  cell_hdr : ∀ p ∈ cols, ∀ c ∈ p.2, (t.get c).header = some p.1
  cell_row : ∀ p ∈ cols, ∀ c ∈ p.2, (t.get c).row = R c
  row_ring_r : ∀ p ∈ cols, ∀ c ∈ p.2, CycChain (fun n => (t.get n).right) c (RR c)
  row_ring_l : ∀ p ∈ cols, ∀ c ∈ p.2, CycChain (fun n => (t.get n).left) c (RR c).reverse
  row_nodup : ∀ p ∈ cols, ∀ c ∈ p.2, (c :: RR c).Nodup
  row_cells : ∀ p ∈ cols, ∀ c ∈ p.2, ∀ x ∈ RR c, ∃ q, q ∈ cols ∧
    (t.get x).header = some q.1 ∧ x ∈ q.2 ∧ R x = R c
  row_hdrs : ∀ p ∈ cols, ∀ c ∈ p.2,
    ((c :: RR c).map (fun x => (t.get x).header)).Nodup
  rows_distinct : ∀ p ∈ cols, (p.2.map R).Nodup
  same_row_ring : ∀ p ∈ cols, ∀ c ∈ p.2, ∀ q ∈ cols, ∀ d ∈ q.2, R d = R c →
    d ∈ c :: RR c
  vw : ∀ n, n < t.size → cid t ((t.get n).up) = cid t n ∧ (t.get n).up < t.size ∧
    cid t ((t.get n).down) = cid t n ∧ (t.get n).down < t.size
  rows_lt : ∀ n, n < t.size → (t.get n).row < usizeMod

namespace Desc

variable {t : Heap} {root : Nat} {RR : Nat → List Nat} {R : Nat → Nat}
variable {cols : List (Nat × List Nat)}

/-- Everything on the header ring (root or a column key) has a null header. -/
lemma ring_hdr_none (hd : Desc t root RR R cols) {n : Nat}
    (hn : n ∈ root :: cols.map Prod.fst) : (t.get n).header = none := by
  rcases List.mem_cons.mp hn with h | h
  · rw [h]; exact hd.root_hdr
  · obtain ⟨p, hp, he⟩ := List.mem_map.mp h
    rw [← he]
    exact hd.hdr_none p hp

lemma ring_live (hd : Desc t root RR R cols) {n : Nat}
    (hn : n ∈ root :: cols.map Prod.fst) : (t.slot n).isSome = true := by
  rcases List.mem_cons.mp hn with h | h
  · rw [h]; exact hd.root_live
  · obtain ⟨p, hp, he⟩ := List.mem_map.mp h
    rw [← he]
    exact hd.hdr_live p hp

lemma ring_lt (hd : Desc t root RR R cols) {n : Nat}
    (hn : n ∈ root :: cols.map Prod.fst) : n < t.size := by
  rcases List.mem_cons.mp hn with h | h
  · rw [h]; exact hd.root_lt
  · obtain ⟨p, hp, he⟩ := List.mem_map.mp h
    rw [← he]
    exact hd.hdr_lt p hp

/-- The horizontal neighbours of a header-ring member stay on the ring. -/
lemma ring_closed (hd : Desc t root RR R cols) {n : Nat}
    (hn : n ∈ root :: cols.map Prod.fst) :
    (t.get n).right ∈ root :: cols.map Prod.fst ∧
    (t.get n).left ∈ root :: cols.map Prod.fst := by
  refine ⟨CycChain.mem_step hd.hring_r hn, ?_⟩
  have h2 := CycChain.mem_step hd.hring_l (x := n)
    (show n ∈ root :: (cols.map Prod.fst).reverse by
      rcases List.mem_cons.mp hn with h | h
      · rw [h]; exact List.mem_cons_self _ _
      · exact List.mem_cons_of_mem _ (List.mem_reverse.mpr h))
  rcases List.mem_cons.mp h2 with h | h
  · rw [h]; exact List.mem_cons_self _ _
  · exact List.mem_cons_of_mem _ (List.mem_reverse.mp h)

lemma col_member_live (hd : Desc t root RR R cols) {p : Nat × List Nat} (hp : p ∈ cols)
    {n : Nat} (hn : n ∈ p.1 :: p.2) : (t.slot n).isSome = true := by
  rcases List.mem_cons.mp hn with h | h
  · rw [h]; exact hd.hdr_live p hp
  · exact hd.cell_live p hp n h

/-- Every listed cell hangs consistently in its column ring. -/
lemma zip_cell (hd : Desc t root RR R cols) {p : Nat × List Nat} (hp : p ∈ cols)
    {c : Nat} (hc : c ∈ p.2) : ZipCond t c := by
  have hdn := hd.col_ring_d p hp
  have hup := hd.col_ring_u p hp
  have hinv := cyc_inverse_on hdn hup (List.mem_cons_of_mem _ hc)
  have hmem_up : (t.get c).up ∈ p.1 :: p.2 := by
    have := CycChain.mem_step hup (l := p.2.reverse)
      (List.mem_cons_of_mem _ (List.mem_reverse.mpr hc))
    rcases List.mem_cons.mp this with h | h
    · rw [h]; exact List.mem_cons_self _ _
    · exact List.mem_cons_of_mem _ (List.mem_reverse.mp h)
  have hmem_dn : (t.get c).down ∈ p.1 :: p.2 :=
    CycChain.mem_step hdn (List.mem_cons_of_mem _ hc)
  exact ⟨hd.col_member_live hp hmem_up, hd.col_member_live hp hmem_dn, hinv.2, hinv.1⟩

/-- A cell's header differs from the header of any of its row mates. -/
lemma row_mate_hdr_ne (hd : Desc t root RR R cols) {p : Nat × List Nat} (hp : p ∈ cols)
    {c : Nat} (hc : c ∈ p.2) {x : Nat} (hx : x ∈ RR c) :
    (t.get x).header ≠ some p.1 := by
  intro he
  have hnd := hd.row_hdrs p hp c hc
  rw [List.map_cons, List.nodup_cons] at hnd
  apply hnd.1
  rw [hd.cell_hdr p hp c hc, ← he]
  exact List.mem_map_of_mem _ hx

lemma colOk (hd : Desc t root RR R cols) {h : Nat} {ds : List Nat}
    (hp : (h, ds) ∈ cols) : ColOk t h ds := by
  have hdn := hd.col_ring_d _ hp
  have hup := hd.col_ring_u _ hp
  have hnd := hd.col_nodup _ hp
  have hlr := Desc.ring_closed hd
    (show h ∈ root :: cols.map Prod.fst from
      List.mem_cons_of_mem _ (List.mem_map_of_mem Prod.fst hp))
  refine ⟨?_, ?_, ?_, ?_, ?_, ?_, ?_, ?_, ?_⟩
  · rw [cyc_first hdn, headD_append_single]
  · exact (chainb_iff _ ds).mpr (cyc_chain' hdn)
  · intro hne
    exact cyc_last_pair hdn hne
  · rw [cyc_first hup, headD_append_single]
  · exact (chainb_iff _ ds.reverse).mpr (cyc_chain' hup)
  · intro hne
    exact cyc_last_pair hup (by simpa using hne)
  · exact (List.nodup_cons.mp hnd).1
  · exact List.dedup_eq_self.mpr (List.nodup_cons.mp hnd).2
  · intro c hc
    have hhdr := hd.cell_hdr _ hp c hc
    refine ⟨hd.cell_lt _ hp c hc, ?_, ?_, ?_⟩
    · unfold cid
      rw [hhdr, hd.hdr_none _ hp]
      rfl
    · intro he
      have := hd.ring_hdr_none hlr.2
      rw [← he, hhdr] at this
      cases this
    · intro he
      have := hd.ring_hdr_none hlr.1
      rw [← he, hhdr] at this
      cases this

lemma rowOk (hd : Desc t root RR R cols) {h : Nat} {ds : List Nat}
    (hp : (h, ds) ∈ cols) {r : Nat} (hr : r ∈ ds) : RowOk t h r (RR r) := by
  have hrr := hd.row_ring_r _ hp r hr
  have hrl := hd.row_ring_l _ hp r hr
  have hnd := hd.row_nodup _ hp r hr
  have hlr := Desc.ring_closed hd
    (show h ∈ root :: cols.map Prod.fst from
      List.mem_cons_of_mem _ (List.mem_map_of_mem Prod.fst hp))
  refine ⟨?_, ?_, ?_, ?_, ?_, ?_, ?_, ?_, ?_⟩
  · rw [cyc_first hrr, headD_append_single]
  · exact (chainb_iff _ (RR r)).mpr (cyc_chain' hrr)
  · intro hne
    exact cyc_last_pair hrr hne
  · rw [cyc_first hrl, headD_append_single]
  · exact (chainb_iff _ (RR r).reverse).mpr (cyc_chain' hrl)
  · intro hne
    exact cyc_last_pair hrl (by simpa using hne)
  · exact (List.nodup_cons.mp hnd).1
  · exact List.dedup_eq_self.mpr (List.nodup_cons.mp hnd).2
  · intro x hx
    obtain ⟨q, hq, hxh, hxq, _⟩ := hd.row_cells _ hp r hr x hx
    have hqh : q.1 ≠ h := by
      intro he
      exact hd.row_mate_hdr_ne hp hr hx (he ▸ hxh)
    refine ⟨hd.cell_lt q hq x hxq, ?_, ?_, ?_⟩
    · unfold cid
      rw [hxh, hd.hdr_none _ hp]
      simpa using hqh
    · intro he
      have := hd.ring_hdr_none hlr.2
      rw [← he, hxh] at this
      cases this
    · intro he
      have := hd.ring_hdr_none hlr.1
      rw [← he, hxh] at this
      cases this

lemma nodup_flatten_of_disjoint : ∀ (L : List (List Nat)),
    (∀ l ∈ L, l.Nodup) → List.Pairwise List.Disjoint L → L.flatten.Nodup := by
  intro L
  induction L with
  | nil => intro _ _; simp
  | cons l rest ih =>
    intro hall hpw
    rw [List.flatten_cons, List.nodup_append]
    refine ⟨hall l (by simp), ih (fun s hs => hall s (by simp [hs]))
      (List.pairwise_cons.mp hpw).2, ?_⟩
    intro a ha hmem
    obtain ⟨s, hs, has⟩ := List.mem_flatten.mp hmem
    exact (List.pairwise_cons.mp hpw).1 s hs ha has

/-- The cells removed when covering a column — all other cells of all its
rows — are pairwise distinct. -/
lemma flat_nodup (hd : Desc t root RR R cols) {h : Nat} {ds : List Nat}
    (hp : (h, ds) ∈ cols) : ((ds.map RR).flatten).Nodup := by
  refine nodup_flatten_of_disjoint _ ?_ ?_
  · intro l hl
    obtain ⟨r, hr, he⟩ := List.mem_map.mp hl
    rw [← he]
    exact (List.nodup_cons.mp (hd.row_nodup _ hp r hr)).2
  · rw [List.pairwise_map]
    have hpair : ds.Pairwise (fun a b => R a ≠ R b) := by
      have := hd.rows_distinct _ hp
      rw [List.Nodup, List.pairwise_map] at this
      exact this
    refine hpair.imp_of_mem ?_
    intro a b ha hb hne y hya hyb
    obtain ⟨q1, hq1, hh1, hm1, h1⟩ := hd.row_cells _ hp a ha y hya
    obtain ⟨q2, hq2, hh2, hm2, h2⟩ := hd.row_cells _ hp b hb y hyb
    exact hne (h1.symm.trans h2)

/-- The mutual-inverse facts for a header's horizontal neighbours. -/
lemma h_inverse (hd : Desc t root RR R cols) {h : Nat}
    (hk : h ∈ root :: cols.map Prod.fst) :
    (t.get ((t.get h).left)).right = h ∧ (t.get ((t.get h).right)).left = h := by
  have hinv := cyc_inverse_on hd.hring_r hd.hring_l hk
  exact ⟨hinv.2, hinv.1⟩

/-- Covering then uncovering a live column restores the heap exactly. -/
lemma roundtrip (hd : Desc t root RR R cols) {h : Nat} {ds : List Nat}
    (hp : (h, ds) ∈ cols) : (t.cover_column h).uncover_column h = t := by
  have hhdr : (t.get h).header = none := hd.hdr_none _ hp
  have hH := hd.h_inverse (h := h)
    (List.mem_cons_of_mem _ (List.mem_map_of_mem Prod.fst hp))
  have hcol := hd.colOk hp
  have hrows : ∀ r ∈ ds, RowOk t h r (RR r) := fun r hr => hd.rowOk hp hr
  obtain ⟨hcov, hM⟩ := cover_column_eq_fold t h ds RR hhdr hcol hrows hd.vw hd.rows_lt
  rw [hcov, uncover_column_eq_fold t h ds RR hhdr hcol hrows _ hM,
    ← flatten_map_reverse RR ds,
    fold_cover_uncover ((ds.map RR).flatten) (t.cover_horizontal h)
      (fun c hc => ZipCond_CH t h c ?_)
      (hd.flat_nodup hp)
      (fun n hn => by
        rw [(Heap.cover_horizontal_stable t h n).2.2.2]
        exact hd.rows_lt n (by rwa [Heap.size_cover_horizontal] at hn))]
  · exact Heap.uncover_cover_horizontal t h hH.1 hH.2
  · obtain ⟨rs, hrs, hcrs⟩ := List.mem_flatten.mp hc
    obtain ⟨r, hr, he⟩ := List.mem_map.mp hrs
    obtain ⟨q, hq, _, hxq, _⟩ := hd.row_cells _ hp r hr c (he ▸ hcrs)
    exact hd.zip_cell hq hxq

end Desc

/-- Covering a live column `h` transforms a described state into the state
described without column `h` and without every other cell of each of `h`'s
rows; headers, liveness, sizes, row rings and row indices are untouched. -/
lemma Desc.cover {t : Heap} {root : Nat} {RR : Nat → List Nat} {R : Nat → Nat}
    {cols pre post : List (Nat × List Nat)} {h : Nat} {ds : List Nat}
    (hd : Desc t root RR R cols)
    (hsplit : cols = pre ++ (h, ds) :: post) :
    Desc (t.cover_column h) root RR R
      (removeCells ((ds.map RR).flatten) (pre ++ post)) ∧
    MInv t h (t.cover_column h) ∧
    (∀ n k, (t.get n).header = some k →
      ((t.cover_column h).get n).row = (t.get n).row) := by
  have hp : (h, ds) ∈ cols := by
    rw [hsplit]
    exact List.mem_append_right _ (List.mem_cons_self _ _)
  have hhdr : (t.get h).header = none := hd.hdr_none _ hp
  have hcol := hd.colOk hp
  have hrows : ∀ r ∈ ds, RowOk t h r (RR r) := fun r hr => hd.rowOk hp hr
  obtain ⟨hcov, hM⟩ := cover_column_eq_fold t h ds RR hhdr hcol hrows hd.vw hd.rows_lt
  rw [← hcov] at hM
  have hsub : ∀ p ∈ pre ++ post, p ∈ cols := by
    intro p hp2
    rw [hsplit]
    rcases List.mem_append.mp hp2 with h1 | h1
    · exact List.mem_append_left _ h1
    · exact List.mem_append_right _ (List.mem_cons_of_mem _ h1)
  have hkeys_sub : List.Sublist ((pre ++ post).map Prod.fst) (cols.map Prod.fst) := by
    rw [hsplit, List.map_append, List.map_append, List.map_cons]
    exact List.Sublist.append (List.Sublist.refl _) (List.sublist_cons_self _ _)
  have hkeys_nodup : ((pre ++ post).map Prod.fst).Nodup :=
    ((List.nodup_cons.mp hd.ring_nodup).2).sublist hkeys_sub
  have hh_not : h ∉ (pre ++ post).map Prod.fst := by
    have hnd := (List.nodup_cons.mp hd.ring_nodup).2
    rw [hsplit, List.map_append, List.map_cons] at hnd
    rw [List.map_append]
    intro hmem
    rcases List.mem_append.mp hmem with h1 | h1
    · exact (List.disjoint_of_nodup_append hnd) h1 (List.mem_cons_self _ _)
    · exact (List.nodup_cons.mp (List.nodup_append.mp hnd).2.1).1 h1
  have hCHstable := Heap.cover_horizontal_stable t h
  have hbase : ColsInv (pre ++ post) (t.cover_horizontal h) := by
    refine ⟨hkeys_nodup, ?_, ?_, ?_, ?_, ?_, ?_, ?_, ?_, ?_⟩
    · intro p hp2
      rw [(hCHstable p.1).1]
      exact hd.hdr_none p (hsub p hp2)
    · intro p hp2
      simp only [Heap.cover_horizontal, Heap.slot_isSome_modify]
      exact hd.hdr_live p (hsub p hp2)
    · intro p hp2 c hc
      rw [(hCHstable c).1]
      exact hd.cell_hdr p (hsub p hp2) c hc
    · intro p hp2 c hc
      simp only [Heap.cover_horizontal, Heap.slot_isSome_modify]
      exact hd.cell_live p (hsub p hp2) c hc
    · intro p hp2
      exact CycChain.congr (hd.col_ring_d p (hsub p hp2)) (fun n _ => (hCHstable n).2.2.1)
    · intro p hp2
      exact CycChain.congr (hd.col_ring_u p (hsub p hp2)) (fun n _ => (hCHstable n).2.1)
    · intro p hp2
      exact hd.col_nodup p (hsub p hp2)
    · intro p hp2
      rw [(hCHstable p.1).2.2.2]
      exact hd.count_ok p (hsub p hp2)
    · intro p hp2
      rw [← hd.count_ok p (hsub p hp2)]
      exact hd.rows_lt p.1 (hd.hdr_lt p (hsub p hp2))
  have hcells_mem : ∀ x ∈ (ds.map RR).flatten, ∃ q, q ∈ pre ++ post ∧ x ∈ q.2 := by
    intro x hx
    obtain ⟨rs, hrs, hxrs⟩ := List.mem_flatten.mp hx
    obtain ⟨r, hr, he⟩ := List.mem_map.mp hrs
    obtain ⟨q, hq, hxh, hxq, _⟩ := hd.row_cells _ hp r hr x (he ▸ hxrs)
    have hqh : q.1 ≠ h := fun he2 => hd.row_mate_hdr_ne hp hr (he ▸ hxrs) (he2 ▸ hxh)
    refine ⟨q, ?_, hxq⟩
    rw [hsplit] at hq
    rcases List.mem_append.mp hq with h1 | h1
    · exact List.mem_append_left _ h1
    · rcases List.mem_cons.mp h1 with h2 | h2
      · exact absurd (by rw [h2]) hqh
      · exact List.mem_append_right _ h2
  obtain ⟨hIfin, hrowfin⟩ := fold_delete ((ds.map RR).flatten) (pre ++ post)
    (t.cover_horizontal h) (hd.flat_nodup hp) hcells_mem hbase
  rw [← hcov] at hIfin hrowfin
  have hlh_ring := (Desc.ring_closed hd (show h ∈ root :: cols.map Prod.fst from
    List.mem_cons_of_mem _ (List.mem_map_of_mem Prod.fst hp)))
  have hright : ∀ n, ((t.cover_column h).get n).right
      = if n = (t.get h).left then (t.get h).right else (t.get n).right := by
    intro n
    rw [hcov, (fold_coverCellStep_stable _ _ n).2.1]
    exact Heap.cover_horizontal_right t h (hd.ring_live hlh_ring.2) n
  have hleft : ∀ n, ((t.cover_column h).get n).left
      = if n = (t.get h).right then (t.get h).left else (t.get n).left := by
    intro n
    rw [hcov, (fold_coverCellStep_stable _ _ n).1]
    exact Heap.cover_horizontal_left t h (hd.ring_live hlh_ring.1) n
  have hkeys_split : cols.map Prod.fst = pre.map Prod.fst ++ h :: post.map Prod.fst := by
    rw [hsplit, List.map_append, List.map_cons]
  have hringr := hd.hring_r
  have hringl := hd.hring_l
  have hrnd := hd.ring_nodup
  rw [hkeys_split] at hringr hringl hrnd
  have hpairsH := chainPairs_cyc_split root h (pre.map Prod.fst) (post.map Prod.fst)
  have hm1 : ((root :: pre.map Prod.fst).getLastD 0, h)
      ∈ chainPairs (root :: (pre.map Prod.fst ++ h :: post.map Prod.fst) ++ [root]) := by
    rw [hpairsH]
    exact List.mem_append_right _ (List.mem_cons_self _ _)
  have hm2 : (h, (post.map Prod.fst ++ [root]).headD 0)
      ∈ chainPairs (root :: (pre.map Prod.fst ++ h :: post.map Prod.fst) ++ [root]) := by
    rw [hpairsH]
    exact List.mem_append_right _ (List.mem_cons_of_mem _ (List.mem_cons_self _ _))
  have hinvH1 := cyc_pair_inverse hringr hringl hm1
  have hinvH2 := cyc_pair_inverse hringr hringl hm2
  have hdelH := cyc_delete (F := fun n => ((t.cover_column h).get n).right)
    (G := fun n => ((t.cover_column h).get n).left) hrnd hringr hringl
    (fun n _ => by
      show ((t.cover_column h).get n).right = _
      rw [hright n, hinvH1.2, hinvH2.1])
    (fun n _ => by
      show ((t.cover_column h).get n).left = _
      rw [hleft n, hinvH1.2, hinvH2.1])
  have hcell_not_key : ∀ (r : Nat × List Nat), r ∈ pre ++ post → ∀ c ∈ r.2,
      ∀ p3 ∈ pre ++ post, c ≠ p3.1 := by
    intro r hr c hc p3 hp3 he
    have e1 := hd.cell_hdr r (hsub r hr) c hc
    rw [he, hd.hdr_none p3 (hsub p3 hp3)] at e1
    cases e1
  have hdata_ne_lh : ∀ (r : Nat × List Nat), r ∈ cols → ∀ n, (t.get n).header = some r.1 →
      n ≠ (t.get h).left ∧ n ≠ (t.get h).right := by
    intro r hr n hn
    constructor
    · intro he
      have := hd.ring_hdr_none hlh_ring.2
      rw [← he, hn] at this
      cases this
    · intro he
      have := hd.ring_hdr_none hlh_ring.1
      rw [← he, hn] at this
      cases this
  refine ⟨⟨?_, ?_, ?_, ?_, ?_, ?_, ?_, ?_, ?_, ?_, ?_, ?_, ?_, ?_, ?_, ?_, ?_, ?_, ?_,
    ?_, ?_, ?_, ?_, ?_, ?_, ?_⟩, hM, ?_⟩
  · rw [hM.size_eq]
    exact hd.root_lt
  · rw [hM.live]
    exact hd.root_live
  · rw [hM.hdr]
    exact hd.root_hdr
  · rw [removeCells_keys, List.map_append]
    exact hdelH.1
  · rw [removeCells_keys, List.map_append]
    exact hdelH.2
  · rw [removeCells_keys]
    refine List.nodup_cons.mpr ⟨?_, hkeys_nodup⟩
    intro hmem
    exact (List.nodup_cons.mp hd.ring_nodup).1 (hkeys_sub.subset hmem)
  · intro p2 hp2
    obtain ⟨r, hr, he⟩ := List.mem_map.mp hp2
    rw [← he, hM.size_eq]
    exact hd.hdr_lt r (hsub r hr)
  · exact hIfin.hdr_live
  · exact hIfin.hdr_none
  · exact hIfin.count
  · exact hIfin.ring_d
  · exact hIfin.ring_u
  · exact hIfin.nodup
  · intro p2 hp2 c hc
    obtain ⟨r, hr, he⟩ := List.mem_map.mp hp2
    rw [← he] at hc
    simp only at hc
    rw [hM.size_eq]
    exact hd.cell_lt r (hsub r hr) c (List.mem_of_mem_filter hc)
  · exact hIfin.cell_live
  · exact hIfin.cell_hdr
  · intro p2 hp2 c hc
    obtain ⟨r, hr, he⟩ := List.mem_map.mp hp2
    rw [← he] at hc
    simp only at hc
    have hcr := List.mem_of_mem_filter hc
    rw [hrowfin c (hcell_not_key r hr c hcr), (hCHstable c).2.2.2]
    exact hd.cell_row r (hsub r hr) c hcr
  · intro p2 hp2 c hc
    obtain ⟨r, hr, he⟩ := List.mem_map.mp hp2
    rw [← he] at hc
    simp only at hc
    have hcr := List.mem_of_mem_filter hc
    refine CycChain.congr (hd.row_ring_r r (hsub r hr) c hcr) ?_
    intro n hn
    rw [hright n, if_neg ?_]
    have hnh : ∃ k, (t.get n).header = some k := by
      rcases List.mem_cons.mp hn with h1 | h1
      · exact ⟨r.1, h1 ▸ hd.cell_hdr r (hsub r hr) c hcr⟩
      · obtain ⟨q, hq, hxh, _, _⟩ := hd.row_cells r (hsub r hr) c hcr n h1
        exact ⟨q.1, hxh⟩
    obtain ⟨k, hk⟩ := hnh
    intro he2
    have := hd.ring_hdr_none hlh_ring.2
    rw [← he2, hk] at this
    cases this
  · intro p2 hp2 c hc
    obtain ⟨r, hr, he⟩ := List.mem_map.mp hp2
    rw [← he] at hc
    simp only at hc
    have hcr := List.mem_of_mem_filter hc
    refine CycChain.congr (hd.row_ring_l r (hsub r hr) c hcr) ?_
    intro n hn
    have hn2 : n ∈ c :: RR c := by
      rcases List.mem_cons.mp hn with h1 | h1
      · rw [h1]; exact List.mem_cons_self _ _
      · exact List.mem_cons_of_mem _ (List.mem_reverse.mp h1)
    rw [hleft n, if_neg ?_]
    have hnh : ∃ k, (t.get n).header = some k := by
      rcases List.mem_cons.mp hn2 with h1 | h1
      · exact ⟨r.1, h1 ▸ hd.cell_hdr r (hsub r hr) c hcr⟩
      · obtain ⟨q, hq, hxh, _, _⟩ := hd.row_cells r (hsub r hr) c hcr n h1
        exact ⟨q.1, hxh⟩
    obtain ⟨k, hk⟩ := hnh
    intro he2
    have := hd.ring_hdr_none hlh_ring.1
    rw [← he2, hk] at this
    cases this
  · intro p2 hp2 c hc
    obtain ⟨r, hr, he⟩ := List.mem_map.mp hp2
    rw [← he] at hc
    simp only at hc
    exact hd.row_nodup r (hsub r hr) c (List.mem_of_mem_filter hc)
  · intro p2 hp2 c hc x hx
    obtain ⟨r, hr, he⟩ := List.mem_map.mp hp2
    rw [← he] at hc
    simp only at hc
    rw [mem_filter_rem] at hc
    obtain ⟨hcr, hcrem⟩ := hc
    have hrcols := hsub r hr
    obtain ⟨q, hq, hxh, hxq, hRx⟩ := hd.row_cells r hrcols c hcr x hx
    have hrkey_ne : r.1 ≠ h := fun he2 => hh_not (he2 ▸ List.mem_map_of_mem Prod.fst hr)
    by_cases hqh : q.1 = h
    · exfalso
      have hqeq : q = (h, ds) := pair_eq_of_keys_nodup
        (List.nodup_cons.mp hd.ring_nodup).2 hq hp hqh
      subst hqeq
      have hcx : c ∈ x :: RR x := cyc_orbit_eq (hd.row_ring_r r hrcols c hcr)
        (hd.row_ring_r _ hp x hxq) (List.mem_cons_of_mem _ hx) (List.mem_cons_self _ _)
      rcases List.mem_cons.mp hcx with h1 | h1
      · have e1 := hd.cell_hdr r hrcols c hcr
        rw [h1, hxh] at e1
        exact hrkey_ne (Option.some.inj e1).symm
      · exact hcrem (List.mem_flatten.mpr ⟨RR x, List.mem_map_of_mem RR hxq, h1⟩)
    · have hq_mem : q ∈ pre ++ post := by
        rw [hsplit] at hq
        rcases List.mem_append.mp hq with h1 | h1
        · exact List.mem_append_left _ h1
        · rcases List.mem_cons.mp h1 with h2 | h2
          · exact absurd (by rw [h2]) hqh
          · exact List.mem_append_right _ h2
      have hx_notrem : x ∉ (ds.map RR).flatten := by
        intro hxrem
        obtain ⟨rs, hrs, hxrs⟩ := List.mem_flatten.mp hxrem
        obtain ⟨e, hed, hee⟩ := List.mem_map.mp hrs
        have hxRRe : x ∈ RR e := hee ▸ hxrs
        have hring_c := hd.row_ring_r r hrcols c hcr
        have hring_x := hd.row_ring_r q hq x hxq
        have hring_e := hd.row_ring_r _ hp e hed
        have hcx : c ∈ x :: RR x := cyc_orbit_eq hring_c hring_x
          (List.mem_cons_of_mem _ hx) (List.mem_cons_self _ _)
        have hex : e ∈ x :: RR x := cyc_orbit_eq hring_e hring_x
          (List.mem_cons_of_mem _ hxRRe) (List.mem_cons_self _ _)
        have hce : c ∈ e :: RR e := cyc_orbit_eq hring_x hring_e hex hcx
        rcases List.mem_cons.mp hce with h1 | h1
        · have e1 := hd.cell_hdr _ hp e hed
          rw [← h1, hd.cell_hdr r hrcols c hcr] at e1
          exact hrkey_ne (Option.some.inj e1)
        · exact hcrem (List.mem_flatten.mpr ⟨RR e, List.mem_map_of_mem RR hed, h1⟩)
      refine ⟨(q.1, q.2.filter (fun c => !(((ds.map RR).flatten).contains c))), ?_, ?_, ?_, hRx⟩
      · exact List.mem_map.mpr ⟨q, hq_mem, rfl⟩
      · rw [hM.hdr]
        exact hxh
      · simp only
        rw [mem_filter_rem]
        exact ⟨hxq, hx_notrem⟩
  · intro p2 hp2 c hc
    obtain ⟨r, hr, he⟩ := List.mem_map.mp hp2
    rw [← he] at hc
    simp only at hc
    simp only [hM.hdr]
    exact hd.row_hdrs r (hsub r hr) c (List.mem_of_mem_filter hc)
  · intro p2 hp2
    obtain ⟨r, hr, he⟩ := List.mem_map.mp hp2
    rw [← he]
    simp only
    exact (hd.rows_distinct r (hsub r hr)).sublist ((List.filter_sublist _).map R)
  · intro p2 hp2 c hc q2 hq2 d hdm hRd
    obtain ⟨r, hr, he⟩ := List.mem_map.mp hp2
    rw [← he] at hc
    simp only at hc
    obtain ⟨r2, hr2, he2⟩ := List.mem_map.mp hq2
    rw [← he2] at hdm
    simp only at hdm
    exact hd.same_row_ring r (hsub r hr) c (List.mem_of_mem_filter hc)
      r2 (hsub r2 hr2) d (List.mem_of_mem_filter hdm) hRd
  · intro n hn
    rw [hM.size_eq] at hn
    have hcid : ∀ m, cid (t.cover_column h) m = cid t m := cid_congr hM.hdr
    simp only [hcid, hM.size_eq]
    exact ⟨(hM.vw_up n hn).1, (hM.vw_up n hn).2, (hM.vw_down n hn).1, (hM.vw_down n hn).2⟩
  · intro n hn
    rw [hM.size_eq] at hn
    exact hM.rows_lt n hn
  · intro n k hk
    rw [hrowfin n ?_, (hCHstable n).2.2.2]
    intro p hp2 he
    have hnone := hd.hdr_none p (hsub p hp2)
    rw [he, hnone] at hk
    cases hk

/-- `cover_column` on a data cell resolves to its column header. -/
lemma Heap.cover_column_cell (t : Heap) {x hx : Nat} (hhdr : (t.get x).header = some hx)
    (hnone : (t.get hx).header = none) : t.cover_column x = t.cover_column hx := by
  simp only [Heap.cover_column]
  rw [hhdr, hnone]

/-- `uncover_column` on a data cell resolves to its column header. -/
lemma Heap.uncover_column_cell (t : Heap) {x hx : Nat} (hhdr : (t.get x).header = some hx)
    (hnone : (t.get hx).header = none) : t.uncover_column x = t.uncover_column hx := by
  simp only [Heap.uncover_column]
  rw [hhdr, hnone]

/-- A duplicate-free cyclic ring is traversed by `ringList` exactly. -/
lemma cyc_ringList (step : Nat → Nat) (o : Nat) (l : List Nat)
    (hf : CycChain step o l) (hnd : (o :: l).Nodup) (fuel : Nat)
    (hlen : (o :: l).length ≤ fuel) : ringList step o fuel o = o :: l := by
  refine ringList_eq_of_chain step o (o :: l) fuel o rfl ?_ ?_ ?_ hlen
  · rw [chain'_iff_chainPairs]
    intro p hp
    refine hf p ?_
    rw [show (o :: l ++ [o]) = (o :: l) ++ [o] by simp,
      chainPairs_append (o :: l) [o] (by simp) (by simp)]
    exact List.mem_append_left _ hp
  · refine hf ((o :: l).getLastD 0, o) ?_
    rw [show (o :: l ++ [o]) = (o :: l) ++ [o] by simp,
      chainPairs_append (o :: l) [o] (by simp) (by simp)]
    refine List.mem_append_right _ ?_
    simp
  · intro x hx he
    exact (List.nodup_cons.mp hnd).1 (he ▸ hx)

/-- The header-ring traversal of a described state. -/
lemma Desc.iter_right_root {t : Heap} {root : Nat} {RR : Nat → List Nat} {R : Nat → Nat}
    {cols : List (Nat × List Nat)} (hd : Desc t root RR R cols) :
    t.iter_right root = root :: cols.map Prod.fst := by
  refine cyc_ringList _ root (cols.map Prod.fst) hd.hring_r hd.ring_nodup t.size ?_
  refine length_le_of_nodup_lt _ _ hd.ring_nodup ?_
  intro x hx
  exact hd.ring_lt hx

/-- A data cell is never one of the two horizontal neighbours of a live
column header (those lie on the header ring). -/
lemma Desc.data_ne_hlr {t : Heap} {root : Nat} {RR : Nat → List Nat} {R : Nat → Nat}
    {cols : List (Nat × List Nat)} (hd : Desc t root RR R cols) {q : Nat × List Nat}
    (hq : q ∈ cols) {n k : Nat} (hk : (t.get n).header = some k) :
    n ≠ (t.get q.1).left ∧ n ≠ (t.get q.1).right := by
  have hlr := Desc.ring_closed hd (show q.1 ∈ root :: cols.map Prod.fst from
    List.mem_cons_of_mem _ (List.mem_map_of_mem Prod.fst hq))
  constructor
  · intro he
    have hnone := hd.ring_hdr_none hlr.2
    rw [← he, hk] at hnone
    cases hnone
  · intro he
    have hnone := hd.ring_hdr_none hlr.1
    rw [← he, hk] at hnone
    cases hnone

/-- Covering the columns of a list of data cells in sequence: the final state
is described without those columns and without the cells of their rows;
headers, liveness, sizes and the pointers of data cells are untouched. -/
lemma cover_cells_fold {root : Nat} {RR : Nat → List Nat} {R : Nat → Nat} :
    ∀ (xs : List Nat) (u : Heap) (cols2 : List (Nat × List Nat)),
      Desc u root RR R cols2 →
      (∀ x ∈ xs, ∃ q, q ∈ cols2 ∧ (u.get x).header = some q.1) →
      ((xs.map (fun x => (u.get x).header)).Nodup) →
      ∃ cols3,
        Desc (xs.foldl (fun t x => t.cover_column x) u) root RR R cols3 ∧
        (∀ q3 ∈ cols3, ∃ q2, q2 ∈ cols2 ∧ q3.1 = q2.1 ∧ ∀ c ∈ q3.2, c ∈ q2.2) ∧
        (∀ x ∈ xs, ∀ k, (u.get x).header = some k → k ∉ cols3.map Prod.fst) ∧
        (∀ p ∈ cols2, (∀ x ∈ xs, (u.get x).header ≠ some p.1) →
          p.1 ∈ cols3.map Prod.fst) ∧
        (∀ n, ((xs.foldl (fun t x => t.cover_column x) u).get n).header
          = (u.get n).header) ∧
        (∀ n k, (u.get n).header = some k →
          ((xs.foldl (fun t x => t.cover_column x) u).get n).right = (u.get n).right ∧
          ((xs.foldl (fun t x => t.cover_column x) u).get n).left = (u.get n).left ∧
          ((xs.foldl (fun t x => t.cover_column x) u).get n).row = (u.get n).row) := by
  intro xs
  induction xs with
  | nil =>
    intro u cols2 hd _ _
    exact ⟨cols2, hd, fun q3 h3 => ⟨q3, h3, rfl, fun c hc => hc⟩,
      fun x hx => absurd hx (List.not_mem_nil x),
      fun p hp _ => List.mem_map_of_mem Prod.fst hp,
      fun n => rfl, fun n k _ => ⟨rfl, rfl, rfl⟩⟩
  | cons x rest ih =>
    intro u cols2 hd hmem hnd
    obtain ⟨q, hq, hxh⟩ := hmem x (List.mem_cons_self _ _)
    obtain ⟨pre, post, hsp⟩ := List.append_of_mem hq
    have hsplit : cols2 = pre ++ (q.1, q.2) :: post := by
      rw [hsp, Prod.mk.eta]
    obtain ⟨hd1, hM1, hrow1⟩ := Desc.cover hd hsplit
    have hq1none : (u.get q.1).header = none := hd.hdr_none q hq
    have hcover_eq : u.cover_column x = u.cover_column q.1 :=
      Heap.cover_column_cell u hxh hq1none
    set u1 := u.cover_column q.1 with hu1def
    have hq1_gone : q.1 ∉ (removeCells ((q.2.map RR).flatten) (pre ++ post)).map Prod.fst := by
      rw [removeCells_keys]
      have hnd2 := (List.nodup_cons.mp hd.ring_nodup).2
      rw [hsplit, List.map_append, List.map_cons] at hnd2
      rw [List.map_append]
      intro hmem2
      rcases List.mem_append.mp hmem2 with h1 | h1
      · exact (List.disjoint_of_nodup_append hnd2) h1 (List.mem_cons_self _ _)
      · exact (List.nodup_cons.mp (List.nodup_append.mp hnd2).2.1).1 h1
    have hmem1 : ∀ y ∈ rest, ∃ r, r ∈ removeCells ((q.2.map RR).flatten) (pre ++ post) ∧
        (u1.get y).header = some r.1 := by
      intro y hy
      obtain ⟨qy, hqy, hyh⟩ := hmem y (List.mem_cons_of_mem _ hy)
      have hkey_ne : qy.1 ≠ q.1 := by
        intro he
        rw [List.map_cons, List.nodup_cons] at hnd
        apply hnd.1
        rw [hxh, ← he, ← hyh]
        exact List.mem_map_of_mem _ hy
      have hqy2 : qy ∈ pre ++ post := by
        rw [hsp] at hqy
        rcases List.mem_append.mp hqy with h1 | h1
        · exact List.mem_append_left _ h1
        · rcases List.mem_cons.mp h1 with h2 | h2
          · exact absurd (by rw [h2]) hkey_ne
          · exact List.mem_append_right _ h2
      refine ⟨(qy.1, qy.2.filter (fun c => !((((q.2.map RR).flatten)).contains c))), ?_, ?_⟩
      · exact List.mem_map.mpr ⟨qy, hqy2, rfl⟩
      · rw [hM1.hdr]
        exact hyh
    have hnd1 : (rest.map (fun y => (u1.get y).header)).Nodup := by
      have : (rest.map (fun y => (u1.get y).header)) = rest.map (fun y => (u.get y).header) := by
        refine List.map_congr_left ?_
        intro y _
        exact hM1.hdr y
      rw [this]
      exact (List.nodup_cons.mp (by rwa [List.map_cons] at hnd)).2
    obtain ⟨cols3, hd3, hsub3, hout3, hin3, hhdr3, hlr3⟩ :=
      ih u1 (removeCells ((q.2.map RR).flatten) (pre ++ post)) hd1 hmem1 hnd1
    refine ⟨cols3, ?_, ?_, ?_, ?_, ?_, ?_⟩
    · simpa only [List.foldl_cons, hcover_eq] using hd3
    · intro q3 h3
      obtain ⟨q2, hq2, hk2, hsub2⟩ := hsub3 q3 h3
      obtain ⟨r, hr, he⟩ := List.mem_map.mp hq2
      refine ⟨r, ?_, ?_, ?_⟩
      · rw [hsp]
        rcases List.mem_append.mp hr with h1 | h1
        · exact List.mem_append_left _ h1
        · exact List.mem_append_right _ (List.mem_cons_of_mem _ h1)
      · rw [hk2, ← he]
      · intro c hc
        have := hsub2 c hc
        rw [← he] at this
        simp only at this
        exact List.mem_of_mem_filter this
    · intro y hy k hk
      rcases List.mem_cons.mp hy with h1 | h1
      · subst h1
        rw [hxh] at hk
        have hkq : k = q.1 := (Option.some.inj hk).symm
        subst hkq
        intro hmem3
        obtain ⟨q3, h3, he3⟩ := List.mem_map.mp hmem3
        obtain ⟨q2, hq2, hk2, _⟩ := hsub3 q3 h3
        apply hq1_gone
        rw [← he3, hk2]
        exact List.mem_map_of_mem Prod.fst hq2
      · refine hout3 y h1 k ?_
        rw [hM1.hdr]
        exact hk
    · intro p hp hnot
      have hp_ne : p.1 ≠ q.1 := by
        intro he
        exact hnot x (List.mem_cons_self _ _) (by rw [hxh, he])
      have hp2 : p ∈ pre ++ post := by
        rw [hsp] at hp
        rcases List.mem_append.mp hp with h1 | h1
        · exact List.mem_append_left _ h1
        · rcases List.mem_cons.mp h1 with h2 | h2
          · exact absurd (by rw [h2]) hp_ne
          · exact List.mem_append_right _ h2
      have := hin3 (p.1, p.2.filter (fun c => !((((q.2.map RR).flatten)).contains c)))
        (List.mem_map.mpr ⟨p, hp2, rfl⟩) ?_
      · exact this
      · intro y hy hk
        refine hnot y (List.mem_cons_of_mem _ hy) ?_
        rw [← hM1.hdr]
        exact hk
    · intro n
      simp only [List.foldl_cons, hcover_eq]
      rw [hhdr3 n, hM1.hdr]
    · intro n k hk
      simp only [List.foldl_cons, hcover_eq]
      have hk1 : (u1.get n).header = some k := by rw [hM1.hdr]; exact hk
      obtain ⟨h1, h2, h3⟩ := hlr3 n k hk1
      have hne := Desc.data_ne_hlr hd hq hk
      refine ⟨?_, ?_, ?_⟩
      · rw [h1, hM1.rights n hne.1]
      · rw [h2, hM1.lefts n hne.2]
      · rw [h3, hrow1 n k hk]

/-- Straightening the inner covering loop of `solve_helper`: visiting a
static right-chain of data cells whose columns are live, covering each
cell's column in turn, is a fold of `cover_column`. -/
lemma cover_loop_aux {root : Nat} {RR : Nat → List Nat} {R : Nat → Nat} :
    ∀ (l : List Nat) (fuel : Nat) (v u0 : Heap) (cols2 : List (Nat × List Nat))
      (cur c : Nat),
      l.head? = some c →
      List.Chain' (fun a b => (u0.get a).right = b) l →
      (l ≠ [] → (u0.get (l.getLastD 0)).right = cur) →
      (∀ x ∈ l, x ≠ cur) →
      l.length ≤ fuel →
      Desc v root RR R cols2 →
      (∀ n, (v.get n).header = (u0.get n).header) →
      (∀ n k, (u0.get n).header = some k → (v.get n).right = (u0.get n).right) →
      (∀ x ∈ l, ∃ q, q ∈ cols2 ∧ (u0.get x).header = some q.1) →
      ((l.map (fun x => (u0.get x).header)).Nodup) →
      ringLoop (fun t c => (Heap.get t c).right) (fun t c => Heap.cover_column t c)
          cur fuel v c
        = l.foldl (fun t x => t.cover_column x) v := by
  intro l
  induction l with
  | nil => intro fuel v u0 cols2 cur c h _ _ _ _ _ _ _ _ _; simp at h
  | cons c0 rest ih =>
    intro fuel v u0 cols2 cur c hhead hchain hlast hne hlen hd hvhdr hvr hmem hhnd
    have hc : c0 = c := by simpa using hhead
    subst hc
    obtain ⟨fuel, rfl⟩ : ∃ f, fuel = f + 1 := ⟨fuel - 1, by simp at hlen; omega⟩
    obtain ⟨q, hq, hc0h⟩ := hmem c0 (List.mem_cons_self _ _)
    obtain ⟨pre, post, hsp⟩ := List.append_of_mem hq
    have hsplit : cols2 = pre ++ (q.1, q.2) :: post := by rw [hsp, Prod.mk.eta]
    obtain ⟨hd1, hM1, hrow1⟩ := Desc.cover hd hsplit
    have hq1none : (v.get q.1).header = none := hd.hdr_none q hq
    have hvc0 : (v.get c0).header = some q.1 := by rw [hvhdr]; exact hc0h
    have hcover_eq : v.cover_column c0 = v.cover_column q.1 :=
      Heap.cover_column_cell v hvc0 hq1none
    have hstep : (v.get c0).right = (u0.get c0).right := hvr c0 q.1 hc0h
    have hloop : ringLoop (fun t c => (Heap.get t c).right)
        (fun t c => Heap.cover_column t c) cur (fuel + 1) v c0
        = if (u0.get c0).right = cur then v.cover_column c0
          else ringLoop (fun t c => (Heap.get t c).right)
            (fun t c => Heap.cover_column t c) cur fuel (v.cover_column c0)
            ((u0.get c0).right) := by
      show (let nxt := (v.get c0).right
        let st := v.cover_column c0
        if nxt = cur then st else ringLoop _ _ cur fuel st nxt) = _
      rw [hstep]
    rw [hloop]
    cases rest with
    | nil =>
      have hwrap : (u0.get c0).right = cur := by simpa using hlast (by simp)
      rw [if_pos hwrap]
      simp
    | cons b rest2 =>
      have hnext : (u0.get c0).right = b := (List.chain'_cons.mp hchain).1
      have hbne : b ≠ cur := hne b (by simp)
      rw [if_neg (by rw [hnext]; exact hbne), hnext]
      simp only [List.foldl_cons]
      rw [hcover_eq]
      refine ih fuel (v.cover_column q.1) u0
        (removeCells ((q.2.map RR).flatten) (pre ++ post)) cur b rfl
        (List.chain'_cons.mp hchain).2 ?_ ?_ ?_ hd1 ?_ ?_ ?_ ?_
      · intro hne2
        have := hlast (by simp)
        rwa [show ((c0 :: b :: rest2).getLastD 0) = ((b :: rest2).getLastD 0) from
          getLastD_cons_cons _ _ _ _] at this
      · intro x hx
        exact hne x (List.mem_cons_of_mem _ hx)
      · simp at hlen ⊢
        omega
      · intro n
        rw [hM1.hdr, hvhdr]
      · intro n k hk
        have hnlr := Desc.data_ne_hlr hd hq (by rw [hvhdr]; exact hk)
        rw [hM1.rights n hnlr.1]
        exact hvr n k hk
      · intro y hy
        obtain ⟨qy, hqy, hyh⟩ := hmem y (List.mem_cons_of_mem _ hy)
        have hkey_ne : qy.1 ≠ q.1 := by
          intro he
          rw [List.map_cons, List.nodup_cons] at hhnd
          apply hhnd.1
          rw [hc0h, ← he, ← hyh]
          exact List.mem_map_of_mem _ hy
        have hqy2 : qy ∈ pre ++ post := by
          rw [hsp] at hqy
          rcases List.mem_append.mp hqy with h1 | h1
          · exact List.mem_append_left _ h1
          · rcases List.mem_cons.mp h1 with h2 | h2
            · exact absurd (by rw [h2]) hkey_ne
            · exact List.mem_append_right _ h2
        exact ⟨(qy.1, qy.2.filter (fun cc => !((((q.2.map RR).flatten)).contains cc))),
          List.mem_map.mpr ⟨qy, hqy2, rfl⟩, hyh⟩
      · exact (List.nodup_cons.mp (by rwa [List.map_cons] at hhnd)).2

/-- The covering loop over the other cells of a selected row equals the
fold of `cover_column` over the cell's static right-rotation. -/
lemma cover_loop_eq {root : Nat} {RR : Nat → List Nat} {R : Nat → Nat}
    (u : Heap) (cols2 : List (Nat × List Nat)) (cur fuel : Nat)
    (hd : Desc u root RR R cols2)
    (hchain : CycChain (fun n => (u.get n).right) cur (RR cur))
    (hnd : (cur :: RR cur).Nodup)
    (hmem : ∀ x ∈ RR cur, ∃ q, q ∈ cols2 ∧ (u.get x).header = some q.1)
    (hhnd : ((RR cur).map (fun x => (u.get x).header)).Nodup)
    (hlen : (RR cur).length ≤ fuel) :
    ringLoopTail (fun t c => (Heap.get t c).right) (fun t c => Heap.cover_column t c)
        fuel u cur
      = (RR cur).foldl (fun t x => t.cover_column x) u := by
  have hfirst : (u.get cur).right = (RR cur ++ [cur]).headD 0 := cyc_first hchain
  cases hRR : RR cur with
  | nil =>
    rw [hRR] at hfirst
    simp only [List.nil_append, List.headD_cons] at hfirst
    show (let first := (u.get cur).right
      if first = cur then u else _) = _
    rw [hfirst]
    simp
  | cons x xs =>
    rw [hRR] at hfirst
    simp only [List.cons_append, List.headD_cons] at hfirst
    have hxne : x ≠ cur := by
      intro he
      rw [hRR] at hnd
      exact (List.nodup_cons.mp hnd).1 (he ▸ List.mem_cons_self x xs)
    show (let first := (u.get cur).right
      if first = cur then u else ringLoop _ _ cur fuel u first) = _
    rw [hfirst, if_neg hxne]
    rw [hRR] at hchain hmem hhnd hlen
    refine cover_loop_aux (x :: xs) fuel u u cols2 cur x rfl ?_ ?_ ?_ hlen hd
      (fun n => rfl) (fun n k _ => rfl) hmem hhnd
    · rw [chain'_iff_chainPairs]
      intro p hp
      refine hchain p ?_
      have e1 : (cur :: (x :: xs) ++ [cur]) = (cur :: x :: xs) ++ [cur] := by simp
      rw [e1, chainPairs_append (cur :: x :: xs) [cur] (by simp) (by simp)]
      refine List.mem_append_left _ ?_
      rw [show chainPairs (cur :: x :: xs) = (cur, x) :: chainPairs (x :: xs) from rfl]
      exact List.mem_cons_of_mem _ hp
    · intro hne2
      refine hchain ((x :: xs).getLastD 0, cur) ?_
      have e1 : (cur :: (x :: xs) ++ [cur]) = (cur :: x :: xs) ++ [cur] := by simp
      rw [e1, chainPairs_append (cur :: x :: xs) [cur] (by simp) (by simp)]
      refine List.mem_append_right _ ?_
      rw [show ((cur :: x :: xs).getLastD 0) = ((x :: xs).getLastD 0) from
        getLastD_cons_cons _ _ _ _]
      simp
    · intro y hy he
      rw [hRR] at hnd
      exact (List.nodup_cons.mp hnd).1 (he ▸ hy)


lemma ringLoop_succ {σ : Type} (step : σ → Nat → Nat) (body : σ → Nat → σ)
    (orig fuel : Nat) (st : σ) (cur : Nat) :
    ringLoop step body orig (fuel + 1) st cur
      = if step st cur = orig then body st cur
        else ringLoop step body orig fuel (body st cur) (step st cur) := by
  show (let nxt := step st cur
    let st := body st cur
    if nxt = orig then st else ringLoop step body orig fuel st nxt) = _
  by_cases h : step st cur = orig <;> simp [h]

/-- Straightening plus restoration for the backtracking loop: visiting the
static left-chain of a selected row's cells, uncovering each cell's column,
exactly undoes the covers of the corresponding right-order fold. -/
lemma uncover_loop_aux {root : Nat} {RR : Nat → List Nat} {R : Nat → Nat}
    (u : Heap) (cols2 : List (Nat × List Nat)) (cur : Nat)
    (hd : Desc u root RR R cols2) :
    ∀ (ys : List Nat) (fuel : Nat) (c : Nat),
      ys.head? = some c →
      List.Chain' (fun a b => (u.get a).left = b) ys →
      (ys ≠ [] → (u.get (ys.getLastD 0)).left = cur) →
      (∀ x ∈ ys, x ≠ cur) →
      ys.length ≤ fuel →
      (∀ x ∈ ys, ∃ q, q ∈ cols2 ∧ (u.get x).header = some q.1) →
      ((ys.map (fun x => (u.get x).header)).Nodup) →
      ringLoop (fun t c => (Heap.get t c).left) (fun t c => Heap.uncover_column t c)
          cur fuel ((ys.reverse).foldl (fun t x => t.cover_column x) u) c = u := by
  intro ys
  induction ys with
  | nil => intro fuel c h; simp at h
  | cons c0 rest ih =>
    intro fuel c hhead hchain hlast hne hlen hmem hhnd
    have hc : c0 = c := by simpa using hhead
    subst hc
    obtain ⟨fuel, rfl⟩ : ∃ f, fuel = f + 1 := ⟨fuel - 1, by simp at hlen; omega⟩
    obtain ⟨q, hq, hc0h⟩ := hmem c0 (List.mem_cons_self _ _)
    have hwsplit : ((c0 :: rest).reverse).foldl (fun t x => t.cover_column x) u
        = ((rest.reverse).foldl (fun t x => t.cover_column x) u).cover_column c0 := by
      rw [List.reverse_cons, List.foldl_append]
      simp
    obtain ⟨cols3, hd3, hsub3, hout3, hin3, hhdr3, hlr3⟩ := cover_cells_fold
      rest.reverse u cols2 hd
      (fun x hx => hmem x (List.mem_cons_of_mem _ (List.mem_reverse.mp hx)))
      (by
        rw [show (rest.reverse.map (fun x => (u.get x).header))
          = (rest.map (fun x => (u.get x).header)).reverse from
            (List.map_reverse _ _)]
        exact List.nodup_reverse.mpr
          (List.nodup_cons.mp (by rwa [List.map_cons] at hhnd)).2)
    set w2 := (rest.reverse).foldl (fun t x => t.cover_column x) u with hw2def
    have hkey_in : q.1 ∈ cols3.map Prod.fst := by
      refine hin3 q hq ?_
      intro x hx hxk
      rw [List.map_cons, List.nodup_cons] at hhnd
      apply hhnd.1
      rw [hc0h, ← hxk]
      exact List.mem_map_of_mem _ (List.mem_reverse.mp hx)
    obtain ⟨p3, hp3, hp3k⟩ := List.mem_map.mp hkey_in
    have hp3mem : (q.1, p3.2) ∈ cols3 := by
      rw [show ((q.1, p3.2) : Nat × List Nat) = p3 from by rw [← hp3k, Prod.mk.eta]]
      exact hp3
    have hw2c0 : (w2.get c0).header = some q.1 := by
      rw [hhdr3]
      exact hc0h
    have hw2q1 : (w2.get q.1).header = none := by
      rw [hhdr3]
      exact hd.hdr_none q hq
    have hcover_res : w2.cover_column c0 = w2.cover_column q.1 :=
      Heap.cover_column_cell w2 hw2c0 hw2q1
    obtain ⟨pre3, post3, hsp3⟩ := List.append_of_mem hp3mem
    obtain ⟨hd4, hM4, hrow4⟩ := Desc.cover hd3 hsp3
    have hwhdr : ∀ n, ((w2.cover_column q.1).get n).header = (u.get n).header := by
      intro n
      rw [hM4.hdr, hhdr3]
    have hwc0 : ((w2.cover_column q.1).get c0).header = some q.1 := by
      rw [hwhdr]
      exact hc0h
    have hwq1 : ((w2.cover_column q.1).get q.1).header = none := by
      rw [hwhdr]
      exact hd.hdr_none q hq
    have hbody : (w2.cover_column q.1).uncover_column c0 = w2 := by
      rw [Heap.uncover_column_cell _ hwc0 hwq1]
      exact Desc.roundtrip hd3 hp3mem
    have hstep_left : ((w2.cover_column q.1).get c0).left = (u.get c0).left := by
      have hnlr := Desc.data_ne_hlr hd3 hp3mem (n := c0) (k := q.1) hw2c0
      rw [hM4.lefts c0 hnlr.2]
      exact (hlr3 c0 q.1 hc0h).2.1
    rw [hwsplit, hcover_res]
    simp only [ringLoop_succ]
    rw [hstep_left, hbody]
    cases rest with
    | nil =>
      have hwrap : (u.get c0).left = cur := by simpa using hlast (by simp)
      rw [if_pos hwrap]
      simp [hw2def]
    | cons b rest2 =>
      have hnext : (u.get c0).left = b := (List.chain'_cons.mp hchain).1
      have hbne : b ≠ cur := hne b (by simp)
      rw [hnext, if_neg hbne]
      refine ih fuel b rfl (List.chain'_cons.mp hchain).2 ?_ ?_ ?_ ?_ ?_
      · intro hne2
        have := hlast (by simp)
        rwa [show ((c0 :: b :: rest2).getLastD 0) = ((b :: rest2).getLastD 0) from
          getLastD_cons_cons _ _ _ _] at this
      · intro x hx
        exact hne x (List.mem_cons_of_mem _ hx)
      · simp at hlen ⊢
        omega
      · intro x hx
        exact hmem x (List.mem_cons_of_mem _ hx)
      · exact (List.nodup_cons.mp (by rwa [List.map_cons] at hhnd)).2

/-- The backtracking loop over a selected row's cells restores the state
before the corresponding covering fold. -/
lemma uncover_loop_eq {root : Nat} {RR : Nat → List Nat} {R : Nat → Nat}
    (u : Heap) (cols2 : List (Nat × List Nat)) (cur fuel : Nat)
    (hd : Desc u root RR R cols2)
    (hcur : ∃ k, (u.get cur).header = some k)
    (hchain_r : CycChain (fun n => (u.get n).right) cur (RR cur))
    (hchain_l : CycChain (fun n => (u.get n).left) cur (RR cur).reverse)
    (hnd : (cur :: RR cur).Nodup)
    (hmem : ∀ x ∈ RR cur, ∃ q, q ∈ cols2 ∧ (u.get x).header = some q.1)
    (hhnd : ((RR cur).map (fun x => (u.get x).header)).Nodup)
    (hlen : (RR cur).length ≤ fuel) :
    ringLoopTail (fun t c => (Heap.get t c).left) (fun t c => Heap.uncover_column t c)
        fuel ((RR cur).foldl (fun t x => t.cover_column x) u) cur
      = u := by
  obtain ⟨cols3, hd3, hsub3, hout3, hin3, hhdr3, hlr3⟩ := cover_cells_fold
    (RR cur) u cols2 hd hmem hhnd
  set w := (RR cur).foldl (fun t x => t.cover_column x) u with hwdef
  obtain ⟨k, hk⟩ := hcur
  have hwleft : (w.get cur).left = (u.get cur).left := (hlr3 cur k hk).2.1
  have hfirst : (u.get cur).left = ((RR cur).reverse ++ [cur]).headD 0 := cyc_first hchain_l
  show (let first := (w.get cur).left
    if first = cur then w else ringLoop _ _ cur fuel w first) = u
  rw [hwleft, hfirst]
  cases hRR : RR cur with
  | nil =>
    simp only [hRR, List.reverse_nil, List.nil_append, List.headD_cons, if_pos rfl]
    rw [hwdef, hRR]
    rfl
  | cons x xs =>
    have hrevne : (x :: xs).reverse ≠ [] := by simp
    obtain ⟨y, ys, hys⟩ : ∃ y ys, (x :: xs).reverse = y :: ys := by
      cases hr : (x :: xs).reverse with
      | nil => exact absurd hr hrevne
      | cons y ys => exact ⟨y, ys, rfl⟩
    rw [hys]
    simp only [List.cons_append, List.headD_cons]
    have hymem : y ∈ RR cur := by
      rw [hRR, ← List.mem_reverse, hys]
      exact List.mem_cons_self _ _
    have hyne : y ≠ cur := by
      intro he
      exact (List.nodup_cons.mp hnd).1 (he ▸ hymem)
    rw [if_neg hyne]
    have haux := uncover_loop_aux u cols2 cur hd ((RR cur).reverse) fuel y
      (by rw [hRR, hys]; rfl)
      (by
        rw [chain'_iff_chainPairs]
        intro p hp
        refine hchain_l p ?_
        have e1 : (cur :: (RR cur).reverse ++ [cur]) = (cur :: (RR cur).reverse) ++ [cur] := by
          simp
        rw [e1, chainPairs_append (cur :: (RR cur).reverse) [cur] (by simp) (by simp)]
        refine List.mem_append_left _ ?_
        rw [hRR, hys] at hp ⊢
        rw [show chainPairs (cur :: y :: ys) = (cur, y) :: chainPairs (y :: ys) from rfl]
        exact List.mem_cons_of_mem _ hp
      )
      (by
        intro hne2
        refine hchain_l (((RR cur).reverse).getLastD 0, cur) ?_
        have e1 : (cur :: (RR cur).reverse ++ [cur]) = (cur :: (RR cur).reverse) ++ [cur] := by
          simp
        rw [e1, chainPairs_append (cur :: (RR cur).reverse) [cur] (by simp) (by simp)]
        refine List.mem_append_right _ ?_
        rw [hRR, hys]
        rw [show ((cur :: y :: ys).getLastD 0) = ((y :: ys).getLastD 0) from
          getLastD_cons_cons _ _ _ _]
        simp
      )
      (by
        intro z hz he
        subst he
        exact (List.nodup_cons.mp hnd).1 (List.mem_reverse.mp hz))
      (by rw [List.length_reverse]; exact hlen)
      (fun z hz => hmem z (List.mem_reverse.mp hz))
      (by
        rw [show ((RR cur).reverse.map (fun z => (u.get z).header))
          = ((RR cur).map (fun z => (u.get z).header)).reverse from
            (List.map_reverse _ _)]
        exact List.nodup_reverse.mpr hhnd)
    rw [List.reverse_reverse] at haux
    exact haux

/-- `X` is a list of row indices forming an exact cover of the described
columns: every column contains exactly one cell whose row index lies in `X`,
every index in `X` is the row of some listed cell, and `X` has no
duplicates. -/
def ECov (R : Nat → Nat) (X : List Nat) (cols : List (Nat × List Nat)) : Prop :=
  (∀ p ∈ cols, ∃ c, c ∈ p.2 ∧ R c ∈ X ∧ ∀ d ∈ p.2, R d ∈ X → d = c) ∧
  (∀ ρ ∈ X, ∃ q, q ∈ cols ∧ ∃ e, e ∈ q.2 ∧ R e = ρ) ∧
  X.Nodup

/-- Selecting the row of `cur` on top of a deeper exact cover: if the deeper
state (with the branch column and all columns of `cur`'s row covered) is
exactly covered by `X`, then the previous description is exactly covered by
`R cur` together with `X`. -/
lemma ecov_extend {t t3 : Heap} {root : Nat} {RR : Nat → List Nat} {R : Nat → Nat}
    {cols cols3 : List (Nat × List Nat)} {h : Nat} {ds : List Nat} {cur : Nat}
    (hd : Desc t root RR R cols)
    (hp : (h, ds) ∈ cols)
    (hcur : cur ∈ ds)
    (hd3 : Desc t3 root RR R cols3)
    (hsub : ∀ q3 ∈ cols3, ∃ q2, q2 ∈ cols ∧ q3.1 = q2.1 ∧ ∀ c ∈ q3.2, c ∈ q2.2)
    (hout : h ∉ cols3.map Prod.fst)
    (hout2 : ∀ x ∈ RR cur, ∀ k, (t.get x).header = some k → k ∉ cols3.map Prod.fst)
    (hin : ∀ p2 ∈ cols, p2.1 ≠ h → (∀ x ∈ RR cur, (t.get x).header ≠ some p2.1) →
      p2.1 ∈ cols3.map Prod.fst)
    (hhdr3 : ∀ n, (t3.get n).header = (t.get n).header)
    {X : List Nat}
    (hX : ECov R X cols3) :
    ECov R (R cur :: X) cols := by
  have hkeys : (cols.map Prod.fst).Nodup := (List.nodup_cons.mp hd.ring_nodup).2
  have hkeys3 : (cols3.map Prod.fst).Nodup := (List.nodup_cons.mp hd3.ring_nodup).2
  have hcur_hdr : (t.get cur).header = some h := hd.cell_hdr _ hp cur hcur
  -- any covered cell whose row index lies in X is itself still listed deep down
  have aux1 : ∀ (p : Nat × List Nat), p ∈ cols → ∀ d ∈ p.2, R d ∈ X →
      ∃ q4, q4 ∈ cols3 ∧ d ∈ q4.2 ∧ (t.get d).header = some q4.1 := by
    intro p hp2 d hdm hdX
    obtain ⟨q3, hq3, e, he3, hRe⟩ := hX.2.1 (R d) hdX
    obtain ⟨q2, hq2, hk2, hsub2⟩ := hsub q3 hq3
    have he2 : e ∈ q2.2 := hsub2 e he3
    have hring : d ∈ e :: RR e :=
      hd.same_row_ring q2 hq2 e he2 p hp2 d hdm hRe.symm
    rcases List.mem_cons.mp hring with h1 | h1
    · refine ⟨q3, hq3, h1 ▸ he3, ?_⟩
      rw [h1, ← hhdr3]
      exact hd3.cell_hdr q3 hq3 e he3
    · obtain ⟨q4, hq4, hh4, hm4, _⟩ := hd3.row_cells q3 hq3 e he3 d h1
      exact ⟨q4, hq4, hm4, by rw [← hhdr3]; exact hh4⟩
  have hRcur_not : R cur ∉ X := by
    intro hmem
    obtain ⟨q4, hq4, hm4, hh4⟩ := aux1 (h, ds) hp cur hcur hmem
    rw [hcur_hdr] at hh4
    have : q4.1 = h := (Option.some.inj hh4).symm
    apply hout
    rw [← this]
    exact List.mem_map_of_mem Prod.fst hq4
  refine ⟨?_, ?_, ?_⟩
  · intro p hp2
    by_cases hph : p.1 = h
    · have hpe : p = (h, ds) := pair_eq_of_keys_nodup hkeys hp2 hp hph
      subst hpe
      refine ⟨cur, hcur, List.mem_cons_self _ _, ?_⟩
      intro d hdm hdX
      rcases List.mem_cons.mp hdX with h1 | h1
      · have hring : d ∈ cur :: RR cur :=
          hd.same_row_ring (h, ds) hp cur hcur (h, ds) hp d hdm h1
        rcases List.mem_cons.mp hring with h2 | h2
        · exact h2
        · exact absurd (hd.cell_hdr (h, ds) hp d hdm)
            (hd.row_mate_hdr_ne hp hcur h2)
      · obtain ⟨q4, hq4, hm4, hh4⟩ := aux1 (h, ds) hp d hdm h1
        rw [hd.cell_hdr (h, ds) hp d hdm] at hh4
        exfalso
        apply hout
        have hhq : h = q4.1 := Option.some.inj hh4
        rw [hhq]
        exact List.mem_map_of_mem Prod.fst hq4
    · by_cases hrow : ∃ x, x ∈ RR cur ∧ (t.get x).header = some p.1
      · obtain ⟨x0, hx0, hx0h⟩ := hrow
        obtain ⟨q, hq, hqh, hqm, hqR⟩ := hd.row_cells (h, ds) hp cur hcur x0 hx0
        have hqp : q = p := by
          refine pair_eq_of_keys_nodup hkeys hq hp2 ?_
          rw [hqh] at hx0h
          exact Option.some.inj hx0h
        subst hqp
        refine ⟨x0, hqm, by rw [hqR]; exact List.mem_cons_self _ _, ?_⟩
        intro d hdm hdX
        rcases List.mem_cons.mp hdX with h1 | h1
        · have hring : d ∈ cur :: RR cur :=
            hd.same_row_ring (h, ds) hp cur hcur q hp2 d hdm h1
          rcases List.mem_cons.mp hring with h2 | h2
          · exfalso
            apply hph
            have := hd.cell_hdr q hp2 d hdm
            rw [h2, hcur_hdr] at this
            exact (Option.some.inj this).symm
          · refine List.inj_on_of_nodup_map (hd.row_hdrs (h, ds) hp cur hcur)
              (List.mem_cons_of_mem _ h2) (List.mem_cons_of_mem _ hx0) ?_
            rw [hd.cell_hdr q hp2 d hdm, hx0h]
        · obtain ⟨q4, hq4, hm4, hh4⟩ := aux1 q hp2 d hdm h1
          rw [hd.cell_hdr q hp2 d hdm] at hh4
          exfalso
          apply hout2 x0 hx0 q.1 hx0h
          rw [(Option.some.inj hh4)]
          exact List.mem_map_of_mem Prod.fst hq4
      · have hkey3 : p.1 ∈ cols3.map Prod.fst := by
          refine hin p hp2 hph ?_
          intro x hx he
          exact hrow ⟨x, hx, he⟩
        obtain ⟨p3, hp3, hp3k⟩ := List.mem_map.mp hkey3
        obtain ⟨c3, hc3, hc3X, huniq3⟩ := hX.1 p3 hp3
        obtain ⟨q2, hq2, hk2, hsub2⟩ := hsub p3 hp3
        have hq2p : q2 = p := pair_eq_of_keys_nodup hkeys hq2 hp2 (by rw [← hk2, hp3k])
        subst hq2p
        refine ⟨c3, hsub2 c3 hc3, List.mem_cons_of_mem _ hc3X, ?_⟩
        intro d hdm hdX
        rcases List.mem_cons.mp hdX with h1 | h1
        · exfalso
          have hring : d ∈ cur :: RR cur :=
            hd.same_row_ring (h, ds) hp cur hcur q2 hp2 d hdm h1
          rcases List.mem_cons.mp hring with h2 | h2
          · apply hph
            have := hd.cell_hdr q2 hp2 d hdm
            rw [h2, hcur_hdr] at this
            exact (Option.some.inj this).symm
          · exact hout2 d h2 q2.1 (hd.cell_hdr q2 hp2 d hdm) hkey3
        · obtain ⟨q4, hq4, hm4, hh4⟩ := aux1 q2 hp2 d hdm h1
          rw [hd.cell_hdr q2 hp2 d hdm] at hh4
          have hq4p3 : q4 = p3 := by
            refine pair_eq_of_keys_nodup hkeys3 hq4 hp3 ?_
            rw [← (Option.some.inj hh4), hp3k]
          subst hq4p3
          exact huniq3 d hm4 h1
  · intro ρ hρ
    rcases List.mem_cons.mp hρ with h1 | h1
    · exact ⟨(h, ds), hp, cur, hcur, h1.symm⟩
    · obtain ⟨q3, hq3, e, he3, hRe⟩ := hX.2.1 ρ h1
      obtain ⟨q2, hq2, _, hsub2⟩ := hsub q3 hq3
      exact ⟨q2, hq2, e, hsub2 e he3, hRe⟩
  · exact List.nodup_cons.mpr ⟨hRcur_not, hX.2.2⟩

/-- A ring loop with a size-preserving body preserves the heap size. -/
lemma ringLoop_size {step : Heap → Nat → Nat} {body : Heap → Nat → Heap}
    (hb : ∀ u c, (body u c).size = u.size) :
    ∀ (fuel : Nat) (orig : Nat) (st : Heap) (cur : Nat),
      (ringLoop step body orig fuel st cur).size = st.size := by
  intro fuel
  induction fuel with
  | zero => intro orig st cur; rfl
  | succ n ih =>
    intro orig st cur
    rw [ringLoop_succ]
    by_cases he : step st cur = orig
    · rw [if_pos he, hb]
    · rw [if_neg he, ih, hb]

lemma ringLoopTail_size {step : Heap → Nat → Nat} {body : Heap → Nat → Heap}
    (hb : ∀ u c, (body u c).size = u.size) (fuel : Nat) (st : Heap) (orig : Nat) :
    (ringLoopTail step body fuel st orig).size = st.size := by
  show (if step st orig = orig then st else ringLoop step body orig fuel st (step st orig)).size
    = st.size
  by_cases he : step st orig = orig
  · rw [if_pos he]
  · rw [if_neg he, ringLoop_size hb]

/-- `cover_column` never changes the number of heap slots. -/
lemma Heap.size_cover_column (s : Heap) (c : Nat) : (s.cover_column c).size = s.size := by
  have hb : ∀ (u : Heap) (r : Nat),
      (ringLoopTail (fun v d => (Heap.get v d).right) (fun v d => Heap.coverCellStep v d)
        u.size u r).size = u.size :=
    fun u r => ringLoopTail_size (fun v d => Heap.size_coverCellStep v d) u.size u r
  cases hh : (s.get c).header with
  | none =>
    show (ringLoopTail _ _ (s.cover_horizontal _).size (s.cover_horizontal _) _).size = s.size
    rw [ringLoopTail_size hb, Heap.size_cover_horizontal]
  | some k =>
    show (ringLoopTail _ _ (s.cover_horizontal _).size (s.cover_horizontal _) _).size = s.size
    rw [ringLoopTail_size hb, Heap.size_cover_horizontal]

lemma fold_cover_size (xs : List Nat) :
    ∀ (u : Heap), ((xs.foldl (fun t x => t.cover_column x) u)).size = u.size := by
  induction xs with
  | nil => intro u; rfl
  | cons x rest ih =>
    intro u
    rw [List.foldl_cons, ih, Heap.size_cover_column]

/-- Everything one iteration of the row-trying loop needs about a selected
cell `cur` of the covered branch column `h`: straightened cover loop, exact
undo, the pushed row value, the static advance pointer, and the exact-cover
extension property of the resulting deep description. -/
lemma solve_iter {RR : Nat → List Nat} {R : Nat → Nat} {root h : Nat} {t : Heap}
    {cols pre post : List (Nat × List Nat)} {ds : List Nat}
    (hd : Desc t root RR R cols) (hsplit : cols = pre ++ (h, ds) :: post)
    {cur : Nat} (hcur : cur ∈ ds) :
    ∃ cols3,
      Desc ((RR cur).foldl (fun u x => u.cover_column x) (t.cover_column h)) root RR R cols3 ∧
      (ringLoopTail (fun u c => (Heap.get u c).right) (fun u c => Heap.cover_column u c)
          (t.cover_column h).size (t.cover_column h) cur
        = (RR cur).foldl (fun u x => u.cover_column x) (t.cover_column h)) ∧
      (∀ fl, (RR cur).length ≤ fl →
        ringLoopTail (fun u c => (Heap.get u c).left) (fun u c => Heap.uncover_column u c)
            fl ((RR cur).foldl (fun u x => u.cover_column x) (t.cover_column h)) cur
          = t.cover_column h) ∧
      ((t.cover_column h).get cur).row = R cur ∧
      ((t.cover_column h).get cur).down = (t.get cur).down ∧
      ((RR cur).foldl (fun u x => u.cover_column x) (t.cover_column h)).size
        = (t.cover_column h).size ∧
      (RR cur).length ≤ (t.cover_column h).size ∧
      (∀ X, ECov R X cols3 → ECov R (R cur :: X) cols) := by
  have hp : (h, ds) ∈ cols := by
    rw [hsplit]
    exact List.mem_append_right _ (List.mem_cons_self _ _)
  obtain ⟨hd1, hM, hrowp⟩ := Desc.cover hd hsplit
  have hcur_hdr : (t.get cur).header = some h := hd.cell_hdr _ hp cur hcur
  have hcid : cid t cur = cid t h := by
    unfold cid
    rw [hcur_hdr, hd.hdr_none _ hp]
    rfl
  have hdown : ((t.cover_column h).get cur).down = (t.get cur).down := hM.downs cur hcid
  have hrow : ((t.cover_column h).get cur).row = R cur := by
    rw [hrowp cur h hcur_hdr]
    exact hd.cell_row _ hp cur hcur
  have hdata_lr : ∀ x k, (t.get x).header = some k →
      ((t.cover_column h).get x).right = (t.get x).right ∧
      ((t.cover_column h).get x).left = (t.get x).left := by
    intro x k hk
    have hne := Desc.data_ne_hlr hd (q := (h, ds)) hp hk
    exact ⟨hM.rights x hne.1, hM.lefts x hne.2⟩
  have hmem_t := hd.row_cells _ hp cur hcur
  have hhdr_any : ∀ x ∈ cur :: RR cur, ∃ k, (t.get x).header = some k := by
    intro x hx
    rcases List.mem_cons.mp hx with he | hx'
    · exact ⟨h, he ▸ hcur_hdr⟩
    · obtain ⟨q, _, hq, _⟩ := hmem_t x hx'
      exact ⟨q.1, hq⟩
  have hnd : (cur :: RR cur).Nodup := hd.row_nodup _ hp cur hcur
  have hchain_r1 : CycChain (fun n => ((t.cover_column h).get n).right) cur (RR cur) := by
    refine CycChain.congr (hd.row_ring_r _ hp cur hcur) ?_
    intro n hn
    obtain ⟨k, hk⟩ := hhdr_any n hn
    exact (hdata_lr n k hk).1
  have hchain_l1 : CycChain (fun n => ((t.cover_column h).get n).left) cur (RR cur).reverse := by
    refine CycChain.congr (hd.row_ring_l _ hp cur hcur) ?_
    intro n hn
    have hn' : n ∈ cur :: RR cur := by
      rcases List.mem_cons.mp hn with he | hn2
      · rw [he]; exact List.mem_cons_self _ _
      · exact List.mem_cons_of_mem _ (List.mem_reverse.mp hn2)
    obtain ⟨k, hk⟩ := hhdr_any n hn'
    exact (hdata_lr n k hk).2
  have hq_pp : ∀ q ∈ cols, q.1 ≠ h → q ∈ pre ++ post := by
    intro q hq hqne
    rw [hsplit] at hq
    rcases List.mem_append.mp hq with h1 | h1
    · exact List.mem_append_left _ h1
    · rcases List.mem_cons.mp h1 with he | h2
      · exact absurd (by rw [he]) hqne
      · exact List.mem_append_right _ h2
  have hmem1 : ∀ x ∈ RR cur, ∃ q, q ∈ removeCells ((ds.map RR).flatten) (pre ++ post)
      ∧ ((t.cover_column h).get x).header = some q.1 := by
    intro x hx
    obtain ⟨qx, hqx, hqhdr, hxq, hRx⟩ := hmem_t x hx
    have hxne : qx.1 ≠ h := by
      intro he
      exact hd.row_mate_hdr_ne hp hcur hx (by rw [hqhdr, he])
    refine ⟨(qx.1, qx.2.filter fun c => !(((ds.map RR).flatten).contains c)), ?_, ?_⟩
    · exact List.mem_map_of_mem _ (hq_pp qx hqx hxne)
    · rw [hM.hdr]
      exact hqhdr
  have hhnd1 : ((RR cur).map (fun x => ((t.cover_column h).get x).header)).Nodup := by
    have he : ((RR cur).map fun x => ((t.cover_column h).get x).header)
        = (RR cur).map fun x => (t.get x).header := by
      simp only [hM.hdr]
    rw [he]
    have hall := hd.row_hdrs _ hp cur hcur
    rw [List.map_cons, List.nodup_cons] at hall
    exact hall.2
  have hlen_t : (RR cur).length ≤ t.size := by
    refine length_le_of_nodup_lt _ _ (List.nodup_cons.mp hnd).2 ?_
    intro x hx
    obtain ⟨qx, hqx, _, hxq, _⟩ := hmem_t x hx
    exact hd.cell_lt qx hqx x hxq
  have hlen1 : (RR cur).length ≤ (t.cover_column h).size := by
    rw [hM.size_eq]
    exact hlen_t
  obtain ⟨cols3, hd3, hsub', hout', hin', hhdr', hlr'⟩ :=
    cover_cells_fold (RR cur) (t.cover_column h)
      (removeCells ((ds.map RR).flatten) (pre ++ post)) hd1 hmem1 hhnd1
  have hh_not : h ∉ (pre ++ post).map Prod.fst := by
    have hnd0 := (List.nodup_cons.mp hd.ring_nodup).2
    rw [hsplit, List.map_append, List.map_cons] at hnd0
    intro hmem
    rw [List.map_append] at hmem
    rcases List.mem_append.mp hmem with h1 | h1
    · exact (List.nodup_append.mp hnd0).2.2 h1 (List.mem_cons_self _ _)
    · exact (List.nodup_cons.mp (List.nodup_append.mp hnd0).2.1).1 h1
  have hext : ∀ X, ECov R X cols3 → ECov R (R cur :: X) cols := by
    intro X hX
    refine ecov_extend hd hp hcur hd3 ?_ ?_ ?_ ?_ ?_ hX
    · intro q3 h3
      obtain ⟨qC, hqC, hk, hsb⟩ := hsub' q3 h3
      obtain ⟨q2, hq2, he⟩ := List.mem_map.mp hqC
      refine ⟨q2, ?_, ?_, ?_⟩
      · rw [hsplit]
        rcases List.mem_append.mp hq2 with h1 | h1
        · exact List.mem_append_left _ h1
        · exact List.mem_append_right _ (List.mem_cons_of_mem _ h1)
      · rw [hk, ← he]
      · intro c hc
        have hcm := hsb c hc
        rw [← he] at hcm
        exact List.mem_of_mem_filter hcm
    · intro hmem
      obtain ⟨p3, hp3, hpk⟩ := List.mem_map.mp hmem
      obtain ⟨qC, hqC, hk, _⟩ := hsub' p3 hp3
      apply hh_not
      rw [← removeCells_keys ((ds.map RR).flatten) (pre ++ post)]
      have : qC.1 ∈ (removeCells ((ds.map RR).flatten) (pre ++ post)).map Prod.fst :=
        List.mem_map_of_mem Prod.fst hqC
      rw [← hk, hpk] at this
      exact this
    · intro x hx k hk
      refine hout' x hx k ?_
      rw [hM.hdr]
      exact hk
    · intro p2 hp2 hne hnh
      have hpC : (p2.1, p2.2.filter fun c => !(((ds.map RR).flatten).contains c))
          ∈ removeCells ((ds.map RR).flatten) (pre ++ post) :=
        List.mem_map_of_mem _ (hq_pp p2 hp2 hne)
      have := hin' _ hpC ?_
      · exact this
      · intro x hx
        rw [hM.hdr]
        exact hnh x hx
    · intro n
      rw [hhdr' n, hM.hdr n]
  refine ⟨cols3, hd3, ?_, ?_, hrow, hdown, fold_cover_size _ _, hlen1, hext⟩
  · exact cover_loop_eq (t.cover_column h) _ cur (t.cover_column h).size hd1 hchain_r1
      hnd hmem1 hhnd1 hlen1
  · intro fl hfl
    refine uncover_loop_eq (t.cover_column h) _ cur fl hd1 ⟨h, ?_⟩ hchain_r1 hchain_l1
      hnd hmem1 hhnd1 hfl
    rw [hM.hdr]
    exact hcur_hdr

/-- Soundness of the row-trying loop of the solver crate's `solve_helper`:
started on the covered branch column `h` at any cell `cur` of its list, with
a sound recursion, failure restores the matrix exactly and success extends
the partial solution by an exact cover of the pre-branch description. -/
lemma solveLoopS_sound {RR : Nat → List Nat} {R : Nat → Nat} {root h : Nat} {t : Heap}
    {cols pre post : List (Nat × List Nat)} {ds : List Nat}
    (hd : Desc t root RR R cols) (hsplit : cols = pre ++ (h, ds) :: post)
    (recurse : SolverMatrix → Bool × SolverMatrix)
    (hrec : ∀ (mm : SolverMatrix) (cols2 : List (Nat × List Nat)),
      Desc mm.heap mm.root RR R cols2 →
      (∀ mr, recurse mm = (false, mr) → mr = mm) ∧
      (∀ mr, recurse mm = (true, mr) →
        ∃ X, mr.psol = mm.psol ++ X ∧ ECov R X cols2)) :
    ∀ (sfx : List Nat) (lfuel : Nat) (pfx : List Nat) (cur : Nat) (m2 : SolverMatrix),
      ds = pfx ++ cur :: sfx →
      sfx.length < lfuel →
      m2.heap = t.cover_column h →
      m2.root = root →
      ((solveLoopS recurse h lfuel m2 cur).1 = false →
        (solveLoopS recurse h lfuel m2 cur).2 = m2) ∧
      ((solveLoopS recurse h lfuel m2 cur).1 = true →
        ∃ X, (solveLoopS recurse h lfuel m2 cur).2.psol = m2.psol ++ X ∧ ECov R X cols) := by
  intro sfx
  induction sfx with
  | nil =>
    intro lfuel pfx cur m2 hds hfuel hheap hroot
    cases lfuel with
    | zero => exact (Nat.not_lt_zero _ hfuel).elim
    | succ lf =>
      have hcur : cur ∈ ds := by
        rw [hds]
        exact List.mem_append_right _ (List.mem_cons_self _ _)
      obtain ⟨cols3, hd3, hcovloop, huncloop, hrowv, hdownv, hwsize, hlenw, hext⟩ :=
        solve_iter hd hsplit hcur
      have hp : (h, ds) ∈ cols := by
        rw [hsplit]
        exact List.mem_append_right _ (List.mem_cons_self _ _)
      have hch : CycChain (fun n => (t.get n).down) h ds := hd.col_ring_d _ hp
      have hdnext : (t.get cur).down = (([] : List Nat) ++ [h]).headD 0 := by
        refine hch (cur, (([] : List Nat) ++ [h]).headD 0) ?_
        rw [hds, chainPairs_cyc_split h cur pfx []]
        simp
      have hnd2 : (m2.heap.get cur).down = h := by
        rw [hheap, hdownv, hdnext]
        simp
      have hm3eq : SolverMatrix.mk (ringLoopTail (fun u c => (Heap.get u c).right)
          (fun u c => Heap.cover_column u c) m2.heap.size m2.heap cur)
          m2.root m2.rows (m2.psol ++ [(m2.heap.get cur).row])
          = SolverMatrix.mk ((RR cur).foldl (fun u x => u.cover_column x) (t.cover_column h))
            m2.root m2.rows (m2.psol ++ [R cur]) := by
        rw [hheap, hrowv, hcovloop]
      have hrestore : ringLoopTail (fun u c => (Heap.get u c).left)
          (fun u c => Heap.uncover_column u c)
          ((RR cur).foldl (fun u x => u.cover_column x) (t.cover_column h)).size
          ((RR cur).foldl (fun u x => u.cover_column x) (t.cover_column h)) cur
          = t.cover_column h := by
        refine huncloop _ ?_
        rw [hwsize]
        exact hlenw
      have hm2eta : SolverMatrix.mk (t.cover_column h) m2.root m2.rows m2.psol = m2 := by
        rw [← hheap]
      have hdm3 : Desc (SolverMatrix.mk ((RR cur).foldl (fun u x => u.cover_column x)
          (t.cover_column h)) m2.root m2.rows (m2.psol ++ [R cur])).heap
          (SolverMatrix.mk ((RR cur).foldl (fun u x => u.cover_column x) (t.cover_column h))
          m2.root m2.rows (m2.psol ++ [R cur])).root RR R cols3 := by
        show Desc ((RR cur).foldl (fun u x => u.cover_column x) (t.cover_column h))
          m2.root RR R cols3
        rw [hroot]
        exact hd3
      have hres2 : solveLoopS recurse h (lf + 1) m2 cur
          = (match recurse (SolverMatrix.mk (ringLoopTail (fun u c => (Heap.get u c).right)
              (fun u c => Heap.cover_column u c) m2.heap.size m2.heap cur)
              m2.root m2.rows (m2.psol ++ [(m2.heap.get cur).row])) with
            | (true, m4) => ((true, SolverMatrix.mk
                ((ringLoopTail (fun u c => (Heap.get u c).right)
                  (fun u c => Heap.free_chain u c) m4.heap.size m4.heap cur).free_chain h)
                m4.root m4.rows m4.psol) : Bool × SolverMatrix)
            | (false, m4) =>
              if (m2.heap.get cur).down = h then
                (false, SolverMatrix.mk
                  (ringLoopTail (fun u c => (Heap.get u c).left)
                    (fun u c => Heap.uncover_column u c) m4.heap.size m4.heap cur)
                  m4.root m4.rows (m4.psol.dropLast))
              else solveLoopS recurse h lf (SolverMatrix.mk
                  (ringLoopTail (fun u c => (Heap.get u c).left)
                    (fun u c => Heap.uncover_column u c) m4.heap.size m4.heap cur)
                  m4.root m4.rows (m4.psol.dropLast)) ((m2.heap.get cur).down)) := rfl
      rw [hm3eq, hnd2] at hres2
      rcases hR : recurse (SolverMatrix.mk ((RR cur).foldl (fun u x => u.cover_column x)
          (t.cover_column h)) m2.root m2.rows (m2.psol ++ [R cur])) with ⟨b, m4⟩
      rw [hR] at hres2
      cases b with
      | true =>
        have hres3 : solveLoopS recurse h (lf + 1) m2 cur
            = (true, SolverMatrix.mk
                ((ringLoopTail (fun u c => (Heap.get u c).right)
                  (fun u c => Heap.free_chain u c) m4.heap.size m4.heap cur).free_chain h)
                m4.root m4.rows m4.psol) := hres2
        obtain ⟨X, hXps, hXcov⟩ := (hrec _ cols3 hdm3).2 m4 hR
        have hXps' : m4.psol = (m2.psol ++ [R cur]) ++ X := hXps
        constructor
        · intro hbf
          rw [hres3] at hbf
          exact Bool.noConfusion (show (true : Bool) = false from hbf)
        · intro hbt2
          rw [hres3]
          refine ⟨R cur :: X, ?_, hext X hXcov⟩
          show m4.psol = m2.psol ++ (R cur :: X)
          rw [hXps', List.append_assoc, List.singleton_append]
      | false =>
        have hm4eq := (hrec _ cols3 hdm3).1 m4 hR
        subst hm4eq
        have hres3 : solveLoopS recurse h (lf + 1) m2 cur
            = (if h = h then
                (false, SolverMatrix.mk
                  (ringLoopTail (fun u c => (Heap.get u c).left)
                    (fun u c => Heap.uncover_column u c)
                    ((RR cur).foldl (fun u x => u.cover_column x) (t.cover_column h)).size
                    ((RR cur).foldl (fun u x => u.cover_column x) (t.cover_column h)) cur)
                  m2.root m2.rows ((m2.psol ++ [R cur]).dropLast))
              else solveLoopS recurse h lf (SolverMatrix.mk
                  (ringLoopTail (fun u c => (Heap.get u c).left)
                    (fun u c => Heap.uncover_column u c)
                    ((RR cur).foldl (fun u x => u.cover_column x) (t.cover_column h)).size
                    ((RR cur).foldl (fun u x => u.cover_column x) (t.cover_column h)) cur)
                  m2.root m2.rows ((m2.psol ++ [R cur]).dropLast)) h) := hres2
        rw [hrestore, List.dropLast_concat, hm2eta, if_pos (rfl : h = h)] at hres3
        constructor
        · intro hbf2
          rw [hres3]
        · intro hbt
          rw [hres3] at hbt
          exact Bool.noConfusion (show (false : Bool) = true from hbt)
  | cons s0 rest ih =>
    intro lfuel pfx cur m2 hds hfuel hheap hroot
    cases lfuel with
    | zero => exact (Nat.not_lt_zero _ hfuel).elim
    | succ lf =>
      have hcur : cur ∈ ds := by
        rw [hds]
        exact List.mem_append_right _ (List.mem_cons_self _ _)
      obtain ⟨cols3, hd3, hcovloop, huncloop, hrowv, hdownv, hwsize, hlenw, hext⟩ :=
        solve_iter hd hsplit hcur
      have hp : (h, ds) ∈ cols := by
        rw [hsplit]
        exact List.mem_append_right _ (List.mem_cons_self _ _)
      have hch : CycChain (fun n => (t.get n).down) h ds := hd.col_ring_d _ hp
      have hdnext : (t.get cur).down = ((s0 :: rest) ++ [h]).headD 0 := by
        refine hch (cur, ((s0 :: rest) ++ [h]).headD 0) ?_
        rw [hds, chainPairs_cyc_split h cur pfx (s0 :: rest)]
        simp
      have hnd2 : (m2.heap.get cur).down = s0 := by
        rw [hheap, hdownv, hdnext]
        simp
      have hs0mem : s0 ∈ ds := by
        rw [hds]
        exact List.mem_append_right _ (List.mem_cons_of_mem _ (List.mem_cons_self _ _))
      have hs0ne : s0 ≠ h := by
        intro he
        have hnd0 : (h :: ds).Nodup := hd.col_nodup _ hp
        exact (List.nodup_cons.mp hnd0).1 (he ▸ hs0mem)
      have hm3eq : SolverMatrix.mk (ringLoopTail (fun u c => (Heap.get u c).right)
          (fun u c => Heap.cover_column u c) m2.heap.size m2.heap cur)
          m2.root m2.rows (m2.psol ++ [(m2.heap.get cur).row])
          = SolverMatrix.mk ((RR cur).foldl (fun u x => u.cover_column x) (t.cover_column h))
            m2.root m2.rows (m2.psol ++ [R cur]) := by
        rw [hheap, hrowv, hcovloop]
      have hrestore : ringLoopTail (fun u c => (Heap.get u c).left)
          (fun u c => Heap.uncover_column u c)
          ((RR cur).foldl (fun u x => u.cover_column x) (t.cover_column h)).size
          ((RR cur).foldl (fun u x => u.cover_column x) (t.cover_column h)) cur
          = t.cover_column h := by
        refine huncloop _ ?_
        rw [hwsize]
        exact hlenw
      have hm2eta : SolverMatrix.mk (t.cover_column h) m2.root m2.rows m2.psol = m2 := by
        rw [← hheap]
      have hdm3 : Desc (SolverMatrix.mk ((RR cur).foldl (fun u x => u.cover_column x)
          (t.cover_column h)) m2.root m2.rows (m2.psol ++ [R cur])).heap
          (SolverMatrix.mk ((RR cur).foldl (fun u x => u.cover_column x) (t.cover_column h))
          m2.root m2.rows (m2.psol ++ [R cur])).root RR R cols3 := by
        show Desc ((RR cur).foldl (fun u x => u.cover_column x) (t.cover_column h))
          m2.root RR R cols3
        rw [hroot]
        exact hd3
      have hres2 : solveLoopS recurse h (lf + 1) m2 cur
          = (match recurse (SolverMatrix.mk (ringLoopTail (fun u c => (Heap.get u c).right)
              (fun u c => Heap.cover_column u c) m2.heap.size m2.heap cur)
              m2.root m2.rows (m2.psol ++ [(m2.heap.get cur).row])) with
            | (true, m4) => ((true, SolverMatrix.mk
                ((ringLoopTail (fun u c => (Heap.get u c).right)
                  (fun u c => Heap.free_chain u c) m4.heap.size m4.heap cur).free_chain h)
                m4.root m4.rows m4.psol) : Bool × SolverMatrix)
            | (false, m4) =>
              if (m2.heap.get cur).down = h then
                (false, SolverMatrix.mk
                  (ringLoopTail (fun u c => (Heap.get u c).left)
                    (fun u c => Heap.uncover_column u c) m4.heap.size m4.heap cur)
                  m4.root m4.rows (m4.psol.dropLast))
              else solveLoopS recurse h lf (SolverMatrix.mk
                  (ringLoopTail (fun u c => (Heap.get u c).left)
                    (fun u c => Heap.uncover_column u c) m4.heap.size m4.heap cur)
                  m4.root m4.rows (m4.psol.dropLast)) ((m2.heap.get cur).down)) := rfl
      rw [hm3eq, hnd2] at hres2
      rcases hR : recurse (SolverMatrix.mk ((RR cur).foldl (fun u x => u.cover_column x)
          (t.cover_column h)) m2.root m2.rows (m2.psol ++ [R cur])) with ⟨b, m4⟩
      rw [hR] at hres2
      cases b with
      | true =>
        have hres3 : solveLoopS recurse h (lf + 1) m2 cur
            = (true, SolverMatrix.mk
                ((ringLoopTail (fun u c => (Heap.get u c).right)
                  (fun u c => Heap.free_chain u c) m4.heap.size m4.heap cur).free_chain h)
                m4.root m4.rows m4.psol) := hres2
        obtain ⟨X, hXps, hXcov⟩ := (hrec _ cols3 hdm3).2 m4 hR
        have hXps' : m4.psol = (m2.psol ++ [R cur]) ++ X := hXps
        constructor
        · intro hbf
          rw [hres3] at hbf
          exact Bool.noConfusion (show (true : Bool) = false from hbf)
        · intro hbt2
          rw [hres3]
          refine ⟨R cur :: X, ?_, hext X hXcov⟩
          show m4.psol = m2.psol ++ (R cur :: X)
          rw [hXps', List.append_assoc, List.singleton_append]
      | false =>
        have hm4eq := (hrec _ cols3 hdm3).1 m4 hR
        subst hm4eq
        have hres3 : solveLoopS recurse h (lf + 1) m2 cur
            = (if s0 = h then
                (false, SolverMatrix.mk
                  (ringLoopTail (fun u c => (Heap.get u c).left)
                    (fun u c => Heap.uncover_column u c)
                    ((RR cur).foldl (fun u x => u.cover_column x) (t.cover_column h)).size
                    ((RR cur).foldl (fun u x => u.cover_column x) (t.cover_column h)) cur)
                  m2.root m2.rows ((m2.psol ++ [R cur]).dropLast))
              else solveLoopS recurse h lf (SolverMatrix.mk
                  (ringLoopTail (fun u c => (Heap.get u c).left)
                    (fun u c => Heap.uncover_column u c)
                    ((RR cur).foldl (fun u x => u.cover_column x) (t.cover_column h)).size
                    ((RR cur).foldl (fun u x => u.cover_column x) (t.cover_column h)) cur)
                  m2.root m2.rows ((m2.psol ++ [R cur]).dropLast)) s0) := hres2
        rw [hrestore, List.dropLast_concat, hm2eta, if_neg hs0ne] at hres3
        have hfuel2 : rest.length < lf := by
          have hx : rest.length + 1 < lf + 1 := hfuel
          omega
        have hds2 : ds = (pfx ++ [cur]) ++ s0 :: rest := by
          rw [hds]
          simp
        obtain ⟨ihf, iht⟩ := ih lf (pfx ++ [cur]) s0 m2 hds2 hfuel2 hheap hroot
        constructor
        · intro hbf
          rw [hres3] at hbf ⊢
          exact ihf hbf
        · intro hbt
          rw [hres3] at hbt ⊢
          exact iht hbt

/-- Soundness of the solver crate's `solve_helper` on described states: a
`false` answer leaves the matrix untouched, a `true` answer appends an exact
cover of the live columns to the partial solution. -/
lemma solve_helperS_sound {RR : Nat → List Nat} {R : Nat → Nat} :
    ∀ (fuel : Nat) (m : SolverMatrix) (cols : List (Nat × List Nat)),
      Desc m.heap m.root RR R cols →
      ((SolverMatrix.solve_helper fuel m).1 = false →
        (SolverMatrix.solve_helper fuel m).2 = m) ∧
      ((SolverMatrix.solve_helper fuel m).1 = true →
        ∃ X, (SolverMatrix.solve_helper fuel m).2.psol = m.psol ++ X ∧ ECov R X cols) := by
  intro fuel
  induction fuel with
  | zero =>
    intro m cols hd
    constructor
    · intro _
      rfl
    · intro hbt
      exact Bool.noConfusion (show (false : Bool) = true from hbt)
  | succ fuel ih =>
    intro m cols hd
    have hfirstr := cyc_first hd.hring_r
    have hres2 : SolverMatrix.solve_helper (fuel + 1) m
        = (if (m.heap.get m.root).right = m.root then (true, m)
          else
            match minByRow m.heap ((m.heap.iter_right m.root).drop 1) with
            | none => (false, m)
            | some constraint =>
              if ((m.heap.cover_column constraint).get constraint).down = constraint then
                (false, SolverMatrix.mk
                  ((m.heap.cover_column constraint).uncover_column constraint)
                  m.root m.rows m.psol)
              else
                match solveLoopS (fun mm => SolverMatrix.solve_helper fuel mm) constraint
                    (m.heap.cover_column constraint).size
                    (SolverMatrix.mk (m.heap.cover_column constraint) m.root m.rows m.psol)
                    (((m.heap.cover_column constraint).get constraint).down) with
                | (true, m5) => (true, m5)
                | (false, m5) => (false, SolverMatrix.mk
                    (m5.heap.uncover_column constraint) m5.root m5.rows m5.psol)) := rfl
    by_cases hrr : (m.heap.get m.root).right = m.root
    · rw [if_pos hrr] at hres2
      cases cols with
      | nil =>
        constructor
        · intro hbf
          rw [hres2] at hbf
          exact Bool.noConfusion (show (true : Bool) = false from hbf)
        · intro _
          rw [hres2]
          refine ⟨[], (List.append_nil m.psol).symm, ?_, ?_, List.nodup_nil⟩
          · intro p hp
            exact absurd hp (List.not_mem_nil p)
          · intro ρ hρ
            exact absurd hρ (List.not_mem_nil ρ)
      | cons p ps =>
        exfalso
        rw [hrr] at hfirstr
        have hpr : m.root = p.1 := by
          rw [hfirstr]
          simp
        have hnd0 := hd.ring_nodup
        rw [List.nodup_cons] at hnd0
        apply hnd0.1
        rw [hpr]
        exact List.mem_map_of_mem Prod.fst (List.mem_cons_self _ _)
    · rw [if_neg hrr] at hres2
      cases cols with
      | nil =>
        exfalso
        apply hrr
        rw [hfirstr]
        rfl
      | cons p ps =>
        have hiter := Desc.iter_right_root hd
        have hminr : minByRow m.heap ((m.heap.iter_right m.root).drop 1)
            = some (minFold m.heap p.1 (List.map Prod.fst ps)) := by
          rw [hiter]
          rfl
        rw [hminr] at hres2
        have hqmem : ∃ q, q ∈ p :: ps ∧ q.1 = minFold m.heap p.1 (List.map Prod.fst ps) := by
          rcases (minFold_spec m.heap (List.map Prod.fst ps) p.1).1 with he | hm
          · exact ⟨p, List.mem_cons_self _ _, he.symm⟩
          · obtain ⟨q, hq, he⟩ := List.mem_map.mp hm
            exact ⟨q, List.mem_cons_of_mem _ hq, he⟩
        obtain ⟨q, hqm, hqk⟩ := hqmem
        obtain ⟨pre2, post2, hsp2⟩ := List.append_of_mem hqm
        have hqeta : q = (minFold m.heap p.1 (List.map Prod.fst ps), q.2) := by
          rw [← hqk]
        have hsplit2 : p :: ps
            = pre2 ++ (minFold m.heap p.1 (List.map Prod.fst ps), q.2) :: post2 := by
          rw [hsp2, ← hqeta]
        have hqm' : (minFold m.heap p.1 (List.map Prod.fst ps), q.2) ∈ p :: ps := by
          rw [← hqeta]
          exact hqm
        have hres2b : SolverMatrix.solve_helper (fuel + 1) m
            = (if ((m.heap.cover_column (minFold m.heap p.1 (List.map Prod.fst ps))).get
                  (minFold m.heap p.1 (List.map Prod.fst ps))).down
                  = minFold m.heap p.1 (List.map Prod.fst ps) then
                (false, SolverMatrix.mk
                  ((m.heap.cover_column (minFold m.heap p.1 (List.map Prod.fst ps))).uncover_column
                    (minFold m.heap p.1 (List.map Prod.fst ps)))
                  m.root m.rows m.psol)
              else
                match solveLoopS (fun mm => SolverMatrix.solve_helper fuel mm)
                    (minFold m.heap p.1 (List.map Prod.fst ps))
                    (m.heap.cover_column (minFold m.heap p.1 (List.map Prod.fst ps))).size
                    (SolverMatrix.mk
                      (m.heap.cover_column (minFold m.heap p.1 (List.map Prod.fst ps)))
                      m.root m.rows m.psol)
                    (((m.heap.cover_column (minFold m.heap p.1 (List.map Prod.fst ps))).get
                      (minFold m.heap p.1 (List.map Prod.fst ps))).down) with
                | (true, m5) => (true, m5)
                | (false, m5) => (false, SolverMatrix.mk
                    (m5.heap.uncover_column (minFold m.heap p.1 (List.map Prod.fst ps)))
                    m5.root m5.rows m5.psol)) := hres2
        obtain ⟨hd1, hM, hrowp⟩ := Desc.cover hd hsplit2
        have hfirstv : ((m.heap.cover_column (minFold m.heap p.1 (List.map Prod.fst ps))).get
            (minFold m.heap p.1 (List.map Prod.fst ps))).down
            = (q.2 ++ [minFold m.heap p.1 (List.map Prod.fst ps)]).headD 0 := by
          rw [hM.downs _ rfl]
          exact cyc_first (hd.col_ring_d _ hqm')
        rw [hfirstv] at hres2b
        have hknotin : minFold m.heap p.1 (List.map Prod.fst ps) ∉ q.2 := by
          have hnd0 : (minFold m.heap p.1 (List.map Prod.fst ps) :: q.2).Nodup :=
            hd.col_nodup _ hqm'
          exact (List.nodup_cons.mp hnd0).1
        cases hq2 : q.2 with
        | nil =>
          rw [hq2] at hres2b
          rw [if_pos (by simp)] at hres2b
          have hrt : (m.heap.cover_column
              (minFold m.heap p.1 (List.map Prod.fst ps))).uncover_column
              (minFold m.heap p.1 (List.map Prod.fst ps)) = m.heap :=
            Desc.roundtrip hd hqm'
          rw [hrt] at hres2b
          have hmeta : SolverMatrix.mk m.heap m.root m.rows m.psol = m := rfl
          rw [hmeta] at hres2b
          constructor
          · intro _
            rw [hres2b]
          · intro hbt
            rw [hres2b] at hbt
            exact Bool.noConfusion (show (false : Bool) = true from hbt)
        | cons d0 rest =>
          rw [hq2] at hres2b
          have hd0ne : d0 ≠ minFold m.heap p.1 (List.map Prod.fst ps) := by
            intro he
            apply hknotin
            rw [← he, hq2]
            exact List.mem_cons_self _ _
          rw [show ((d0 :: rest) ++ [minFold m.heap p.1 (List.map Prod.fst ps)]).headD 0
            = d0 from rfl] at hres2b
          rw [if_neg hd0ne] at hres2b
          have hsplit3 : p :: ps
              = pre2 ++ (minFold m.heap p.1 (List.map Prod.fst ps), d0 :: rest) :: post2 := by
            rw [← hq2]
            exact hsplit2
          have hrec : ∀ (mm : SolverMatrix) (cols2 : List (Nat × List Nat)),
              Desc mm.heap mm.root RR R cols2 →
              (∀ mr, (fun mm2 => SolverMatrix.solve_helper fuel mm2) mm = (false, mr) →
                mr = mm) ∧
              (∀ mr, (fun mm2 => SolverMatrix.solve_helper fuel mm2) mm = (true, mr) →
                ∃ X, mr.psol = mm.psol ++ X ∧ ECov R X cols2) := by
            intro mm cols2 hdm
            obtain ⟨hf, ht⟩ := ih mm cols2 hdm
            constructor
            · intro mr hmr
              have hmr' : SolverMatrix.solve_helper fuel mm = (false, mr) := hmr
              have h1 : (SolverMatrix.solve_helper fuel mm).1 = false := by rw [hmr']
              have h2 := hf h1
              rw [hmr'] at h2
              exact h2
            · intro mr hmr
              have hmr' : SolverMatrix.solve_helper fuel mm = (true, mr) := hmr
              have h1 : (SolverMatrix.solve_helper fuel mm).1 = true := by rw [hmr']
              obtain ⟨X, hX1, hX2⟩ := ht h1
              rw [hmr'] at hX1
              exact ⟨X, hX1, hX2⟩
          have hlends : rest.length
              < (m.heap.cover_column (minFold m.heap p.1 (List.map Prod.fst ps))).size := by
            rw [Heap.size_cover_column]
            have hlen2 : (d0 :: rest).length ≤ m.heap.size := by
              refine length_le_of_nodup_lt _ _ ?_ ?_
              · have hnd0 : (minFold m.heap p.1 (List.map Prod.fst ps) :: q.2).Nodup :=
                  hd.col_nodup _ hqm'
                rw [hq2] at hnd0
                exact (List.nodup_cons.mp hnd0).2
              · intro x hx
                refine hd.cell_lt _ hqm' x ?_
                rw [hq2]
                exact hx
            calc rest.length < (d0 :: rest).length := by simp
            _ ≤ m.heap.size := hlen2
          obtain ⟨slf, slt⟩ := solveLoopS_sound hd hsplit3
            (fun mm2 => SolverMatrix.solve_helper fuel mm2) hrec rest
            (m.heap.cover_column (minFold m.heap p.1 (List.map Prod.fst ps))).size
            [] d0
            (SolverMatrix.mk (m.heap.cover_column (minFold m.heap p.1 (List.map Prod.fst ps)))
              m.root m.rows m.psol)
            rfl hlends rfl rfl
          rcases hL : solveLoopS (fun mm2 => SolverMatrix.solve_helper fuel mm2)
              (minFold m.heap p.1 (List.map Prod.fst ps))
              (m.heap.cover_column (minFold m.heap p.1 (List.map Prod.fst ps))).size
              (SolverMatrix.mk (m.heap.cover_column (minFold m.heap p.1 (List.map Prod.fst ps)))
                m.root m.rows m.psol) d0 with ⟨bL, mL⟩
          rw [hL] at hres2b slf slt
          cases bL with
          | true =>
            have hres3 : SolverMatrix.solve_helper (fuel + 1) m = (true, mL) := hres2b
            obtain ⟨X, hX1, hX2⟩ := slt rfl
            constructor
            · intro hbf
              rw [hres3] at hbf
              exact Bool.noConfusion (show (true : Bool) = false from hbf)
            · intro _
              rw [hres3]
              exact ⟨X, hX1, hX2⟩
          | false =>
            have hmL : mL = SolverMatrix.mk
                (m.heap.cover_column (minFold m.heap p.1 (List.map Prod.fst ps)))
                m.root m.rows m.psol := slf rfl
            have hres3 : SolverMatrix.solve_helper (fuel + 1) m = (false, SolverMatrix.mk
                (mL.heap.uncover_column (minFold m.heap p.1 (List.map Prod.fst ps)))
                mL.root mL.rows mL.psol) := hres2b
            rw [hmL] at hres3
            have hrt : (m.heap.cover_column
                (minFold m.heap p.1 (List.map Prod.fst ps))).uncover_column
                (minFold m.heap p.1 (List.map Prod.fst ps)) = m.heap :=
              Desc.roundtrip hd hqm'
            have hmk : SolverMatrix.mk
                ((SolverMatrix.mk (m.heap.cover_column
                  (minFold m.heap p.1 (List.map Prod.fst ps))) m.root m.rows m.psol).heap.uncover_column
                  (minFold m.heap p.1 (List.map Prod.fst ps)))
                (SolverMatrix.mk (m.heap.cover_column
                  (minFold m.heap p.1 (List.map Prod.fst ps))) m.root m.rows m.psol).root
                (SolverMatrix.mk (m.heap.cover_column
                  (minFold m.heap p.1 (List.map Prod.fst ps))) m.root m.rows m.psol).rows
                (SolverMatrix.mk (m.heap.cover_column
                  (minFold m.heap p.1 (List.map Prod.fst ps))) m.root m.rows m.psol).psol
                = m := by
              show SolverMatrix.mk ((m.heap.cover_column
                (minFold m.heap p.1 (List.map Prod.fst ps))).uncover_column
                (minFold m.heap p.1 (List.map Prod.fst ps))) m.root m.rows m.psol = m
              rw [hrt]
            rw [hmk] at hres3
            constructor
            · intro _
              rw [hres3]
            · intro hbt
              rw [hres3] at hbt
              exact Bool.noConfusion (show (false : Bool) = true from hbt)

/-- Soundness of the row-trying loop of the main crate's `solve_helper`
(solution list passed functionally, nothing popped on failure). -/
lemma solveLoopM_sound {RR : Nat → List Nat} {R : Nat → Nat} {root h : Nat} {t : Heap}
    {cols pre post : List (Nat × List Nat)} {ds : List Nat}
    (hd : Desc t root RR R cols) (hsplit : cols = pre ++ (h, ds) :: post)
    (recurse : Heap → List Nat → Option (List Nat) × Heap)
    (hrec : ∀ (u : Heap) (sl : List Nat) (cols2 : List (Nat × List Nat)),
      Desc u root RR R cols2 →
      (∀ u', recurse u sl = (none, u') → u' = u) ∧
      (∀ s' u', recurse u sl = (some s', u') → ∃ X, s' = sl ++ X ∧ ECov R X cols2)) :
    ∀ (sfx : List Nat) (lfuel : Nat) (pfx : List Nat) (cur : Nat) (sol : List Nat),
      ds = pfx ++ cur :: sfx →
      sfx.length < lfuel →
      ((solveLoopM recurse h sol lfuel (t.cover_column h) cur).1 = none →
        (solveLoopM recurse h sol lfuel (t.cover_column h) cur).2 = t.cover_column h) ∧
      (∀ s', (solveLoopM recurse h sol lfuel (t.cover_column h) cur).1 = some s' →
        ∃ X, s' = sol ++ X ∧ ECov R X cols) := by
  intro sfx
  induction sfx with
  | nil =>
    intro lfuel pfx cur sol hds hfuel
    cases lfuel with
    | zero => exact (Nat.not_lt_zero _ hfuel).elim
    | succ lf =>
      have hcur : cur ∈ ds := by
        rw [hds]
        exact List.mem_append_right _ (List.mem_cons_self _ _)
      obtain ⟨cols3, hd3, hcovloop, huncloop, hrowv, hdownv, hwsize, hlenw, hext⟩ :=
        solve_iter hd hsplit hcur
      have hp : (h, ds) ∈ cols := by
        rw [hsplit]
        exact List.mem_append_right _ (List.mem_cons_self _ _)
      have hch : CycChain (fun n => (t.get n).down) h ds := hd.col_ring_d _ hp
      have hdnext : (t.get cur).down = (([] : List Nat) ++ [h]).headD 0 := by
        refine hch (cur, (([] : List Nat) ++ [h]).headD 0) ?_
        rw [hds, chainPairs_cyc_split h cur pfx []]
        simp
      have hnd2 : ((t.cover_column h).get cur).down = h := by
        rw [hdownv, hdnext]
        simp
      have hrestore : ringLoopTail (fun u c => (Heap.get u c).left)
          (fun u c => Heap.uncover_column u c)
          ((RR cur).foldl (fun u x => u.cover_column x) (t.cover_column h)).size
          ((RR cur).foldl (fun u x => u.cover_column x) (t.cover_column h)) cur
          = t.cover_column h := by
        refine huncloop _ ?_
        rw [hwsize]
        exact hlenw
      have hres2 : solveLoopM recurse h sol (lf + 1) (t.cover_column h) cur
          = (match recurse (ringLoopTail (fun u c => (Heap.get u c).right)
              (fun u c => Heap.cover_column u c) (t.cover_column h).size (t.cover_column h) cur)
              (sol ++ [((t.cover_column h).get cur).row]) with
            | (some s5, u5) => ((some s5, (ringLoopTail (fun u c => (Heap.get u c).right)
                (fun u c => Heap.free_chain u c) u5.size u5 cur).free_chain h)
                : Option (List Nat) × Heap)
            | (none, u5) =>
              if ((t.cover_column h).get cur).down = h then
                (none, ringLoopTail (fun u c => (Heap.get u c).left)
                  (fun u c => Heap.uncover_column u c) u5.size u5 cur)
              else solveLoopM recurse h sol lf (ringLoopTail (fun u c => (Heap.get u c).left)
                  (fun u c => Heap.uncover_column u c) u5.size u5 cur)
                  (((t.cover_column h).get cur).down)) := rfl
      rw [hrowv, hcovloop, hnd2] at hres2
      rcases hR : recurse ((RR cur).foldl (fun u x => u.cover_column x) (t.cover_column h))
          (sol ++ [R cur]) with ⟨ob, u5⟩
      rw [hR] at hres2
      cases ob with
      | some s5 =>
        have hres3 : solveLoopM recurse h sol (lf + 1) (t.cover_column h) cur
            = (some s5, (ringLoopTail (fun u c => (Heap.get u c).right)
                (fun u c => Heap.free_chain u c) u5.size u5 cur).free_chain h) := hres2
        obtain ⟨X, hX1, hX2⟩ := ((hrec _ _ cols3 hd3).2) s5 u5 hR
        constructor
        · intro hbf
          rw [hres3] at hbf
          exact Option.noConfusion hbf
        · intro s' hbs
          rw [hres3] at hbs
          have hs' : s5 = s' := Option.some.inj hbs
          refine ⟨R cur :: X, ?_, hext X hX2⟩
          rw [← hs', hX1, List.append_assoc, List.singleton_append]
      | none =>
        have hu5 : u5 = (RR cur).foldl (fun u x => u.cover_column x) (t.cover_column h) :=
          ((hrec _ _ cols3 hd3).1) u5 hR
        subst hu5
        have hres3 : solveLoopM recurse h sol (lf + 1) (t.cover_column h) cur
            = (if h = h then
                (none, ringLoopTail (fun u c => (Heap.get u c).left)
                  (fun u c => Heap.uncover_column u c)
                  ((RR cur).foldl (fun u x => u.cover_column x) (t.cover_column h)).size
                  ((RR cur).foldl (fun u x => u.cover_column x) (t.cover_column h)) cur)
              else solveLoopM recurse h sol lf (ringLoopTail (fun u c => (Heap.get u c).left)
                  (fun u c => Heap.uncover_column u c)
                  ((RR cur).foldl (fun u x => u.cover_column x) (t.cover_column h)).size
                  ((RR cur).foldl (fun u x => u.cover_column x) (t.cover_column h)) cur) h)
            := hres2
        rw [hrestore, if_pos (rfl : h = h)] at hres3
        constructor
        · intro _
          rw [hres3]
        · intro s' hbs
          rw [hres3] at hbs
          exact Option.noConfusion hbs
  | cons s0 rest ih =>
    intro lfuel pfx cur sol hds hfuel
    cases lfuel with
    | zero => exact (Nat.not_lt_zero _ hfuel).elim
    | succ lf =>
      have hcur : cur ∈ ds := by
        rw [hds]
        exact List.mem_append_right _ (List.mem_cons_self _ _)
      obtain ⟨cols3, hd3, hcovloop, huncloop, hrowv, hdownv, hwsize, hlenw, hext⟩ :=
        solve_iter hd hsplit hcur
      have hp : (h, ds) ∈ cols := by
        rw [hsplit]
        exact List.mem_append_right _ (List.mem_cons_self _ _)
      have hch : CycChain (fun n => (t.get n).down) h ds := hd.col_ring_d _ hp
      have hdnext : (t.get cur).down = ((s0 :: rest) ++ [h]).headD 0 := by
        refine hch (cur, ((s0 :: rest) ++ [h]).headD 0) ?_
        rw [hds, chainPairs_cyc_split h cur pfx (s0 :: rest)]
        simp
      have hnd2 : ((t.cover_column h).get cur).down = s0 := by
        rw [hdownv, hdnext]
        simp
      have hs0mem : s0 ∈ ds := by
        rw [hds]
        exact List.mem_append_right _ (List.mem_cons_of_mem _ (List.mem_cons_self _ _))
      have hs0ne : s0 ≠ h := by
        intro he
        have hnd0 : (h :: ds).Nodup := hd.col_nodup _ hp
        exact (List.nodup_cons.mp hnd0).1 (he ▸ hs0mem)
      have hrestore : ringLoopTail (fun u c => (Heap.get u c).left)
          (fun u c => Heap.uncover_column u c)
          ((RR cur).foldl (fun u x => u.cover_column x) (t.cover_column h)).size
          ((RR cur).foldl (fun u x => u.cover_column x) (t.cover_column h)) cur
          = t.cover_column h := by
        refine huncloop _ ?_
        rw [hwsize]
        exact hlenw
      have hres2 : solveLoopM recurse h sol (lf + 1) (t.cover_column h) cur
          = (match recurse (ringLoopTail (fun u c => (Heap.get u c).right)
              (fun u c => Heap.cover_column u c) (t.cover_column h).size (t.cover_column h) cur)
              (sol ++ [((t.cover_column h).get cur).row]) with
            | (some s5, u5) => ((some s5, (ringLoopTail (fun u c => (Heap.get u c).right)
                (fun u c => Heap.free_chain u c) u5.size u5 cur).free_chain h)
                : Option (List Nat) × Heap)
            | (none, u5) =>
              if ((t.cover_column h).get cur).down = h then
                (none, ringLoopTail (fun u c => (Heap.get u c).left)
                  (fun u c => Heap.uncover_column u c) u5.size u5 cur)
              else solveLoopM recurse h sol lf (ringLoopTail (fun u c => (Heap.get u c).left)
                  (fun u c => Heap.uncover_column u c) u5.size u5 cur)
                  (((t.cover_column h).get cur).down)) := rfl
      rw [hrowv, hcovloop, hnd2] at hres2
      rcases hR : recurse ((RR cur).foldl (fun u x => u.cover_column x) (t.cover_column h))
          (sol ++ [R cur]) with ⟨ob, u5⟩
      rw [hR] at hres2
      cases ob with
      | some s5 =>
        have hres3 : solveLoopM recurse h sol (lf + 1) (t.cover_column h) cur
            = (some s5, (ringLoopTail (fun u c => (Heap.get u c).right)
                (fun u c => Heap.free_chain u c) u5.size u5 cur).free_chain h) := hres2
        obtain ⟨X, hX1, hX2⟩ := ((hrec _ _ cols3 hd3).2) s5 u5 hR
        constructor
        · intro hbf
          rw [hres3] at hbf
          exact Option.noConfusion hbf
        · intro s' hbs
          rw [hres3] at hbs
          have hs' : s5 = s' := Option.some.inj hbs
          refine ⟨R cur :: X, ?_, hext X hX2⟩
          rw [← hs', hX1, List.append_assoc, List.singleton_append]
      | none =>
        have hu5 : u5 = (RR cur).foldl (fun u x => u.cover_column x) (t.cover_column h) :=
          ((hrec _ _ cols3 hd3).1) u5 hR
        subst hu5
        have hres3 : solveLoopM recurse h sol (lf + 1) (t.cover_column h) cur
            = (if s0 = h then
                (none, ringLoopTail (fun u c => (Heap.get u c).left)
                  (fun u c => Heap.uncover_column u c)
                  ((RR cur).foldl (fun u x => u.cover_column x) (t.cover_column h)).size
                  ((RR cur).foldl (fun u x => u.cover_column x) (t.cover_column h)) cur)
              else solveLoopM recurse h sol lf (ringLoopTail (fun u c => (Heap.get u c).left)
                  (fun u c => Heap.uncover_column u c)
                  ((RR cur).foldl (fun u x => u.cover_column x) (t.cover_column h)).size
                  ((RR cur).foldl (fun u x => u.cover_column x) (t.cover_column h)) cur) s0)
            := hres2
        rw [hrestore, if_neg hs0ne] at hres3
        have hfuel2 : rest.length < lf := by
          have hx : rest.length + 1 < lf + 1 := hfuel
          omega
        have hds2 : ds = (pfx ++ [cur]) ++ s0 :: rest := by
          rw [hds]
          simp
        obtain ⟨ihf, iht⟩ := ih lf (pfx ++ [cur]) s0 sol hds2 hfuel2
        constructor
        · intro hbf
          rw [hres3] at hbf ⊢
          exact ihf hbf
        · intro s' hbs
          rw [hres3] at hbs
          exact iht s' hbs

/-- Soundness of the main crate's `solve_helper` on described states. -/
lemma solve_helperM_sound {RR : Nat → List Nat} {R : Nat → Nat} :
    ∀ (fuel : Nat) (u : Heap) (root : Nat) (sol : List Nat)
      (cols : List (Nat × List Nat)),
      Desc u root RR R cols →
      ((MainMatrix.solve_helper root fuel u sol).1 = none →
        (MainMatrix.solve_helper root fuel u sol).2 = u) ∧
      (∀ s', (MainMatrix.solve_helper root fuel u sol).1 = some s' →
        ∃ X, s' = sol ++ X ∧ ECov R X cols) := by
  intro fuel
  induction fuel with
  | zero =>
    intro u root sol cols hd
    constructor
    · intro _
      rfl
    · intro s' hbs
      exact Option.noConfusion hbs
  | succ fuel ih =>
    intro u root sol cols hd
    have hfirstr := cyc_first hd.hring_r
    have hres2 : MainMatrix.solve_helper root (fuel + 1) u sol
        = (if (u.get root).right = root then ((some sol, u) : Option (List Nat) × Heap)
          else
            match maxByRow u ((u.iter_right root).drop 1) with
            | none => (none, u)
            | some constraint =>
              if ((u.cover_column constraint).get constraint).down = constraint then
                (none, (u.cover_column constraint).uncover_column constraint)
              else
                match solveLoopM (fun v sl => MainMatrix.solve_helper root fuel v sl)
                    constraint sol (u.cover_column constraint).size (u.cover_column constraint)
                    (((u.cover_column constraint).get constraint).down) with
                | (some s5, u5) => (some s5, u5)
                | (none, u5) => (none, u5.uncover_column constraint)) := rfl
    by_cases hrr : (u.get root).right = root
    · rw [if_pos hrr] at hres2
      cases cols with
      | nil =>
        constructor
        · intro hbf
          rw [hres2] at hbf
          exact Option.noConfusion hbf
        · intro s' hbs
          rw [hres2] at hbs
          refine ⟨[], ?_, ?_, ?_, List.nodup_nil⟩
          · rw [← Option.some.inj hbs]
            exact (List.append_nil sol).symm
          · intro p hp
            exact absurd hp (List.not_mem_nil p)
          · intro ρ hρ
            exact absurd hρ (List.not_mem_nil ρ)
      | cons p ps =>
        exfalso
        rw [hrr] at hfirstr
        have hpr : root = p.1 := by
          rw [hfirstr]
          simp
        have hnd0 := hd.ring_nodup
        rw [List.nodup_cons] at hnd0
        apply hnd0.1
        rw [hpr]
        exact List.mem_map_of_mem Prod.fst (List.mem_cons_self _ _)
    · rw [if_neg hrr] at hres2
      cases cols with
      | nil =>
        exfalso
        apply hrr
        rw [hfirstr]
        rfl
      | cons p ps =>
        have hiter := Desc.iter_right_root hd
        have hmaxr : maxByRow u ((u.iter_right root).drop 1)
            = some (maxFold u p.1 (List.map Prod.fst ps)) := by
          rw [hiter]
          rfl
        rw [hmaxr] at hres2
        have hqmem : ∃ q, q ∈ p :: ps ∧ q.1 = maxFold u p.1 (List.map Prod.fst ps) := by
          rcases (maxFold_spec u (List.map Prod.fst ps) p.1).1 with he | hm
          · exact ⟨p, List.mem_cons_self _ _, he.symm⟩
          · obtain ⟨q, hq, he⟩ := List.mem_map.mp hm
            exact ⟨q, List.mem_cons_of_mem _ hq, he⟩
        obtain ⟨q, hqm, hqk⟩ := hqmem
        obtain ⟨pre2, post2, hsp2⟩ := List.append_of_mem hqm
        have hqeta : q = (maxFold u p.1 (List.map Prod.fst ps), q.2) := by
          rw [← hqk]
        have hsplit2 : p :: ps
            = pre2 ++ (maxFold u p.1 (List.map Prod.fst ps), q.2) :: post2 := by
          rw [hsp2, ← hqeta]
        have hqm' : (maxFold u p.1 (List.map Prod.fst ps), q.2) ∈ p :: ps := by
          rw [← hqeta]
          exact hqm
        have hres2b : MainMatrix.solve_helper root (fuel + 1) u sol
            = (if ((u.cover_column (maxFold u p.1 (List.map Prod.fst ps))).get
                  (maxFold u p.1 (List.map Prod.fst ps))).down
                  = maxFold u p.1 (List.map Prod.fst ps) then
                ((none, (u.cover_column (maxFold u p.1 (List.map Prod.fst ps))).uncover_column
                  (maxFold u p.1 (List.map Prod.fst ps))) : Option (List Nat) × Heap)
              else
                match solveLoopM (fun v sl => MainMatrix.solve_helper root fuel v sl)
                    (maxFold u p.1 (List.map Prod.fst ps)) sol
                    (u.cover_column (maxFold u p.1 (List.map Prod.fst ps))).size
                    (u.cover_column (maxFold u p.1 (List.map Prod.fst ps)))
                    (((u.cover_column (maxFold u p.1 (List.map Prod.fst ps))).get
                      (maxFold u p.1 (List.map Prod.fst ps))).down) with
                | (some s5, u5) => (some s5, u5)
                | (none, u5) => (none, u5.uncover_column
                    (maxFold u p.1 (List.map Prod.fst ps)))) := hres2
        obtain ⟨hd1, hM, hrowp⟩ := Desc.cover hd hsplit2
        have hfirstv : ((u.cover_column (maxFold u p.1 (List.map Prod.fst ps))).get
            (maxFold u p.1 (List.map Prod.fst ps))).down
            = (q.2 ++ [maxFold u p.1 (List.map Prod.fst ps)]).headD 0 := by
          rw [hM.downs _ rfl]
          exact cyc_first (hd.col_ring_d _ hqm')
        rw [hfirstv] at hres2b
        have hknotin : maxFold u p.1 (List.map Prod.fst ps) ∉ q.2 := by
          have hnd0 : (maxFold u p.1 (List.map Prod.fst ps) :: q.2).Nodup :=
            hd.col_nodup _ hqm'
          exact (List.nodup_cons.mp hnd0).1
        cases hq2 : q.2 with
        | nil =>
          rw [hq2] at hres2b
          rw [if_pos (by simp)] at hres2b
          have hrt : (u.cover_column
              (maxFold u p.1 (List.map Prod.fst ps))).uncover_column
              (maxFold u p.1 (List.map Prod.fst ps)) = u :=
            Desc.roundtrip hd hqm'
          rw [hrt] at hres2b
          constructor
          · intro _
            rw [hres2b]
          · intro s' hbs
            rw [hres2b] at hbs
            exact Option.noConfusion hbs
        | cons d0 rest =>
          rw [hq2] at hres2b
          have hd0ne : d0 ≠ maxFold u p.1 (List.map Prod.fst ps) := by
            intro he
            apply hknotin
            rw [← he, hq2]
            exact List.mem_cons_self _ _
          rw [show ((d0 :: rest) ++ [maxFold u p.1 (List.map Prod.fst ps)]).headD 0
            = d0 from rfl] at hres2b
          rw [if_neg hd0ne] at hres2b
          have hsplit3 : p :: ps
              = pre2 ++ (maxFold u p.1 (List.map Prod.fst ps), d0 :: rest) :: post2 := by
            rw [← hq2]
            exact hsplit2
          have hrec : ∀ (v : Heap) (sl : List Nat) (cols2 : List (Nat × List Nat)),
              Desc v root RR R cols2 →
              (∀ v', (fun v2 sl2 => MainMatrix.solve_helper root fuel v2 sl2) v sl
                = (none, v') → v' = v) ∧
              (∀ s' v', (fun v2 sl2 => MainMatrix.solve_helper root fuel v2 sl2) v sl
                = (some s', v') → ∃ X, s' = sl ++ X ∧ ECov R X cols2) := by
            intro v sl cols2 hdm
            obtain ⟨hf, ht⟩ := ih v root sl cols2 hdm
            constructor
            · intro v' hmr
              have hmr' : MainMatrix.solve_helper root fuel v sl = (none, v') := hmr
              have h1 : (MainMatrix.solve_helper root fuel v sl).1 = none := by rw [hmr']
              have h2 := hf h1
              rw [hmr'] at h2
              exact h2
            · intro s' v' hmr
              have hmr' : MainMatrix.solve_helper root fuel v sl = (some s', v') := hmr
              have h1 : (MainMatrix.solve_helper root fuel v sl).1 = some s' := by rw [hmr']
              exact ht s' h1
          have hlends : rest.length
              < (u.cover_column (maxFold u p.1 (List.map Prod.fst ps))).size := by
            rw [Heap.size_cover_column]
            have hlen2 : (d0 :: rest).length ≤ u.size := by
              refine length_le_of_nodup_lt _ _ ?_ ?_
              · have hnd0 : (maxFold u p.1 (List.map Prod.fst ps) :: q.2).Nodup :=
                  hd.col_nodup _ hqm'
                rw [hq2] at hnd0
                exact (List.nodup_cons.mp hnd0).2
              · intro x hx
                refine hd.cell_lt _ hqm' x ?_
                rw [hq2]
                exact hx
            calc rest.length < (d0 :: rest).length := by simp
            _ ≤ u.size := hlen2
          obtain ⟨slf, slt⟩ := solveLoopM_sound hd hsplit3
            (fun v2 sl2 => MainMatrix.solve_helper root fuel v2 sl2) hrec rest
            (u.cover_column (maxFold u p.1 (List.map Prod.fst ps))).size
            [] d0 sol rfl hlends
          rcases hL : solveLoopM (fun v2 sl2 => MainMatrix.solve_helper root fuel v2 sl2)
              (maxFold u p.1 (List.map Prod.fst ps)) sol
              (u.cover_column (maxFold u p.1 (List.map Prod.fst ps))).size
              (u.cover_column (maxFold u p.1 (List.map Prod.fst ps))) d0 with ⟨obL, uL⟩
          rw [hL] at hres2b slf slt
          cases obL with
          | some s5 =>
            have hres3 : MainMatrix.solve_helper root (fuel + 1) u sol
                = (some s5, uL) := hres2b
            obtain ⟨X, hX1, hX2⟩ := slt s5 rfl
            constructor
            · intro hbf
              rw [hres3] at hbf
              exact Option.noConfusion hbf
            · intro s' hbs
              rw [hres3] at hbs
              rw [← Option.some.inj hbs]
              exact ⟨X, hX1, hX2⟩
          | none =>
            have huL : uL = u.cover_column (maxFold u p.1 (List.map Prod.fst ps)) := slf rfl
            have hres3 : MainMatrix.solve_helper root (fuel + 1) u sol
                = (none, uL.uncover_column (maxFold u p.1 (List.map Prod.fst ps))) := hres2b
            rw [huL] at hres3
            have hrt : (u.cover_column
                (maxFold u p.1 (List.map Prod.fst ps))).uncover_column
                (maxFold u p.1 (List.map Prod.fst ps)) = u :=
              Desc.roundtrip hd hqm'
            rw [hrt] at hres3
            constructor
            · intro _
              rw [hres3]
            · intro s' hbs
              rw [hres3] at hbs
              exact Option.noConfusion hbs

/-- Rotation of a ring list to start just after `x`. -/
def rotFrom (l : List Nat) (x : Nat) : List Nat :=
  (l.dropWhile (fun y => !(y == x))).drop 1 ++ l.takeWhile (fun y => !(y == x))

lemma dropWhile_ne_eq {A B : List Nat} {x : Nat} (hA : x ∉ A) :
    (A ++ x :: B).dropWhile (fun y => !(y == x)) = x :: B := by
  induction A with
  | nil => simp [List.dropWhile]
  | cons a A' ih =>
    have hax : a ≠ x := fun he => hA (he ▸ List.mem_cons_self _ _)
    have hA' : x ∉ A' := fun hm => hA (List.mem_cons_of_mem _ hm)
    rw [List.cons_append, List.dropWhile_cons]
    have hbx : (!(a == x)) = true := by simp [hax]
    rw [hbx, if_pos rfl]
    exact ih hA'

lemma takeWhile_ne_eq {A B : List Nat} {x : Nat} (hA : x ∉ A) :
    (A ++ x :: B).takeWhile (fun y => !(y == x)) = A := by
  induction A with
  | nil => simp [List.takeWhile]
  | cons a A' ih =>
    have hax : a ≠ x := fun he => hA (he ▸ List.mem_cons_self _ _)
    have hA' : x ∉ A' := fun hm => hA (List.mem_cons_of_mem _ hm)
    rw [List.cons_append, List.takeWhile_cons]
    have hbx : (!(a == x)) = true := by simp [hax]
    rw [hbx, if_pos rfl, ih hA']

lemma rotFrom_eq {A B : List Nat} {x : Nat} (hA : x ∉ A) :
    rotFrom (A ++ x :: B) x = B ++ A := by
  unfold rotFrom
  rw [dropWhile_ne_eq hA, takeWhile_ne_eq hA]
  simp

/-- A cyclic chain read from any interior member of the cycle list. -/
lemma cyc_rotate_mid {fwd : Nat → Nat} {o x : Nat} {A B : List Nat}
    (hf : CycChain fwd o (A ++ x :: B)) :
    CycChain fwd x (B ++ o :: A) := by
  intro p hp
  rw [chainPairs_cyc_split x o B A] at hp
  refine hf p ?_
  rw [chainPairs_cyc_split o x A B]
  rcases List.mem_append.mp hp with h1 | h1
  · cases B with
    | nil => exact absurd h1 (by simp [chainPairs])
    | cons b bs =>
      rw [show chainPairs (x :: b :: bs) = (x, b) :: chainPairs (b :: bs) from rfl] at h1
      rcases List.mem_cons.mp h1 with he | h2
      · refine List.mem_append_right _ ?_
        refine List.mem_cons_of_mem _ ?_
        rw [he]
        have hb : ((b :: bs) ++ [o]).headD 0 = b := rfl
        rw [← hb]
        exact List.mem_cons_self _ _
      · refine List.mem_append_right _ (List.mem_cons_of_mem _ (List.mem_cons_of_mem _ ?_))
        rw [chainPairs_append (b :: bs) [o] (by simp) (by simp)]
        exact List.mem_append_left _ h2
  · rcases List.mem_cons.mp h1 with he | h2
    · cases B with
      | nil =>
        refine List.mem_append_right _ (List.mem_cons_of_mem _ ?_)
        rw [he]
        exact List.mem_cons_self _ _
      | cons b bs =>
        refine List.mem_append_right _ (List.mem_cons_of_mem _ (List.mem_cons_of_mem _ ?_))
        rw [chainPairs_append (b :: bs) [o] (by simp) (by simp)]
        refine List.mem_append_right _ ?_
        rw [he, show ((x :: b :: bs).getLastD 0) = ((b :: bs).getLastD 0) from
          getLastD_cons_cons _ _ _ _]
        exact List.mem_cons_self _ _
    · rcases List.mem_cons.mp h2 with he | h3
      · cases A with
        | nil =>
          refine List.mem_append_right _ ?_
          rw [he]
          exact List.mem_cons_self _ _
        | cons a as =>
          refine List.mem_append_left _ ?_
          rw [he, show chainPairs (o :: a :: as) = (o, a) :: chainPairs (a :: as) from rfl,
            show ((a :: as) ++ [x]).headD 0 = a from rfl]
          exact List.mem_cons_self _ _
      · cases A with
        | nil => exact absurd h3 (by simp [chainPairs])
        | cons a as =>
          rw [chainPairs_append (a :: as) [x] (by simp) (by simp)] at h3
          rcases List.mem_append.mp h3 with h4 | h4
          · refine List.mem_append_left _ ?_
            rw [show chainPairs (o :: a :: as) = (o, a) :: chainPairs (a :: as) from rfl]
            exact List.mem_cons_of_mem _ h4
          · rcases List.mem_cons.mp h4 with he | h5
            · refine List.mem_append_right _ ?_
              rw [he, show ((o :: a :: as).getLastD 0) = ((a :: as).getLastD 0) from
                getLastD_cons_cons _ _ _ _]
              exact List.mem_cons_self _ _
            · exact absurd h5 (by simp [chainPairs])

lemma lookup_some_mem {l : List (Nat × List Nat)} {k : Nat} {v : List Nat}
    (h : l.lookup k = some v) : (k, v) ∈ l := by
  induction l with
  | nil => exact absurd h (by simp [List.lookup])
  | cons e es ih =>
    rw [List.lookup_cons] at h
    cases hbe : (k == e.1) with
    | true =>
      rw [hbe] at h
      have hk : k = e.1 := by simpa using hbe
      have hv : e.2 = v := Option.some.inj h
      rw [hk, ← hv]
      exact List.mem_cons_self _ _
    | false =>
      rw [hbe] at h
      exact List.mem_cons_of_mem _ (ih h)

lemma mem_lookup_eq {l : List (Nat × List Nat)} {k : Nat} {v : List Nat}
    (hnd : (l.map Prod.fst).Nodup) (h : (k, v) ∈ l) : l.lookup k = some v := by
  induction l with
  | nil => exact absurd h (List.not_mem_nil _)
  | cons e es ih =>
    rw [List.map_cons, List.nodup_cons] at hnd
    rw [List.lookup_cons]
    rcases List.mem_cons.mp h with he | h2
    · have hbe : (k == e.1) = true := by
        rw [← he]
        simp
      rw [hbe, ← he]
    · have hbe : (k == e.1) = false := by
        refine beq_eq_false_iff_ne.mpr ?_
        intro hke
        apply hnd.1
        rw [← hke]
        exact List.mem_map_of_mem Prod.fst h2
      rw [hbe]
      exact ih hnd.2 h2

/-- Update the ring list of row `r` in the association table. -/
def updRtab (rtab : List (Nat × List Nat)) (r c : Nat) : List (Nat × List Nat) :=
  rtab.map (fun e => if e.1 = r then (e.1, e.2 ++ [c]) else e)

lemma lookup_updRtab_eq (rtab : List (Nat × List Nat)) (r c : Nat) :
    (updRtab rtab r c).lookup r = (rtab.lookup r).map (fun rl => rl ++ [c]) := by
  induction rtab with
  | nil => rfl
  | cons e es ih =>
    show ((if e.1 = r then (e.1, e.2 ++ [c]) else e) :: updRtab es r c).lookup r = _
    by_cases he : e.1 = r
    · rw [if_pos he, List.lookup_cons, List.lookup_cons]
      have hb : (r == e.1) = true := by
        rw [he]
        simp
      rw [hb]
      rfl
    · rw [if_neg he, List.lookup_cons, List.lookup_cons]
      have hb : (r == e.1) = false := by
        refine beq_eq_false_iff_ne.mpr ?_
        intro hre
        exact he hre.symm
      rw [hb]
      exact ih

lemma lookup_updRtab_ne (rtab : List (Nat × List Nat)) (r c r' : Nat) (hne : r' ≠ r) :
    (updRtab rtab r c).lookup r' = rtab.lookup r' := by
  induction rtab with
  | nil => rfl
  | cons e es ih =>
    show ((if e.1 = r then (e.1, e.2 ++ [c]) else e) :: updRtab es r c).lookup r' = _
    by_cases he : e.1 = r
    · rw [if_pos he, List.lookup_cons, List.lookup_cons]
      have hb : (r' == e.1) = false := by
        refine beq_eq_false_iff_ne.mpr ?_
        intro hre
        exact hne (hre.trans he)
      rw [hb]
      exact ih
    · rw [if_neg he, List.lookup_cons, List.lookup_cons]
      cases hb : (r' == e.1) with
      | true => rfl
      | false => exact ih

lemma updRtab_keys (rtab : List (Nat × List Nat)) (r c : Nat) :
    (updRtab rtab r c).map Prod.fst = rtab.map Prod.fst := by
  induction rtab with
  | nil => rfl
  | cons e es ih =>
    show (if e.1 = r then (e.1, e.2 ++ [c]) else e).1 :: (updRtab es r c).map Prod.fst = _
    by_cases he : e.1 = r
    · rw [if_pos he, List.map_cons, ih]
    · rw [if_neg he, List.map_cons, ih]

lemma mem_updRtab {rtab : List (Nat × List Nat)} {r c : Nat} {e2 : Nat × List Nat}
    (h : e2 ∈ updRtab rtab r c) :
    ∃ e, e ∈ rtab ∧ e2 = (if e.1 = r then (e.1, e.2 ++ [c]) else e) := by
  obtain ⟨e, he, hee⟩ := List.mem_map.mp h
  exact ⟨e, he, hee.symm⟩

lemma Heap.size_alloc (s : Heap) (nd : Node) : (s.alloc nd).size = s.size + 1 := by
  show (s.nodes ++ [some nd]).length = s.nodes.length + 1
  simp

lemma Heap.get_alloc_lt (s : Heap) (nd : Node) {n : Nat} (h : n < s.size) :
    (s.alloc nd).get n = s.get n := by
  show ((s.nodes ++ [some nd]).getD n none).getD Node.junk = _
  rw [List.getD_eq_getElem?_getD, List.getElem?_append_left h,
    ← List.getD_eq_getElem?_getD]
  rfl

lemma Heap.get_alloc_self (s : Heap) (nd : Node) : (s.alloc nd).get s.size = nd := by
  show ((s.nodes ++ [some nd]).getD s.nodes.length none).getD Node.junk = nd
  rw [List.getD_eq_getElem?_getD, List.getElem?_append_right (Nat.le_refl _)]
  simp

lemma Heap.slot_alloc_lt (s : Heap) (nd : Node) {n : Nat} (h : n < s.size) :
    (s.alloc nd).slot n = s.slot n := by
  show (s.nodes ++ [some nd]).getD n none = s.nodes.getD n none
  rw [List.getD_eq_getElem?_getD, List.getElem?_append_left h, ← List.getD_eq_getElem?_getD]

lemma Heap.slot_alloc_self (s : Heap) (nd : Node) : (s.alloc nd).slot s.size = some nd := by
  show (s.nodes ++ [some nd]).getD s.nodes.length none = some nd
  rw [List.getD_eq_getElem?_getD, List.getElem?_append_right (Nat.le_refl _)]
  simp

lemma Heap.size_setSlot (s : Heap) (n : Nat) (v : Option Node) :
    (Heap.mk (s.nodes.set n v)).size = s.size := by
  show (s.nodes.set n v).length = s.nodes.length
  simp

lemma Heap.get_setSlot_self (s : Heap) {n : Nat} (nd : Node) (h : n < s.size) :
    (Heap.mk (s.nodes.set n (some nd))).get n = nd := by
  show ((s.nodes.set n (some nd)).getD n none).getD Node.junk = nd
  rw [List.getD_eq_getElem?_getD, List.getElem?_set_self (by exact h)]
  rfl

lemma Heap.get_setSlot_ne (s : Heap) {n m : Nat} (v : Option Node) (h : m ≠ n) :
    (Heap.mk (s.nodes.set n v)).get m = s.get m := by
  show ((s.nodes.set n v).getD m none).getD Node.junk = _
  rw [List.getD_eq_getElem?_getD, List.getElem?_set_ne (fun he => h he.symm),
    ← List.getD_eq_getElem?_getD]
  rfl

lemma Heap.slot_setSlot_self (s : Heap) {n : Nat} (nd : Node) (h : n < s.size) :
    (Heap.mk (s.nodes.set n (some nd))).slot n = some nd := by
  show (s.nodes.set n (some nd)).getD n none = some nd
  rw [List.getD_eq_getElem?_getD, List.getElem?_set_self (by exact h)]
  rfl

lemma Heap.slot_setSlot_ne (s : Heap) {n m : Nat} (v : Option Node) (h : m ≠ n) :
    (Heap.mk (s.nodes.set n v)).slot m = s.slot m := by
  show (s.nodes.set n v).getD m none = s.nodes.getD m none
  rw [List.getD_eq_getElem?_getD, List.getElem?_set_ne (fun he => h he.symm),
    ← List.getD_eq_getElem?_getD]

/-- Invariant of the constructor folds (both crates): the heap built so far
holds the root, the listed complete columns and the listed partial row rings,
and nothing else. -/
structure BuildInv (t : Heap) (rows : List (Option Nat))
    (hdrs rtab : List (Nat × List Nat)) : Prop where
  nodes_eq : 0 :: hdrs.flatMap (fun p => p.1 :: p.2) = List.range t.size
  live : ∀ n, n < t.size → (t.slot n).isSome = true
  root_hdr : (t.get 0).header = none
  root_up : (t.get 0).up = 0
  root_down : (t.get 0).down = 0
  root_row : (t.get 0).row = 0
  hring_r : CycChain (fun n => (t.get n).right) 0 (hdrs.map Prod.fst)
  hring_l : CycChain (fun n => (t.get n).left) 0 (hdrs.map Prod.fst).reverse
  hdr_none : ∀ p ∈ hdrs, (t.get p.1).header = none
  col_d : ∀ p ∈ hdrs, CycChain (fun n => (t.get n).down) p.1 p.2
  col_u : ∀ p ∈ hdrs, CycChain (fun n => (t.get n).up) p.1 p.2.reverse
  cell_hdr : ∀ p ∈ hdrs, ∀ c ∈ p.2, (t.get c).header = some p.1
  rkeys_nodup : (rtab.map Prod.fst).Nodup
  rtab_sub : ∀ e ∈ rtab, List.Sublist e.2 (List.range t.size)
  rtab_ne : ∀ e ∈ rtab, e.2 ≠ []
  rtab_row : ∀ e ∈ rtab, ∀ c ∈ e.2, (t.get c).row = e.1
  rtab_col : ∀ e ∈ rtab, ∀ c ∈ e.2, ∃ q, q ∈ hdrs ∧ c ∈ q.2
  cell_rtab : ∀ p ∈ hdrs, ∀ c ∈ p.2, ∃ rl, rtab.lookup ((t.get c).row) = some rl ∧ c ∈ rl
  row_r : ∀ e ∈ rtab, CycChain (fun n => (t.get n).right) (e.2.headD 0) (e.2.drop 1)
  row_l : ∀ e ∈ rtab, CycChain (fun n => (t.get n).left) (e.2.headD 0) (e.2.drop 1).reverse
  row_hdrs_nd : ∀ e ∈ rtab, (e.2.map (fun c => (t.get c).header)).Nodup
  lookup_rows : ∀ r : Nat, rows.getD r none
    = match rtab.lookup r with | none => none | some rl => some (rl.getLastD 0)
  rows_lt : ∀ n, n < t.size → (t.get n).row < usizeMod

lemma map_fst_sublist_flatMap (hdrs : List (Nat × List Nat)) :
    List.Sublist (hdrs.map Prod.fst) (hdrs.flatMap (fun p => p.1 :: p.2)) := by
  induction hdrs with
  | nil => exact List.Sublist.refl _
  | cons p rest ih =>
    rw [List.map_cons, List.flatMap_cons]
    exact List.Sublist.cons₂ _ (ih.trans (List.sublist_append_right _ _))

lemma block_sublist_flatMap {hdrs : List (Nat × List Nat)} {p : Nat × List Nat}
    (hp : p ∈ hdrs) :
    List.Sublist (p.1 :: p.2) (hdrs.flatMap (fun q => q.1 :: q.2)) := by
  induction hdrs with
  | nil => exact absurd hp (List.not_mem_nil _)
  | cons q rest ih =>
    rw [List.flatMap_cons]
    rcases List.mem_cons.mp hp with he | h2
    · rw [he]
      exact List.sublist_append_left _ _
    · exact (ih h2).trans (List.sublist_append_right _ _)

namespace BuildInv

variable {t : Heap} {rows : List (Option Nat)} {hdrs rtab : List (Nat × List Nat)}

lemma all_nodup (hI : BuildInv t rows hdrs rtab) :
    (0 :: hdrs.flatMap (fun p => p.1 :: p.2)).Nodup := by
  rw [hI.nodes_eq]
  exact List.nodup_range _

lemma node_lt (hI : BuildInv t rows hdrs rtab) {n : Nat}
    (hn : n ∈ 0 :: hdrs.flatMap (fun p => p.1 :: p.2)) : n < t.size := by
  rw [hI.nodes_eq] at hn
  exact List.mem_range.mp hn

lemma cell_mem_flat {p : Nat × List Nat} (hp : p ∈ hdrs) {c : Nat} (hc : c ∈ p.1 :: p.2) :
    c ∈ hdrs.flatMap (fun q => q.1 :: q.2) :=
  (block_sublist_flatMap hp).mem hc

lemma hdr_lt (hI : BuildInv t rows hdrs rtab) {p : Nat × List Nat} (hp : p ∈ hdrs) :
    p.1 < t.size :=
  hI.node_lt (List.mem_cons_of_mem _ (cell_mem_flat hp (List.mem_cons_self _ _)))

lemma cell_lt (hI : BuildInv t rows hdrs rtab) {p : Nat × List Nat} (hp : p ∈ hdrs)
    {c : Nat} (hc : c ∈ p.2) : c < t.size :=
  hI.node_lt (List.mem_cons_of_mem _ (cell_mem_flat hp (List.mem_cons_of_mem _ hc)))

lemma zero_lt (hI : BuildInv t rows hdrs rtab) : 0 < t.size :=
  hI.node_lt (List.mem_cons_self _ _)

lemma fresh_not_mem (hI : BuildInv t rows hdrs rtab) :
    t.size ∉ 0 :: hdrs.flatMap (fun p => p.1 :: p.2) := by
  rw [hI.nodes_eq]
  simp

lemma ring_nodup (hI : BuildInv t rows hdrs rtab) :
    (0 :: hdrs.map Prod.fst).Nodup :=
  hI.all_nodup.sublist (List.Sublist.cons₂ _ (map_fst_sublist_flatMap hdrs))

lemma col_nodup (hI : BuildInv t rows hdrs rtab) {p : Nat × List Nat} (hp : p ∈ hdrs) :
    (p.1 :: p.2).Nodup :=
  ((List.nodup_cons.mp hI.all_nodup).2).sublist (block_sublist_flatMap hp)

lemma rl_nodup (hI : BuildInv t rows hdrs rtab) {e : Nat × List Nat} (he : e ∈ rtab) :
    e.2.Nodup :=
  List.Nodup.sublist (hI.rtab_sub e he) (List.nodup_range _)

lemma hdr_ne_zero (hI : BuildInv t rows hdrs rtab) {p : Nat × List Nat} (hp : p ∈ hdrs) :
    p.1 ≠ 0 := by
  intro he
  exact (List.nodup_cons.mp hI.all_nodup).1
    (he ▸ cell_mem_flat hp (List.mem_cons_self _ _))

lemma cell_ne_zero (hI : BuildInv t rows hdrs rtab) {p : Nat × List Nat} (hp : p ∈ hdrs)
    {c : Nat} (hc : c ∈ p.2) : c ≠ 0 := by
  intro he
  exact (List.nodup_cons.mp hI.all_nodup).1
    (he ▸ cell_mem_flat hp (List.mem_cons_of_mem _ hc))

lemma rl_cell (hI : BuildInv t rows hdrs rtab) {e : Nat × List Nat} (he : e ∈ rtab)
    {c : Nat} (hc : c ∈ e.2) : ∃ q, q ∈ hdrs ∧ c ∈ q.2 :=
  hI.rtab_col e he c hc

lemma rl_lt (hI : BuildInv t rows hdrs rtab) {e : Nat × List Nat} (he : e ∈ rtab)
    {c : Nat} (hc : c ∈ e.2) : c < t.size := by
  obtain ⟨q, hq, hcq⟩ := hI.rtab_col e he c hc
  exact hI.cell_lt hq hcq

lemma rl_ne_zero (hI : BuildInv t rows hdrs rtab) {e : Nat × List Nat} (he : e ∈ rtab)
    {c : Nat} (hc : c ∈ e.2) : c ≠ 0 := by
  obtain ⟨q, hq, hcq⟩ := hI.rtab_col e he c hc
  exact hI.cell_ne_zero hq hcq

/-- The right pointer of the last header on the ring points back to the root. -/
lemma last_right (hI : BuildInv t rows hdrs rtab) :
    (t.get ((0 :: hdrs.map Prod.fst).getLastD 0)).right = 0 := by
  cases hh : hdrs.map Prod.fst with
  | nil =>
    have := hI.hring_r
    rw [hh] at this
    exact this (0, 0) (by simp [chainPairs])
  | cons k ks =>
    have hch := hI.hring_r
    rw [hh] at hch
    rw [show ((0 :: k :: ks).getLastD 0) = ((k :: ks).getLastD 0) from
      getLastD_cons_cons _ _ _ _]
    exact cyc_last_pair hch (by simp)

end BuildInv

/-- `new_header` with a non-null previous pointer, fully resolved. -/
lemma new_header_eq (s : Heap) (p K : Nat) :
    s.new_header (some p) K
      = (Heap.mk ((((s.alloc ⟨none, s.size, s.size, s.size, s.size, K⟩).modify
          (((s.alloc ⟨none, s.size, s.size, s.size, s.size, K⟩).get p).right)
          (fun m => {m with left := s.size})).modify p
          (fun m => {m with right := s.size})).nodes.set s.size
          (some ⟨none, p, (((s.alloc ⟨none, s.size, s.size, s.size, s.size, K⟩).get p)).right,
            s.size, s.size, K⟩)), s.size) := rfl

lemma Heap.get_alloc_ne (s : Heap) (nd : Node) {n : Nat} (h : n ≠ s.size) :
    (s.alloc nd).get n = s.get n := by
  rcases Nat.lt_or_ge n s.size with hlt | hge
  · exact Heap.get_alloc_lt s nd hlt
  · have hsz : s.size = s.nodes.length := rfl
    have hgt : s.size < n := Nat.lt_of_le_of_ne hge (fun he => h he.symm)
    show ((s.nodes ++ [some nd]).getD n none).getD Node.junk
      = (s.nodes.getD n none).getD Node.junk
    rw [List.getD_eq_getElem?_getD, List.getD_eq_getElem?_getD,
      List.getElem?_eq_none (by simp; omega), List.getElem?_eq_none (by omega)]

lemma mem_of_headD_drop {e2 : List Nat} (hne : e2 ≠ []) {n : Nat}
    (hn : n ∈ (e2.headD 0) :: e2.drop 1) : n ∈ e2 := by
  cases e2 with
  | nil => exact absurd rfl hne
  | cons c cs => exact hn

/-- Creating a new column header after the last one: the invariant extends by
an empty column; rows of existing nodes (in particular all counts) and all
headers are untouched. -/
lemma buildStep_header {t : Heap} {rows : List (Option Nat)}
    {hdrs rtab : List (Nat × List Nat)}
    (hI : BuildInv t rows hdrs rtab) (K : Nat) (hK : K < usizeMod) :
    (t.new_header (some ((0 :: hdrs.map Prod.fst).getLastD 0)) K).2 = t.size ∧
    BuildInv (t.new_header (some ((0 :: hdrs.map Prod.fst).getLastD 0)) K).1 rows
      (hdrs ++ [(t.size, [])]) rtab ∧
    ((t.new_header (some ((0 :: hdrs.map Prod.fst).getLastD 0)) K).1.get t.size).row = K ∧
    (∀ n, n < t.size →
      ((t.new_header (some ((0 :: hdrs.map Prod.fst).getLastD 0)) K).1.get n).row
        = (t.get n).row ∧
      ((t.new_header (some ((0 :: hdrs.map Prod.fst).getLastD 0)) K).1.get n).header
        = (t.get n).header) := by
  have hcurr_mem : ((0 :: hdrs.map Prod.fst).getLastD 0) ∈ 0 :: hdrs.map Prod.fst :=
    getLastD_mem 0 _
  have hcurr_lt : ((0 :: hdrs.map Prod.fst).getLastD 0) < t.size := by
    refine hI.node_lt ?_
    exact (List.Sublist.cons₂ _ (map_fst_sublist_flatMap hdrs)).mem hcurr_mem
  have hr0 : (t.get ((0 :: hdrs.map Prod.fst).getLastD 0)).right = 0 := hI.last_right
  have hN : t.new_header (some ((0 :: hdrs.map Prod.fst).getLastD 0)) K
      = (Heap.mk ((((t.alloc ⟨none, t.size, t.size, t.size, t.size, K⟩).modify 0
          (fun m => {m with left := t.size})).modify ((0 :: hdrs.map Prod.fst).getLastD 0)
          (fun m => {m with right := t.size})).nodes.set t.size
          (some ⟨none, (0 :: hdrs.map Prod.fst).getLastD 0, 0, t.size, t.size, K⟩)),
        t.size) := by
    rw [new_header_eq, Heap.get_alloc_lt t _ hcurr_lt, hr0]
  rw [hN]
  set curr := (0 :: hdrs.map Prod.fst).getLastD 0 with hcurrdef
  set t2 := (t.alloc ⟨none, t.size, t.size, t.size, t.size, K⟩).modify 0
    (fun m => {m with left := t.size}) with ht2def
  set t3 := t2.modify curr (fun m => {m with right := t.size}) with ht3def
  set T4 := Heap.mk (t3.nodes.set t.size
    (some ⟨none, curr, 0, t.size, t.size, K⟩)) with hT4def
  have hsz3 : t3.size = t.size + 1 := by
    rw [ht3def, Heap.size_modify, ht2def, Heap.size_modify, Heap.size_alloc]
  have hszT : T4.size = t.size + 1 := by
    rw [hT4def, Heap.size_setSlot, hsz3]
  have hgetptr : T4.get t.size = ⟨none, curr, 0, t.size, t.size, K⟩ := by
    rw [hT4def]
    exact Heap.get_setSlot_self t3 _ (by omega)
  have hget_ne : ∀ n, n ≠ t.size → T4.get n = t3.get n := by
    intro n hn
    rw [hT4def]
    exact Heap.get_setSlot_ne t3 _ hn
  have hstep2 : ∀ n, n ≠ 0 → t2.get n
      = (t.alloc ⟨none, t.size, t.size, t.size, t.size, K⟩).get n := by
    intro n hn
    rw [ht2def]
    exact Heap.get_modify_ne _ _ _ _ hn
  have hstep3 : ∀ n, n ≠ curr → t3.get n = t2.get n := by
    intro n hn
    rw [ht3def]
    exact Heap.get_modify_ne _ _ _ _ hn
  have hp2 : ∀ {β : Type} (f : Node → β),
      (∀ x, f ({x with left := t.size} : Node) = f x) →
      ∀ n, f (t2.get n) = f ((t.alloc ⟨none, t.size, t.size, t.size, t.size, K⟩).get n) := by
    intro β f hf n
    rw [ht2def]
    exact Heap.proj_modify f _ 0 (fun m => {m with left := t.size}) hf n
  have hp3 : ∀ {β : Type} (f : Node → β),
      (∀ x, f ({x with right := t.size} : Node) = f x) →
      ∀ n, f (t3.get n) = f (t2.get n) := by
    intro β f hf n
    rw [ht3def]
    exact Heap.proj_modify f _ curr (fun m => {m with right := t.size}) hf n
  have hfields : ∀ n, n ≠ t.size →
      (T4.get n).header = (t.get n).header ∧ (T4.get n).up = (t.get n).up ∧
      (T4.get n).down = (t.get n).down ∧ (T4.get n).row = (t.get n).row := by
    intro n hn
    rw [hget_ne n hn]
    refine ⟨?_, ?_, ?_, ?_⟩
    · rw [hp3 (fun m => m.header) (fun x => rfl) n, hp2 (fun m => m.header) (fun x => rfl) n,
        Heap.get_alloc_ne t _ hn]
    · rw [hp3 (fun m => m.up) (fun x => rfl) n, hp2 (fun m => m.up) (fun x => rfl) n,
        Heap.get_alloc_ne t _ hn]
    · rw [hp3 (fun m => m.down) (fun x => rfl) n, hp2 (fun m => m.down) (fun x => rfl) n,
        Heap.get_alloc_ne t _ hn]
    · rw [hp3 (fun m => m.row) (fun x => rfl) n, hp2 (fun m => m.row) (fun x => rfl) n,
        Heap.get_alloc_ne t _ hn]
  have hleft : ∀ n, n ≠ t.size → n ≠ 0 → (T4.get n).left = (t.get n).left := by
    intro n hn h0
    rw [hget_ne n hn, hp3 (fun m => m.left) (fun x => rfl) n, hstep2 n h0,
      Heap.get_alloc_ne t _ hn]
  have hright : ∀ n, n ≠ t.size → n ≠ curr → (T4.get n).right = (t.get n).right := by
    intro n hn hc
    rw [hget_ne n hn, hstep3 n hc, hp2 (fun m => m.right) (fun x => rfl) n,
      Heap.get_alloc_ne t _ hn]
  have hlivea : ∀ n, n < t.size →
      ((t.alloc ⟨none, t.size, t.size, t.size, t.size, K⟩).slot n).isSome = true := by
    intro n hn
    rw [Heap.slot_alloc_lt t _ hn]
    exact hI.live n hn
  have hget20 : t2.get 0
      = {(t.alloc ⟨none, t.size, t.size, t.size, t.size, K⟩).get 0 with left := t.size} := by
    rw [ht2def]
    exact Heap.get_modify_live _ _ _ (hlivea 0 hI.zero_lt)
  have hleft0 : (T4.get 0).left = t.size := by
    have h0 : (0 : Nat) ≠ t.size := by
      have := hI.zero_lt
      omega
    rw [hget_ne 0 h0, hp3 (fun m => m.left) (fun x => rfl) 0, hget20]
  have hget3c : t3.get curr = {t2.get curr with right := t.size} := by
    rw [ht3def]
    refine Heap.get_modify_live _ _ _ ?_
    rw [ht2def, Heap.slot_isSome_modify]
    exact hlivea curr hcurr_lt
  have hrightcurr : (T4.get curr).right = t.size := by
    have hc : curr ≠ t.size := by omega
    rw [hget_ne curr hc, hget3c]
  have hcell_ne_key : ∀ q ∈ hdrs, ∀ c ∈ q.2, ∀ m, m ∈ 0 :: hdrs.map Prod.fst → c ≠ m := by
    intro q hq c hc m hm he
    rcases List.mem_cons.mp hm with h0 | hk
    · have h1 := hI.cell_hdr q hq c hc
      rw [he, h0, hI.root_hdr] at h1
      cases h1
    · obtain ⟨p', hp', he'⟩ := List.mem_map.mp hk
      have h1 := hI.cell_hdr q hq c hc
      rw [he, ← he'] at h1
      rw [hI.hdr_none p' hp'] at h1
      cases h1
  refine ⟨rfl, ?_, by rw [hgetptr], ?_⟩
  swap
  · intro n hn
    have hne : n ≠ t.size := by omega
    exact ⟨(hfields n hne).2.2.2, (hfields n hne).1⟩
  have hflat : (hdrs ++ [(t.size, [])]).flatMap (fun p => p.1 :: p.2)
      = hdrs.flatMap (fun p => p.1 :: p.2) ++ [t.size] := by
    simp
  refine ⟨?_, ?_, ?_, ?_, ?_, ?_, ?_, ?_, ?_, ?_, ?_, ?_, ?_, ?_, ?_, ?_, ?_, ?_,
    ?_, ?_, ?_, ?_, ?_⟩
  · rw [hflat, hszT, show (0 :: (hdrs.flatMap (fun p => p.1 :: p.2) ++ [t.size]))
      = (0 :: hdrs.flatMap (fun p => p.1 :: p.2)) ++ [t.size] from rfl, hI.nodes_eq,
      ← List.range_succ]
  · intro n hn
    rw [hszT] at hn
    rcases Nat.lt_or_ge n t.size with h1 | h1
    · rw [hT4def, Heap.slot_setSlot_ne t3 _ (by omega), ht3def, Heap.slot_isSome_modify,
        ht2def, Heap.slot_isSome_modify, Heap.slot_alloc_lt t _ h1]
      exact hI.live n h1
    · have hn2 : n = t.size := by omega
      rw [hn2, hT4def, Heap.slot_setSlot_self t3 _ (by omega)]
      rfl
  · exact (hfields 0 (by have := hI.zero_lt; omega)).1.trans hI.root_hdr
  · exact (hfields 0 (by have := hI.zero_lt; omega)).2.1.trans hI.root_up
  · exact (hfields 0 (by have := hI.zero_lt; omega)).2.2.1.trans hI.root_down
  · exact (hfields 0 (by have := hI.zero_lt; omega)).2.2.2.trans hI.root_row
  · rw [List.map_append]
    refine cyc_insert_fwd_last hI.ring_nodup hI.hring_r ?_ ?_ ?_
    · intro n hn hne
      refine hright n ?_ hne
      intro he
      exact hI.fresh_not_mem (he ▸ ((List.Sublist.cons₂ _
        (map_fst_sublist_flatMap hdrs)).mem hn))
    · exact hrightcurr
    · rw [hgetptr]
  · rw [List.map_append]
    refine cyc_insert_bwd_last hI.hring_l ?_ hleft0 ?_
    · intro n hn
      refine hleft n ?_ ?_
      · intro he
        exact hI.fresh_not_mem (he ▸ ((List.Sublist.cons₂ _
          (map_fst_sublist_flatMap hdrs)).mem (List.mem_cons_of_mem _ hn)))
      · intro he
        exact (List.nodup_cons.mp hI.ring_nodup).1 (he ▸ hn)
    · rw [hgetptr]
  · intro p hp
    rcases List.mem_append.mp hp with h1 | h1
    · exact ((hfields p.1 (by have := hI.hdr_lt h1; omega)).1).trans (hI.hdr_none p h1)
    · rcases List.mem_cons.mp h1 with he | he
      · rw [he, hgetptr]
      · exact absurd he (List.not_mem_nil _)
  · intro p hp
    rcases List.mem_append.mp hp with h1 | h1
    · refine CycChain.congr (hI.col_d p h1) ?_
      intro n hn
      exact (hfields n (by
        have := hI.node_lt (List.mem_cons_of_mem _ (BuildInv.cell_mem_flat h1 hn))
        omega)).2.2.1
    · rcases List.mem_cons.mp h1 with he | he
      · rw [he]
        intro pr hpr
        have hpre : pr = (t.size, t.size) := by
          simpa [chainPairs] using hpr
        rw [hpre]
        show (T4.get t.size).down = t.size
        rw [hgetptr]
      · exact absurd he (List.not_mem_nil _)
  · intro p hp
    rcases List.mem_append.mp hp with h1 | h1
    · refine CycChain.congr (hI.col_u p h1) ?_
      intro n hn
      have hn2 : n ∈ p.1 :: p.2 := by
        rcases List.mem_cons.mp hn with he | hr
        · rw [he]; exact List.mem_cons_self _ _
        · exact List.mem_cons_of_mem _ (List.mem_reverse.mp hr)
      exact (hfields n (by
        have := hI.node_lt (List.mem_cons_of_mem _ (BuildInv.cell_mem_flat h1 hn2))
        omega)).2.1
    · rcases List.mem_cons.mp h1 with he | he
      · rw [he]
        intro pr hpr
        have hpre : pr = (t.size, t.size) := by
          simpa [chainPairs] using hpr
        rw [hpre]
        show (T4.get t.size).up = t.size
        rw [hgetptr]
      · exact absurd he (List.not_mem_nil _)
  · intro p hp c hc
    rcases List.mem_append.mp hp with h1 | h1
    · exact ((hfields c (by have := hI.cell_lt h1 hc; omega)).1).trans
        (hI.cell_hdr p h1 c hc)
    · rcases List.mem_cons.mp h1 with he | he
      · rw [he] at hc
        exact absurd hc (List.not_mem_nil _)
      · exact absurd he (List.not_mem_nil _)
  · exact hI.rkeys_nodup
  · intro e he
    rw [hszT, List.range_succ]
    exact (hI.rtab_sub e he).trans (List.sublist_append_left _ _)
  · exact hI.rtab_ne
  · intro e he c hc
    exact ((hfields c (by have := hI.rl_lt he hc; omega)).2.2.2).trans
      (hI.rtab_row e he c hc)
  · intro e he c hc
    obtain ⟨q, hq, hcq⟩ := hI.rtab_col e he c hc
    exact ⟨q, List.mem_append_left _ hq, hcq⟩
  · intro p hp c hc
    rcases List.mem_append.mp hp with h1 | h1
    · rw [(hfields c (by have := hI.cell_lt h1 hc; omega)).2.2.2]
      exact hI.cell_rtab p h1 c hc
    · rcases List.mem_cons.mp h1 with he | he
      · rw [he] at hc
        exact absurd hc (List.not_mem_nil _)
      · exact absurd he (List.not_mem_nil _)
  · intro e he
    refine CycChain.congr (hI.row_r e he) ?_
    intro n hn
    have hn2 : n ∈ e.2 := mem_of_headD_drop (hI.rtab_ne e he) hn
    obtain ⟨q, hq, hcq⟩ := hI.rtab_col e he n hn2
    refine hright n (by have := hI.cell_lt hq hcq; omega) ?_
    exact hcell_ne_key q hq n hcq curr hcurr_mem
  · intro e he
    refine CycChain.congr (hI.row_l e he) ?_
    intro n hn
    have hn2 : n ∈ e.2 := by
      refine mem_of_headD_drop (hI.rtab_ne e he) ?_
      rcases List.mem_cons.mp hn with h1 | h1
      · rw [h1]; exact List.mem_cons_self _ _
      · exact List.mem_cons_of_mem _ (List.mem_reverse.mp h1)
    obtain ⟨q, hq, hcq⟩ := hI.rtab_col e he n hn2
    refine hleft n (by have := hI.cell_lt hq hcq; omega) ?_
    exact hcell_ne_key q hq n hcq 0 (List.mem_cons_self _ _)
  · intro e he
    have hmapeq : e.2.map (fun c => (T4.get c).header)
        = e.2.map (fun c => (t.get c).header) := by
      refine List.map_congr_left ?_
      intro c hc
      obtain ⟨q, hq, hcq⟩ := hI.rtab_col e he c hc
      exact (hfields c (by have := hI.cell_lt hq hcq; omega)).1
    rw [hmapeq]
    exact hI.row_hdrs_nd e he
  · exact hI.lookup_rows
  · intro n hn
    rw [hszT] at hn
    rcases Nat.lt_or_ge n t.size with h1 | h1
    · rw [(hfields n (by omega)).2.2.2]
      exact hI.rows_lt n h1
    · have hn2 : n = t.size := by omega
      rw [hn2, hgetptr]
      exact hK

/-- `node_new` with no previous row cell, fully resolved. -/
lemma node_new_eq_none (s : Heap) (hh cp row : Nat) :
    s.node_new hh none (some cp) row
      = (Heap.mk ((((s.alloc ⟨some hh, s.size, s.size, s.size, s.size, row⟩).modify
          (((s.alloc ⟨some hh, s.size, s.size, s.size, s.size, row⟩).get cp).down)
          (fun m => {m with up := s.size})).modify cp
          (fun m => {m with down := s.size})).nodes.set s.size
          (some ⟨some hh, s.size, s.size, cp,
            ((s.alloc ⟨some hh, s.size, s.size, s.size, s.size, row⟩).get cp).down, row⟩)),
        s.size) := rfl

/-- `node_new` with a previous row cell, fully resolved. -/
lemma node_new_eq_some (s : Heap) (hh rp cp row : Nat) :
    s.node_new hh (some rp) (some cp) row
      = (Heap.mk ((((((s.alloc ⟨some hh, s.size, s.size, s.size, s.size, row⟩).modify
          (((s.alloc ⟨some hh, s.size, s.size, s.size, s.size, row⟩).get rp).right)
          (fun m => {m with left := s.size})).modify rp
          (fun m => {m with right := s.size})).modify
          (((((s.alloc ⟨some hh, s.size, s.size, s.size, s.size, row⟩).modify
            (((s.alloc ⟨some hh, s.size, s.size, s.size, s.size, row⟩).get rp).right)
            (fun m => {m with left := s.size})).modify rp
            (fun m => {m with right := s.size})).get cp).down)
          (fun m => {m with up := s.size})).modify cp
          (fun m => {m with down := s.size})).nodes.set s.size
          (some ⟨some hh, rp,
            ((s.alloc ⟨some hh, s.size, s.size, s.size, s.size, row⟩).get rp).right, cp,
            ((((s.alloc ⟨some hh, s.size, s.size, s.size, s.size, row⟩).modify
              (((s.alloc ⟨some hh, s.size, s.size, s.size, s.size, row⟩).get rp).right)
              (fun m => {m with left := s.size})).modify rp
              (fun m => {m with right := s.size})).get cp).down, row⟩)),
        s.size) := rfl

lemma getLastD_concat_nat (l : List Nat) (a : Nat) : (l ++ [a]).getLastD 0 = a := by
  induction l with
  | nil => rfl
  | cons x xs ih =>
    cases xs with
    | nil => rfl
    | cons y ys =>
      rw [List.cons_append, List.cons_append, getLastD_cons_cons]
      rw [List.cons_append] at ih
      exact ih

lemma lookup_none_not_mem {l : List (Nat × List Nat)} {k : Nat}
    (h : l.lookup k = none) : k ∉ l.map Prod.fst := by
  induction l with
  | nil => simp
  | cons e es ih =>
    rw [List.lookup_cons] at h
    cases hbe : (k == e.1) with
    | true =>
      rw [hbe] at h
      cases h
    | false =>
      rw [hbe] at h
      rw [List.map_cons]
      intro hm
      rcases List.mem_cons.mp hm with he | h2
      · rw [he] at hbe
        simp at hbe
      · exact ih h h2

lemma blocks_disjoint {L : List (Nat × List Nat)}
    (hnd : (L.flatMap (fun p => p.1 :: p.2)).Nodup) {p q : Nat × List Nat}
    (hp : p ∈ L) (hq : q ∈ L) (hpq : p ≠ q) {n : Nat}
    (hnp : n ∈ p.1 :: p.2) : n ∉ q.1 :: q.2 := by
  induction L with
  | nil => exact absurd hp (List.not_mem_nil _)
  | cons a Lt ih =>
    rw [List.flatMap_cons, List.nodup_append] at hnd
    rcases List.mem_cons.mp hp with hpa | hpt
    · rcases List.mem_cons.mp hq with hqa | hqt
      · exact absurd (hpa.trans hqa.symm) hpq
      · intro hnq
        exact hnd.2.2 (hpa ▸ hnp) ((block_sublist_flatMap hqt).mem hnq)
    · rcases List.mem_cons.mp hq with hqa | hqt
      · intro hnq
        exact hnd.2.2 (hqa ▸ hnq) ((block_sublist_flatMap hpt).mem hnp)
      · exact ih hnd.2.1 hpt hqt

/-- The down pointer of the last cell of a complete column points back to the
header. -/
lemma BuildInv.last_down {t : Heap} {rows : List (Option Nat)}
    {hdrs rtab : List (Nat × List Nat)} (hI : BuildInv t rows hdrs rtab)
    {p : Nat × List Nat} (hp : p ∈ hdrs) :
    (t.get ((p.1 :: p.2).getLastD 0)).down = p.1 := by
  cases hc : p.2 with
  | nil =>
    have := hI.col_d p hp
    rw [hc] at this
    exact this (p.1, p.1) (by simp [chainPairs])
  | cons c cs =>
    have hch := hI.col_d p hp
    rw [hc] at hch
    rw [show ((p.1 :: c :: cs).getLastD 0) = ((c :: cs).getLastD 0) from
      getLastD_cons_cons _ _ _ _]
    exact cyc_last_pair hch (by simp)

/-- The right pointer of the last cell of a row ring points back to the first. -/
lemma BuildInv.last_rl_right {t : Heap} {rows : List (Option Nat)}
    {hdrs rtab : List (Nat × List Nat)} (hI : BuildInv t rows hdrs rtab)
    {e : Nat × List Nat} (he : e ∈ rtab) :
    (t.get (e.2.getLastD 0)).right = e.2.headD 0 := by
  cases hc : e.2 with
  | nil => exact absurd hc (hI.rtab_ne e he)
  | cons c cs =>
    have hch := hI.row_r e he
    rw [hc] at hch
    cases hcs : cs with
    | nil =>
      simp only [List.headD_cons, List.drop_succ_cons, List.drop_zero] at hch
      rw [hcs] at hch
      exact hch (c, c) (by simp [chainPairs])
    | cons d ds =>
      simp only [List.headD_cons, List.drop_succ_cons, List.drop_zero] at hch
      rw [hcs] at hch
      rw [show ((c :: d :: ds).getLastD 0) = ((d :: ds).getLastD 0) from
        getLastD_cons_cons _ _ _ _]
      exact cyc_last_pair hch (by simp)

lemma lookup_append_some {l1 l2 : List (Nat × List Nat)} {k : Nat} {v : List Nat}
    (h : l1.lookup k = some v) : (l1 ++ l2).lookup k = some v := by
  induction l1 with
  | nil => exact absurd h (by simp [List.lookup])
  | cons e es ih =>
    rw [List.lookup_cons] at h
    rw [List.cons_append, List.lookup_cons]
    cases hbe : (k == e.1) with
    | true =>
      rw [hbe] at h
      exact h
    | false =>
      rw [hbe] at h
      exact ih h

lemma lookup_append_none {l1 l2 : List (Nat × List Nat)} {k : Nat}
    (h : l1.lookup k = none) : (l1 ++ l2).lookup k = l2.lookup k := by
  induction l1 with
  | nil => rfl
  | cons e es ih =>
    rw [List.lookup_cons] at h
    rw [List.cons_append, List.lookup_cons]
    cases hbe : (k == e.1) with
    | true =>
      rw [hbe] at h
      exact Option.noConfusion h
    | false =>
      rw [hbe] at h
      exact ih h

/-- Adding the first cell of a row: the invariant extends the last (current)
column by the fresh cell and registers a new singleton row ring. -/
lemma buildStep_cell_none {t : Heap} {rows : List (Option Nat)}
    {hdrs0 rtab : List (Nat × List Nat)} {h : Nat} {cl : List Nat}
    (hI : BuildInv t rows (hdrs0 ++ [(h, cl)]) rtab)
    (idx : Nat) (hidx : idx < usizeMod)
    (hlk : rtab.lookup idx = none) :
    (t.node_new h (rows.getD idx none) (some ((h :: cl).getLastD 0)) idx).2 = t.size ∧
    (t.node_new h (rows.getD idx none) (some ((h :: cl).getLastD 0)) idx).1.size
      = t.size + 1 ∧
    ((t.node_new h (rows.getD idx none) (some ((h :: cl).getLastD 0)) idx).1.get
      t.size).row = idx ∧
    (∀ n, n < t.size →
      ((t.node_new h (rows.getD idx none) (some ((h :: cl).getLastD 0)) idx).1.get n).row
        = (t.get n).row ∧
      ((t.node_new h (rows.getD idx none) (some ((h :: cl).getLastD 0)) idx).1.get
        n).header = (t.get n).header) ∧
    (∀ rows2 : List (Option Nat),
      (∀ r, rows2.getD r none = if r = idx then some t.size else rows.getD r none) →
      BuildInv (t.node_new h (rows.getD idx none)
          (some ((h :: cl).getLastD 0)) idx).1 rows2
        (hdrs0 ++ [(h, cl ++ [t.size])]) (rtab ++ [(idx, [t.size])])) := by
  have hrgetD : rows.getD idx none = none := by
    rw [hI.lookup_rows idx, hlk]
  rw [hrgetD]
  have hlast_mem : (h, cl) ∈ hdrs0 ++ [(h, cl)] :=
    List.mem_append_right _ (List.mem_cons_self _ _)
  have hcolc_mem2 : ((h :: cl).getLastD 0) ∈ h :: cl := getLastD_mem h cl
  have hcolc_lt : ((h :: cl).getLastD 0) < t.size :=
    hI.node_lt (List.mem_cons_of_mem _ (BuildInv.cell_mem_flat hlast_mem hcolc_mem2))
  have hdcolc : (t.get ((h :: cl).getLastD 0)).down = h := hI.last_down hlast_mem
  have hN : t.node_new h none (some ((h :: cl).getLastD 0)) idx
      = (Heap.mk ((((t.alloc ⟨some h, t.size, t.size, t.size, t.size, idx⟩).modify h
          (fun m => {m with up := t.size})).modify ((h :: cl).getLastD 0)
          (fun m => {m with down := t.size})).nodes.set t.size
          (some ⟨some h, t.size, t.size, (h :: cl).getLastD 0, h, idx⟩)),
        t.size) := by
    rw [node_new_eq_none, Heap.get_alloc_lt t _ hcolc_lt, hdcolc]
  rw [hN]
  set colc := (h :: cl).getLastD 0 with hcolcdef
  set t2 := (t.alloc ⟨some h, t.size, t.size, t.size, t.size, idx⟩).modify h
    (fun m => {m with up := t.size}) with ht2def
  set t3 := t2.modify colc (fun m => {m with down := t.size}) with ht3def
  set T4 := Heap.mk (t3.nodes.set t.size
    (some ⟨some h, t.size, t.size, colc, h, idx⟩)) with hT4def
  have hh_lt : h < t.size :=
    hI.node_lt (List.mem_cons_of_mem _
      (BuildInv.cell_mem_flat hlast_mem (List.mem_cons_self _ _)))
  have hsz3 : t3.size = t.size + 1 := by
    rw [ht3def, Heap.size_modify, ht2def, Heap.size_modify, Heap.size_alloc]
  have hszT : T4.size = t.size + 1 := by
    rw [hT4def, Heap.size_setSlot, hsz3]
  have hgetptr : T4.get t.size = ⟨some h, t.size, t.size, colc, h, idx⟩ := by
    rw [hT4def]
    exact Heap.get_setSlot_self t3 _ (by omega)
  have hget_ne : ∀ n, n ≠ t.size → T4.get n = t3.get n := by
    intro n hn
    rw [hT4def]
    exact Heap.get_setSlot_ne t3 _ hn
  have hp2 : ∀ {β : Type} (f : Node → β),
      (∀ x, f ({x with up := t.size} : Node) = f x) →
      ∀ n, f (t2.get n)
        = f ((t.alloc ⟨some h, t.size, t.size, t.size, t.size, idx⟩).get n) := by
    intro β f hf n
    rw [ht2def]
    exact Heap.proj_modify f _ h (fun m => {m with up := t.size}) hf n
  have hp3 : ∀ {β : Type} (f : Node → β),
      (∀ x, f ({x with down := t.size} : Node) = f x) →
      ∀ n, f (t3.get n) = f (t2.get n) := by
    intro β f hf n
    rw [ht3def]
    exact Heap.proj_modify f _ colc (fun m => {m with down := t.size}) hf n
  have hfields : ∀ n, n ≠ t.size →
      (T4.get n).header = (t.get n).header ∧ (T4.get n).left = (t.get n).left ∧
      (T4.get n).right = (t.get n).right ∧ (T4.get n).row = (t.get n).row := by
    intro n hn
    rw [hget_ne n hn]
    refine ⟨?_, ?_, ?_, ?_⟩
    · rw [hp3 (fun m => m.header) (fun x => rfl) n, hp2 (fun m => m.header) (fun x => rfl) n,
        Heap.get_alloc_ne t _ hn]
    · rw [hp3 (fun m => m.left) (fun x => rfl) n, hp2 (fun m => m.left) (fun x => rfl) n,
        Heap.get_alloc_ne t _ hn]
    · rw [hp3 (fun m => m.right) (fun x => rfl) n, hp2 (fun m => m.right) (fun x => rfl) n,
        Heap.get_alloc_ne t _ hn]
    · rw [hp3 (fun m => m.row) (fun x => rfl) n, hp2 (fun m => m.row) (fun x => rfl) n,
        Heap.get_alloc_ne t _ hn]
  have hup : ∀ n, n ≠ t.size → n ≠ h → (T4.get n).up = (t.get n).up := by
    intro n hn hh
    rw [hget_ne n hn, hp3 (fun m => m.up) (fun x => rfl) n, ht2def,
      Heap.get_modify_ne _ _ _ _ hh, Heap.get_alloc_ne t _ hn]
  have hdown : ∀ n, n ≠ t.size → n ≠ colc → (T4.get n).down = (t.get n).down := by
    intro n hn hc
    rw [hget_ne n hn, ht3def, Heap.get_modify_ne _ _ _ _ hc,
      hp2 (fun m => m.down) (fun x => rfl) n, Heap.get_alloc_ne t _ hn]
  have hlivea : ∀ n, n < t.size →
      ((t.alloc ⟨some h, t.size, t.size, t.size, t.size, idx⟩).slot n).isSome = true := by
    intro n hn
    rw [Heap.slot_alloc_lt t _ hn]
    exact hI.live n hn
  have huph : (T4.get h).up = t.size := by
    have hh : h ≠ t.size := by omega
    rw [hget_ne h hh, hp3 (fun m => m.up) (fun x => rfl) h, ht2def,
      Heap.get_modify_live _ _ _ (hlivea h hh_lt)]
  have hdowncolc : (T4.get colc).down = t.size := by
    have hc : colc ≠ t.size := by omega
    rw [hget_ne colc hc, ht3def, Heap.get_modify_live _ _ _ (by
      rw [ht2def, Heap.slot_isSome_modify]
      exact hlivea colc hcolc_lt)]
  have hkeys_eq : (hdrs0 ++ [(h, cl ++ [t.size])]).map Prod.fst
      = (hdrs0 ++ [(h, cl)]).map Prod.fst := by
    simp
  have hlast_notin : ∀ p ∈ hdrs0, p ≠ (h, cl) := by
    intro p hp he
    have hnd := (List.nodup_cons.mp hI.ring_nodup).2
    rw [List.map_append, List.map_cons, List.nodup_append] at hnd
    exact hnd.2.2 (List.mem_map_of_mem Prod.fst hp) (by
      rw [he]
      exact List.mem_cons_self _ _)
  have hother_block : ∀ p ∈ hdrs0, ∀ n ∈ p.1 :: p.2, n ∉ h :: cl := by
    intro p hp n hn
    exact blocks_disjoint (List.nodup_cons.mp hI.all_nodup).2
      (List.mem_append_left _ hp) hlast_mem (hlast_notin p hp) hn
  have hcolc_ne0 : colc ≠ 0 := by
    rcases List.mem_cons.mp hcolc_mem2 with he | hc
    · rw [he]
      exact hI.hdr_ne_zero hlast_mem
    · exact hI.cell_ne_zero hlast_mem hc
  have hflat2 : (hdrs0 ++ [(h, cl ++ [t.size])]).flatMap (fun p => p.1 :: p.2)
      = (hdrs0 ++ [(h, cl)]).flatMap (fun p => p.1 :: p.2) ++ [t.size] := by
    simp
  refine ⟨rfl, hszT, by rw [hgetptr], ?_, ?_⟩
  · intro n hn
    have hne : n ≠ t.size := by omega
    exact ⟨(hfields n hne).2.2.2, (hfields n hne).1⟩
  intro rows2 hrows2
  refine ⟨?_, ?_, ?_, ?_, ?_, ?_, ?_, ?_, ?_, ?_, ?_, ?_, ?_, ?_, ?_, ?_, ?_, ?_,
    ?_, ?_, ?_, ?_, ?_⟩
  · rw [hflat2, hszT, show (0 :: ((hdrs0 ++ [(h, cl)]).flatMap (fun p => p.1 :: p.2)
      ++ [t.size])) = (0 :: (hdrs0 ++ [(h, cl)]).flatMap (fun p => p.1 :: p.2)) ++ [t.size]
      from rfl, hI.nodes_eq, ← List.range_succ]
  · intro n hn
    rw [hszT] at hn
    rcases Nat.lt_or_ge n t.size with h1 | h1
    · rw [hT4def, Heap.slot_setSlot_ne t3 _ (by omega), ht3def, Heap.slot_isSome_modify,
        ht2def, Heap.slot_isSome_modify, Heap.slot_alloc_lt t _ h1]
      exact hI.live n h1
    · have hn2 : n = t.size := by omega
      rw [hn2, hT4def, Heap.slot_setSlot_self t3 _ (by omega)]
      rfl
  · exact (hfields 0 (by have := hI.zero_lt; omega)).1.trans hI.root_hdr
  · refine ((hup 0 (by have := hI.zero_lt; omega) ?_).trans hI.root_up)
    intro he
    exact hI.hdr_ne_zero hlast_mem he.symm
  · refine ((hdown 0 (by have := hI.zero_lt; omega) ?_).trans hI.root_down)
    intro he
    exact hcolc_ne0 he.symm
  · exact (hfields 0 (by have := hI.zero_lt; omega)).2.2.2.trans hI.root_row
  · rw [hkeys_eq]
    refine CycChain.congr hI.hring_r ?_
    intro n hn
    exact (hfields n (by
      have := hI.node_lt ((List.Sublist.cons₂ _
        (map_fst_sublist_flatMap _)).mem hn)
      omega)).2.2.1
  · rw [hkeys_eq]
    refine CycChain.congr hI.hring_l ?_
    intro n hn
    have hn2 : n ∈ 0 :: (hdrs0 ++ [(h, cl)]).map Prod.fst := by
      rcases List.mem_cons.mp hn with he | hr
      · rw [he]; exact List.mem_cons_self _ _
      · exact List.mem_cons_of_mem _ (List.mem_reverse.mp hr)
    exact (hfields n (by
      have := hI.node_lt ((List.Sublist.cons₂ _
        (map_fst_sublist_flatMap _)).mem hn2)
      omega)).2.1
  · intro p hp
    rcases List.mem_append.mp hp with h1 | h1
    · exact ((hfields p.1 (by have := hI.hdr_lt (List.mem_append_left _ h1); omega)).1).trans
        (hI.hdr_none p (List.mem_append_left _ h1))
    · rcases List.mem_cons.mp h1 with he | he
      · rw [he]
        exact ((hfields h (by omega)).1).trans (hI.hdr_none _ hlast_mem)
      · exact absurd he (List.not_mem_nil _)
  · intro p hp
    rcases List.mem_append.mp hp with h1 | h1
    · refine CycChain.congr (hI.col_d p (List.mem_append_left _ h1)) ?_
      intro n hn
      refine hdown n (by
        have := hI.node_lt (List.mem_cons_of_mem _
          (BuildInv.cell_mem_flat (List.mem_append_left _ h1) hn))
        omega) ?_
      intro he
      exact hother_block p h1 n hn (he ▸ hcolc_mem2)
    · rcases List.mem_cons.mp h1 with he | he
      · rw [he]
        refine cyc_insert_fwd_last (hI.col_nodup hlast_mem) (hI.col_d _ hlast_mem) ?_ ?_ ?_
        · intro n hn hne
          refine hdown n (by
            have := hI.node_lt (List.mem_cons_of_mem _
              (BuildInv.cell_mem_flat hlast_mem hn))
            omega) hne
        · exact hdowncolc
        · rw [hgetptr]
      · exact absurd he (List.not_mem_nil _)
  · intro p hp
    rcases List.mem_append.mp hp with h1 | h1
    · refine CycChain.congr (hI.col_u p (List.mem_append_left _ h1)) ?_
      intro n hn
      have hn2 : n ∈ p.1 :: p.2 := by
        rcases List.mem_cons.mp hn with he | hr
        · rw [he]; exact List.mem_cons_self _ _
        · exact List.mem_cons_of_mem _ (List.mem_reverse.mp hr)
      refine hup n (by
        have := hI.node_lt (List.mem_cons_of_mem _
          (BuildInv.cell_mem_flat (List.mem_append_left _ h1) hn2))
        omega) ?_
      intro he
      exact hother_block p h1 n hn2 (he ▸ List.mem_cons_self _ _)
    · rcases List.mem_cons.mp h1 with he | he
      · rw [he]
        refine cyc_insert_bwd_last (hI.col_u _ hlast_mem) ?_ huph ?_
        · intro n hn
          refine hup n (by
            have := hI.node_lt (List.mem_cons_of_mem _
              (BuildInv.cell_mem_flat hlast_mem (List.mem_cons_of_mem _ hn)))
            omega) ?_
          intro he2
          exact (List.nodup_cons.mp (hI.col_nodup hlast_mem)).1 (he2 ▸ hn)
        · rw [hgetptr]
      · exact absurd he (List.not_mem_nil _)
  · intro p hp c hc
    rcases List.mem_append.mp hp with h1 | h1
    · exact ((hfields c (by
        have := hI.cell_lt (List.mem_append_left _ h1) hc
        omega)).1).trans (hI.cell_hdr p (List.mem_append_left _ h1) c hc)
    · rcases List.mem_cons.mp h1 with he | he
      · rw [he] at hc ⊢
        rcases List.mem_append.mp hc with h2 | h2
        · exact ((hfields c (by
            have := hI.cell_lt hlast_mem h2
            omega)).1).trans (hI.cell_hdr _ hlast_mem c h2)
        · rcases List.mem_cons.mp h2 with he2 | he2
          · rw [he2, hgetptr]
          · exact absurd he2 (List.not_mem_nil _)
      · exact absurd he (List.not_mem_nil _)
  · rw [List.map_append, List.nodup_append]
    refine ⟨hI.rkeys_nodup, by simp, ?_⟩
    intro a ha hb
    simp only [List.map_cons, List.map_nil, List.mem_cons, List.not_mem_nil,
      or_false] at hb
    rw [hb] at ha
    exact lookup_none_not_mem hlk ha
  · intro e he
    rw [hszT, List.range_succ]
    rcases List.mem_append.mp he with h1 | h1
    · exact (hI.rtab_sub e h1).trans (List.sublist_append_left _ _)
    · rcases List.mem_cons.mp h1 with he2 | he2
      · rw [he2]
        exact List.sublist_append_right _ _
      · exact absurd he2 (List.not_mem_nil _)
  · intro e he
    rcases List.mem_append.mp he with h1 | h1
    · exact hI.rtab_ne e h1
    · rcases List.mem_cons.mp h1 with he2 | he2
      · rw [he2]
        simp
      · exact absurd he2 (List.not_mem_nil _)
  · intro e he c hc
    rcases List.mem_append.mp he with h1 | h1
    · exact ((hfields c (by have := hI.rl_lt h1 hc; omega)).2.2.2).trans
        (hI.rtab_row e h1 c hc)
    · rcases List.mem_cons.mp h1 with he2 | he2
      · rw [he2] at hc ⊢
        simp only [List.mem_singleton] at hc
        rw [hc, hgetptr]
      · exact absurd he2 (List.not_mem_nil _)
  · intro e he c hc
    rcases List.mem_append.mp he with h1 | h1
    · obtain ⟨q, hq, hcq⟩ := hI.rtab_col e h1 c hc
      rcases List.mem_append.mp hq with h2 | h2
      · exact ⟨q, List.mem_append_left _ h2, hcq⟩
      · rcases List.mem_cons.mp h2 with he2 | he2
        · refine ⟨(h, cl ++ [t.size]), List.mem_append_right _ (List.mem_cons_self _ _), ?_⟩
          rw [he2] at hcq
          exact List.mem_append_left _ hcq
        · exact absurd he2 (List.not_mem_nil _)
    · rcases List.mem_cons.mp h1 with he2 | he2
      · rw [he2] at hc
        simp only [List.mem_singleton] at hc
        refine ⟨(h, cl ++ [t.size]), List.mem_append_right _ (List.mem_cons_self _ _), ?_⟩
        rw [hc]
        exact List.mem_append_right _ (List.mem_cons_self _ _)
      · exact absurd he2 (List.not_mem_nil _)
  · intro p hp c hc
    have hold : ∀ (q : Nat × List Nat), q ∈ hdrs0 ++ [(h, cl)] → c ∈ q.2 →
        ∃ rl, (rtab ++ [(idx, [t.size])]).lookup ((T4.get c).row) = some rl ∧ c ∈ rl := by
      intro q hq hcq
      rw [(hfields c (by have := hI.cell_lt hq hcq; omega)).2.2.2]
      obtain ⟨rl, hrl, hcrl⟩ := hI.cell_rtab q hq c hcq
      exact ⟨rl, lookup_append_some hrl, hcrl⟩
    rcases List.mem_append.mp hp with h1 | h1
    · exact hold p (List.mem_append_left _ h1) hc
    · rcases List.mem_cons.mp h1 with he | he
      · rw [he] at hc
        rcases List.mem_append.mp hc with h2 | h2
        · exact hold (h, cl) hlast_mem h2
        · rcases List.mem_cons.mp h2 with he2 | he2
          · rw [he2, hgetptr]
            refine ⟨[t.size], ?_, List.mem_cons_self _ _⟩
            rw [lookup_append_none hlk]
            show (match idx == idx with
              | true => some [t.size] | false => List.lookup idx []) = some [t.size]
            rw [beq_self_eq_true idx]
          · exact absurd he2 (List.not_mem_nil _)
      · exact absurd he (List.not_mem_nil _)
  · intro e he
    rcases List.mem_append.mp he with h1 | h1
    · refine CycChain.congr (hI.row_r e h1) ?_
      intro n hn
      have hn2 : n ∈ e.2 := mem_of_headD_drop (hI.rtab_ne e h1) hn
      exact (hfields n (by have := hI.rl_lt h1 hn2; omega)).2.2.1
    · rcases List.mem_cons.mp h1 with he2 | he2
      · rw [he2]
        intro pr hpr
        have hpre : pr = (t.size, t.size) := by
          simpa [chainPairs] using hpr
        rw [hpre]
        show (T4.get t.size).right = t.size
        rw [hgetptr]
      · exact absurd he2 (List.not_mem_nil _)
  · intro e he
    rcases List.mem_append.mp he with h1 | h1
    · refine CycChain.congr (hI.row_l e h1) ?_
      intro n hn
      have hn2 : n ∈ e.2 := by
        refine mem_of_headD_drop (hI.rtab_ne e h1) ?_
        rcases List.mem_cons.mp hn with h2 | h2
        · rw [h2]; exact List.mem_cons_self _ _
        · exact List.mem_cons_of_mem _ (List.mem_reverse.mp h2)
      exact (hfields n (by have := hI.rl_lt h1 hn2; omega)).2.1
    · rcases List.mem_cons.mp h1 with he2 | he2
      · rw [he2]
        intro pr hpr
        have hpre : pr = (t.size, t.size) := by
          simpa [chainPairs] using hpr
        rw [hpre]
        show (T4.get t.size).left = t.size
        rw [hgetptr]
      · exact absurd he2 (List.not_mem_nil _)
  · intro e he
    rcases List.mem_append.mp he with h1 | h1
    · have hmapeq : e.2.map (fun c => (T4.get c).header)
          = e.2.map (fun c => (t.get c).header) := by
        refine List.map_congr_left ?_
        intro c hc
        exact (hfields c (by have := hI.rl_lt h1 hc; omega)).1
      rw [hmapeq]
      exact hI.row_hdrs_nd e h1
    · rcases List.mem_cons.mp h1 with he2 | he2
      · rw [he2]
        simp
      · exact absurd he2 (List.not_mem_nil _)
  · intro r
    rw [hrows2 r]
    by_cases hre : r = idx
    · rw [if_pos hre, hre, lookup_append_none hlk]
      show some t.size = _
      rw [show (List.lookup idx [(idx, [t.size])]) = some [t.size] by
        show (match idx == idx with
          | true => some [t.size] | false => List.lookup idx []) = some [t.size]
        rw [beq_self_eq_true idx]]
      rfl
    · rw [if_neg hre, hI.lookup_rows r]
      cases hlr : rtab.lookup r with
      | some rl => rw [lookup_append_some hlr]
      | none =>
        rw [lookup_append_none hlr]
        show _ = (match (List.lookup r [(idx, [t.size])]) with
          | none => none | some rl => some (rl.getLastD 0))
        rw [show (List.lookup r [(idx, [t.size])]) = none by
          show (match r == idx with
            | true => some [t.size] | false => List.lookup r []) = none
          rw [show (r == idx) = false from beq_eq_false_iff_ne.mpr hre]
          rfl]
  · intro n hn
    rw [hszT] at hn
    rcases Nat.lt_or_ge n t.size with h1 | h1
    · rw [(hfields n (by omega)).2.2.2]
      exact hI.rows_lt n h1
    · have hn2 : n = t.size := by omega
      rw [hn2, hgetptr]
      exact hidx

/-- Adding a later cell of a row: the invariant extends the last (current)
column and splices the fresh cell at the end of the row ring. -/
lemma buildStep_cell_some {t : Heap} {rows : List (Option Nat)}
    {hdrs0 rtab : List (Nat × List Nat)} {h : Nat} {cl : List Nat}
    (hI : BuildInv t rows (hdrs0 ++ [(h, cl)]) rtab)
    (idx : Nat) (hidx : idx < usizeMod)
    (hfresh_row : ∀ n ∈ cl, (t.get n).row ≠ idx)
    {rl : List Nat} (hlk : rtab.lookup idx = some rl) :
    (t.node_new h (rows.getD idx none) (some ((h :: cl).getLastD 0)) idx).2 = t.size ∧
    (t.node_new h (rows.getD idx none) (some ((h :: cl).getLastD 0)) idx).1.size
      = t.size + 1 ∧
    ((t.node_new h (rows.getD idx none) (some ((h :: cl).getLastD 0)) idx).1.get
      t.size).row = idx ∧
    (∀ n, n < t.size →
      ((t.node_new h (rows.getD idx none) (some ((h :: cl).getLastD 0)) idx).1.get n).row
        = (t.get n).row ∧
      ((t.node_new h (rows.getD idx none) (some ((h :: cl).getLastD 0)) idx).1.get
        n).header = (t.get n).header) ∧
    (∀ rows2 : List (Option Nat),
      (∀ r, rows2.getD r none = if r = idx then some t.size else rows.getD r none) →
      BuildInv (t.node_new h (rows.getD idx none)
          (some ((h :: cl).getLastD 0)) idx).1 rows2
        (hdrs0 ++ [(h, cl ++ [t.size])]) (updRtab rtab idx t.size)) := by
  have hemem : (idx, rl) ∈ rtab := lookup_some_mem hlk
  have hrlne : rl ≠ [] := hI.rtab_ne _ hemem
  cases hrlc : rl with
  | nil => exact absurd hrlc hrlne
  | cons c cs =>
  subst hrlc
  have hrp_mem : (c :: cs).getLastD 0 ∈ c :: cs := getLastD_mem c cs
  have hc_mem : c ∈ c :: cs := List.mem_cons_self _ _
  have hrgetD : rows.getD idx none = some ((c :: cs).getLastD 0) := by
    rw [hI.lookup_rows idx, hlk]
  rw [hrgetD]
  have hlast_mem : (h, cl) ∈ hdrs0 ++ [(h, cl)] :=
    List.mem_append_right _ (List.mem_cons_self _ _)
  have hcolc_mem2 : ((h :: cl).getLastD 0) ∈ h :: cl := getLastD_mem h cl
  have hcolc_lt : ((h :: cl).getLastD 0) < t.size :=
    hI.node_lt (List.mem_cons_of_mem _ (BuildInv.cell_mem_flat hlast_mem hcolc_mem2))
  have hdcolc : (t.get ((h :: cl).getLastD 0)).down = h := hI.last_down hlast_mem
  have hh_lt : h < t.size :=
    hI.node_lt (List.mem_cons_of_mem _
      (BuildInv.cell_mem_flat hlast_mem (List.mem_cons_self _ _)))
  have hnotin_rows : ∀ n, n ∈ c :: cs → n ∉ h :: cl := by
    intro n hn hmem
    obtain ⟨q, hq, hnq⟩ := hI.rtab_col _ hemem n hn
    have hhdr := hI.cell_hdr q hq n hnq
    rcases List.mem_cons.mp hmem with he | hcl2
    · rw [he, hI.hdr_none _ hlast_mem] at hhdr
      cases hhdr
    · exact hfresh_row n hcl2 (hI.rtab_row _ hemem n hn)
  have hrp_lt : (c :: cs).getLastD 0 < t.size := hI.rl_lt hemem hrp_mem
  have hc_lt : c < t.size := hI.rl_lt hemem hc_mem
  have hr0 : (t.get ((c :: cs).getLastD 0)).right = c := hI.last_rl_right hemem
  have hcolc_ne_rp : ((h :: cl).getLastD 0) ≠ (c :: cs).getLastD 0 := by
    intro he
    exact hnotin_rows _ hrp_mem (he ▸ hcolc_mem2)
  have hcolc_ne_c : ((h :: cl).getLastD 0) ≠ c := by
    intro he
    exact hnotin_rows c hc_mem (he ▸ hcolc_mem2)
  have hd0 : ((((t.alloc ⟨some h, t.size, t.size, t.size, t.size, idx⟩).modify c
      (fun m => {m with left := t.size})).modify ((c :: cs).getLastD 0)
      (fun m => {m with right := t.size})).get ((h :: cl).getLastD 0)).down = h := by
    rw [Heap.get_modify_ne _ _ _ _ hcolc_ne_rp, Heap.get_modify_ne _ _ _ _ hcolc_ne_c,
      Heap.get_alloc_lt t _ hcolc_lt, hdcolc]
  have hN : t.node_new h (some ((c :: cs).getLastD 0)) (some ((h :: cl).getLastD 0)) idx
      = (Heap.mk ((((((t.alloc ⟨some h, t.size, t.size, t.size, t.size, idx⟩).modify c
          (fun m => {m with left := t.size})).modify ((c :: cs).getLastD 0)
          (fun m => {m with right := t.size})).modify h
          (fun m => {m with up := t.size})).modify ((h :: cl).getLastD 0)
          (fun m => {m with down := t.size})).nodes.set t.size
          (some ⟨some h, (c :: cs).getLastD 0, c, (h :: cl).getLastD 0, h, idx⟩)),
        t.size) := by
    rw [node_new_eq_some, Heap.get_alloc_lt t _ hrp_lt, hr0, hd0]
  rw [hN]
  set colc := (h :: cl).getLastD 0 with hcolcdef
  set rp := (c :: cs).getLastD 0 with hrpdef
  set t2 := (t.alloc ⟨some h, t.size, t.size, t.size, t.size, idx⟩).modify c
    (fun m => {m with left := t.size}) with ht2def
  set t3 := t2.modify rp (fun m => {m with right := t.size}) with ht3def
  set t4 := t3.modify h (fun m => {m with up := t.size}) with ht4def
  set t5 := t4.modify colc (fun m => {m with down := t.size}) with ht5def
  set T4 := Heap.mk (t5.nodes.set t.size
    (some ⟨some h, rp, c, colc, h, idx⟩)) with hT4def
  have hsz5 : t5.size = t.size + 1 := by
    rw [ht5def, Heap.size_modify, ht4def, Heap.size_modify, ht3def, Heap.size_modify,
      ht2def, Heap.size_modify, Heap.size_alloc]
  have hszT : T4.size = t.size + 1 := by
    rw [hT4def, Heap.size_setSlot, hsz5]
  have hgetptr : T4.get t.size = ⟨some h, rp, c, colc, h, idx⟩ := by
    rw [hT4def]
    exact Heap.get_setSlot_self t5 _ (by omega)
  have hget_ne : ∀ n, n ≠ t.size → T4.get n = t5.get n := by
    intro n hn
    rw [hT4def]
    exact Heap.get_setSlot_ne t5 _ hn
  have hq2 : ∀ {β : Type} (f : Node → β),
      (∀ x, f ({x with left := t.size} : Node) = f x) →
      ∀ n, f (t2.get n)
        = f ((t.alloc ⟨some h, t.size, t.size, t.size, t.size, idx⟩).get n) := by
    intro β f hf n
    rw [ht2def]
    exact Heap.proj_modify f _ c (fun m => {m with left := t.size}) hf n
  have hq3 : ∀ {β : Type} (f : Node → β),
      (∀ x, f ({x with right := t.size} : Node) = f x) →
      ∀ n, f (t3.get n) = f (t2.get n) := by
    intro β f hf n
    rw [ht3def]
    exact Heap.proj_modify f _ rp (fun m => {m with right := t.size}) hf n
  have hq4 : ∀ {β : Type} (f : Node → β),
      (∀ x, f ({x with up := t.size} : Node) = f x) →
      ∀ n, f (t4.get n) = f (t3.get n) := by
    intro β f hf n
    rw [ht4def]
    exact Heap.proj_modify f _ h (fun m => {m with up := t.size}) hf n
  have hq5 : ∀ {β : Type} (f : Node → β),
      (∀ x, f ({x with down := t.size} : Node) = f x) →
      ∀ n, f (t5.get n) = f (t4.get n) := by
    intro β f hf n
    rw [ht5def]
    exact Heap.proj_modify f _ colc (fun m => {m with down := t.size}) hf n
  have hfields : ∀ n, n ≠ t.size →
      (T4.get n).header = (t.get n).header ∧ (T4.get n).row = (t.get n).row := by
    intro n hn
    rw [hget_ne n hn]
    constructor
    · rw [hq5 (fun m => m.header) (fun x => rfl) n, hq4 (fun m => m.header) (fun x => rfl) n,
        hq3 (fun m => m.header) (fun x => rfl) n, hq2 (fun m => m.header) (fun x => rfl) n,
        Heap.get_alloc_ne t _ hn]
    · rw [hq5 (fun m => m.row) (fun x => rfl) n, hq4 (fun m => m.row) (fun x => rfl) n,
        hq3 (fun m => m.row) (fun x => rfl) n, hq2 (fun m => m.row) (fun x => rfl) n,
        Heap.get_alloc_ne t _ hn]
  have hup : ∀ n, n ≠ t.size → n ≠ h → (T4.get n).up = (t.get n).up := by
    intro n hn hh
    rw [hget_ne n hn, hq5 (fun m => m.up) (fun x => rfl) n, ht4def,
      Heap.get_modify_ne _ _ _ _ hh, hq3 (fun m => m.up) (fun x => rfl) n,
      hq2 (fun m => m.up) (fun x => rfl) n, Heap.get_alloc_ne t _ hn]
  have hdown : ∀ n, n ≠ t.size → n ≠ colc → (T4.get n).down = (t.get n).down := by
    intro n hn hc
    rw [hget_ne n hn, ht5def, Heap.get_modify_ne _ _ _ _ hc,
      hq4 (fun m => m.down) (fun x => rfl) n, hq3 (fun m => m.down) (fun x => rfl) n,
      hq2 (fun m => m.down) (fun x => rfl) n, Heap.get_alloc_ne t _ hn]
  have hleft : ∀ n, n ≠ t.size → n ≠ c → (T4.get n).left = (t.get n).left := by
    intro n hn hc
    rw [hget_ne n hn, hq5 (fun m => m.left) (fun x => rfl) n,
      hq4 (fun m => m.left) (fun x => rfl) n, hq3 (fun m => m.left) (fun x => rfl) n,
      ht2def, Heap.get_modify_ne _ _ _ _ hc, Heap.get_alloc_ne t _ hn]
  have hright : ∀ n, n ≠ t.size → n ≠ rp → (T4.get n).right = (t.get n).right := by
    intro n hn hc
    rw [hget_ne n hn, hq5 (fun m => m.right) (fun x => rfl) n,
      hq4 (fun m => m.right) (fun x => rfl) n, ht3def, Heap.get_modify_ne _ _ _ _ hc,
      hq2 (fun m => m.right) (fun x => rfl) n, Heap.get_alloc_ne t _ hn]
  have hlivea : ∀ n, n < t.size →
      ((t.alloc ⟨some h, t.size, t.size, t.size, t.size, idx⟩).slot n).isSome = true := by
    intro n hn
    rw [Heap.slot_alloc_lt t _ hn]
    exact hI.live n hn
  have hleft_c : (T4.get c).left = t.size := by
    have hcn : c ≠ t.size := by omega
    rw [hget_ne c hcn, hq5 (fun m => m.left) (fun x => rfl) c,
      hq4 (fun m => m.left) (fun x => rfl) c, hq3 (fun m => m.left) (fun x => rfl) c,
      ht2def, Heap.get_modify_live _ _ _ (hlivea c hc_lt)]
  have hright_rp : (T4.get rp).right = t.size := by
    have hrn : rp ≠ t.size := by omega
    rw [hget_ne rp hrn, hq5 (fun m => m.right) (fun x => rfl) rp,
      hq4 (fun m => m.right) (fun x => rfl) rp, ht3def,
      Heap.get_modify_live _ _ _ (by
        rw [ht2def, Heap.slot_isSome_modify]
        exact hlivea rp hrp_lt)]
  have hupH : (T4.get h).up = t.size := by
    have hhn : h ≠ t.size := by omega
    rw [hget_ne h hhn, hq5 (fun m => m.up) (fun x => rfl) h, ht4def,
      Heap.get_modify_live _ _ _ (by
        rw [ht3def, Heap.slot_isSome_modify, ht2def, Heap.slot_isSome_modify]
        exact hlivea h hh_lt)]
  have hdowncolc : (T4.get colc).down = t.size := by
    have hcn : colc ≠ t.size := by omega
    rw [hget_ne colc hcn, ht5def, Heap.get_modify_live _ _ _ (by
      rw [ht4def, Heap.slot_isSome_modify, ht3def, Heap.slot_isSome_modify,
        ht2def, Heap.slot_isSome_modify]
      exact hlivea colc hcolc_lt)]
  have hkeys_eq : (hdrs0 ++ [(h, cl ++ [t.size])]).map Prod.fst
      = (hdrs0 ++ [(h, cl)]).map Prod.fst := by
    simp
  have hlast_notin : ∀ p ∈ hdrs0, p ≠ (h, cl) := by
    intro p hp he
    have hnd := (List.nodup_cons.mp hI.ring_nodup).2
    rw [List.map_append, List.map_cons, List.nodup_append] at hnd
    exact hnd.2.2 (List.mem_map_of_mem Prod.fst hp) (by
      rw [he]
      exact List.mem_cons_self _ _)
  have hother_block : ∀ p ∈ hdrs0, ∀ n ∈ p.1 :: p.2, n ∉ h :: cl := by
    intro p hp n hn
    exact blocks_disjoint (List.nodup_cons.mp hI.all_nodup).2
      (List.mem_append_left _ hp) hlast_mem (hlast_notin p hp) hn
  have hcolc_ne0 : colc ≠ 0 := by
    rcases List.mem_cons.mp hcolc_mem2 with he | hc
    · rw [he]
      exact hI.hdr_ne_zero hlast_mem
    · exact hI.cell_ne_zero hlast_mem hc
  have hother_row : ∀ e2, e2 ∈ rtab → e2.1 ≠ idx → ∀ n ∈ e2.2, n ≠ c ∧ n ≠ rp := by
    intro e2 he2 hne n hn
    have hrow_n := hI.rtab_row e2 he2 n hn
    constructor
    · intro he
      apply hne
      rw [← hrow_n, he]
      exact hI.rtab_row _ hemem c hc_mem
    · intro he
      apply hne
      rw [← hrow_n, he]
      exact hI.rtab_row _ hemem _ hrp_mem
  have hflat2 : (hdrs0 ++ [(h, cl ++ [t.size])]).flatMap (fun p => p.1 :: p.2)
      = (hdrs0 ++ [(h, cl)]).flatMap (fun p => p.1 :: p.2) ++ [t.size] := by
    simp
  have hcell_not_row : ∀ p, p ∈ hdrs0 ++ [(h, cl)] → ∀ n, n ∈ p.1 :: p.2 →
      n ∉ c :: cs → n ≠ c ∧ n ≠ rp := by
    intro p hp n hn hnr
    exact ⟨fun he => hnr (he ▸ hc_mem), fun he => hnr (he ▸ hrp_mem)⟩
  have hring_not_row : ∀ n, n ∈ 0 :: (hdrs0 ++ [(h, cl)]).map Prod.fst →
      n ≠ c ∧ n ≠ rp := by
    intro n hn
    have hnr : n ∉ c :: cs := by
      intro hmem
      obtain ⟨q, hq, hnq⟩ := hI.rtab_col _ hemem n hmem
      have hhdr := hI.cell_hdr q hq n hnq
      rcases List.mem_cons.mp hn with he | hk
      · rw [he] at hhdr
        rw [hI.root_hdr] at hhdr
        cases hhdr
      · obtain ⟨p', hp', he'⟩ := List.mem_map.mp hk
        rw [← he'] at hhdr
        rw [hI.hdr_none p' hp'] at hhdr
        cases hhdr
    exact ⟨fun he => hnr (he ▸ hc_mem), fun he => hnr (he ▸ hrp_mem)⟩
  refine ⟨rfl, hszT, by rw [hgetptr], ?_, ?_⟩
  · intro n hn
    have hne : n ≠ t.size := by omega
    exact ⟨(hfields n hne).2, (hfields n hne).1⟩
  intro rows2 hrows2
  refine ⟨?_, ?_, ?_, ?_, ?_, ?_, ?_, ?_, ?_, ?_, ?_, ?_, ?_, ?_, ?_, ?_, ?_, ?_,
    ?_, ?_, ?_, ?_, ?_⟩
  · rw [hflat2, hszT, show (0 :: ((hdrs0 ++ [(h, cl)]).flatMap (fun p => p.1 :: p.2)
      ++ [t.size])) = (0 :: (hdrs0 ++ [(h, cl)]).flatMap (fun p => p.1 :: p.2)) ++ [t.size]
      from rfl, hI.nodes_eq, ← List.range_succ]
  · intro n hn
    rw [hszT] at hn
    rcases Nat.lt_or_ge n t.size with h1 | h1
    · rw [hT4def, Heap.slot_setSlot_ne t5 _ (by omega), ht5def, Heap.slot_isSome_modify,
        ht4def, Heap.slot_isSome_modify, ht3def, Heap.slot_isSome_modify,
        ht2def, Heap.slot_isSome_modify, Heap.slot_alloc_lt t _ h1]
      exact hI.live n h1
    · have hn2 : n = t.size := by omega
      rw [hn2, hT4def, Heap.slot_setSlot_self t5 _ (by omega)]
      rfl
  · exact (hfields 0 (by have := hI.zero_lt; omega)).1.trans hI.root_hdr
  · refine ((hup 0 (by have := hI.zero_lt; omega) ?_).trans hI.root_up)
    intro he
    exact hI.hdr_ne_zero hlast_mem he.symm
  · refine ((hdown 0 (by have := hI.zero_lt; omega) ?_).trans hI.root_down)
    intro he
    exact hcolc_ne0 he.symm
  · exact (hfields 0 (by have := hI.zero_lt; omega)).2.trans hI.root_row
  · rw [hkeys_eq]
    refine CycChain.congr hI.hring_r ?_
    intro n hn
    refine hright n (by
      have := hI.node_lt ((List.Sublist.cons₂ _ (map_fst_sublist_flatMap _)).mem hn)
      omega) (hring_not_row n hn).2
  · rw [hkeys_eq]
    refine CycChain.congr hI.hring_l ?_
    intro n hn
    have hn2 : n ∈ 0 :: (hdrs0 ++ [(h, cl)]).map Prod.fst := by
      rcases List.mem_cons.mp hn with he | hr
      · rw [he]; exact List.mem_cons_self _ _
      · exact List.mem_cons_of_mem _ (List.mem_reverse.mp hr)
    refine hleft n (by
      have := hI.node_lt ((List.Sublist.cons₂ _ (map_fst_sublist_flatMap _)).mem hn2)
      omega) (hring_not_row n hn2).1
  · intro p hp
    rcases List.mem_append.mp hp with h1 | h1
    · exact ((hfields p.1 (by have := hI.hdr_lt (List.mem_append_left _ h1); omega)).1).trans
        (hI.hdr_none p (List.mem_append_left _ h1))
    · rcases List.mem_cons.mp h1 with he | he
      · rw [he]
        exact ((hfields h (by omega)).1).trans (hI.hdr_none _ hlast_mem)
      · exact absurd he (List.not_mem_nil _)
  · intro p hp
    rcases List.mem_append.mp hp with h1 | h1
    · refine CycChain.congr (hI.col_d p (List.mem_append_left _ h1)) ?_
      intro n hn
      refine hdown n (by
        have := hI.node_lt (List.mem_cons_of_mem _
          (BuildInv.cell_mem_flat (List.mem_append_left _ h1) hn))
        omega) ?_
      intro he
      exact hother_block p h1 n hn (he ▸ hcolc_mem2)
    · rcases List.mem_cons.mp h1 with he | he
      · rw [he]
        refine cyc_insert_fwd_last (hI.col_nodup hlast_mem) (hI.col_d _ hlast_mem) ?_ ?_ ?_
        · intro n hn hne
          refine hdown n (by
            have := hI.node_lt (List.mem_cons_of_mem _
              (BuildInv.cell_mem_flat hlast_mem hn))
            omega) hne
        · exact hdowncolc
        · rw [hgetptr]
      · exact absurd he (List.not_mem_nil _)
  · intro p hp
    rcases List.mem_append.mp hp with h1 | h1
    · refine CycChain.congr (hI.col_u p (List.mem_append_left _ h1)) ?_
      intro n hn
      have hn2 : n ∈ p.1 :: p.2 := by
        rcases List.mem_cons.mp hn with he | hr
        · rw [he]; exact List.mem_cons_self _ _
        · exact List.mem_cons_of_mem _ (List.mem_reverse.mp hr)
      refine hup n (by
        have := hI.node_lt (List.mem_cons_of_mem _
          (BuildInv.cell_mem_flat (List.mem_append_left _ h1) hn2))
        omega) ?_
      intro he
      exact hother_block p h1 n hn2 (he ▸ List.mem_cons_self _ _)
    · rcases List.mem_cons.mp h1 with he | he
      · rw [he]
        refine cyc_insert_bwd_last (hI.col_u _ hlast_mem) ?_ hupH ?_
        · intro n hn
          refine hup n (by
            have := hI.node_lt (List.mem_cons_of_mem _
              (BuildInv.cell_mem_flat hlast_mem (List.mem_cons_of_mem _ hn)))
            omega) ?_
          intro he2
          exact (List.nodup_cons.mp (hI.col_nodup hlast_mem)).1 (he2 ▸ hn)
        · rw [hgetptr]
      · exact absurd he (List.not_mem_nil _)
  · intro p hp c2 hc2
    rcases List.mem_append.mp hp with h1 | h1
    · exact ((hfields c2 (by
        have := hI.cell_lt (List.mem_append_left _ h1) hc2
        omega)).1).trans (hI.cell_hdr p (List.mem_append_left _ h1) c2 hc2)
    · rcases List.mem_cons.mp h1 with he | he
      · rw [he] at hc2 ⊢
        rcases List.mem_append.mp hc2 with h2 | h2
        · exact ((hfields c2 (by
            have := hI.cell_lt hlast_mem h2
            omega)).1).trans (hI.cell_hdr _ hlast_mem c2 h2)
        · rcases List.mem_cons.mp h2 with he2 | he2
          · rw [he2, hgetptr]
          · exact absurd he2 (List.not_mem_nil _)
      · exact absurd he (List.not_mem_nil _)
  · rw [updRtab_keys]
    exact hI.rkeys_nodup
  · intro e2 he2
    obtain ⟨e, he, hee⟩ := mem_updRtab he2
    rw [hszT, List.range_succ, hee]
    by_cases heq : e.1 = idx
    · rw [if_pos heq]
      exact List.Sublist.append (hI.rtab_sub e he) (List.Sublist.refl _)
    · rw [if_neg heq]
      exact (hI.rtab_sub e he).trans (List.sublist_append_left _ _)
  · intro e2 he2
    obtain ⟨e, he, hee⟩ := mem_updRtab he2
    rw [hee]
    by_cases heq : e.1 = idx
    · rw [if_pos heq]
      simp
    · rw [if_neg heq]
      exact hI.rtab_ne e he
  · intro e2 he2 c2 hc2
    obtain ⟨e, he, hee⟩ := mem_updRtab he2
    rw [hee] at hc2 ⊢
    by_cases heq : e.1 = idx
    · rw [if_pos heq] at hc2 ⊢
      rcases List.mem_append.mp hc2 with h2 | h2
      · exact ((hfields c2 (by have := hI.rl_lt he h2; omega)).2).trans
          (hI.rtab_row e he c2 h2)
      · rcases List.mem_cons.mp h2 with he2 | he2
        · rw [he2, hgetptr]
          show idx = e.1
          rw [heq]
        · exact absurd he2 (List.not_mem_nil _)
    · rw [if_neg heq] at hc2 ⊢
      exact ((hfields c2 (by have := hI.rl_lt he hc2; omega)).2).trans
        (hI.rtab_row e he c2 hc2)
  · intro e2 he2 c2 hc2
    obtain ⟨e, he, hee⟩ := mem_updRtab he2
    rw [hee] at hc2
    have hremap : ∀ c3, (∃ q, q ∈ hdrs0 ++ [(h, cl)] ∧ c3 ∈ q.2) →
        ∃ q, q ∈ hdrs0 ++ [(h, cl ++ [t.size])] ∧ c3 ∈ q.2 := by
      intro c3 ⟨q, hq, hcq⟩
      rcases List.mem_append.mp hq with h2 | h2
      · exact ⟨q, List.mem_append_left _ h2, hcq⟩
      · rcases List.mem_cons.mp h2 with he3 | he3
        · refine ⟨(h, cl ++ [t.size]), List.mem_append_right _ (List.mem_cons_self _ _), ?_⟩
          rw [he3] at hcq
          exact List.mem_append_left _ hcq
        · exact absurd he3 (List.not_mem_nil _)
    by_cases heq : e.1 = idx
    · rw [if_pos heq] at hc2
      rcases List.mem_append.mp hc2 with h2 | h2
      · exact hremap c2 (hI.rtab_col e he c2 h2)
      · rcases List.mem_cons.mp h2 with he2 | he2
        · refine ⟨(h, cl ++ [t.size]), List.mem_append_right _ (List.mem_cons_self _ _), ?_⟩
          rw [he2]
          exact List.mem_append_right _ (List.mem_cons_self _ _)
        · exact absurd he2 (List.not_mem_nil _)
    · rw [if_neg heq] at hc2
      exact hremap c2 (hI.rtab_col e he c2 hc2)
  · intro p hp c2 hc2
    have hold : ∀ (q : Nat × List Nat), q ∈ hdrs0 ++ [(h, cl)] → c2 ∈ q.2 →
        ∃ rl2, (updRtab rtab idx t.size).lookup ((T4.get c2).row) = some rl2
          ∧ c2 ∈ rl2 := by
      intro q hq hcq
      rw [(hfields c2 (by have := hI.cell_lt hq hcq; omega)).2]
      obtain ⟨rl2, hrl2, hcrl2⟩ := hI.cell_rtab q hq c2 hcq
      by_cases hre : (t.get c2).row = idx
      · rw [hre] at hrl2 ⊢
        rw [lookup_updRtab_eq, hrl2]
        refine ⟨(c :: cs) ++ [t.size], ?_, ?_⟩
        · rw [show rl2 = c :: cs from Option.some.inj (hlk ▸ hrl2.symm) ▸ rfl]
          rfl
        · have hrl2e : rl2 = c :: cs := by
            rw [hlk] at hrl2
            exact (Option.some.inj hrl2).symm
          rw [← hrl2e]
          exact List.mem_append_left _ hcrl2
      · rw [lookup_updRtab_ne rtab idx t.size _ hre]
        exact ⟨rl2, hrl2, hcrl2⟩
    rcases List.mem_append.mp hp with h1 | h1
    · exact hold p (List.mem_append_left _ h1) hc2
    · rcases List.mem_cons.mp h1 with he | he
      · rw [he] at hc2
        rcases List.mem_append.mp hc2 with h2 | h2
        · exact hold (h, cl) hlast_mem h2
        · rcases List.mem_cons.mp h2 with he2 | he2
          · rw [he2, hgetptr]
            refine ⟨(c :: cs) ++ [t.size], ?_, ?_⟩
            · show (updRtab rtab idx t.size).lookup idx = _
              rw [lookup_updRtab_eq, hlk]
              rfl
            · exact List.mem_append_right _ (List.mem_cons_self _ _)
          · exact absurd he2 (List.not_mem_nil _)
      · exact absurd he (List.not_mem_nil _)
  · intro e2 he2
    obtain ⟨e, he, hee⟩ := mem_updRtab he2
    by_cases heq : e.1 = idx
    · have hee2 : e2 = (e.1, e.2 ++ [t.size]) := by
        rw [hee, if_pos heq]
      have heidx : e = (idx, c :: cs) := by
        refine pair_eq_of_keys_nodup hI.rkeys_nodup he hemem heq
      rw [hee2, heidx]
      show CycChain (fun n => (T4.get n).right) (((c :: cs) ++ [t.size]).headD 0)
        (((c :: cs) ++ [t.size]).drop 1)
      rw [show (((c :: cs) ++ [t.size]).headD 0) = c from rfl,
        show (((c :: cs) ++ [t.size]).drop 1) = cs ++ [t.size] from rfl]
      have hbase := hI.row_r _ hemem
      rw [show ((c :: cs).headD 0) = c from rfl,
        show ((c :: cs).drop 1) = cs from rfl] at hbase
      refine cyc_insert_fwd_last (hI.rl_nodup hemem) hbase ?_ ?_ ?_
      · intro n hn hne
        refine hright n (by have := hI.rl_lt hemem hn; omega) hne
      · exact hright_rp
      · rw [hgetptr]
    · have hee2 : e2 = e := by
        rw [hee, if_neg heq]
      rw [hee2]
      refine CycChain.congr (hI.row_r e he) ?_
      intro n hn
      have hn2 : n ∈ e.2 := mem_of_headD_drop (hI.rtab_ne e he) hn
      exact hright n (by have := hI.rl_lt he hn2; omega)
        (hother_row e he heq n hn2).2
  · intro e2 he2
    obtain ⟨e, he, hee⟩ := mem_updRtab he2
    by_cases heq : e.1 = idx
    · have hee2 : e2 = (e.1, e.2 ++ [t.size]) := by
        rw [hee, if_pos heq]
      have heidx : e = (idx, c :: cs) := by
        refine pair_eq_of_keys_nodup hI.rkeys_nodup he hemem heq
      rw [hee2, heidx]
      show CycChain (fun n => (T4.get n).left) (((c :: cs) ++ [t.size]).headD 0)
        (((c :: cs) ++ [t.size]).drop 1).reverse
      rw [show (((c :: cs) ++ [t.size]).headD 0) = c from rfl,
        show (((c :: cs) ++ [t.size]).drop 1) = cs ++ [t.size] from rfl]
      have hbase := hI.row_l _ hemem
      rw [show ((c :: cs).headD 0) = c from rfl,
        show ((c :: cs).drop 1) = cs from rfl] at hbase
      refine cyc_insert_bwd_last hbase ?_ hleft_c ?_
      · intro n hn
        refine hleft n (by
          have := hI.rl_lt hemem (List.mem_cons_of_mem _ hn)
          omega) ?_
        intro he2x
        exact (List.nodup_cons.mp (hI.rl_nodup hemem)).1 (he2x ▸ hn)
      · rw [hgetptr]
    · have hee2 : e2 = e := by
        rw [hee, if_neg heq]
      rw [hee2]
      refine CycChain.congr (hI.row_l e he) ?_
      intro n hn
      have hn2 : n ∈ e.2 := by
        refine mem_of_headD_drop (hI.rtab_ne e he) ?_
        rcases List.mem_cons.mp hn with h2 | h2
        · rw [h2]; exact List.mem_cons_self _ _
        · exact List.mem_cons_of_mem _ (List.mem_reverse.mp h2)
      exact hleft n (by have := hI.rl_lt he hn2; omega)
        (hother_row e he heq n hn2).1
  · intro e2 he2
    obtain ⟨e, he, hee⟩ := mem_updRtab he2
    by_cases heq : e.1 = idx
    · have hee2 : e2 = (e.1, e.2 ++ [t.size]) := by
        rw [hee, if_pos heq]
      have heidx : e = (idx, c :: cs) := by
        refine pair_eq_of_keys_nodup hI.rkeys_nodup he hemem heq
      rw [hee2, heidx]
      show (((c :: cs) ++ [t.size]).map (fun c2 => (T4.get c2).header)).Nodup
      rw [List.map_append]
      have hmapeq : (c :: cs).map (fun c2 => (T4.get c2).header)
          = (c :: cs).map (fun c2 => (t.get c2).header) := by
        refine List.map_congr_left ?_
        intro c2 hc2
        exact (hfields c2 (by have := hI.rl_lt hemem hc2; omega)).1
      rw [hmapeq, show ([t.size].map (fun c2 => (T4.get c2).header))
        = [some h] by rw [List.map_cons, hgetptr]; rfl]
      rw [List.nodup_append]
      refine ⟨hI.row_hdrs_nd _ hemem, by simp, ?_⟩
      intro a ha hb
      simp only [List.mem_singleton] at hb
      rw [hb] at ha
      obtain ⟨c2, hc2, hc2h⟩ := List.mem_map.mp ha
      obtain ⟨q, hq, hc2q⟩ := hI.rtab_col _ hemem c2 hc2
      have hhq := hI.cell_hdr q hq c2 hc2q
      rw [hc2h] at hhq
      have hqh : q.1 = h := (Option.some.inj hhq).symm
      have hqe : q = (h, cl) := by
        refine pair_eq_of_keys_nodup ?_ hq hlast_mem hqh
        exact (List.nodup_cons.mp hI.ring_nodup).2
      rw [hqe] at hc2q
      exact hfresh_row c2 hc2q (hI.rtab_row _ hemem c2 hc2)
    · have hee2 : e2 = e := by
        rw [hee, if_neg heq]
      rw [hee2]
      have hmapeq : e.2.map (fun c2 => (T4.get c2).header)
          = e.2.map (fun c2 => (t.get c2).header) := by
        refine List.map_congr_left ?_
        intro c2 hc2
        exact (hfields c2 (by have := hI.rl_lt he hc2; omega)).1
      rw [hmapeq]
      exact hI.row_hdrs_nd e he
  · intro r
    rw [hrows2 r]
    by_cases hre : r = idx
    · rw [if_pos hre, hre, lookup_updRtab_eq, hlk]
      show some t.size = some (((c :: cs) ++ [t.size]).getLastD 0)
      rw [getLastD_concat_nat]
    · rw [if_neg hre, lookup_updRtab_ne rtab idx t.size r hre, hI.lookup_rows r]
  · intro n hn
    rw [hszT] at hn
    rcases Nat.lt_or_ge n t.size with h1 | h1
    · rw [(hfields n (by omega)).2]
      exact hI.rows_lt n h1
    · have hn2 : n = t.size := by omega
      rw [hn2, hgetptr]
      exact hidx

/-- The on-demand `resize` of the solver crate's row table never changes a
lookup. -/
lemma getD_resize (rows : List (Option Nat)) (idx : Nat) :
    ∀ r, ((if rows.length ≤ idx then
        rows ++ List.replicate (idx + 1 - rows.length) none else rows).getD r none)
      = rows.getD r none := by
  intro r
  by_cases hle : rows.length ≤ idx
  · rw [if_pos hle]
    rcases Nat.lt_or_ge r rows.length with h1 | h1
    · rw [List.getD_eq_getElem?_getD, List.getElem?_append_left h1,
        ← List.getD_eq_getElem?_getD]
    · rw [List.getD_eq_getElem?_getD (l := rows), List.getElem?_eq_none h1]
      rw [List.getD_eq_getElem?_getD]
      rcases Nat.lt_or_ge r (rows.length + (idx + 1 - rows.length)) with h2 | h2
      · rw [List.getElem?_append_right h1]
        simp only [List.getElem?_replicate]
        by_cases h3 : r - rows.length < idx + 1 - rows.length
        · rw [if_pos h3]
          rfl
        · rw [if_neg h3]
      · rw [List.getElem?_eq_none (by simp; omega)]
  · rw [if_neg hle]

lemma length_resize_ge (rows : List (Option Nat)) (idx : Nat) :
    idx < (if rows.length ≤ idx then
      rows ++ List.replicate (idx + 1 - rows.length) none else rows).length := by
  by_cases hle : rows.length ≤ idx
  · rw [if_pos hle]
    simp
    omega
  · rw [if_neg hle]
    omega

lemma getD_set_point (rows : List (Option Nat)) (idx : Nat) (hlt : idx < rows.length)
    (v : Option Nat) :
    ∀ r, (rows.set idx v).getD r none = if r = idx then v else rows.getD r none := by
  intro r
  by_cases hre : r = idx
  · rw [if_pos hre, hre, List.getD_eq_getElem?_getD, List.getElem?_set_self hlt]
    rfl
  · rw [if_neg hre, List.getD_eq_getElem?_getD,
      List.getElem?_set_ne (fun he => hre he.symm), ← List.getD_eq_getElem?_getD]

/-- The inner constructor fold (the cells of one constraint), run in lockstep
for both crates: same heap, row tables agreeing pointwise. -/
lemma build_inner {hdrs0 : List (Nat × List Nat)} {h : Nat} :
    ∀ (ixs2 : List Nat) (t : Heap) (rowsS rowsM : List (Option Nat)) (cl : List Nat)
      (rtab : List (Nat × List Nat)) (done2 : List Nat),
      BuildInv t rowsS (hdrs0 ++ [(h, cl)]) rtab →
      (∀ r, rowsM.getD r none = rowsS.getD r none) →
      (∀ i ∈ ixs2, i < usizeMod) →
      (∀ i ∈ ixs2, i < rowsM.length) →
      cl.map (fun c2 => (t.get c2).row) = done2 →
      (done2 ++ ixs2).Nodup →
      ∃ TF rowsSF rowsMF clF rtabF,
        ixs2.foldl (fun (acc2 : Heap × List (Option Nat) × Nat) index =>
            let (heap, rows, col_curr) := acc2
            let rows := if rows.length ≤ index then
                rows ++ List.replicate (index + 1 - rows.length) none
              else rows
            let (heap, nw) := heap.node_new h (rows.getD index none) (some col_curr) index
            (heap, rows.set index (some nw), nw))
          (t, rowsS, (h :: cl).getLastD 0)
          = (TF, rowsSF, (h :: clF).getLastD 0) ∧
        ixs2.foldl (fun (acc2 : Heap × List (Option Nat) × Nat) index =>
            let (heap, rows, col_curr) := acc2
            let (heap, nw) := heap.node_new h (rows.getD index none) (some col_curr) index
            (heap, rows.set index (some nw), nw))
          (t, rowsM, (h :: cl).getLastD 0)
          = (TF, rowsMF, (h :: clF).getLastD 0) ∧
        BuildInv TF rowsSF (hdrs0 ++ [(h, clF)]) rtabF ∧
        (∀ r, rowsMF.getD r none = rowsSF.getD r none) ∧
        rowsMF.length = rowsM.length ∧
        clF.map (fun c2 => (TF.get c2).row) = done2 ++ ixs2 ∧
        (∀ n, n < t.size → (TF.get n).row = (t.get n).row ∧
          (TF.get n).header = (t.get n).header) ∧
        t.size ≤ TF.size := by
  intro ixs2
  induction ixs2 with
  | nil =>
    intro t rowsS rowsM cl rtab done2 hI hco hlt hltM hmap hnd
    refine ⟨t, rowsS, rowsM, cl, rtab, rfl, rfl, hI, hco, rfl, ?_, fun n _ => ⟨rfl, rfl⟩,
      Nat.le_refl _⟩
    rw [hmap, List.append_nil]
  | cons idx rest ih =>
    intro t rowsS rowsM cl rtab done2 hI hco hlt hltM hmap hnd
    have hidx : idx < usizeMod := hlt idx (List.mem_cons_self _ _)
    have hidxM : idx < rowsM.length := hltM idx (List.mem_cons_self _ _)
    have hfresh : ∀ n ∈ cl, (t.get n).row ≠ idx := by
      intro n hn he
      have hrmem : (t.get n).row ∈ done2 := by
        rw [← hmap]
        exact List.mem_map_of_mem _ hn
      rw [List.nodup_append] at hnd
      exact hnd.2.2 (he ▸ hrmem) (List.mem_cons_self _ _)
    have hgetco : rowsM.getD idx none = rowsS.getD idx none := hco idx
    -- the shared per-step facts, by the row-table case
    have hmain : (t.node_new h (rowsS.getD idx none)
          (some ((h :: cl).getLastD 0)) idx).2 = t.size ∧
        (t.node_new h (rowsS.getD idx none)
          (some ((h :: cl).getLastD 0)) idx).1.size = t.size + 1 ∧
        ((t.node_new h (rowsS.getD idx none)
          (some ((h :: cl).getLastD 0)) idx).1.get t.size).row = idx ∧
        (∀ n, n < t.size →
          ((t.node_new h (rowsS.getD idx none)
            (some ((h :: cl).getLastD 0)) idx).1.get n).row = (t.get n).row ∧
          ((t.node_new h (rowsS.getD idx none)
            (some ((h :: cl).getLastD 0)) idx).1.get n).header = (t.get n).header) ∧
        ∃ rtab2, (∀ rows2 : List (Option Nat),
          (∀ r, rows2.getD r none = if r = idx then some t.size
            else rowsS.getD r none) →
          BuildInv (t.node_new h (rowsS.getD idx none)
              (some ((h :: cl).getLastD 0)) idx).1 rows2
            (hdrs0 ++ [(h, cl ++ [t.size])]) rtab2) := by
      cases hlkc : rtab.lookup idx with
      | none =>
        obtain ⟨h1, h2, h3, h4, h5⟩ := buildStep_cell_none hI idx hidx hlkc
        exact ⟨h1, h2, h3, h4, rtab ++ [(idx, [t.size])], h5⟩
      | some rl =>
        obtain ⟨h1, h2, h3, h4, h5⟩ := buildStep_cell_some hI idx hidx hfresh hlkc
        exact ⟨h1, h2, h3, h4, updRtab rtab idx t.size, h5⟩
    obtain ⟨hptr, hsz1, hrowptr, hstab1, rtab2, hbuilder⟩ := hmain
    set T1 := (t.node_new h (rowsS.getD idx none) (some ((h :: cl).getLastD 0)) idx).1
      with hT1def
    set rowsS2 := (if rowsS.length ≤ idx then
        rowsS ++ List.replicate (idx + 1 - rowsS.length) none
      else rowsS).set idx (some t.size) with hrowsS2def
    set rowsM2 := rowsM.set idx (some t.size) with hrowsM2def
    have hrowsS2spec : ∀ r, rowsS2.getD r none
        = if r = idx then some t.size else rowsS.getD r none := by
      intro r
      rw [hrowsS2def, getD_set_point _ idx (length_resize_ge rowsS idx) _ r]
      by_cases hre : r = idx
      · rw [if_pos hre, if_pos hre]
      · rw [if_neg hre, if_neg hre, getD_resize rowsS idx r]
    have hrowsM2spec : ∀ r, rowsM2.getD r none
        = if r = idx then some t.size else rowsM.getD r none := by
      intro r
      rw [hrowsM2def]
      exact getD_set_point _ idx hidxM _ r
    have hI2 : BuildInv T1 rowsS2 (hdrs0 ++ [(h, cl ++ [t.size])]) rtab2 :=
      hbuilder rowsS2 hrowsS2spec
    have hco2 : ∀ r, rowsM2.getD r none = rowsS2.getD r none := by
      intro r
      rw [hrowsM2spec r, hrowsS2spec r]
      by_cases hre : r = idx
      · rw [if_pos hre, if_pos hre]
      · rw [if_neg hre, if_neg hre, hco r]
    have hmap2 : (cl ++ [t.size]).map (fun c2 => (T1.get c2).row) = done2 ++ [idx] := by
      rw [List.map_append]
      have hcl : cl.map (fun c2 => (T1.get c2).row) = cl.map (fun c2 => (t.get c2).row) := by
        refine List.map_congr_left ?_
        intro c2 hc2
        exact (hstab1 c2 (hI.cell_lt (List.mem_append_right _ (List.mem_cons_self _ _))
          hc2)).1
      rw [hcl, hmap, List.map_cons, List.map_nil, hrowptr]
    have hnd2 : ((done2 ++ [idx]) ++ rest).Nodup := by
      have he : (done2 ++ [idx]) ++ rest = done2 ++ idx :: rest := by simp
      rw [he]
      exact hnd
    have hlast2 : (h :: (cl ++ [t.size])).getLastD 0 = t.size := by
      rw [show (h :: (cl ++ [t.size])) = (h :: cl) ++ [t.size] by simp, getLastD_concat_nat]
    obtain ⟨TF, rowsSF, rowsMF, clF, rtabF, heqS, heqM, hIF, hcoF, hlenF, hmapF, hstabF,
      hszF⟩ := ih T1 rowsS2 rowsM2 (cl ++ [t.size]) rtab2 (done2 ++ [idx]) hI2 hco2
        (fun i hi => hlt i (List.mem_cons_of_mem _ hi))
        (fun i hi => by
          rw [hrowsM2def, List.length_set]
          exact hltM i (List.mem_cons_of_mem _ hi))
        hmap2 hnd2
    rw [hlast2] at heqS heqM
    refine ⟨TF, rowsSF, rowsMF, clF, rtabF, ?_, ?_, hIF, hcoF, ?_, ?_, ?_, ?_⟩
    · refine Eq.trans ?_ heqS
      show List.foldl _ ((t.node_new h ((if rowsS.length ≤ idx then
          rowsS ++ List.replicate (idx + 1 - rowsS.length) none
          else rowsS).getD idx none) (some ((h :: cl).getLastD 0)) idx).1,
        (if rowsS.length ≤ idx then
            rowsS ++ List.replicate (idx + 1 - rowsS.length) none
          else rowsS).set idx (some (t.node_new h ((if rowsS.length ≤ idx then
          rowsS ++ List.replicate (idx + 1 - rowsS.length) none
          else rowsS).getD idx none) (some ((h :: cl).getLastD 0)) idx).2),
        (t.node_new h ((if rowsS.length ≤ idx then
          rowsS ++ List.replicate (idx + 1 - rowsS.length) none
          else rowsS).getD idx none) (some ((h :: cl).getLastD 0)) idx).2) rest
        = List.foldl _ (T1, rowsS2, t.size) rest
      rw [getD_resize rowsS idx idx, hptr, ← hT1def, ← hrowsS2def]
    · refine Eq.trans ?_ heqM
      show List.foldl _ ((t.node_new h (rowsM.getD idx none)
          (some ((h :: cl).getLastD 0)) idx).1,
        rowsM.set idx (some (t.node_new h (rowsM.getD idx none)
          (some ((h :: cl).getLastD 0)) idx).2),
        (t.node_new h (rowsM.getD idx none)
          (some ((h :: cl).getLastD 0)) idx).2) rest
        = List.foldl _ (T1, rowsM2, t.size) rest
      rw [hgetco, hptr, ← hT1def, ← hrowsM2def]
    · rw [hlenF, hrowsM2def, List.length_set]
    · rw [hmapF]
      simp
    · intro n hn
      have hn1 : n < T1.size := by
        rw [hsz1]
        omega
      exact ⟨(hstabF n hn1).1.trans (hstab1 n hn).1,
        (hstabF n hn1).2.trans (hstab1 n hn).2⟩
    · calc t.size ≤ T1.size := by rw [hsz1]; omega
      _ ≤ TF.size := hszF

lemma Heap.size_new_header_some (s : Heap) (p K : Nat) :
    (s.new_header (some p) K).1.size = s.size + 1 := by
  show (Heap.mk ((((s.alloc ⟨none, s.size, s.size, s.size, s.size, K⟩).modify
      (((s.alloc ⟨none, s.size, s.size, s.size, s.size, K⟩).get p).right)
      (fun m => {m with left := s.size})).modify p
      (fun m => {m with right := s.size})).nodes.set s.size
      (some ⟨none, p, (((s.alloc ⟨none, s.size, s.size, s.size, s.size, K⟩).get p)).right,
        s.size, s.size, K⟩))).size = s.size + 1
  rw [Heap.size_setSlot, Heap.size_modify, Heap.size_modify, Heap.size_alloc]

/-- The constructor's outer fold over the constraint columns, for both crates
simultaneously: starting from any state satisfying the build invariant with
matching row tables, both outer folds land on the same heap, the invariant is
re-established, every header's `row` field equals its column length, and the
blocks' cell rows spell out exactly the processed constraints. -/
lemma build_outer :
    ∀ (cs2 : List (List Nat)) (t : Heap) (rowsS rowsM : List (Option Nat))
      (hdrs rtab : List (Nat × List Nat)) (done : List (List Nat)),
      BuildInv t rowsS hdrs rtab →
      (∀ r, rowsM.getD r none = rowsS.getD r none) →
      (∀ col ∈ cs2, col.Nodup) →
      (∀ col ∈ cs2, ∀ i ∈ col, i < usizeMod) →
      (∀ col ∈ cs2, col.length < usizeMod) →
      (∀ col ∈ cs2, ∀ i ∈ col, i < rowsM.length) →
      (∀ p ∈ hdrs, (t.get p.1).row = p.2.length) →
      hdrs.map (fun p => p.2.map (fun c2 => (t.get c2).row)) = done →
      ∃ TF rowsSF rowsMF hdrsF rtabF,
        cs2.foldl (fun (acc : Heap × List (Option Nat) × Nat) constraint =>
            let (heap, rows, curr) := acc
            let (heap, hdr) := heap.new_header (some curr) constraint.length
            let (heap, rows, _) :=
              constraint.foldl
                (fun (acc2 : Heap × List (Option Nat) × Nat) index =>
                  let (heap, rows, col_curr) := acc2
                  let rows := if rows.length ≤ index then
                      rows ++ List.replicate (index + 1 - rows.length) none
                    else rows
                  let (heap, nw) := heap.node_new hdr (rows.getD index none)
                    (some col_curr) index
                  (heap, rows.set index (some nw), nw))
                (heap, rows, hdr)
            (heap, rows, hdr))
          (t, rowsS, (0 :: hdrs.map Prod.fst).getLastD 0)
          = (TF, rowsSF, (0 :: hdrsF.map Prod.fst).getLastD 0) ∧
        cs2.foldl (fun (acc : Heap × List (Option Nat) × Nat) constraint =>
            let (heap, rows, curr) := acc
            let (heap, hdr) := heap.new_header (some curr) constraint.length
            let (heap, rows, _) :=
              constraint.foldl
                (fun (acc2 : Heap × List (Option Nat) × Nat) index =>
                  let (heap, rows, col_curr) := acc2
                  let (heap, nw) := heap.node_new hdr (rows.getD index none)
                    (some col_curr) index
                  (heap, rows.set index (some nw), nw))
                (heap, rows, hdr)
            (heap, rows, hdr))
          (t, rowsM, (0 :: hdrs.map Prod.fst).getLastD 0)
          = (TF, rowsMF, (0 :: hdrsF.map Prod.fst).getLastD 0) ∧
        BuildInv TF rowsSF hdrsF rtabF ∧
        (∀ r, rowsMF.getD r none = rowsSF.getD r none) ∧
        rowsMF.length = rowsM.length ∧
        (∀ p ∈ hdrsF, (TF.get p.1).row = p.2.length) ∧
        hdrsF.map (fun p => p.2.map (fun c2 => (TF.get c2).row)) = done ++ cs2 := by
  intro cs2
  induction cs2 with
  | nil =>
    intro t rowsS rowsM hdrs rtab done hI hco _ _ _ _ hcnt hcorr
    exact ⟨t, rowsS, rowsM, hdrs, rtab, rfl, rfl, hI, hco, rfl, hcnt,
      by rw [hcorr, List.append_nil]⟩
  | cons col rest ih =>
    intro t rowsS rowsM hdrs rtab done hI hco hndAll hltAll hlenAll hltMAll hcnt hcorr
    have hlen : col.length < usizeMod := hlenAll col (List.mem_cons_self _ _)
    obtain ⟨hptr, hI1, hrowK, hstab1⟩ := buildStep_header hI col.length hlen
    set CURR := (0 :: hdrs.map Prod.fst).getLastD 0 with hCURRdef
    set T1 := (t.new_header (some CURR) col.length).1 with hT1def
    have hsz1 : T1.size = t.size + 1 := Heap.size_new_header_some t CURR col.length
    obtain ⟨TF2, rowsSF2, rowsMF2, clF, rtabF2, heqS, heqM, hIF2, hcoF2, hlenF2, hmapF2,
      hstabF2, hszF2⟩ := build_inner col T1 rowsS rowsM [] rtab []
        hI1 hco (fun i hi => hltAll col (List.mem_cons_self _ _) i hi)
        (fun i hi => hltMAll col (List.mem_cons_self _ _) i hi)
        rfl (hndAll col (List.mem_cons_self _ _))
    have heqS2 : col.foldl (fun (acc2 : Heap × List (Option Nat) × Nat) index =>
          let (heap, rows, col_curr) := acc2
          let rows := if rows.length ≤ index then
              rows ++ List.replicate (index + 1 - rows.length) none
            else rows
          let (heap, nw) := heap.node_new t.size (rows.getD index none)
            (some col_curr) index
          (heap, rows.set index (some nw), nw))
        (T1, rowsS, t.size) = (TF2, rowsSF2, (t.size :: clF).getLastD 0) := heqS
    have heqM2 : col.foldl (fun (acc2 : Heap × List (Option Nat) × Nat) index =>
          let (heap, rows, col_curr) := acc2
          let (heap, nw) := heap.node_new t.size (rows.getD index none)
            (some col_curr) index
          (heap, rows.set index (some nw), nw))
        (T1, rowsM, t.size) = (TF2, rowsMF2, (t.size :: clF).getLastD 0) := heqM
    have hclFlen : clF.length = col.length := by
      have hlenq := congrArg List.length hmapF2
      simpa using hlenq
    have hcnt2 : ∀ p ∈ hdrs ++ [(t.size, clF)], (TF2.get p.1).row = p.2.length := by
      intro p hp
      rcases List.mem_append.mp hp with hph | hpn
      · have hplt : p.1 < t.size := hI.hdr_lt hph
        have hplt1 : p.1 < T1.size := by omega
        rw [(hstabF2 p.1 hplt1).1, (hstab1 p.1 hplt).1]
        exact hcnt p hph
      · have hpe : p = (t.size, clF) := by
          rcases List.mem_cons.mp hpn with he | hf
          · exact he
          · exact absurd hf (List.not_mem_nil _)
        rw [hpe]
        show (TF2.get t.size).row = clF.length
        have hlt1 : t.size < T1.size := by omega
        rw [(hstabF2 t.size hlt1).1, hrowK, hclFlen]
    have hcorr2 : (hdrs ++ [(t.size, clF)]).map
        (fun p => p.2.map (fun c2 => (TF2.get c2).row)) = done ++ [col] := by
      rw [List.map_append]
      have hold : hdrs.map (fun p => p.2.map (fun c2 => (TF2.get c2).row))
          = hdrs.map (fun p => p.2.map (fun c2 => (t.get c2).row)) := by
        refine List.map_congr_left ?_
        intro p hp
        refine List.map_congr_left ?_
        intro c2 hc2
        have hclt : c2 < t.size := hI.cell_lt hp hc2
        have hclt1 : c2 < T1.size := by omega
        rw [(hstabF2 c2 hclt1).1, (hstab1 c2 hclt).1]
      rw [hold, hcorr]
      have hnew : [(t.size, clF)].map (fun p => p.2.map (fun c2 => (TF2.get c2).row))
          = [col] := by
        rw [List.map_cons, List.map_nil]
        show [clF.map (fun c2 => (TF2.get c2).row)] = [col]
        rw [hmapF2, List.nil_append]
      rw [hnew]
    have hcur2 : (0 :: (hdrs ++ [(t.size, clF)]).map Prod.fst).getLastD 0 = t.size := by
      rw [List.map_append]
      rw [show (0 :: (hdrs.map Prod.fst ++ [(t.size, clF)].map Prod.fst))
        = (0 :: hdrs.map Prod.fst) ++ [t.size] by simp]
      exact getLastD_concat_nat _ _
    obtain ⟨TF, rowsSF, rowsMF, hdrsF, rtabF, hES, hEM, hIF, hcoF, hlenF, hcntF, hcorrF⟩ :=
      ih TF2 rowsSF2 rowsMF2 (hdrs ++ [(t.size, clF)]) rtabF2 (done ++ [col]) hIF2 hcoF2
        (fun c hc => hndAll c (List.mem_cons_of_mem _ hc))
        (fun c hc => hltAll c (List.mem_cons_of_mem _ hc))
        (fun c hc => hlenAll c (List.mem_cons_of_mem _ hc))
        (fun c hc i hi => by
          rw [hlenF2]
          exact hltMAll c (List.mem_cons_of_mem _ hc) i hi)
        hcnt2 hcorr2
    rw [hcur2] at hES hEM
    have hlast2 : (t.size :: clF).getLastD 0 = ((TF2, rowsSF2,
        (t.size :: clF).getLastD 0) : Heap × List (Option Nat) × Nat).2.2 := rfl
    refine ⟨TF, rowsSF, rowsMF, hdrsF, rtabF, ?_, ?_, hIF, hcoF,
      hlenF.trans hlenF2, hcntF, hcorrF.trans (by simp)⟩
    · refine Eq.trans ?_ hES
      show List.foldl _
        ((col.foldl (fun (acc2 : Heap × List (Option Nat) × Nat) index =>
            let (heap, rows, col_curr) := acc2
            let rows := if rows.length ≤ index then
                rows ++ List.replicate (index + 1 - rows.length) none
              else rows
            let (heap, nw) := heap.node_new (t.new_header (some CURR) col.length).2
              (rows.getD index none) (some col_curr) index
            (heap, rows.set index (some nw), nw))
          ((t.new_header (some CURR) col.length).1, rowsS,
            (t.new_header (some CURR) col.length).2)).1,
         (col.foldl (fun (acc2 : Heap × List (Option Nat) × Nat) index =>
            let (heap, rows, col_curr) := acc2
            let rows := if rows.length ≤ index then
                rows ++ List.replicate (index + 1 - rows.length) none
              else rows
            let (heap, nw) := heap.node_new (t.new_header (some CURR) col.length).2
              (rows.getD index none) (some col_curr) index
            (heap, rows.set index (some nw), nw))
          ((t.new_header (some CURR) col.length).1, rowsS,
            (t.new_header (some CURR) col.length).2)).2.1,
         (t.new_header (some CURR) col.length).2) rest
        = List.foldl _ (TF2, rowsSF2, t.size) rest
      rw [hptr, ← hT1def, heqS2]
    · refine Eq.trans ?_ hEM
      show List.foldl _
        ((col.foldl (fun (acc2 : Heap × List (Option Nat) × Nat) index =>
            let (heap, rows, col_curr) := acc2
            let (heap, nw) := heap.node_new (t.new_header (some CURR) col.length).2
              (rows.getD index none) (some col_curr) index
            (heap, rows.set index (some nw), nw))
          ((t.new_header (some CURR) col.length).1, rowsM,
            (t.new_header (some CURR) col.length).2)).1,
         (col.foldl (fun (acc2 : Heap × List (Option Nat) × Nat) index =>
            let (heap, rows, col_curr) := acc2
            let (heap, nw) := heap.node_new (t.new_header (some CURR) col.length).2
              (rows.getD index none) (some col_curr) index
            (heap, rows.set index (some nw), nw))
          ((t.new_header (some CURR) col.length).1, rowsM,
            (t.new_header (some CURR) col.length).2)).2.1,
         (t.new_header (some CURR) col.length).2) rest
        = List.foldl _ (TF2, rowsMF2, t.size) rest
      rw [hptr, ← hT1def, heqM2]

/-- Rotating a stored row ring to start at any of its members: the rotation is
a permutation of the stored list and carries both directional chains. -/
lemma rl_rot {t : Heap} {rows : List (Option Nat)} {hdrs rtab : List (Nat × List Nat)}
    (hI : BuildInv t rows hdrs rtab) {ρ : Nat} {rl : List Nat}
    (hlk : rtab.lookup ρ = some rl) {c : Nat} (hc : c ∈ rl) :
    List.Perm (c :: rotFrom rl c) rl ∧
    CycChain (fun n => (t.get n).right) c (rotFrom rl c) ∧
    CycChain (fun n => (t.get n).left) c (rotFrom rl c).reverse := by
  have he : (ρ, rl) ∈ rtab := lookup_some_mem hlk
  have hnd : rl.Nodup := hI.rl_nodup he
  have hne : rl ≠ [] := hI.rtab_ne _ he
  have hr := hI.row_r _ he
  have hl := hI.row_l _ he
  cases rl with
  | nil => exact absurd rfl hne
  | cons r0 rs =>
    rcases List.mem_cons.mp hc with he0 | hcs
    · subst he0
      have hrot : rotFrom (c :: rs) c = rs ++ [] := rotFrom_eq (List.not_mem_nil c)
      rw [hrot, List.append_nil]
      exact ⟨List.Perm.refl _, hr, hl⟩
    · obtain ⟨A, B, hAB⟩ := List.append_of_mem hcs
      have hco : c ∉ r0 :: A := by
        intro hmem
        rw [hAB] at hnd
        rcases List.mem_cons.mp hmem with h0 | hA
        · have : c ∈ A ++ c :: B := List.mem_append_right _ (List.mem_cons_self _ _)
          exact (List.nodup_cons.mp hnd).1 (h0 ▸ this)
        · have hnd2 := (List.nodup_cons.mp hnd).2
          exact (List.disjoint_of_nodup_append hnd2) hA (List.mem_cons_self _ _)
      have hrl : r0 :: rs = (r0 :: A) ++ c :: B := by rw [hAB]; rfl
      have hrot : rotFrom (r0 :: rs) c = B ++ (r0 :: A) := by
        rw [hrl]; exact rotFrom_eq hco
      rw [hrot]
      have hr2 : CycChain (fun n => (t.get n).right) r0 (A ++ c :: B) := by
        rw [hAB] at hr
        exact hr
      have hl2 : CycChain (fun n => (t.get n).left) r0 (B.reverse ++ c :: A.reverse) := by
        rw [hAB] at hl
        have hre : ((A ++ c :: B) : List Nat).reverse = B.reverse ++ c :: A.reverse := by
          simp
        rw [show ((r0 :: (A ++ c :: B)).drop 1).reverse = (A ++ c :: B).reverse from rfl,
          hre] at hl
        exact hl
      refine ⟨?_, cyc_rotate_mid hr2, ?_⟩
      · have hp1 : (c :: (B ++ r0 :: A)) = (c :: B) ++ (r0 :: A) := by simp
        rw [hp1, hrl]
        exact List.perm_append_comm
      · have hmid := cyc_rotate_mid hl2
        have hre2 : (B ++ r0 :: A).reverse = A.reverse ++ r0 :: B.reverse := by
          simp
        rw [hre2]
        exact hmid

/-- A build-invariant state with correct header counts is a well-described
search state rooted at node 0, with the row index as `R` and the rotated
stored row ring as `RR`. -/
lemma buildinv_desc {t : Heap} {rows : List (Option Nat)}
    {hdrs rtab : List (Nat × List Nat)}
    (hI : BuildInv t rows hdrs rtab)
    (hcnt : ∀ p ∈ hdrs, (t.get p.1).row = p.2.length) :
    Desc t 0 (fun c2 => rotFrom ((rtab.lookup ((t.get c2).row)).getD []) c2)
      (fun c2 => (t.get c2).row) hdrs := by
  have hcell : ∀ p ∈ hdrs, ∀ c ∈ p.2, ∃ rl,
      rtab.lookup ((t.get c).row) = some rl ∧ c ∈ rl ∧
      rotFrom ((rtab.lookup ((t.get c).row)).getD []) c = rotFrom rl c := by
    intro p hp c hc
    obtain ⟨rl, hlk, hcrl⟩ := hI.cell_rtab p hp c hc
    exact ⟨rl, hlk, hcrl, by rw [hlk]; rfl⟩
  have hblock : ∀ p ∈ hdrs, ∀ m ∈ p.1 :: p.2, cid t m = p.1 ∧ m < t.size := by
    intro p hp m hm
    rcases List.mem_cons.mp hm with h0 | hcm
    · subst h0
      refine ⟨?_, hI.hdr_lt hp⟩
      show ((t.get p.1).header).getD p.1 = p.1
      rw [hI.hdr_none p hp]
      rfl
    · refine ⟨?_, hI.cell_lt hp hcm⟩
      show ((t.get m).header).getD m = p.1
      rw [hI.cell_hdr p hp m hcm]
      rfl
  refine ⟨hI.zero_lt, hI.live 0 hI.zero_lt, hI.root_hdr, hI.hring_r, hI.hring_l,
    hI.ring_nodup, fun p hp => hI.hdr_lt hp, fun p hp => hI.live _ (hI.hdr_lt hp),
    hI.hdr_none, hcnt, hI.col_d, hI.col_u, fun p hp => hI.col_nodup hp,
    fun p hp c hc => hI.cell_lt hp hc, fun p hp c hc => hI.live _ (hI.cell_lt hp hc),
    hI.cell_hdr, fun p hp c hc => rfl, ?_, ?_, ?_, ?_, ?_, ?_, ?_, ?_, hI.rows_lt⟩
  · intro p hp c hc
    obtain ⟨rl, hlk, hcrl, hre⟩ := hcell p hp c hc
    show CycChain (fun n => (t.get n).right) c
      (rotFrom ((rtab.lookup ((t.get c).row)).getD []) c)
    rw [hre]
    exact (rl_rot hI hlk hcrl).2.1
  · intro p hp c hc
    obtain ⟨rl, hlk, hcrl, hre⟩ := hcell p hp c hc
    show CycChain (fun n => (t.get n).left) c
      (rotFrom ((rtab.lookup ((t.get c).row)).getD []) c).reverse
    rw [hre]
    exact (rl_rot hI hlk hcrl).2.2
  · intro p hp c hc
    obtain ⟨rl, hlk, hcrl, hre⟩ := hcell p hp c hc
    show (c :: rotFrom ((rtab.lookup ((t.get c).row)).getD []) c).Nodup
    rw [hre]
    exact ((rl_rot hI hlk hcrl).1.nodup_iff).mpr (hI.rl_nodup (lookup_some_mem hlk))
  · intro p hp c hc x hx
    obtain ⟨rl, hlk, hcrl, hre⟩ := hcell p hp c hc
    have hx2 : x ∈ rotFrom ((rtab.lookup ((t.get c).row)).getD []) c := hx
    rw [hre] at hx2
    have hxrl : x ∈ rl := ((rl_rot hI hlk hcrl).1.mem_iff).mp (List.mem_cons_of_mem _ hx2)
    have he : ((t.get c).row, rl) ∈ rtab := lookup_some_mem hlk
    obtain ⟨q, hq, hxq⟩ := hI.rtab_col _ he x hxrl
    exact ⟨q, hq, hI.cell_hdr q hq x hxq, hxq, hI.rtab_row _ he x hxrl⟩
  · intro p hp c hc
    obtain ⟨rl, hlk, hcrl, hre⟩ := hcell p hp c hc
    show ((c :: rotFrom ((rtab.lookup ((t.get c).row)).getD []) c).map
      (fun x => (t.get x).header)).Nodup
    rw [hre]
    have he : ((t.get c).row, rl) ∈ rtab := lookup_some_mem hlk
    exact (((rl_rot hI hlk hcrl).1.map (fun x => (t.get x).header)).nodup_iff).mpr
      (hI.row_hdrs_nd _ he)
  · intro p hp
    refine List.Nodup.map_on ?_ (List.nodup_cons.mp (hI.col_nodup hp)).2
    intro x hx y hy hxy
    have hxy2 : (t.get x).row = (t.get y).row := hxy
    obtain ⟨rlx, hlkx, hxrl, _⟩ := hcell p hp x hx
    obtain ⟨rly, hlky, hyrl, _⟩ := hcell p hp y hy
    rw [hxy2] at hlkx
    have hrle : rly = rlx := Option.some.inj (hlky.symm.trans hlkx)
    rw [hrle] at hyrl
    have he : ((t.get y).row, rlx) ∈ rtab := lookup_some_mem hlkx
    refine List.inj_on_of_nodup_map (hI.row_hdrs_nd _ he) hxrl hyrl ?_
    rw [hI.cell_hdr p hp x hx, hI.cell_hdr p hp y hy]
  · intro p hp c hc q hq d hd hrde
    have hrde2 : (t.get d).row = (t.get c).row := hrde
    obtain ⟨rl, hlk, hcrl, hre⟩ := hcell p hp c hc
    obtain ⟨rld, hlkd, hdrl, _⟩ := hcell q hq d hd
    rw [hrde2] at hlkd
    have hrle : rld = rl := Option.some.inj (hlkd.symm.trans hlk)
    show d ∈ c :: rotFrom ((rtab.lookup ((t.get c).row)).getD []) c
    rw [hre]
    refine ((rl_rot hI hlk hcrl).1.mem_iff).mpr ?_
    rw [← hrle]
    exact hdrl
  · intro n hn
    have hmem : n ∈ 0 :: hdrs.flatMap (fun p => p.1 :: p.2) := by
      rw [hI.nodes_eq]
      exact List.mem_range.mpr hn
    rcases List.mem_cons.mp hmem with h0 | hblk
    · subst h0
      rw [hI.root_up, hI.root_down]
      exact ⟨rfl, hI.zero_lt, rfl, hI.zero_lt⟩
    · obtain ⟨p, hp, hnp⟩ := List.mem_flatMap.mp hblk
      have hcidn : cid t n = p.1 := (hblock p hp n hnp).1
      have hup : (t.get n).up ∈ p.1 :: p.2 := by
        rcases List.mem_cons.mp hnp with h0 | hcm
        · rw [h0]
          have hfirst := cyc_first (hI.col_u p hp)
          rw [hfirst]
          have hm := headD_append_mem p.2.reverse p.1
          rcases List.mem_cons.mp hm with hh | hh
          · rw [hh]; exact List.mem_cons_self _ _
          · exact List.mem_cons_of_mem _ (List.mem_reverse.mp hh)
        · have hmem2 : n ∈ p.1 :: p.2.reverse :=
            List.mem_cons_of_mem _ (List.mem_reverse.mpr hcm)
          have hstep := (hI.col_u p hp).mem_step hmem2
          rcases List.mem_cons.mp hstep with hh | hh
          · rw [hh]; exact List.mem_cons_self _ _
          · exact List.mem_cons_of_mem _ (List.mem_reverse.mp hh)
      have hdn : (t.get n).down ∈ p.1 :: p.2 := (hI.col_d p hp).mem_step hnp
      refine ⟨?_, (hblock p hp _ hup).2, ?_, (hblock p hp _ hdn).2⟩
      · rw [(hblock p hp _ hup).1, hcidn]
      · rw [(hblock p hp _ hdn).1, hcidn]

lemma getD_replicate_none (n r : Nat) :
    (List.replicate n (none : Option Nat)).getD r none = none := by
  rw [List.getD_eq_getElem?_getD, List.getElem?_replicate]
  by_cases h : r < n
  · rw [if_pos h]
    rfl
  · rw [if_neg h]
    rfl

lemma foldl_max_le_init : ∀ (l : List Nat) (a : Nat), a ≤ l.foldl max a := by
  intro l
  induction l with
  | nil => intro a; exact Nat.le_refl _
  | cons b bs ih =>
    intro a
    calc a ≤ max a b := Nat.le_max_left _ _
      _ ≤ List.foldl max (max a b) bs := ih _

lemma mem_le_foldl_max : ∀ (l : List Nat) (a x : Nat), x ∈ l → x ≤ l.foldl max a := by
  intro l
  induction l with
  | nil => intro a x hx; exact absurd hx (List.not_mem_nil _)
  | cons b bs ih =>
    intro a x hx
    rcases List.mem_cons.mp hx with he | hm
    · subst he
      calc x ≤ max a x := Nat.le_max_right _ _
        _ ≤ List.foldl max (max a x) bs := foldl_max_le_init _ _
    · exact ih _ x hm

/-- The one-node state holding only the root satisfies the build invariant
with no columns and no recorded rows. -/
lemma buildinv_init :
    BuildInv (Heap.mk [some ⟨none, 0, 0, 0, 0, 0⟩]) ([] : List (Option Nat)) [] [] := by
  refine ⟨by decide, ?_, rfl, rfl, rfl, rfl, ?_, ?_,
    fun p hp => absurd hp (List.not_mem_nil _),
    fun p hp => absurd hp (List.not_mem_nil _),
    fun p hp => absurd hp (List.not_mem_nil _),
    fun p hp => absurd hp (List.not_mem_nil _),
    List.nodup_nil,
    fun e he => absurd he (List.not_mem_nil _),
    fun e he => absurd he (List.not_mem_nil _),
    fun e he => absurd he (List.not_mem_nil _),
    fun e he => absurd he (List.not_mem_nil _),
    fun p hp => absurd hp (List.not_mem_nil _),
    fun e he => absurd he (List.not_mem_nil _),
    fun e he => absurd he (List.not_mem_nil _),
    fun e he => absurd he (List.not_mem_nil _),
    fun r => rfl, ?_⟩
  · intro n hn
    have hs : n < 1 := hn
    have h0 : n = 0 := by omega
    subst h0
    rfl
  · intro p hp
    have hp2 : p ∈ [((0 : Nat), (0 : Nat))] := hp
    rw [List.mem_singleton] at hp2
    subst hp2
    rfl
  · intro p hp
    have hp2 : p ∈ [((0 : Nat), (0 : Nat))] := hp
    rw [List.mem_singleton] at hp2
    subst hp2
    rfl
  · intro n hn
    have hs : n < 1 := hn
    have h0 : n = 0 := by omega
    subst h0
    show (0 : Nat) < usizeMod
    decide

/-- `DancingMatrix::new` in both crates: the two constructors build the same
heap (rooted at node 0 with an empty partial solution), satisfying the build
invariant, with every header's count equal to its column length and the
blocks' rows spelling out the constraint list. -/
lemma build_new (cs : List (List Nat))
    (hnd : ∀ col ∈ cs, col.Nodup)
    (hbound : ∀ col ∈ cs, ∀ i ∈ col, i < usizeMod)
    (hlen : ∀ col ∈ cs, col.length < usizeMod) :
    ∃ TF rowsSF rowsMF hdrsF rtabF,
      SolverMatrix.new cs = ⟨TF, 0, rowsSF, []⟩ ∧
      MainMatrix.new cs = ⟨TF, 0, rowsMF, []⟩ ∧
      BuildInv TF rowsSF hdrsF rtabF ∧
      (∀ p ∈ hdrsF, (TF.get p.1).row = p.2.length) ∧
      hdrsF.map (fun p => p.2.map (fun c2 => (TF.get c2).row)) = cs := by
  set NR := (cs.flatten.map (fun i => i + 1)).foldl max 0 with hNRdef
  have hM0 : ∀ r, (List.replicate NR (none : Option Nat)).getD r none
      = ([] : List (Option Nat)).getD r none := by
    intro r
    rw [getD_replicate_none]
    rfl
  have hltM : ∀ col ∈ cs, ∀ i ∈ col,
      i < (List.replicate NR (none : Option Nat)).length := by
    intro col hc i hi
    rw [List.length_replicate]
    have hmem : i + 1 ∈ cs.flatten.map (fun x => x + 1) :=
      List.mem_map_of_mem _ (List.mem_flatten.mpr ⟨col, hc, hi⟩)
    have hle := mem_le_foldl_max (cs.flatten.map (fun x => x + 1)) 0 (i + 1) hmem
    omega
  obtain ⟨TF, rowsSF, rowsMF, hdrsF, rtabF, hES, hEM, hIF, hcoF, hlenF, hcntF, hcorrF⟩ :=
    build_outer cs (Heap.mk [some ⟨none, 0, 0, 0, 0, 0⟩]) [] (List.replicate NR none) [] [] []
      buildinv_init hM0 hnd hbound hlen hltM
      (fun p hp => absurd hp (List.not_mem_nil _)) rfl
  have hES2 : cs.foldl (fun (acc : Heap × List (Option Nat) × Nat) constraint =>
        let (heap, rows, curr) := acc
        let (heap, hdr) := heap.new_header (some curr) constraint.length
        let (heap, rows, _) :=
          constraint.foldl
            (fun (acc2 : Heap × List (Option Nat) × Nat) index =>
              let (heap, rows, col_curr) := acc2
              let rows := if rows.length ≤ index then
                  rows ++ List.replicate (index + 1 - rows.length) none
                else rows
              let (heap, nw) := heap.node_new hdr (rows.getD index none)
                (some col_curr) index
              (heap, rows.set index (some nw), nw))
            (heap, rows, hdr)
        (heap, rows, hdr))
      (Heap.mk [some ⟨none, 0, 0, 0, 0, 0⟩], ([] : List (Option Nat)), 0)
      = (TF, rowsSF, (0 :: hdrsF.map Prod.fst).getLastD 0) := hES
  have hEM2 : cs.foldl (fun (acc : Heap × List (Option Nat) × Nat) constraint =>
        let (heap, rows, curr) := acc
        let (heap, hdr) := heap.new_header (some curr) constraint.length
        let (heap, rows, _) :=
          constraint.foldl
            (fun (acc2 : Heap × List (Option Nat) × Nat) index =>
              let (heap, rows, col_curr) := acc2
              let (heap, nw) := heap.node_new hdr (rows.getD index none)
                (some col_curr) index
              (heap, rows.set index (some nw), nw))
            (heap, rows, hdr)
        (heap, rows, hdr))
      (Heap.mk [some ⟨none, 0, 0, 0, 0, 0⟩], List.replicate NR (none : Option Nat), 0)
      = (TF, rowsMF, (0 :: hdrsF.map Prod.fst).getLastD 0) := hEM
  have hSnew : SolverMatrix.new cs
      = ⟨(cs.foldl (fun (acc : Heap × List (Option Nat) × Nat) constraint =>
            let (heap, rows, curr) := acc
            let (heap, hdr) := heap.new_header (some curr) constraint.length
            let (heap, rows, _) :=
              constraint.foldl
                (fun (acc2 : Heap × List (Option Nat) × Nat) index =>
                  let (heap, rows, col_curr) := acc2
                  let rows := if rows.length ≤ index then
                      rows ++ List.replicate (index + 1 - rows.length) none
                    else rows
                  let (heap, nw) := heap.node_new hdr (rows.getD index none)
                    (some col_curr) index
                  (heap, rows.set index (some nw), nw))
                (heap, rows, hdr)
            (heap, rows, hdr))
          (Heap.mk [some ⟨none, 0, 0, 0, 0, 0⟩], ([] : List (Option Nat)), 0)).1, 0,
        (cs.foldl (fun (acc : Heap × List (Option Nat) × Nat) constraint =>
            let (heap, rows, curr) := acc
            let (heap, hdr) := heap.new_header (some curr) constraint.length
            let (heap, rows, _) :=
              constraint.foldl
                (fun (acc2 : Heap × List (Option Nat) × Nat) index =>
                  let (heap, rows, col_curr) := acc2
                  let rows := if rows.length ≤ index then
                      rows ++ List.replicate (index + 1 - rows.length) none
                    else rows
                  let (heap, nw) := heap.node_new hdr (rows.getD index none)
                    (some col_curr) index
                  (heap, rows.set index (some nw), nw))
                (heap, rows, hdr)
            (heap, rows, hdr))
          (Heap.mk [some ⟨none, 0, 0, 0, 0, 0⟩], ([] : List (Option Nat)), 0)).2.1, []⟩ := rfl
  have hMnew : MainMatrix.new cs
      = ⟨(cs.foldl (fun (acc : Heap × List (Option Nat) × Nat) constraint =>
            let (heap, rows, curr) := acc
            let (heap, hdr) := heap.new_header (some curr) constraint.length
            let (heap, rows, _) :=
              constraint.foldl
                (fun (acc2 : Heap × List (Option Nat) × Nat) index =>
                  let (heap, rows, col_curr) := acc2
                  let (heap, nw) := heap.node_new hdr (rows.getD index none)
                    (some col_curr) index
                  (heap, rows.set index (some nw), nw))
                (heap, rows, hdr)
            (heap, rows, hdr))
          (Heap.mk [some ⟨none, 0, 0, 0, 0, 0⟩],
            List.replicate NR (none : Option Nat), 0)).1, 0,
        (cs.foldl (fun (acc : Heap × List (Option Nat) × Nat) constraint =>
            let (heap, rows, curr) := acc
            let (heap, hdr) := heap.new_header (some curr) constraint.length
            let (heap, rows, _) :=
              constraint.foldl
                (fun (acc2 : Heap × List (Option Nat) × Nat) index =>
                  let (heap, rows, col_curr) := acc2
                  let (heap, nw) := heap.node_new hdr (rows.getD index none)
                    (some col_curr) index
                  (heap, rows.set index (some nw), nw))
                (heap, rows, hdr)
            (heap, rows, hdr))
          (Heap.mk [some ⟨none, 0, 0, 0, 0, 0⟩],
            List.replicate NR (none : Option Nat), 0)).2.1, []⟩ := rfl
  refine ⟨TF, rowsSF, rowsMF, hdrsF, rtabF, ?_, ?_, hIF, hcntF, ?_⟩
  · rw [hSnew, hES2]
  · rw [hMnew, hEM2]
  · rw [hcorrF]
    rfl

/-- An exact cover over the built columns, read back through the constraint
correspondence: each input column holds the row of exactly one selected cell,
and no two distinct selected rows meet a common column. -/
lemma ecov_columns {TF : Heap} {hdrsF : List (Nat × List Nat)} {cs : List (List Nat)}
    {X : List Nat}
    (hcorr : hdrsF.map (fun p => p.2.map (fun c2 => (TF.get c2).row)) = cs)
    (hec : ECov (fun c2 => (TF.get c2).row) X hdrsF) :
    (∀ k, k < cs.length → ∃! r, r ∈ X ∧ r ∈ cs.getD k []) ∧
    (∀ r1 ∈ X, ∀ r2 ∈ X, r1 ≠ r2 → ∀ k, k < cs.length →
      ¬(r1 ∈ cs.getD k [] ∧ r2 ∈ cs.getD k [])) := by
  have hlen : hdrsF.length = cs.length := by
    rw [← hcorr, List.length_map]
  have hone : ∀ k, k < cs.length → ∃! r, r ∈ X ∧ r ∈ cs.getD k [] := by
    intro k hk
    have hk' : k < hdrsF.length := by omega
    have hcsk : cs.getD k []
        = (hdrsF.get ⟨k, hk'⟩).2.map (fun c2 => (TF.get c2).row) := by
      rw [← hcorr, List.getD_eq_getElem?_getD, List.getElem?_map,
        List.getElem?_eq_getElem hk']
      rfl
    have hp : hdrsF.get ⟨k, hk'⟩ ∈ hdrsF := List.get_mem hdrsF k hk'
    obtain ⟨c, hc, hcX, huniq⟩ := hec.1 _ hp
    refine ⟨(TF.get c).row, ⟨hcX, ?_⟩, ?_⟩
    · rw [hcsk]
      exact List.mem_map_of_mem _ hc
    · intro y hy
      rw [hcsk] at hy
      obtain ⟨d, hd, hde⟩ := List.mem_map.mp hy.2
      rw [← hde]
      have hdc : d = c := huniq d hd (by show (TF.get d).row ∈ X; rw [hde]; exact hy.1)
      rw [hdc]
  refine ⟨hone, ?_⟩
  intro r1 h1 r2 h2 hne k hk hboth
  obtain ⟨r, _, huniq⟩ := hone k hk
  exact hne ((huniq r1 ⟨h1, hboth.1⟩).trans (huniq r2 ⟨h2, hboth.2⟩).symm)

/-- C1: for every constraint input (each column given as the list of row
indices intersecting it, rows distinct within a column, indices and column
lengths below `2^64`), if either crate's `solve()` returns a row set then
every column of the input is intersected by exactly one returned row, and no
two returned rows share a column. -/
theorem c1_exact_cover (cs : List (List Nat))
    (hnd : ∀ col ∈ cs, col.Nodup)
    (hbound : ∀ col ∈ cs, ∀ i ∈ col, i < usizeMod)
    (hlen : ∀ col ∈ cs, col.length < usizeMod) :
    (∀ sol, SolverMatrix.solve (SolverMatrix.new cs) = Except.ok sol →
      (∀ k, k < cs.length → ∃! r, r ∈ sol ∧ r ∈ cs.getD k []) ∧
      (∀ r1 ∈ sol, ∀ r2 ∈ sol, r1 ≠ r2 → ∀ k, k < cs.length →
        ¬(r1 ∈ cs.getD k [] ∧ r2 ∈ cs.getD k []))) ∧
    (∀ sol, MainMatrix.solve (MainMatrix.new cs) = some sol →
      (∀ k, k < cs.length → ∃! r, r ∈ sol ∧ r ∈ cs.getD k []) ∧
      (∀ r1 ∈ sol, ∀ r2 ∈ sol, r1 ≠ r2 → ∀ k, k < cs.length →
        ¬(r1 ∈ cs.getD k [] ∧ r2 ∈ cs.getD k []))) := by
  obtain ⟨TF, rowsSF, rowsMF, hdrsF, rtabF, hSnew, hMnew, hIF, hcntF, hcorrF⟩ :=
    build_new cs hnd hbound hlen
  have hd := buildinv_desc hIF hcntF
  constructor
  · intro sol hsol
    rw [hSnew] at hsol
    have hsound := solve_helperS_sound (TF.size + 1) ⟨TF, 0, rowsSF, []⟩ hdrsF hd
    rcases hsh : SolverMatrix.solve_helper (TF.size + 1) ⟨TF, 0, rowsSF, []⟩ with ⟨b, m2⟩
    have hunf : SolverMatrix.solve ⟨TF, 0, rowsSF, []⟩
        = (match SolverMatrix.solve_helper (TF.size + 1) ⟨TF, 0, rowsSF, []⟩ with
           | (true, m2) => Except.ok m2.psol
           | (false, _) => Except.error DancingLinksError.noSolution) := rfl
    rw [hsh] at hunf
    cases b with
    | false =>
      rw [hsol] at hunf
      exact absurd hunf (by simp)
    | true =>
      obtain ⟨X, hpsol, hec⟩ := hsound.2 (by rw [hsh])
      have hunf2 : SolverMatrix.solve ⟨TF, 0, rowsSF, []⟩ = Except.ok m2.psol := hunf
      have hsolX : sol = X := by
        have h1 : sol = m2.psol := Except.ok.inj (hsol.symm.trans hunf2)
        have h2 : m2.psol = [] ++ X := by
          have := hpsol
          rw [hsh] at this
          exact this
        rw [h1, h2]
        rfl
      rw [hsolX]
      exact ecov_columns hcorrF hec
  · intro sol hsol
    rw [hMnew] at hsol
    have hsound := solve_helperM_sound (TF.size + 1) TF 0 [] hdrsF hd
    have hunf : MainMatrix.solve ⟨TF, 0, rowsMF, []⟩
        = (MainMatrix.solve_helper 0 (TF.size + 1) TF []).1 := rfl
    rw [hunf] at hsol
    obtain ⟨X, hXe, hec⟩ := hsound.2 sol hsol
    have hsolX : sol = X := by
      rw [hXe]
      rfl
    rw [hsolX]
    exact ecov_columns hcorrF hec

/-- Witness for C1 at the one-column input `[[0]]`: both engines return row
set `[0]`, which covers the single column exactly once. -/
theorem c1_exact_cover_witness :
    (∀ k, k < ([[0]] : List (List Nat)).length →
      ∃! r, r ∈ [0] ∧ r ∈ ([[0]] : List (List Nat)).getD k []) ∧
    (∀ r1 ∈ [0], ∀ r2 ∈ [0], r1 ≠ r2 → ∀ k, k < ([[0]] : List (List Nat)).length →
      ¬(r1 ∈ ([[0]] : List (List Nat)).getD k [] ∧
        r2 ∈ ([[0]] : List (List Nat)).getD k [])) :=
  (c1_exact_cover [[0]] (by decide) (by decide) (by decide)).1 [0] (by decide)

/-- C10: a constraint input containing an empty column can never be exactly
covered, so both engines always report failure: `NoSolution` in the solver
crate and `None` in the main crate. -/
theorem c10_empty_column (cs : List (List Nat))
    (hnd : ∀ col ∈ cs, col.Nodup)
    (hbound : ∀ col ∈ cs, ∀ i ∈ col, i < usizeMod)
    (hlen : ∀ col ∈ cs, col.length < usizeMod)
    (hempty : [] ∈ cs) :
    SolverMatrix.solve (SolverMatrix.new cs)
      = Except.error DancingLinksError.noSolution ∧
    MainMatrix.solve (MainMatrix.new cs) = none := by
  obtain ⟨TF, rowsSF, rowsMF, hdrsF, rtabF, hSnew, hMnew, hIF, hcntF, hcorrF⟩ :=
    build_new cs hnd hbound hlen
  have hd := buildinv_desc hIF hcntF
  have hpe : ∃ p, p ∈ hdrsF ∧ p.2 = [] := by
    rw [← hcorrF] at hempty
    obtain ⟨p, hp, he⟩ := List.mem_map.mp hempty
    exact ⟨p, hp, List.map_eq_nil_iff.mp he⟩
  obtain ⟨p, hp, hp2⟩ := hpe
  have hnoec : ∀ X, ¬ ECov (fun c2 => (TF.get c2).row) X hdrsF := by
    intro X hec
    obtain ⟨c, hc, _⟩ := hec.1 p hp
    rw [hp2] at hc
    exact absurd hc (List.not_mem_nil _)
  constructor
  · rw [hSnew]
    have hsound := solve_helperS_sound (TF.size + 1) ⟨TF, 0, rowsSF, []⟩ hdrsF hd
    rcases hsh : SolverMatrix.solve_helper (TF.size + 1) ⟨TF, 0, rowsSF, []⟩ with ⟨b, m2⟩
    have hunf : SolverMatrix.solve ⟨TF, 0, rowsSF, []⟩
        = (match SolverMatrix.solve_helper (TF.size + 1) ⟨TF, 0, rowsSF, []⟩ with
           | (true, m2) => Except.ok m2.psol
           | (false, _) => Except.error DancingLinksError.noSolution) := rfl
    rw [hsh] at hunf
    cases b with
    | false => exact hunf
    | true =>
      obtain ⟨X, _, hec⟩ := hsound.2 (by rw [hsh])
      exact absurd hec (hnoec X)
  · rw [hMnew]
    have hsound := solve_helperM_sound (TF.size + 1) TF 0 [] hdrsF hd
    have hunf : MainMatrix.solve ⟨TF, 0, rowsMF, []⟩
        = (MainMatrix.solve_helper 0 (TF.size + 1) TF []).1 := rfl
    rw [hunf]
    rcases ho : (MainMatrix.solve_helper 0 (TF.size + 1) TF []).1 with _ | s
    · rfl
    · obtain ⟨X, _, hec⟩ := hsound.2 s ho
      exact absurd hec (hnoec X)

/-- Witness for C10 at the input `[[]]` (one empty column): the solver crate
reports `NoSolution` and the main crate `None`. -/
theorem c10_empty_column_witness :
    SolverMatrix.solve (SolverMatrix.new [[]])
      = Except.error DancingLinksError.noSolution ∧
    MainMatrix.solve (MainMatrix.new [[]]) = none :=
  c10_empty_column [[]] (by decide) (by decide) (by decide) (by decide)

lemma length_filter_split (P : Nat → Bool) : ∀ (l : List Nat),
    (l.filter P).length + (l.filter (fun c => !(P c))).length = l.length := by
  intro l
  induction l with
  | nil => rfl
  | cons a as ih =>
    cases hP : P a
    · simp [List.filter_cons, hP]
      omega
    · simp [List.filter_cons, hP]
      omega

/-- C6: in a well-described state, every column header's live-count field
equals the number of data nodes reachable from it by following `down`
pointers (the ring traversal has the header plus that many nodes);
`cover_column h` decrements each surviving column's count by exactly the
number of its cells lying on rows through `h` (so precisely the affected
columns change), and the following `uncover_column h` restores every count. -/
theorem c6_live_counts {t : Heap} {root : Nat} {RR : Nat → List Nat} {R : Nat → Nat}
    {cols pre post : List (Nat × List Nat)} {h : Nat} {ds : List Nat}
    (hd : Desc t root RR R cols) (hsplit : cols = pre ++ (h, ds) :: post) :
    (∀ p ∈ cols, (t.iter_down p.1).length = (t.get p.1).row + 1) ∧
    (∀ q ∈ pre ++ post,
      ((t.cover_column h).get q.1).row
        + (q.2.filter (fun c => ((ds.map RR).flatten).contains c)).length
        = (t.get q.1).row) ∧
    (∀ p ∈ cols, (((t.cover_column h).uncover_column h).get p.1).row
      = (t.get p.1).row) := by
  have hp : (h, ds) ∈ cols := by
    rw [hsplit]
    exact List.mem_append_right _ (List.mem_cons_self _ _)
  refine ⟨?_, ?_, ?_⟩
  · intro p hpc
    have hring : t.iter_down p.1 = p.1 :: p.2 := by
      refine cyc_ringList _ p.1 p.2 (hd.col_ring_d p hpc) (hd.col_nodup p hpc) t.size ?_
      refine length_le_of_nodup_lt _ _ (hd.col_nodup p hpc) ?_
      intro x hx
      rcases List.mem_cons.mp hx with he | hm
      · rw [he]; exact hd.hdr_lt p hpc
      · exact hd.cell_lt p hpc x hm
    rw [hring, List.length_cons, hd.count_ok p hpc]
  · intro q hq
    obtain ⟨hdc, _, _⟩ := Desc.cover hd hsplit
    have hq' : (q.1, q.2.filter (fun c => !(((ds.map RR).flatten).contains c)))
        ∈ removeCells ((ds.map RR).flatten) (pre ++ post) :=
      List.mem_map_of_mem _ hq
    have hnew : ((t.cover_column h).get q.1).row
        = (q.2.filter (fun c => !(((ds.map RR).flatten).contains c))).length :=
      hdc.count_ok _ hq'
    have hqc : q ∈ cols := by
      rw [hsplit]
      rcases List.mem_append.mp hq with h1 | h1
      · exact List.mem_append_left _ h1
      · exact List.mem_append_right _ (List.mem_cons_of_mem _ h1)
    have hold := hd.count_ok q hqc
    have hsplitlen := length_filter_split
      (fun c => ((ds.map RR).flatten).contains c) q.2
    rw [hnew, hold]
    omega
  · intro p hpc
    rw [hd.roundtrip hp]

instance (step : Nat → Nat) (o : Nat) (l : List Nat) : Decidable (CycChain step o l) :=
  List.decidableBAll _ _

/-- The three-node state the constructor builds on `[[0]]`: root 0, one
column header 1 (count 1) and its single cell 2 on row 0. -/
def wHeap : Heap :=
  Heap.mk [some ⟨none, 1, 1, 0, 0, 0⟩, some ⟨none, 0, 0, 2, 2, 1⟩,
    some ⟨some 1, 2, 2, 1, 1, 0⟩]

/-- The one-column state is well described. -/
lemma wHeap_desc : Desc wHeap 0 (fun _ => ([] : List Nat))
    (fun c2 => (wHeap.get c2).row) [(1, [2])] := by
  constructor <;> decide

/-- Witness for C6 on the one-column state: the header's down traversal has
its count plus one nodes, covering the only column affects no surviving
column, and uncovering restores every count. -/
theorem c6_live_counts_witness :
    (∀ p ∈ [((1 : Nat), [(2 : Nat)])],
      (wHeap.iter_down p.1).length = (wHeap.get p.1).row + 1) ∧
    (∀ q ∈ ([] : List (Nat × List Nat)),
      ((wHeap.cover_column 1).get q.1).row
        + (q.2.filter (fun c => ([] : List Nat).contains c)).length
        = (wHeap.get q.1).row) ∧
    (∀ p ∈ [((1 : Nat), [(2 : Nat)])],
      (((wHeap.cover_column 1).uncover_column 1).get p.1).row
        = (wHeap.get p.1).row) :=
  @c6_live_counts wHeap 0 (fun _ => ([] : List Nat))
    (fun c2 => (wHeap.get c2).row) [(1, [2])] [] [] 1 [2] wHeap_desc rfl
